import Mathlib

/-! # bf: a JIT-compiling interpreter for an eight-instruction tape language

Verification development for `interpreter.c` and `assembler.c`.

The program text is a list of characters (one per byte of the C string).  The
scanning passes of `interpret` are embedded as folds over that list.  An array
that the C code fills front to back (`instructions[0..op]`) is embedded as the
list of the entries written so far; `last_op == op_invalid` holds exactly when
nothing has been written yet.  Size and count variables are natural numbers,
the signed `val` field is an integer.

The second half of the development runs the generated code: the sequences
assembled for the condensed entries are given their meaning on the processor
(`runRight`, `runLeft`, `runModify`, `runGet`), the tape is a range of addresses
with its two guards, and `interpret` is followed through its system calls, whose
answers are collected in `Env`.
-/

namespace BF

/-! ## Data model (`interpreter.c`, `interpreter.h`) -/

/-- Operation tags of the condensed program (`enum op`). -/
inductive op_t where
  | op_modify
  | op_right
  | op_left
  | op_get
  | op_put
  | op_if
  | op_endif
  | op_invalid
  deriving DecidableEq, Repr

open op_t

/-- Condensed instruction (`struct instruction`).  Fields the C code leaves
unwritten (`val` of the four single-character operations, `branch` before the
resolver pass) are held at `0`. -/
structure instruction_t where
  op : op_t
  val : Int
  branch : Nat
  deriving DecidableEq, Repr

/-- Status codes (`enum interpret_error`). -/
inductive interpret_error_t where
  | interpret_ok
  | interpret_guard_error
  | interpret_handler
  | interpret_malloc_error
  | interpret_mmap_error
  | interpret_munmap_error
  | interpret_no_memory
  | interpret_page_size
  | interpret_tape_exceeded
  | interpret_tape_underflow
  | interpret_time_exceeded
  | interpret_unbalanced
  deriving DecidableEq, Repr

open interpret_error_t

/-- Integer value of a status code, as assigned in `interpreter.h`. -/
def interpret_error_t.code : interpret_error_t → Nat
  | interpret_ok => 0
  | interpret_guard_error => 1
  | interpret_handler => 2
  | interpret_malloc_error => 3
  | interpret_mmap_error => 4
  | interpret_munmap_error => 5
  | interpret_no_memory => 6
  | interpret_page_size => 7
  | interpret_tape_exceeded => 8
  | interpret_tape_underflow => 9
  | interpret_time_exceeded => 10
  | interpret_unbalanced => 11

/-! ## Balance scan (`interpret`, first loop) -/

/-- Counters of the first scanning loop of `interpret`. -/
structure ScanState where
  branch_count : Nat
  stack_size : Nat
  max_stack_size : Nat
  deriving DecidableEq, Repr

/-- One iteration of the balance scan; `none` is the early
`return interpret_unbalanced` for a `]` met with `stack_size == 0`. -/
def scanStep (s : ScanState) (inst : Char) : Option ScanState :=
  if inst = '[' then
    some { branch_count := s.branch_count + 1,
           stack_size := s.stack_size + 1,
           max_stack_size :=
             if s.stack_size + 1 > s.max_stack_size then s.stack_size + 1
             else s.max_stack_size }
  else if inst = ']' then
    if s.stack_size = 0 then none
    else some { s with stack_size := s.stack_size - 1 }
  else some s

/-- The balance-scan loop over the remaining program text. -/
def scanLoop : List Char → ScanState → Option ScanState
  | [], s => some s
  | inst :: rest, s =>
    match scanStep s inst with
    | none => none
    | some s' => scanLoop rest s'

/-- The whole balance scan: the loop from zeroed counters, then the
`stack_size != 0` test.  `none` stands for `return interpret_unbalanced`. -/
def balanceScan (program : List Char) : Option ScanState :=
  match scanLoop program ⟨0, 0, 0⟩ with
  | none => none
  | some s => if s.stack_size ≠ 0 then none else some s

/-! ## Counting pass (`interpret`, second loop) -/

/-- The first `switch` of the counting pass: operation class of a character. -/
def next_op (c : Char) : op_t :=
  if c = '+' then op_modify
  else if c = '-' then op_modify
  else if c = '>' then op_right
  else if c = '<' then op_left
  else if c = ',' then op_get
  else if c = '.' then op_put
  else if c = '[' then op_if
  else if c = ']' then op_endif
  else op_invalid

/-- One iteration of the counting pass on the pair `(last_op, op_count)`. -/
def countStep (st : op_t × Nat) (c : Char) : op_t × Nat :=
  match next_op c with
  | op_invalid => st
  | op_modify =>
    if st.1 ≠ op_modify ∨ st.1 = op_invalid then (op_modify, st.2 + 1) else st
  | op_left =>
    if st.1 ≠ op_left ∨ st.1 = op_invalid then (op_left, st.2 + 1) else st
  | op_right =>
    if st.1 ≠ op_right ∨ st.1 = op_invalid then (op_right, st.2 + 1) else st
  | op_get => (op_get, st.2 + 1)
  | op_put => (op_put, st.2 + 1)
  | op_if => (op_if, st.2 + 1)
  | op_endif => (op_endif, st.2 + 1)

/-- The value `op_count` computed by the counting pass. -/
def op_count (program : List Char) : Nat :=
  (program.foldl countStep (op_invalid, 0)).2

/-! ## Condensing pass (`interpret`, third loop)

The entries written so far are kept most recent first: the head of the list is
`instructions[op]`. -/

/-- The variable `last_op` of the condensing pass: the tag of the entry written
last, `op_invalid` before the first write. -/
def last_op : List instruction_t → op_t
  | [] => op_invalid
  | i :: _ => i.op

/-- The assignment `instructions[op] = e` without advancing `op`. -/
def overwrite (written : List instruction_t) (e : instruction_t) :
    List instruction_t :=
  e :: written.tail

/-- The statement `instructions[op].val += d`. -/
def bumpLast : List instruction_t → Int → List instruction_t
  | [], _ => []
  | i :: r, d => { i with val := i.val + d } :: r

/-- Shared body of the cases `+`, `-`, `>`, `<`: when nothing was written, fill
the entry at index `op`; when the entry written last has another tag, advance
`op` and fill a fresh entry; then add `d` to `instructions[op].val`. -/
def condenseRun (written : List instruction_t) (o : op_t) (d : Int) :
    List instruction_t :=
  if last_op written = op_invalid then bumpLast (overwrite written ⟨o, 0, 0⟩) d
  else if last_op written ≠ o then bumpLast (⟨o, 0, 0⟩ :: written) d
  else bumpLast written d

/-- Shared body of the cases `,`, `.`, `[`, `]`: advance `op` unless nothing has
been written, then write the tag. -/
def condenseSingle (written : List instruction_t) (o : op_t) :
    List instruction_t :=
  if last_op written ≠ op_invalid then ⟨o, 0, 0⟩ :: written
  else overwrite written ⟨o, 0, 0⟩

/-- One iteration of the condensing pass. -/
def condenseStep (written : List instruction_t) (c : Char) :
    List instruction_t :=
  if c = '+' then condenseRun written op_modify 1
  else if c = '-' then condenseRun written op_modify (-1)
  else if c = '>' then condenseRun written op_right 1
  else if c = '<' then condenseRun written op_left 1
  else if c = ',' then condenseSingle written op_get
  else if c = '.' then condenseSingle written op_put
  else if c = '[' then condenseSingle written op_if
  else if c = ']' then condenseSingle written op_endif
  else written

/-- The condensed instruction list produced by the third loop of `interpret`,
in array order. -/
def condense (program : List Char) : List instruction_t :=
  (program.foldl condenseStep []).reverse

/-! ## Vocabulary of the specification -/

/-- The eight operator characters of the source language. -/
def isOperator (c : Char) : Bool :=
  c = '+' || c = '-' || c = '>' || c = '<' || c = ',' || c = '.' || c = '[' || c = ']'

/-- Bracket balance as the specification words it: no prefix holds more `]`
than `[`, and the totals agree. -/
def Balanced (program : List Char) : Prop :=
  (∀ k, k ≤ program.length →
    (program.take k).count ']' ≤ (program.take k).count '[') ∧
  program.count '[' = program.count ']'

/-- Tags of the coalescing operations. -/
def isRunOp (o : op_t) : Bool :=
  o = op_modify || o = op_right || o = op_left

/-- Put a run character in front of an already condensed text: it joins the
first entry when that entry has its tag. -/
def consRun (o : op_t) (d : Int) : List instruction_t → List instruction_t
  | [] => [⟨o, d, 0⟩]
  | i :: r => if i.op = o then ⟨o, d + i.val, 0⟩ :: r else ⟨o, d, 0⟩ :: i :: r

/-- Put one character in front of an already condensed text. -/
def addChar (c : Char) (ys : List instruction_t) : List instruction_t :=
  if c = '+' then consRun op_modify 1 ys
  else if c = '-' then consRun op_modify (-1) ys
  else if c = '>' then consRun op_right 1 ys
  else if c = '<' then consRun op_left 1 ys
  else if c = ',' then ⟨op_get, 0, 0⟩ :: ys
  else if c = '.' then ⟨op_put, 0, 0⟩ :: ys
  else if c = '[' then ⟨op_if, 0, 0⟩ :: ys
  else if c = ']' then ⟨op_endif, 0, 0⟩ :: ys
  else ys

/-- Right-to-left description of the condensed list, used in proofs. -/
def condSpec : List Char → List instruction_t
  | [] => []
  | c :: cs => addChar c (condSpec cs)

/-- Join the entry written last with the condensed remainder of the text. -/
def glueHead (e : instruction_t) : List instruction_t → List instruction_t
  | [] => [e]
  | i :: r =>
    if i.op = e.op ∧ isRunOp e.op = true then { e with val := e.val + i.val } :: r
    else e :: i :: r

/-- The last operator character of a text, if it has one. -/
def lastOperator (text : List Char) : Option Char :=
  (text.filter isOperator).getLast?

/-- The first operator character of a text, if it has one. -/
def firstOperator (text : List Char) : Option Char :=
  (text.filter isOperator).head?

/-- Contribution of one character to the value of the run it belongs to. -/
def runDelta (c : Char) : Int :=
  if c = '-' then -1 else if isOperator c = true then 1 else 0

/-- Accumulated value of a run of characters. -/
def runValue (run : List Char) : Int :=
  (run.map runDelta).sum

/-! ## Loop resolver (`interpret`, fourth loop) -/

/-- The resolver loop over the remaining entries.  `stack` is the live part
`stack[0..stack_offset)` of the scratch stack, top first; `branch_count` is the
running loop ordinal.  `none` stands for a failed assertion
(`stack_offset <= max_stack_size` after a push, `stack_offset > 0` before a
pop). -/
def resolveLoop (max_stack_size : Nat) :
    List instruction_t → List Nat → Nat → Option (List instruction_t)
  | [], _, _ => some []
  | i :: rest, stack, branch_count =>
    if i.op = op_if then
      if stack.length + 1 ≤ max_stack_size then
        (resolveLoop max_stack_size rest (branch_count :: stack) (branch_count + 1)).map
          (fun r => i :: r)
      else none
    else if i.op = op_endif then
      match stack with
      | [] => none
      | top :: below =>
        (resolveLoop max_stack_size rest below branch_count).map
          (fun r => { i with branch := top } :: r)
    else
      (resolveLoop max_stack_size rest stack branch_count).map (fun r => i :: r)

/-- The instruction array after the resolver pass. -/
def resolve (max_stack_size : Nat) (instructions : List instruction_t) :
    Option (List instruction_t) :=
  resolveLoop max_stack_size instructions [] 0

/-! ## Bracket matching -/

/-- Bracket role of a program element. -/
inductive Br where
  | opn
  | cls
  | other
  deriving DecidableEq, Repr

/-- Exchange the roles of opening and closing brackets (for scanning towards
the start of the text). -/
def Br.swap : Br → Br
  | Br.opn => Br.cls
  | Br.cls => Br.opn
  | Br.other => Br.other

/-- Bracket role of a source character. -/
def charBr (c : Char) : Br :=
  if c = '[' then Br.opn else if c = ']' then Br.cls else Br.other

/-- Bracket role of a condensed entry. -/
def instrBr (i : instruction_t) : Br :=
  if i.op = op_if then Br.opn else if i.op = op_endif then Br.cls else Br.other

/-- Standard bracket matching by depth counting: the number of elements to skip
to reach the closing bracket that returns the nesting depth to its starting
level, `depth` brackets being open on entry. -/
def scanMatch {α : Type} (kind : α → Br) : List α → Nat → Option Nat
  | [], _ => none
  | x :: rest, depth =>
    match kind x, depth with
    | Br.cls, 0 => some 0
    | Br.cls, d + 1 => (scanMatch kind rest d).map (fun n => n + 1)
    | Br.opn, d => (scanMatch kind rest (d + 1)).map (fun n => n + 1)
    | Br.other, d => (scanMatch kind rest d).map (fun n => n + 1)

/-- Position of the closing bracket matching the opening bracket at `i`. -/
def matchClose {α : Type} (kind : α → Br) (xs : List α) (i : Nat) : Option Nat :=
  (scanMatch kind (xs.drop (i + 1)) 0).map (fun n => i + 1 + n)

/-- Position of the opening bracket matching the closing bracket at `j`. -/
def matchOpen {α : Type} (kind : α → Br) (xs : List α) (j : Nat) : Option Nat :=
  (scanMatch (fun x => (kind x).swap) (xs.take j).reverse 0).map (fun n => j - 1 - n)

/-- Number of `if` entries of a list. -/
def ifCount (l : List instruction_t) : Nat :=
  (l.filter (fun e => e.op = op_if)).length

/-- The 0-based ordinal of the `if` entry at index `i`: the number of `if`
entries before it.  This is the value of the running `branch_count` when the
code generator reaches index `i`. -/
def ifOrdinal (instructions : List instruction_t) (i : Nat) : Nat :=
  ifCount (instructions.take i)

/-! ## Abstract machine

The tape is unbounded to the right; the pointer is the offset of the current
cell from `tape_start`. -/

/-- Data part of a machine state. -/
structure Data where
  ptr : Nat
  tape : Nat → Nat
  input : List Nat
  output : List Nat

/-- Machine state: a position in the program and the data. -/
structure MState where
  pc : Nat
  d : Data

/-- The current cell. -/
def Data.cell (d : Data) : Nat := d.tape d.ptr

/-- Store `v` in the current cell. -/
def Data.setCell (d : Data) (v : Nat) : Data :=
  { d with tape := Function.update d.tape d.ptr v }

/-- Eight-bit addition of a signed amount to a cell value. -/
def addCell (v : Int) (c : Nat) : Nat := (((c : Int) + v) % 256).toNat

/-- Add `v` modulo 256 to the current cell. -/
def Data.modify (d : Data) (v : Int) : Data := d.setCell (addCell v d.cell)

/-- Add `n` to the pointer. -/
def Data.right (d : Data) (n : Nat) : Data := { d with ptr := d.ptr + n }

/-- Move the pointer to `max(tape_start, P - n)`. -/
def Data.left (d : Data) (n : Nat) : Data := { d with ptr := d.ptr - n }

/-- Store the next input byte in the current cell, or `0` at end of input. -/
def Data.get (d : Data) : Data :=
  match d.input with
  | [] => d.setCell 0
  | b :: rest => { d.setCell (b % 256) with input := rest }

/-- Output the current cell. -/
def Data.put (d : Data) : Data := { d with output := d.output ++ [d.cell] }

/-- Initial data: zero-filled tape, pointer at the start of the tape. -/
def Data.init (input : List Nat) : Data :=
  { ptr := 0, tape := fun _ => 0, input := input, output := [] }

/-- Effect of one source character other than a bracket. -/
def charEff (c : Char) (d : Data) : Data :=
  if c = '+' then d.modify 1
  else if c = '-' then d.modify (-1)
  else if c = '>' then d.right 1
  else if c = '<' then d.left 1
  else if c = ',' then d.get
  else if c = '.' then d.put
  else d

/-- Effect of one condensed entry other than `if` and `endif`. -/
def instrEff (i : instruction_t) (d : Data) : Data :=
  match i.op with
  | op_modify => d.modify i.val
  | op_right => d.right i.val.toNat
  | op_left => d.left i.val.toNat
  | op_get => d.get
  | op_put => d.put
  | _ => d

/-- One step of a program given as a list of elements with a bracket role, an
effect for the elements that are not brackets, and a jump table giving the
position a taken jump continues at.  `none` when the position is past the
end. -/
def flatStep {α : Type} (kind : α → Br) (eff : α → Data → Data) (jump : Nat → Nat)
    (xs : List α) (s : MState) : Option MState :=
  match xs[s.pc]? with
  | none => none
  | some x =>
    match kind x with
    | Br.opn => some ⟨if s.d.cell = 0 then jump s.pc else s.pc + 1, s.d⟩
    | Br.cls => some ⟨if s.d.cell ≠ 0 then jump s.pc else s.pc + 1, s.d⟩
    | Br.other => some ⟨s.pc + 1, eff x s.d⟩

/-- Run at most `fuel` steps; the final data once the position is past the end,
`none` when the fuel does not suffice. -/
def flatRun {α : Type} (kind : α → Br) (eff : α → Data → Data) (jump : Nat → Nat)
    (xs : List α) : Nat → MState → Option Data
  | 0, _ => none
  | fuel + 1, s =>
    match flatStep kind eff jump xs s with
    | none => some s.d
    | some s' => flatRun kind eff jump xs fuel s'

/-- Jump table of the source text: a taken `[` continues after the matching
`]`, a taken `]` continues after the matching `[`. -/
def srcJump (program : List Char) (pc : Nat) : Nat :=
  match program[pc]? with
  | some c =>
    if c = '[' then ((matchClose charBr program pc).getD pc) + 1
    else ((matchOpen charBr program pc).getD pc) + 1
  | none => pc + 1

/-- Reference execution of the source text, one character per step. -/
def srcRun (program : List Char) (fuel : Nat) (input : List Nat) : Option Data :=
  flatRun charBr charEff (srcJump program) program fuel ⟨0, Data.init input⟩

/-- Position at which the label `branches[k].top` is bound by the code
generator: after the `if` entry met with running `branch_count = k`. -/
def topLabel : List instruction_t → Nat → Nat → Nat → Option Nat
  | [], _, _, _ => none
  | i :: rest, branch_count, k, idx =>
    if i.op = op_if then
      if branch_count = k then some (idx + 1)
      else topLabel rest (branch_count + 1) k (idx + 1)
    else topLabel rest branch_count k (idx + 1)

/-- Position at which the label `branches[k].end` is bound by the code
generator: after the first `endif` entry whose `branch` field is `k`. -/
def endLabel : List instruction_t → Nat → Nat → Option Nat
  | [], _, _ => none
  | i :: rest, k, idx =>
    if i.op = op_endif ∧ i.branch = k then some (idx + 1)
    else endLabel rest k (idx + 1)

/-- Jump table of the condensed program, following the labels the code
generator uses: `if` at index `pc` jumps to `branches[branch_count].end`,
`endif` jumps to `branches[instructions[pc].branch].top`. -/
def labelJump (instructions : List instruction_t) (pc : Nat) : Nat :=
  match instructions[pc]? with
  | some i =>
    if i.op = op_if then (endLabel instructions (ifOrdinal instructions pc) 0).getD (pc + 1)
    else (topLabel instructions 0 i.branch 0).getD (pc + 1)
  | none => pc + 1

/-- Execution of the condensed instruction list with its resolved loop
indices. -/
def condRun (instructions : List instruction_t) (fuel : Nat) (input : List Nat) :
    Option Data :=
  flatRun instrBr instrEff (labelJump instructions) instructions fuel ⟨0, Data.init input⟩

/-- The condensed, resolved program of a source text, as `interpret` builds it;
`none` when the text is rejected as unbalanced. -/
def compile (program : List Char) : Option (List instruction_t) :=
  match balanceScan program with
  | none => none
  | some s => resolve s.max_stack_size (condense program)

/-! ## Nesting structure (proof device)

A bracket-balanced text is the flattening of a tree of loops.  The trees serve
to state loop invariants of the resolver and the simulation between the two
executions; the program itself never builds them. -/

/-- Nested form of a bracket-balanced text: an element that is no bracket
followed by the rest, or a loop (opening element, body, closing element)
followed by the rest. -/
inductive Tree (α : Type) where
  | nil : Tree α
  | act (a : α) (k : Tree α) : Tree α
  | loop (o : α) (b : Tree α) (c : α) (k : Tree α) : Tree α

/-- The text of a tree. -/
def Tree.flatten {α : Type} : Tree α → List α
  | Tree.nil => []
  | Tree.act a k => a :: k.flatten
  | Tree.loop o b c k => o :: (b.flatten ++ c :: k.flatten)

/-- The elements of a tree play the bracket roles its shape assigns them. -/
def Tree.WF {α : Type} (kind : α → Br) : Tree α → Prop
  | Tree.nil => True
  | Tree.act a k => kind a = Br.other ∧ k.WF kind
  | Tree.loop o b c k => kind o = Br.opn ∧ kind c = Br.cls ∧ b.WF kind ∧ k.WF kind

/-- Number of loops of a tree. -/
def Tree.loops {α : Type} : Tree α → Nat
  | Tree.nil => 0
  | Tree.act _ k => k.loops
  | Tree.loop _ b _ k => 1 + b.loops + k.loops

/-- Nesting depth of a tree. -/
def Tree.depth {α : Type} : Tree α → Nat
  | Tree.nil => 0
  | Tree.act _ k => k.depth
  | Tree.loop _ b _ k => max (1 + b.depth) k.depth

/-- The tree with the `branch` field of every closing entry set to the
pre-order ordinal of its loop, ordinals starting at `n`. -/
def Tree.annot : Tree instruction_t → Nat → Tree instruction_t
  | Tree.nil, _ => Tree.nil
  | Tree.act a k, n => Tree.act a (k.annot n)
  | Tree.loop o b c k, n =>
    Tree.loop o (b.annot (n + 1)) { c with branch := n } (k.annot (n + 1 + b.loops))

/-- Put a list of elements that are no brackets in front of a tree. -/
def Tree.acts {α : Type} (as : List α) (t : Tree α) : Tree α :=
  as.foldr Tree.act t

/-- An open loop around the current position: its opening element, body,
closing element and the tree that follows it. -/
structure Frame (α : Type) where
  o : α
  b : Tree α
  c : α
  k : Tree α

/-- The text that remains to be executed: the current tree, then for every
open loop its closing element and what follows the loop. -/
def unwindK {α : Type} : Tree α → List (Frame α) → List α
  | t, [] => t.flatten
  | t, f :: K => t.flatten ++ f.c :: unwindK f.k K

/-- Configuration of the structured machine: the tree at the current position,
the open loops, innermost first, and the data. -/
structure Cfg (α : Type) where
  t : Tree α
  K : List (Frame α)
  d : Data

/-- One step of the structured machine. -/
def cfgStep {α : Type} (eff : α → Data → Data) (c : Cfg α) : Option (Cfg α) :=
  match c.t, c.K with
  | Tree.act a k, K => some ⟨k, K, eff a c.d⟩
  | Tree.loop o b cl k, K =>
    if c.d.cell = 0 then some ⟨k, K, c.d⟩ else some ⟨b, ⟨o, b, cl, k⟩ :: K, c.d⟩
  | Tree.nil, f :: K =>
    if c.d.cell ≠ 0 then some ⟨f.b, f :: K, c.d⟩ else some ⟨f.k, K, c.d⟩
  | Tree.nil, [] => none

/-- Run the structured machine for at most `fuel` steps. -/
def cfgRun {α : Type} (eff : α → Data → Data) : Nat → Cfg α → Option Data
  | 0, _ => none
  | fuel + 1, c =>
    match cfgStep eff c with
    | none => some c.d
    | some c' => cfgRun eff fuel c'

/-- Correspondence between a position of the flat program and a configuration
of the structured machine. -/
def Sim {α : Type} (kind : α → Br) (xs : List α) : Nat → Tree α → List (Frame α) → Prop
  | pc, t, [] => xs.drop pc = t.flatten ∧ t.WF kind
  | pc, t, f :: K =>
    xs.drop pc = t.flatten ++ f.c :: unwindK f.k K ∧ t.WF kind ∧ f.b.WF kind ∧
    kind f.o = Br.opn ∧ kind f.c = Br.cls ∧
    ∃ start, xs.drop start = f.o :: (f.b.flatten ++ f.c :: unwindK f.k K) ∧
      pc + t.flatten.length = start + 1 + f.b.flatten.length ∧
      Sim kind xs (start + f.b.flatten.length + 2) f.k K

/-- A jump table agrees with the nesting structure: at every loop of the text a
taken opening bracket continues after the closing one and a taken closing
bracket continues after the opening one. -/
def JumpOK {α : Type} (kind : α → Br) (jump : Nat → Nat) (xs : List α) : Prop :=
  ∀ i o b c rest, xs.drop i = o :: (Tree.flatten b ++ c :: rest) →
    kind o = Br.opn → kind c = Br.cls → b.WF kind →
    jump i = i + b.flatten.length + 2 ∧ jump (i + b.flatten.length + 1) = i + 1

/-- Effect of a list of source characters executed in order. -/
def charsEff (cs : List Char) (d : Data) : Data :=
  cs.foldl (fun d c => charEff c d) d

/-- A condensed entry stands for a non-empty stretch of source characters. -/
def ActOK (cs : List Char) (a : instruction_t) : Prop :=
  cs ≠ [] ∧ (∀ c ∈ cs, charBr c = Br.other) ∧ instrBr a = Br.other ∧
  (a.op = op_modify ∨ 0 ≤ a.val) ∧ ∀ d, charsEff cs d = instrEff a d

/-- The nesting structure of a condensed text against that of its source:
every entry stands for a stretch of characters with the same effect, ignored
characters stand for nothing, loops correspond. -/
inductive Coal : Tree Char → Tree instruction_t → Prop where
  | nil (cs : List Char) (h : ∀ c ∈ cs, isOperator c = false) :
      Coal (Tree.acts cs Tree.nil) Tree.nil
  | act (cs : List Char) (a : instruction_t) (t : Tree Char) (u : Tree instruction_t)
      (h : ActOK cs a) (hc : Coal t u) :
      Coal (Tree.acts cs t) (Tree.act a u)
  | loop (cs : List Char) (o c : Char) (o' c' : instruction_t)
      (b k : Tree Char) (b' k' : Tree instruction_t)
      (h : ∀ x ∈ cs, isOperator x = false)
      (ho : charBr o = Br.opn) (hc : charBr c = Br.cls)
      (ho' : instrBr o' = Br.opn) (hc' : instrBr c' = Br.cls)
      (hb : Coal b b') (hk : Coal k k') :
      Coal (Tree.acts cs (Tree.loop o b c k)) (Tree.loop o' b' c' k')

/-- Text closing the open loops: for each one its closing bracket and what
follows the loop. -/
def closeC : List (Tree Char × Tree instruction_t) → List Char
  | [] => []
  | (t, _) :: rest => ']' :: (t.flatten ++ closeC rest)

/-- Condensed text closing the open loops. -/
def closeI : List (Tree Char × Tree instruction_t) → List instruction_t
  | [] => []
  | (_, u) :: rest => ⟨op_endif, 0, 0⟩ :: (u.flatten ++ closeI rest)

/-- Every pending pair of trees corresponds and respects the depth bound `m`
at its nesting level. -/
def AllGood (m : Nat) : List (Tree Char × Tree instruction_t) → Prop
  | [] => True
  | (t, u) :: rest => Coal t u ∧ rest.length + u.depth ≤ m ∧ AllGood m rest

/-- Corresponding open loops of the source text and of the condensed text. -/
def FrameRel (f : Frame Char) (f' : Frame instruction_t) : Prop :=
  Coal f.b f'.b ∧ Coal f.k f'.k

/-- Corresponding configurations of the structured machine on the source text
and on the condensed text. -/
def CfgRel (c : Cfg Char) (c' : Cfg instruction_t) : Prop :=
  Coal c.t c'.t ∧ List.Forall₂ FrameRel c.K c'.K ∧ c.d = c'.d

/-! ## Assembler (`assembler.c`)

The code buffer, the label objects and the memory of the buffer are kept in
one record.  A label pointer is the index of the label object in `heap`.
Addresses are absolute.  A failed `assert` is the result `none`.  Allocation
of label and source records is taken to succeed. -/

/-- Modelled from the spec: the register enumeration of `constants.h`, which is
not among the sources; the eight low-numbered general-purpose registers with
their instruction-set numbers, as the opcode arithmetic of the emitters
(`0x50 + reg`, `0xB8 + reg`) requires. -/
def EAX : Nat := 0

/-- Modelled from the spec: register number of `ECX` (see `EAX`). -/
def ECX : Nat := 1

/-- Modelled from the spec: register number of `EDX` (see `EAX`). -/
def EDX : Nat := 2

/-- Modelled from the spec: register number of `EBX` (see `EAX`). -/
def EBX : Nat := 3

/-- Modelled from the spec: register number of `ESP` (see `EAX`). -/
def ESP : Nat := 4

/-- Modelled from the spec: register number of `EBP` (see `EAX`). -/
def EBP : Nat := 5

/-- Modelled from the spec: register number of `ESI` (see `EAX`). -/
def ESI : Nat := 6

/-- Modelled from the spec: register number of `EDI` (see `EAX`). -/
def EDI : Nat := 7

/-- Label object (`struct label`); `sources` lists the addresses of the pending
displacement slots, most recent first. -/
structure label_t where
  resolved : Bool
  ptr : Nat
  sources : List Nat

/-- Code buffer (`struct assembler_buffer`) together with the bytes of its
region (`mem`, by absolute address) and the label objects (`heap`). -/
structure Asm where
  finalized : Bool
  buffer : Nat
  buffer_size : Nat
  offset : Nat
  labels : List Nat
  mem : Nat → Nat
  heap : List label_t

/-- Size of a pointer in bytes (`sizeof(uintptr_t)`) on the two supported
architectures. -/
def wordBytes (x64 : Bool) : Nat := if x64 then 8 else 4

/-- Store the `n` low bytes of `v` at `addr`, least significant first. -/
def writeLE (mem : Nat → Nat) (addr : Nat) : Nat → Nat → Nat → Nat
  | 0, _ => mem
  | n + 1, v => writeLE (Function.update mem addr (v % 256)) (addr + 1) n (v / 256)

/-- Read `n` bytes at `addr` as an unsigned little-endian number. -/
def readLE (mem : Nat → Nat) (addr : Nat) : Nat → Nat
  | 0 => 0
  | n + 1 => mem addr + 256 * readLE mem (addr + 1) n

/-- Read the four bytes at `addr` as a signed 32-bit little-endian number. -/
def sread32 (mem : Nat → Nat) (addr : Nat) : Int :=
  if readLE mem addr 4 < 2 ^ 31 then (readLE mem addr 4 : Int)
  else (readLE mem addr 4 : Int) - 2 ^ 32

/-- The value of a signed difference converted to `int32_t` and stored in a
32-bit slot. -/
def toU32 (d : Int) : Nat := (d % 2 ^ 32).toNat

/-- `check_space`. -/
def check_space (buf : Asm) (o : Nat) : Bool := buf.offset + o < buf.buffer_size

/-- `emit_u8`. -/
def emit_u8 (buf : Asm) (v : Nat) : Asm :=
  { buf with mem := writeLE buf.mem (buf.buffer + buf.offset) 1 v, offset := buf.offset + 1 }

/-- `emit_u32`. -/
def emit_u32 (buf : Asm) (v : Nat) : Asm :=
  { buf with mem := writeLE buf.mem (buf.buffer + buf.offset) 4 v, offset := buf.offset + 4 }

/-- `emit_ptr`. -/
def emit_ptr (x64 : Bool) (buf : Asm) (v : Nat) : Asm :=
  { buf with mem := writeLE buf.mem (buf.buffer + buf.offset) (wordBytes x64) v,
             offset := buf.offset + wordBytes x64 }

/-- Replace the label object at index `lab`. -/
def setLabel (buf : Asm) (lab : Nat) (l : label_t) : Asm :=
  { buf with heap := buf.heap.set lab l }

/-- `emit_source`: write the displacement to a bound label at once, or register
the slot as pending and write a zero. -/
def emit_source (buf : Asm) (lab : Nat) : Option Asm :=
  match buf.heap[lab]? with
  | none => none
  | some l =>
    if check_space buf 4 = false then none
    else if l.resolved then
      let base := buf.buffer + buf.offset
      let next := base + 4
      some { buf with mem := writeLE buf.mem base 4 (toU32 ((l.ptr : Int) - (next : Int))),
                      offset := buf.offset + 4 }
    else
      let src := buf.buffer + buf.offset
      some { setLabel buf lab { l with sources := src :: l.sources } with
               mem := writeLE buf.mem src 4 0, offset := buf.offset + 4 }

/-- The patch loop of `emit_push_label`: pop each pending slot and write the
displacement from it to `dest`. -/
def patchSources (mem : Nat → Nat) (dest : Nat) : List Nat → Nat → Nat
  | [] => mem
  | src :: rest =>
    patchSources (writeLE mem src 4 (toU32 ((dest : Int) - ((src + 4 : Nat) : Int)))) dest rest

/-- `emit_push_label`: bind the label at the current offset, patch its pending
slots and hand the label over to the buffer. -/
def emit_push_label (buf : Asm) (lab : Nat) : Option Asm :=
  match buf.heap[lab]? with
  | none => none
  | some l =>
    if l.resolved then none
    else
      let dest := buf.buffer + buf.offset
      some { setLabel buf lab { resolved := true, ptr := dest, sources := [] } with
               mem := patchSources buf.mem dest l.sources,
               labels := lab :: buf.labels }

/-- `new_label`: a fresh unresolved label; the result is the buffer state with
the new object and its pointer. -/
def new_label (buf : Asm) : Asm × Nat :=
  ({ buf with heap := buf.heap ++ [{ resolved := false, ptr := 0, sources := [] }] },
    buf.heap.length)

/-- `new_assembler_buffer` when the mapping succeeds at address `addr`. -/
def new_assembler_buffer (addr : Nat) : Asm :=
  { finalized := false, buffer := addr, buffer_size := 2 ^ 20, offset := 0, labels := [],
    mem := fun _ => 0, heap := [] }

/-- The REX.W prefix emitted on the 64-bit architecture only. -/
def emit_rexw (x64 : Bool) (buf : Asm) : Asm :=
  if x64 then emit_u8 buf 0x48 else buf

/-- `emit_add_rm8_imm8`. -/
def emit_add_rm8_imm8 (buf : Asm) (reg imm : Nat) : Option Asm :=
  if reg < 8 ∧ check_space buf 3 = true then
    some (emit_u8 (emit_u8 (emit_u8 buf 0x80) reg) imm)
  else none

/-- Common shape of `emit_add_r_immz32`, `emit_and_r_immz32`, `emit_cmp_r_immz32`
and `emit_sub_r_immz32`: the short form with opcode `opA` for `EAX`, otherwise
`0x81` with the ModR/M byte `modrm | reg`. -/
def emit_alu_r_immz32 (opA modrm : Nat) (x64 : Bool) (buf : Asm) (reg imm : Nat) :
    Option Asm :=
  if reg < 8 then
    if reg = EAX then
      if check_space buf ((if x64 then 2 else 1) + 4) = true then
        some (emit_u32 (emit_u8 (emit_rexw x64 buf) opA) imm)
      else none
    else
      if check_space buf ((if x64 then 3 else 2) + 4) = true then
        some (emit_u32 (emit_u8 (emit_u8 (emit_rexw x64 buf) 0x81) (modrm ||| reg)) imm)
      else none
  else none

/-- `emit_add_r_immz32`. -/
def emit_add_r_immz32 := emit_alu_r_immz32 0x05 0xC0

/-- `emit_and_r_immz32`. -/
def emit_and_r_immz32 := emit_alu_r_immz32 0x25 0xE0

/-- `emit_cmp_r_immz32`. -/
def emit_cmp_r_immz32 := emit_alu_r_immz32 0x3D 0xF8

/-- `emit_sub_r_immz32`. -/
def emit_sub_r_immz32 := emit_alu_r_immz32 0x2D 0xE8

/-- `emit_mov_r_immptr`. -/
def emit_mov_r_immptr (x64 : Bool) (buf : Asm) (reg imm : Nat) : Option Asm :=
  if reg < 8 ∧ check_space buf ((if x64 then 2 else 1) + wordBytes x64) = true then
    some (emit_ptr x64 (emit_u8 (emit_rexw x64 buf) (0xB8 + reg)) imm)
  else none

/-- `emit_call`. -/
def emit_call (x64 : Bool) (buf : Asm) (imm : Nat) : Option Asm :=
  match emit_mov_r_immptr x64 buf EAX imm with
  | none => none
  | some b =>
    if check_space b 2 = true then some (emit_u8 (emit_u8 b 0xFF) 0xD0) else none

/-- `emit_cmp_rm8_imm8`. -/
def emit_cmp_rm8_imm8 (buf : Asm) (reg imm : Nat) : Option Asm :=
  if reg < 8 ∧ check_space buf 3 = true then
    some (emit_u8 (emit_u8 (emit_u8 buf 0x80) (0x38 ||| reg)) imm)
  else none

/-- Common shape of `emit_cmp_r_r`, `emit_mov_r_r` and `emit_xor_r_r`: an
optional REX.W prefix, the opcode and a register-register ModR/M byte. -/
def emit_op_r_r (opcode : Nat) (x64 : Bool) (buf : Asm) (regfield rmfield : Nat) :
    Option Asm :=
  if regfield < 8 ∧ rmfield < 8 ∧ check_space buf (if x64 then 3 else 2) = true then
    some (emit_u8 (emit_u8 (emit_rexw x64 buf) opcode) (0xC0 ||| (regfield <<< 3) ||| rmfield))
  else none

/-- `emit_cmp_r_r`: the ModR/M byte is `0xC0 | (srcreg << 3) | reg`. -/
def emit_cmp_r_r (x64 : Bool) (buf : Asm) (reg srcreg : Nat) : Option Asm :=
  emit_op_r_r 0x39 x64 buf srcreg reg

/-- `emit_mov_r_r`: the ModR/M byte is `0xC0 | (reg << 3) | srcreg`. -/
def emit_mov_r_r (x64 : Bool) (buf : Asm) (reg srcreg : Nat) : Option Asm :=
  emit_op_r_r 0x8B x64 buf reg srcreg

/-- `emit_xor_r_r`: the ModR/M byte is `0xC0 | (reg << 3) | srcreg`. -/
def emit_xor_r_r (x64 : Bool) (buf : Asm) (reg srcreg : Nat) : Option Asm :=
  emit_op_r_r 0x31 x64 buf reg srcreg

/-- Condition codes of `emit_jcc` (`enum cc_enum`). -/
inductive cc_t where
  | EQ
  | LE
  | NEQ
  deriving DecidableEq, Repr

/-- Second opcode byte of the near conditional jump. -/
def cc_t.opcode : cc_t → Nat
  | cc_t.EQ => 0x84
  | cc_t.LE => 0x8E
  | cc_t.NEQ => 0x85

/-- `emit_jcc`. -/
def emit_jcc (buf : Asm) (lab : Nat) (cc : cc_t) : Option Asm :=
  if check_space buf (2 + 4) = true then
    emit_source (emit_u8 (emit_u8 buf 0x0F) cc.opcode) lab
  else none

/-- `emit_je`. -/
def emit_je (buf : Asm) (lab : Nat) : Option Asm := emit_jcc buf lab cc_t.EQ

/-- `emit_jle`. -/
def emit_jle (buf : Asm) (lab : Nat) : Option Asm := emit_jcc buf lab cc_t.LE

/-- `emit_jne`. -/
def emit_jne (buf : Asm) (lab : Nat) : Option Asm := emit_jcc buf lab cc_t.NEQ

/-- `emit_jmp`. -/
def emit_jmp (buf : Asm) (lab : Nat) : Option Asm :=
  if check_space buf (1 + 4) = true then emit_source (emit_u8 buf 0xE9) lab else none

/-- `emit_leave`. -/
def emit_leave (buf : Asm) : Option Asm :=
  if check_space buf 1 = true then some (emit_u8 buf 0xC9) else none

/-- `emit_ret`. -/
def emit_ret (buf : Asm) : Option Asm :=
  if check_space buf 1 = true then some (emit_u8 buf 0xC3) else none

/-- `emit_mov_r8_rm8`. -/
def emit_mov_r8_rm8 (buf : Asm) (reg srcreg : Nat) : Option Asm :=
  if reg < 8 ∧ srcreg < 8 ∧ check_space buf 2 = true then
    some (emit_u8 (emit_u8 buf 0x8A) ((reg <<< 3) ||| srcreg))
  else none

/-- `emit_mov_rm8_r8`. -/
def emit_mov_rm8_r8 (buf : Asm) (reg srcreg : Nat) : Option Asm :=
  if reg < 8 ∧ srcreg < 8 ∧ check_space buf 2 = true then
    some (emit_u8 (emit_u8 buf 0x88) ((srcreg <<< 3) ||| reg))
  else none

/-- `emit_mov_rm_rint`: no REX.W prefix is emitted on either architecture (the
line is commented out in the source); the SIB byte `0x24` follows when the
memory register is `ESP`. -/
def emit_mov_rm_rint (x64 : Bool) (buf : Asm) (reg srcreg : Nat) : Option Asm :=
  if reg < 8 ∧ srcreg < 8 then
    if reg = ESP then
      if check_space buf (if x64 then 4 else 3) = true then
        some (emit_u8 (emit_u8 (emit_u8 buf 0x89) ((srcreg <<< 3) ||| reg)) 0x24)
      else none
    else
      if check_space buf (if x64 then 3 else 2) = true then
        some (emit_u8 (emit_u8 buf 0x89) ((srcreg <<< 3) ||| reg))
      else none
  else none

/-- `emit_pop_r`. -/
def emit_pop_r (buf : Asm) (reg : Nat) : Option Asm :=
  if reg < 8 ∧ check_space buf 1 = true then some (emit_u8 buf (0x58 + reg)) else none

/-- `emit_push_r`. -/
def emit_push_r (buf : Asm) (reg : Nat) : Option Asm :=
  if reg < 8 ∧ check_space buf 1 = true then some (emit_u8 buf (0x50 + reg)) else none

/-! ## Code generator (`interpret`, assembly part) -/

/-- What the generated code is assembled against: the architecture, the address
of the first cell of the user region and the two callables. -/
structure GenEnv where
  x64 : Bool
  tape_start : Nat
  gcfp : Nat
  pcfp : Nat
deriving DecidableEq, Repr

/-- The pointer register `ptrreg`. -/
def ptrreg : Nat := EBX

/-- The constant `stack_adjust = 16u - 2u * sizeof(uintptr_t)`. -/
def stack_adjust (x64 : Bool) : Nat := 16 - 2 * wordBytes x64

/-- The low 32 bits of a `ptrdiff_t` value (`*(uint32_t *) &val`). -/
def low32 (val : Int) : Nat := (val % 2 ^ 32).toNat

/-- The labels of the loops: `branches[k] = (top, end)`, created in the order
top, end for `k = 0, 1, ...`. -/
def newBranches : Nat → Asm → Asm × List (Nat × Nat)
  | 0, buf => (buf, [])
  | n + 1, buf =>
    let t := new_label buf
    let e := new_label t.1
    let r := newBranches n e.1
    (r.1, (t.2, e.2) :: r.2)

/-- The stack adjustment of the preamble, emitted only when it is not zero. -/
def genAdjustSub (env : GenEnv) (buf : Asm) : Option Asm :=
  if stack_adjust env.x64 > 0 then emit_sub_r_immz32 env.x64 buf ESP (stack_adjust env.x64)
  else some buf

/-- The stack adjustment of the coda, emitted only when it is not zero. -/
def genAdjustAdd (env : GenEnv) (buf : Asm) : Option Asm :=
  if stack_adjust env.x64 > 0 then emit_add_r_immz32 env.x64 buf ESP (stack_adjust env.x64)
  else some buf

/-- The preamble. -/
def genPrologue (env : GenEnv) (buf : Asm) : Option Asm := do
  let b ← emit_push_r buf EBP
  let b ← emit_mov_r_r env.x64 b EBP ESP
  let b ← emit_and_r_immz32 env.x64 b ESP 0xFFFFFFF0
  let b ← emit_push_r b EBX
  let b ← emit_push_r b EDI
  let b ← genAdjustSub env b
  emit_mov_r_immptr env.x64 b ptrreg env.tape_start

/-- Code for `op_right`. -/
def genRight (env : GenEnv) (buf : Asm) (val : Int) : Option Asm :=
  if val = 0 then some buf else emit_add_r_immz32 env.x64 buf ptrreg (low32 val)

/-- The value `min_value = (uintptr_t) (tape_start + val)`. -/
def min_value (env : GenEnv) (val : Int) : Nat :=
  (((env.tape_start : Int) + val) % 2 ^ (8 * wordBytes env.x64)).toNat

/-- The comparison of the pointer register with `min_value`: directly on the
32-bit architecture, through `EDI` on the 64-bit one. -/
def genLeftCmp (env : GenEnv) (buf : Asm) (val : Int) : Option Asm :=
  if env.x64 = false then emit_cmp_r_immz32 env.x64 buf ptrreg (min_value env val % 2 ^ 32)
  else (emit_mov_r_immptr env.x64 buf EDI (min_value env val)).bind
    (fun b => emit_cmp_r_r env.x64 b ptrreg EDI)

/-- The clamp sequence with its two labels `minlabel` and `finlabel`. -/
def genLeftSeq (env : GenEnv) (buf : Asm) (val : Int) (minlabel finlabel : Nat) :
    Option Asm := do
  let b ← genLeftCmp env buf val
  let b ← emit_jle b minlabel
  let b ← emit_sub_r_immz32 env.x64 b ptrreg (low32 val)
  let b ← emit_jmp b finlabel
  let b ← emit_push_label b minlabel
  let b ← emit_mov_r_immptr env.x64 b ptrreg env.tape_start
  emit_push_label b finlabel

/-- Code for `op_left`: two fresh labels, then the clamp sequence. -/
def genLeft (env : GenEnv) (buf : Asm) (val : Int) : Option Asm :=
  if val = 0 then some buf
  else
    genLeftSeq env (new_label (new_label buf).1).1 val (new_label buf).2
      (new_label (new_label buf).1).2

/-- Code for `op_modify`. -/
def genModify (buf : Asm) (val : Int) : Option Asm :=
  if (val % 256).toNat = 0 then some buf
  else emit_add_rm8_imm8 buf ptrreg (val % 256).toNat

/-- Passing the argument of the output callable: in `EDI` on the 64-bit
architecture, at `[ESP]` on the 32-bit one. -/
def genPutArg (env : GenEnv) (buf : Asm) : Option Asm :=
  if env.x64 = true then emit_mov_r_r env.x64 buf EDI EAX
  else emit_mov_rm_rint env.x64 buf ESP EAX

/-- Code for `op_put`. -/
def genPut (env : GenEnv) (buf : Asm) : Option Asm := do
  let b ← emit_xor_r_r env.x64 buf EAX EAX
  let b ← emit_mov_r8_rm8 b EAX ptrreg
  let b ← genPutArg env b
  emit_call env.x64 b env.pcfp

/-- The sequence for `op_get` with its label; `EOF` is `-1`, passed as the
32-bit pattern `0xFFFFFFFF`. -/
def genGetSeq (env : GenEnv) (buf : Asm) (eof_label : Nat) : Option Asm := do
  let b ← emit_call env.x64 buf env.gcfp
  let b ← emit_cmp_r_immz32 env.x64 b EAX 0xFFFFFFFF
  let b ← emit_jne b eof_label
  let b ← emit_xor_r_r env.x64 b EAX EAX
  let b ← emit_push_label b eof_label
  emit_mov_rm8_r8 b ptrreg EAX

/-- Code for `op_get`: a fresh label, then the sequence. -/
def genGet (env : GenEnv) (buf : Asm) : Option Asm :=
  genGetSeq env (new_label buf).1 (new_label buf).2

/-- Code for `op_if` with running loop ordinal `branch_count`. -/
def genIf (branches : List (Nat × Nat)) (buf : Asm) (branch_count : Nat) : Option Asm :=
  match branches[branch_count]? with
  | none => none
  | some br => do
    let b ← emit_cmp_rm8_imm8 buf ptrreg 0
    let b ← emit_je b br.2
    emit_push_label b br.1

/-- Code for `op_endif` with resolved loop ordinal `branch`. -/
def genEndif (branches : List (Nat × Nat)) (buf : Asm) (branch : Nat) : Option Asm :=
  match branches[branch]? with
  | none => none
  | some br => do
    let b ← emit_cmp_rm8_imm8 buf ptrreg 0
    let b ← emit_jne b br.1
    emit_push_label b br.2

/-- One iteration of the assembly loop on the pair (buffer, `branch_count`). -/
def genStep (env : GenEnv) (branches : List (Nat × Nat)) (st : Asm × Nat)
    (i : instruction_t) : Option (Asm × Nat) :=
  match i.op with
  | op_right => (genRight env st.1 i.val).map (fun b => (b, st.2))
  | op_left => (genLeft env st.1 i.val).map (fun b => (b, st.2))
  | op_modify => (genModify st.1 i.val).map (fun b => (b, st.2))
  | op_put => (genPut env st.1).map (fun b => (b, st.2))
  | op_get => (genGet env st.1).map (fun b => (b, st.2))
  | op_if => (genIf branches st.1 st.2).map (fun b => (b, st.2 + 1))
  | op_endif => (genEndif branches st.1 i.branch).map (fun b => (b, st.2))
  | op_invalid => none

/-- The assembly loop over the remaining entries. -/
def genLoop (env : GenEnv) (branches : List (Nat × Nat)) :
    List instruction_t → Asm × Nat → Option (Asm × Nat)
  | [], st => some st
  | i :: rest, st =>
    match genStep env branches st i with
    | none => none
    | some st' => genLoop env branches rest st'

/-- The coda. -/
def genEpilogue (env : GenEnv) (buf : Asm) : Option Asm := do
  let b ← genAdjustAdd env buf
  let b ← emit_pop_r b EDI
  let b ← emit_pop_r b EBX
  let b ← emit_xor_r_r env.x64 b EAX EAX
  let b ← emit_leave b
  emit_ret b

/-- The buffer and loop labels with which the assembly loop starts: a fresh
buffer mapped at `addr`, `branch_count` pairs of labels, the preamble. -/
def genStart (env : GenEnv) (addr branch_count : Nat) : Option (Asm × List (Nat × Nat)) :=
  let nb := newBranches branch_count (new_assembler_buffer addr)
  (genPrologue env nb.1).map (fun b => (b, nb.2))

/-- The state of the assembly loop before the entry at index `n`. -/
def genPrefix (env : GenEnv) (addr branch_count : Nat) (instructions : List instruction_t)
    (n : Nat) : Option (Asm × Nat) :=
  match genStart env addr branch_count with
  | none => none
  | some (b, branches) => genLoop env branches (instructions.take n) (b, 0)

/-- The complete assembly: preamble, one sequence per entry, coda. -/
def generate (env : GenEnv) (addr branch_count : Nat) (instructions : List instruction_t) :
    Option Asm :=
  match genStart env addr branch_count with
  | none => none
  | some (b, branches) =>
    match genLoop env branches instructions (b, 0) with
    | none => none
    | some st => genEpilogue env st.1

/-- The bytes of the code buffer up to the current offset. -/
def Asm.bytes (buf : Asm) : List Nat :=
  (List.range buf.offset).map (fun k => buf.mem (buf.buffer + k))

/-! ## Invariants of the code buffer (proof device) -/

/-- The primitive operations through which the emitters act on the buffer.  The
byte-level writes carry the space that the calling emitter has asserted. -/
inductive Prim : Asm → Asm → Prop where
  | u8 (buf : Asm) (v : Nat) (h : buf.offset + 1 ≤ buf.buffer_size) : Prim buf (emit_u8 buf v)
  | u32 (buf : Asm) (v : Nat) (h : buf.offset + 4 ≤ buf.buffer_size) : Prim buf (emit_u32 buf v)
  | ptr (x64 : Bool) (buf : Asm) (v : Nat) (h : buf.offset + wordBytes x64 ≤ buf.buffer_size) :
      Prim buf (emit_ptr x64 buf v)
  | source (buf : Asm) (lab : Nat) (buf' : Asm) (h : emit_source buf lab = some buf') :
      Prim buf buf'
  | push (buf : Asm) (lab : Nat) (buf' : Asm) (h : emit_push_label buf lab = some buf') :
      Prim buf buf'
  | label (buf : Asm) : Prim buf (new_label buf).1

/-- A buffer state reached by a sequence of primitive operations. -/
def Reach : Asm → Asm → Prop := Relation.ReflTransGen Prim

/-- The slot at address `s` is registered as pending on the label `lab`. -/
def Pending (buf : Asm) (lab s : Nat) : Prop :=
  ∃ l, buf.heap[lab]? = some l ∧ s ∈ l.sources

/-- Well-formedness of the buffer: the offset is inside the region, the region
is smaller than 2 GiB, bound labels point into the emitted code and have no
pending slot, pending slots lie in the emitted code and do not overlap. -/
def WFA (buf : Asm) : Prop :=
  buf.offset ≤ buf.buffer_size ∧ buf.buffer_size ≤ 2 ^ 31 ∧
  (∀ (lab : Nat) (l : label_t), buf.heap[lab]? = some l → l.resolved = true →
    l.sources = [] ∧ buf.buffer ≤ l.ptr ∧ l.ptr ≤ buf.buffer + buf.offset) ∧
  (∀ lab s, Pending buf lab s → buf.buffer ≤ s ∧ s + 4 ≤ buf.buffer + buf.offset) ∧
  (∀ lab1 s1 lab2 s2, Pending buf lab1 s1 → Pending buf lab2 s2 →
    (s1 = s2 ∧ lab1 = lab2) ∨ s1 + 4 ≤ s2 ∨ s2 + 4 ≤ s1)

/-- The byte at address `a` has been emitted and belongs to no pending slot. -/
def Settled (buf : Asm) (a : Nat) : Prop :=
  a < buf.buffer + buf.offset ∧ ∀ lab s, Pending buf lab s → a < s ∨ s + 4 ≤ a

/-- The 32-bit slot at address `s` has been emitted against the label `lab`:
it is pending on the label while the label is unbound, and it holds the
displacement `label address - (slot address + 4)` once the label is bound. -/
def SlotOK (buf : Asm) (s lab : Nat) : Prop :=
  buf.buffer ≤ s ∧ s + 4 ≤ buf.buffer + buf.offset ∧
  (∀ lab2 s2, Pending buf lab2 s2 → (s2 = s ∧ lab2 = lab) ∨ s2 + 4 ≤ s ∨ s + 4 ≤ s2) ∧
  ∃ l, buf.heap[lab]? = some l ∧
    ((l.resolved = true ∧ sread32 buf.mem s = (l.ptr : Int) - ((s + 4 : Nat) : Int)) ∨
     (l.resolved = false ∧ s ∈ l.sources))

/-- What a primitive operation does to the buffer, by kind: a write of `n`
bytes at the offset, the registration of a pending slot, the binding of a
label, the creation of a label. -/
def PrimKind (buf buf' : Asm) : Prop :=
  (buf'.heap = buf.heap ∧ ∃ n, buf'.offset = buf.offset + n ∧
    buf.offset + n ≤ buf.buffer_size ∧
    ∀ a, (a < buf.buffer + buf.offset ∨ buf.buffer + buf.offset + n ≤ a) →
      buf'.mem a = buf.mem a) ∨
  (∃ lab l, buf.heap[lab]? = some l ∧ l.resolved = false ∧
    buf'.heap = buf.heap.set lab { l with sources := (buf.buffer + buf.offset) :: l.sources } ∧
    buf'.offset = buf.offset + 4 ∧ buf.offset + 4 ≤ buf.buffer_size ∧
    ∀ a, (a < buf.buffer + buf.offset ∨ buf.buffer + buf.offset + 4 ≤ a) →
      buf'.mem a = buf.mem a) ∨
  (∃ lab l, buf.heap[lab]? = some l ∧ l.resolved = false ∧
    buf'.heap = buf.heap.set lab { resolved := true, ptr := buf.buffer + buf.offset,
                                   sources := [] } ∧
    buf'.offset = buf.offset ∧
    buf'.mem = patchSources buf.mem (buf.buffer + buf.offset) l.sources) ∨
  (buf'.heap = buf.heap ++ [{ resolved := false, ptr := 0, sources := [] }] ∧
    buf'.offset = buf.offset ∧ buf'.mem = buf.mem)

/-! ## Status messages (`get_interpret_error_string`) -/

/-- `get_interpret_error_string`: the message for an integer return code. -/
def get_interpret_error_string (return_code : Int) : String :=
  if return_code = 0 then "Okay."
  else if return_code = 1 then "Error configuring guard pages."
  else if return_code = 2 then "Error configuring SIGSEGV handler."
  else if return_code = 3 then "Error allocating memory."
  else if return_code = 4 then "Error during mmap."
  else if return_code = 5 then "Error during munmap."
  else if return_code = 6 then "Out of memory."
  else if return_code = 7 then "Error retrieving page size."
  else if return_code = 8 then "Tape limit exceeded."
  else if return_code = 9 then "Tape underflow."
  else if return_code = 10 then "Time limit exceeded."
  else if return_code = 11 then "Unbalanced number of '[' and ']'."
  else "Unknown error."

/-- The twelve status codes in the order of the enumeration. -/
def allStatuses : List interpret_error_t :=
  [interpret_ok, interpret_guard_error, interpret_handler, interpret_malloc_error,
   interpret_mmap_error, interpret_munmap_error, interpret_no_memory, interpret_page_size,
   interpret_tape_exceeded, interpret_tape_underflow, interpret_time_exceeded,
   interpret_unbalanced]

/-! ## Machine words -/

/-- The width in bits of `size_t`, `ptrdiff_t`, of a pointer and of a general
register. -/
def wordBits (x64 : Bool) : Nat := 8 * wordBytes x64

/-- The constant `SIZE_MAX`. -/
def SIZE_MAX (x64 : Bool) : Nat := 2 ^ wordBits x64 - 1

/-- An integer reduced to a machine word (`size_t`, `uintptr_t`, a register). -/
def toSize (x64 : Bool) (v : Int) : Nat := (v % 2 ^ wordBits x64).toNat

/-- The signed reading of the low `bits` bits of `v` (two's complement). -/
def signedOf (bits : Nat) (v : Nat) : Int :=
  if v % 2 ^ bits < 2 ^ (bits - 1) then ((v % 2 ^ bits : Nat) : Int)
  else ((v % 2 ^ bits : Nat) : Int) - 2 ^ bits

/-- The cast `(ptrdiff_t)` of a `size_t`. -/
def toPtrdiff (x64 : Bool) (v : Nat) : Int := signedOf (wordBits x64) v

/-! ## Guard pages and tape size (`interpret`) -/

/-- One iteration of the loop that assesses the largest single move in either
direction; the pair is (`traverse_forward`, `traverse_reverse`). -/
def traverseStep (t : Int × Int) (i : instruction_t) : Int × Int :=
  match i.op with
  | op_left => if t.2 < i.val then (t.1, i.val) else t
  | op_right => if t.1 < i.val then (i.val, t.2) else t
  | _ => t

/-- The pair (`traverse_forward`, `traverse_reverse`) after the loop. -/
def traverse (instructions : List instruction_t) : Int × Int :=
  instructions.foldl traverseStep (0, 0)

/-- The test `traverse >= (ptrdiff_t) (SIZE_MAX / 2 - page_size)` that makes
`interpret` return the guard error. -/
def guardOverflow (x64 : Bool) (page_size : Nat) (t : Int) : Bool :=
  decide (toPtrdiff x64 (toSize x64 ((SIZE_MAX x64 / 2 : Nat) - (page_size : Int))) ≤ t)

/-- The number of guard pages for a traverse distance:
`(((size_t) traverse) + page_size - 1) / page_size`. -/
def guardPages (x64 : Bool) (page_size : Nat) (t : Int) : Nat :=
  toSize x64 ((toSize x64 t : Int) + page_size - 1) / page_size

/-- The rounded size of the user region:
`(max_data_size + page_size - 1) & ~(page_size - 1)`. -/
def roundTape (x64 : Bool) (page_size max_data_size : Nat) : Nat :=
  toSize x64 ((max_data_size : Int) + page_size - 1) &&&
    (SIZE_MAX x64 - toSize x64 ((page_size : Int) - 1))

/-- The sizes that `interpret` computes for the tape. -/
structure Layout where
  page_size : Nat
  pages_forward : Nat
  pages_reverse : Nat
  rnd : Nat
  allocated : Nat
deriving DecidableEq, Repr

/-- The guard page counts and the tape sizes; `none` when `interpret` returns
the guard error because a traverse distance is too large. -/
def tapeLayout (x64 : Bool) (page_size max_data_size : Nat)
    (instructions : List instruction_t) : Option Layout :=
  let t := traverse instructions
  if guardOverflow x64 page_size t.1 then none
  else if guardOverflow x64 page_size t.2 then none
  else
    let pages_forward := guardPages x64 page_size t.1
    let pages_reverse := guardPages x64 page_size t.2
    let rnd := roundTape x64 page_size max_data_size
    some { page_size := page_size, pages_forward := pages_forward,
           pages_reverse := pages_reverse, rnd := rnd,
           allocated := toSize x64 ((rnd : Int) +
             toSize x64 (((pages_forward : Int) + pages_reverse) * page_size)) }

/-- Modelled from the spec: the largest value on an entry with operation `o`,
`0` when there is none. -/
def largestMove (o : op_t) (instructions : List instruction_t) : Nat :=
  ((instructions.filter (fun i => decide (i.op = o))).map (fun i => i.val.toNat)).foldr max 0

/-- Modelled from the spec: `ceil(a / b)`. -/
def ceilDiv (a b : Nat) : Nat := (a + b - 1) / b

/-! ## The signal handler (`handler`) -/

/-- The file-scope variables that `handler` reads. -/
structure RunState where
  tape : Nat
  allocated : Nat
  page_size : Nat
  pages_forward : Nat
  pages_reverse : Nat
deriving DecidableEq, Repr

/-- What `handler` does with a fault: raise `SIGSEGV` again and return, or
`longjmp` to the recovery point with a status. -/
inductive HandlerAction where
  | reraise
  | jump (code : interpret_error_t)
deriving DecidableEq, Repr

/-- The handler of `SIGSEGV`, on the fault address `si_addr`. -/
def handler (x64 : Bool) (g : RunState) (fault : Nat) : HandlerAction :=
  let user_start := toSize x64 ((g.tape : Int) + toSize x64 ((g.pages_reverse : Int) * g.page_size))
  let user_end := toSize x64 ((g.tape : Int) + g.allocated -
    toSize x64 ((g.pages_forward : Int) * g.page_size))
  if fault < g.tape then HandlerAction.reraise
  else
    let real_end := toSize x64 ((g.tape : Int) + g.allocated)
    if real_end ≤ fault then HandlerAction.reraise
    else if g.tape ≤ fault ∧ fault < user_start then HandlerAction.jump interpret_tape_underflow
    else if user_end ≤ fault ∧ fault < real_end then HandlerAction.jump interpret_tape_exceeded
    else HandlerAction.jump interpret_no_memory

/-! ## The generated code, run

What the instruction sequences assembled for the condensed entries do when the
processor executes them.  A general register holds a machine word; the pointer
register `ptrreg` holds the absolute address of the current cell. -/

/-- The operand that an `imm32` field contributes to an operation on a general
register: with the `REX.W` prefix of the 64-bit architecture the field is
sign-extended to 64 bits; on the 32-bit architecture it is the operand. -/
def immOperand (x64 : Bool) (imm : Nat) : Int :=
  if x64 then signedOf 32 imm else ((imm % 2 ^ 32 : Nat) : Int)

/-- The instruction `add r, imm32` (opcode `81 /0 id`). -/
def exec_add_r_imm32 (x64 : Bool) (r imm : Nat) : Nat :=
  toSize x64 ((r : Int) + immOperand x64 imm)

/-- The instruction `sub r, imm32` (opcode `81 /5 id`). -/
def exec_sub_r_imm32 (x64 : Bool) (r imm : Nat) : Nat :=
  toSize x64 ((r : Int) - immOperand x64 imm)

/-- Whether `jle` is taken after `cmp a, b`: the signed comparison `a <= b` of
two machine words. -/
def jle_taken (x64 : Bool) (a b : Nat) : Bool :=
  decide (signedOf (wordBits x64) a ≤ signedOf (wordBits x64) b)

/-- The pointer register after the sequence assembled by `genRight`. -/
def runRight (env : GenEnv) (val : Int) (P : Nat) : Nat :=
  if val = 0 then P else exec_add_r_imm32 env.x64 P (low32 val)

/-- The second operand of the comparison assembled by `genLeftCmp`: the
immediate field on the 32-bit architecture, the register `EDI` loaded with
`min_value` on the 64-bit one. -/
def leftBound (env : GenEnv) (val : Int) : Nat :=
  if env.x64 = false then toSize env.x64 (immOperand env.x64 (min_value env val % 2 ^ 32))
  else min_value env val

/-- The pointer register after the sequence assembled by `genLeft`: compare,
`jle` to the `mov` of `tape_start`, else `sub`. -/
def runLeft (env : GenEnv) (val : Int) (P : Nat) : Nat :=
  if val = 0 then P
  else if jle_taken env.x64 P (leftBound env val) then toSize env.x64 env.tape_start
  else exec_sub_r_imm32 env.x64 P (low32 val)

/-- The cell after the instruction `add byte ptr [ptrreg], imm8` assembled by
`genModify`, or unchanged when `genModify` assembles nothing. -/
def runModify (val : Int) (cell : Nat) : Nat :=
  if (val % 256).toNat = 0 then cell else (cell + (val % 256).toNat) % 256

/-- Whether the comparison `cmp eax, 0xFFFFFFFF` assembled by `genGetSeq`
finds equality: on the 64-bit architecture `emit_cmp_r_immz32` puts the `REX.W`
prefix, so the whole of `rax` is compared with the sign-extended field. -/
def getIsEOF (x64 : Bool) (rax : Nat) : Bool :=
  decide ((rax : Int) % 2 ^ wordBits x64 = (toSize x64 (immOperand x64 0xFFFFFFFF) : Int))

/-- The byte stored in the current cell by the sequence assembled by
`genGetSeq` when the input callable leaves `rax` in the accumulator: `al`,
cleared first by `xor eax, eax` when the comparison finds equality (`jne` not
taken). -/
def runGet (x64 : Bool) (rax : Nat) : Nat :=
  if getIsEOF x64 rax then 0 else rax % 256

/-- The accumulator after the input callable returned the C `int` value `ret`:
the low 32 bits are the value; the upper 32 bits of `rax` on the 64-bit
architecture are whatever the callable left there, `hi`. -/
def raxOfInt (x64 : Bool) (hi : Nat) (ret : Int) : Nat :=
  if x64 then (hi % 2 ^ 32) * 2 ^ 32 + (ret % 2 ^ 32).toNat else (ret % 2 ^ 32).toNat

/-- What a run of the generated code is placed in: the code generator's
parameters, the variables read by `handler`, the size `rnd` of the user region
and the accumulator `eof_rax` that the input callable leaves when it returns
`EOF` (its low 32 bits are those of `-1`). -/
structure JitEnv where
  gen : GenEnv
  g : RunState
  rnd : Nat
  eof_rax : Nat
deriving DecidableEq

/-- The outcome of touching one byte of memory. -/
inductive Access where
  | ok
  | fault
  | stray
deriving DecidableEq, Repr

/-- The first address of the forward guard, as passed to `mprotect`:
`tape + pages_reverse * page_size + rnd`. -/
def JitEnv.user_end (e : JitEnv) : Nat :=
  toSize e.gen.x64 ((e.g.tape : Int) +
    toSize e.gen.x64 ((e.g.pages_reverse : Int) * e.g.page_size) + e.rnd)

/-- Whether an address lies in one of the two ranges that `interpret` protects
with `PROT_NONE`. -/
def JitEnv.inGuard (e : JitEnv) (a : Nat) : Bool :=
  (decide (e.g.tape ≤ a) &&
    decide (a < e.g.tape + toSize e.gen.x64 ((e.g.pages_reverse : Int) * e.g.page_size))) ||
  (decide (e.user_end ≤ a) &&
    decide (a < e.user_end + toSize e.gen.x64 ((e.g.pages_forward : Int) * e.g.page_size)))

/-- Touching the byte at address `a`: inside the tape mapping it succeeds
unless the byte is in a guard, where it raises `SIGSEGV`; outside the mapping
it is an access to memory that is not the tape. -/
def JitEnv.access (e : JitEnv) (a : Nat) : Access :=
  if e.g.tape ≤ a ∧ a < e.g.tape + e.g.allocated then
    if e.inGuard a then Access.fault else Access.ok
  else Access.stray

/-- How a run of the generated code ends: it returns; a fault in a guard makes
`handler` jump to the recovery point with a status or raise the signal again;
or it touches memory outside the tape mapping. -/
inductive JitResult where
  | returned (d : Data)
  | status (code : interpret_error_t) (d : Data)
  | reraised (fault : Nat) (d : Data)
  | stray (addr : Nat) (d : Data)

/-- The data at the end of a run. -/
def JitResult.data : JitResult → Data
  | JitResult.returned d => d
  | JitResult.status _ d => d
  | JitResult.reraised _ d => d
  | JitResult.stray _ d => d

/-- The status with which `interpret` resumes after the run, when it does:
`0` after a return, the code passed to `longjmp` after a fault. -/
def JitResult.code : JitResult → Option interpret_error_t
  | JitResult.returned _ => some interpret_ok
  | JitResult.status c _ => some c
  | JitResult.reraised _ _ => none
  | JitResult.stray _ _ => none

/-- The address outside the tape mapping that the run touched, if it did. -/
def JitResult.strayAddr : JitResult → Option Nat
  | JitResult.stray a _ => some a
  | _ => none

/-- One step of the generated code: the next state, or the end of the run. -/
inductive JitOut where
  | next (s : MState)
  | halt (r : JitResult)

/-- A sequence that touches the current cell with the data `d` and continues
as `k` when the access succeeds. -/
def touch (e : JitEnv) (d : Data) (k : MState) : JitOut :=
  match e.access d.ptr with
  | Access.ok => JitOut.next k
  | Access.fault =>
    match handler e.gen.x64 e.g d.ptr with
    | HandlerAction.reraise => JitOut.halt (JitResult.reraised d.ptr d)
    | HandlerAction.jump c => JitOut.halt (JitResult.status c d)
  | Access.stray => JitOut.halt (JitResult.stray d.ptr d)

/-- The data after the call of the input callable: the accumulator it leaves
and the remaining input. -/
def callGet (e : JitEnv) (d : Data) : Nat × Data :=
  match d.input with
  | [] => (e.eof_rax, d)
  | b :: rest => (raxOfInt e.gen.x64 0 (b % 256 : Nat), { d with input := rest })

/-- The sequence assembled for the entry at index `s.pc`, executed in state
`s`; past the last entry the coda returns.  No code exists for an entry with
the tag `op_invalid` (the assembly loop stops at `assert(0)`, `genStep` gives
`none`), so its case is never reached by generated code. -/
def jitStep (e : JitEnv) (instructions : List instruction_t) (s : MState) : JitOut :=
  match instructions[s.pc]? with
  | none => JitOut.halt (JitResult.returned s.d)
  | some i =>
    match i.op with
    | op_right => JitOut.next ⟨s.pc + 1, { s.d with ptr := runRight e.gen i.val s.d.ptr }⟩
    | op_left => JitOut.next ⟨s.pc + 1, { s.d with ptr := runLeft e.gen i.val s.d.ptr }⟩
    | op_modify =>
      if (i.val % 256).toNat = 0 then JitOut.next ⟨s.pc + 1, s.d⟩
      else touch e s.d ⟨s.pc + 1, s.d.setCell (runModify i.val s.d.cell)⟩
    | op_put => touch e s.d ⟨s.pc + 1, s.d.put⟩
    | op_get =>
      touch e (callGet e s.d).2
        ⟨s.pc + 1, (callGet e s.d).2.setCell (runGet e.gen.x64 (callGet e s.d).1)⟩
    | op_if =>
      touch e s.d ⟨if s.d.cell = 0 then labelJump instructions s.pc else s.pc + 1, s.d⟩
    | op_endif =>
      touch e s.d ⟨if s.d.cell ≠ 0 then labelJump instructions s.pc else s.pc + 1, s.d⟩
    | op_invalid => JitOut.halt (JitResult.returned s.d)

/-- Run at most `fuel` steps of the generated code; `none` when the fuel does
not suffice. -/
def jitRun (e : JitEnv) (instructions : List instruction_t) : Nat → MState → Option JitResult
  | 0, _ => none
  | fuel + 1, s =>
    match jitStep e instructions s with
    | JitOut.halt r => some r
    | JitOut.next s' => jitRun e instructions fuel s'

/-- The state in which the generated code starts after the preamble: the
pointer register holds `tape_start`, the tape is zero-filled. -/
def jitInit (e : JitEnv) (input : List Nat) : MState :=
  ⟨0, { ptr := toSize e.gen.x64 e.gen.tape_start, tape := fun _ => 0, input := input,
        output := [] }⟩

/-! ## The entry point (`interpret`) -/

/-- What the operating system and the C library answer during one call of
`interpret`: the page size, whether each `malloc` returns a block, the address
returned by `mmap` for the tape, the results of the two `mprotect` calls, the
address of the code buffer (`none` when `new_assembler_buffer` returns `NULL`),
the result of `mprotect` in `finalize_assembler_buffer` (on `-1` the entry
point is `NULL` and the call of it does not return), the results of
`sigaction`, `setitimer` and `munmap`, and the accumulator left by the input
callable at end of input. -/
structure Env where
  x64 : Bool
  page_size_ : Int
  malloc_instructions : Bool
  mmap_tape : Nat
  mprotect_reverse : Int
  mprotect_forward : Int
  malloc_stack : Bool
  malloc_branches : Bool
  buffer : Option Nat
  mprotect_exec : Int
  sigaction_segv : Int
  sigaction_vtalrm : Int
  setitimer_ret : Int
  munmap_ret : Int
  eof_rax : Nat

/-- What a call of `interpret` leaves: the returned status and the bytes
passed to the output callable. -/
structure Outcome where
  status : interpret_error_t
  output : List Nat
deriving DecidableEq, Repr

/-- The tail of `interpret` after the run: `munmap` of the tape replaces the
status by the munmap error when it fails. -/
def afterRun (env : Env) (ret : interpret_error_t) (output : List Nat) : Outcome :=
  if env.munmap_ret ≠ 0 then ⟨interpret_munmap_error, output⟩ else ⟨ret, output⟩

/-- The state of the generated code after at most `fuel` steps. -/
def jitState (e : JitEnv) (instructions : List instruction_t) : Nat → MState → MState
  | 0, s => s
  | fuel + 1, s =>
    match jitStep e instructions s with
    | JitOut.halt _ => s
    | JitOut.next s' => jitState e instructions fuel s'

/-- The run of the generated code inside `interpret` and what follows it.
With a time limit the virtual timer stops a run that exceeds its budget of
`t` steps; without one the run goes on, `fuel` bounding the steps looked at.
`none`: `interpret` does not return (the run goes on, or the process is
terminated by the signal). -/
def runPhase (env : Env) (e : JitEnv) (instructions : List instruction_t)
    (timelimit : Option Nat) (input : List Nat) (fuel : Nat) : Option Outcome :=
  match jitRun e instructions (timelimit.getD fuel) (jitInit e input) with
  | none =>
    match timelimit with
    | some t =>
      some (afterRun env interpret_time_exceeded
        (jitState e instructions t (jitInit e input)).d.output)
    | none => none
  | some r =>
    match r.code with
    | some c => some (afterRun env c r.data.output)
    | none => none

/-- Where the part of `interpret` before the run ends: it returns a status (or
fails an assertion, `none`), or it enters the generated code. -/
inductive Setup where
  | done (r : Option Outcome)
  | run (e : JitEnv) (instructions : List instruction_t)
deriving DecidableEq

/-- The parameters of the code generator in `interpret`:
`tape_start = tape + pages_reverse * page_size`. -/
def genEnvOf (env : Env) (L : Layout) (gcfp pcfp : Nat) : GenEnv :=
  { x64 := env.x64,
    tape_start := toSize env.x64 ((env.mmap_tape : Int) +
      toSize env.x64 ((L.pages_reverse : Int) * L.page_size)),
    gcfp := gcfp, pcfp := pcfp }

/-- The surroundings of the run that `interpret` has set up. -/
def jitEnvOf (env : Env) (L : Layout) (gcfp pcfp : Nat) : JitEnv :=
  { gen := genEnvOf env L gcfp pcfp,
    g := { tape := env.mmap_tape, allocated := L.allocated, page_size := L.page_size,
           pages_forward := L.pages_forward, pages_reverse := L.pages_reverse },
    rnd := L.rnd, eof_rax := env.eof_rax }

/-- The part of `interpret` between the code generation and the run: the
handler of `SIGSEGV`, with a time limit the handler of `SIGVTALRM` and the
timer, then the call of the entry point. -/
def setupHandlers (env : Env) (timelimit : Option Nat) (e : JitEnv)
    (instructions : List instruction_t) : Setup :=
  if env.sigaction_segv ≠ 0 then Setup.done (some ⟨interpret_handler, []⟩)
  else if timelimit.isSome ∧ env.sigaction_vtalrm ≠ 0 then
    Setup.done (some ⟨interpret_handler, []⟩)
  else if timelimit.isSome ∧ env.setitimer_ret ≠ 0 then
    Setup.done (some ⟨interpret_handler, []⟩)
  else if env.mprotect_exec = -1 then Setup.done none
  else Setup.run e instructions

/-- The part of `interpret` that resolves the loops and assembles the code. -/
def setupCode (env : Env) (program : List Char) (timelimit : Option Nat) (gcfp pcfp : Nat)
    (sc : ScanState) (L : Layout) : Setup :=
  match resolve sc.max_stack_size (condense program), env.buffer with
  | some instructions, some addr =>
    match generate (genEnvOf env L gcfp pcfp) addr sc.branch_count instructions with
    | none => Setup.done none
    | some _ => setupHandlers env timelimit (jitEnvOf env L gcfp pcfp) instructions
  | _, _ => Setup.done none

/-- The part of `interpret` that maps the tape, protects the guards and
allocates the scratch stack and the loop labels. -/
def setupTape (env : Env) (program : List Char) (timelimit : Option Nat) (gcfp pcfp : Nat)
    (sc : ScanState) (L : Layout) : Setup :=
  if env.mmap_tape = 0 then Setup.done (some ⟨interpret_mmap_error, []⟩)
  else if env.mprotect_reverse ≠ 0 then Setup.done (some ⟨interpret_guard_error, []⟩)
  else if env.mprotect_forward ≠ 0 then Setup.done (some ⟨interpret_guard_error, []⟩)
  else if env.malloc_stack = false then Setup.done (some ⟨interpret_malloc_error, []⟩)
  else if env.malloc_branches = false then Setup.done (some ⟨interpret_malloc_error, []⟩)
  else setupCode env program timelimit gcfp pcfp sc L

/-- The part of `interpret` before the run: page size, balance scan,
condensing, tape layout, then the parts above. -/
def setup (env : Env) (program : List Char) (max_data_size : Nat)
    (timelimit : Option Nat) (gcfp pcfp : Nat) : Setup :=
  if env.page_size_ ≤ 0 then Setup.done (some ⟨interpret_page_size, []⟩)
  else
    match balanceScan program with
    | none => Setup.done (some ⟨interpret_unbalanced, []⟩)
    | some sc =>
      if env.malloc_instructions = false then Setup.done (some ⟨interpret_malloc_error, []⟩)
      else
        match tapeLayout env.x64 (toSize env.x64 env.page_size_) max_data_size
            (condense program) with
        | none => Setup.done (some ⟨interpret_guard_error, []⟩)
        | some L => setupTape env program timelimit gcfp pcfp sc L

/-- The function `interpret` on a program, a tape size, an optional time limit,
the two callables and the input that the input callable delivers.  `none`: an
assertion fails or `interpret` does not return. -/
def interpret (env : Env) (program : List Char) (max_data_size : Nat)
    (timelimit : Option Nat) (gcfp pcfp : Nat) (input : List Nat) (fuel : Nat) :
    Option Outcome :=
  match setup env program max_data_size timelimit gcfp pcfp with
  | Setup.done r => r
  | Setup.run e instructions => runPhase env e instructions timelimit input fuel

/-- An environment in which every call succeeds: the 64-bit architecture,
pages of 4096 bytes, the tape mapped at `0x7f0000000000`, the code buffer at
`0x7e0000000000`, and an input callable that returns `EOF` with the upper half
of `rax` cleared (as `mov eax, -1` leaves it). -/
def env64 : Env :=
  { x64 := true, page_size_ := 4096, malloc_instructions := true,
    mmap_tape := 0x7f0000000000, mprotect_reverse := 0, mprotect_forward := 0,
    malloc_stack := true, malloc_branches := true, buffer := some 0x7e0000000000,
    mprotect_exec := 0, sigaction_segv := 0, sigaction_vtalrm := 0, setitimer_ret := 0,
    munmap_ret := 0, eof_rax := 0xFFFFFFFF }

/-- The same on the 32-bit architecture, the tape mapped at `0x40000000`. -/
def env32 : Env :=
  { x64 := false, page_size_ := 4096, malloc_instructions := true,
    mmap_tape := 0x40000000, mprotect_reverse := 0, mprotect_forward := 0,
    malloc_stack := true, malloc_branches := true, buffer := some 0x30000000,
    mprotect_exec := 0, sigaction_segv := 0, sigaction_vtalrm := 0, setitimer_ret := 0,
    munmap_ret := 0, eof_rax := 0xFFFFFFFF }

/-- Every call that `interpret` makes to the operating system and to the C
library succeeds. -/
structure Env.Succeeds (env : Env) : Prop where
  page_size_pos : 0 < env.page_size_
  malloc_instructions : env.malloc_instructions = true
  mmap_tape : env.mmap_tape ≠ 0
  mprotect_reverse : env.mprotect_reverse = 0
  mprotect_forward : env.mprotect_forward = 0
  malloc_stack : env.malloc_stack = true
  malloc_branches : env.malloc_branches = true
  buffer : env.buffer.isSome = true
  mprotect_exec : env.mprotect_exec ≠ -1
  sigaction_segv : env.sigaction_segv = 0
  sigaction_vtalrm : env.sigaction_vtalrm = 0
  setitimer_ret : env.setitimer_ret = 0
  munmap_ret : env.munmap_ret = 0

/-- The test program `+[>+]` of `main.c`. -/
def overflowProgram : List Char := ['+', '[', '>', '+', ']']

/-- The condensed and resolved entries of `+[>+]`. -/
def overflowCode : List instruction_t :=
  [⟨op_modify, 1, 0⟩, ⟨op_if, 0, 0⟩, ⟨op_right, 1, 0⟩, ⟨op_modify, 1, 0⟩, ⟨op_endif, 0, 0⟩]

/-- A program that moves right by 4096 cells three times, with a single step
to the left between the moves and no access to a cell before the final `+`. -/
def guardEscapeProgram : List Char :=
  List.replicate 4096 '>' ++ '<' :: (List.replicate 4096 '>' ++
    '<' :: (List.replicate 4096 '>' ++ ['+']))

/-- The condensed and resolved entries of `guardEscapeProgram`. -/
def guardEscapeCode : List instruction_t :=
  [⟨op_right, 4096, 0⟩, ⟨op_left, 1, 0⟩, ⟨op_right, 4096, 0⟩, ⟨op_left, 1, 0⟩,
   ⟨op_right, 4096, 0⟩, ⟨op_modify, 1, 0⟩]

/-! ## The conditional branches of a loop in the code buffer -/

/-- The `n` bytes of the buffer memory at address `a`. -/
def codeBytes (buf : Asm) (a n : Nat) : List Nat :=
  (List.range n).map (fun k => buf.mem (a + k))

/-- Modelled from the spec: in the finished buffer `fin` the conditional
branches assembled for the entries at the indices `i` (an `if`) and `j` (an
`endif`) target the address immediately after each other.  Each of the two
sequences starts where the assembly loop stands before its entry and takes
nine bytes: `cmp byte ptr [ebx], 0` (`80 3B 00`), the opcode `0F 84` (`je`) or
`0F 85` (`jne`), and the 32-bit displacement; the target of a branch is the
address after its displacement plus the displacement. -/
def BranchPair (env : GenEnv) (addr branch_count : Nat) (instructions : List instruction_t)
    (fin : Asm) (i j : Nat) : Prop :=
  ∃ si si' sj sj' : Asm × Nat,
    genPrefix env addr branch_count instructions i = some si ∧
    genPrefix env addr branch_count instructions (i + 1) = some si' ∧
    genPrefix env addr branch_count instructions j = some sj ∧
    genPrefix env addr branch_count instructions (j + 1) = some sj' ∧
    si'.1.buffer + si'.1.offset = si.1.buffer + si.1.offset + 9 ∧
    sj'.1.buffer + sj'.1.offset = sj.1.buffer + sj.1.offset + 9 ∧
    codeBytes fin (si.1.buffer + si.1.offset) 5 = [0x80, 0x3B, 0x00, 0x0F, 0x84] ∧
    codeBytes fin (sj.1.buffer + sj.1.offset) 5 = [0x80, 0x3B, 0x00, 0x0F, 0x85] ∧
    ((si.1.buffer + si.1.offset + 9 : Nat) : Int) +
        sread32 fin.mem (si.1.buffer + si.1.offset + 5) =
      ((sj.1.buffer + sj.1.offset + 9 : Nat) : Int) ∧
    ((sj.1.buffer + sj.1.offset + 9 : Nat) : Int) +
        sread32 fin.mem (sj.1.buffer + sj.1.offset + 5) =
      ((si.1.buffer + si.1.offset + 9 : Nat) : Int)

/-! ## A small buffer for the label mechanism -/

/-- A fresh buffer mapped at `0x1000` with one unbound label (index 0). -/
def labelDemo : Asm := (new_label (new_assembler_buffer 0x1000)).1

/-- The buffer after a displacement slot was emitted against the label. -/
def labelDemoSlot : Asm := (emit_source labelDemo 0).getD labelDemo

/-- The buffer after the label was bound behind the slot. -/
def labelDemoBound : Asm := (emit_push_label labelDemoSlot 0).getD labelDemoSlot

/-! ## Test programs of `main.c` -/

/-- The "Hello, World!" test program of `main.c`. -/
def helloProgram : List Char :=
  ("++++++++++[>+++++++>++++++++++>+++>+<<<<-]>++.>+.+++++++..+++.>++." ++
   "<<+++++++++++++++.>.+++.------.--------.>+.>.").toList

/-- The test program `+++[>++<-].>.` of `main.c`. -/
def doubleProgram : List Char := "+++[>++<-].>.".toList

/-- The text `Hello World!` followed by a line feed, as bytes. -/
def helloOutput : List Nat := "Hello World!\n".toList.map Char.toNat

/-! ## The emit operations as data

Statements about every emit operation quantify over the following
enumeration of the functions that `assembler.h` declares and `assembler.c`
defines (`emit_push_rint` is declared only).  `EmitOp.run` applies the
function that a constructor names. -/

/-- The emit operations of `assembler.c`, each with its arguments other than
the buffer. -/
inductive EmitOp where
  | add_rm8_imm8 (reg imm : Nat)
  | add_r_immz32 (reg imm : Nat)
  | and_r_immz32 (reg imm : Nat)
  | call (imm : Nat)
  | cmp_rm8_imm8 (reg imm : Nat)
  | cmp_r_immz32 (reg imm : Nat)
  | cmp_r_r (reg srcreg : Nat)
  | je (lab : Nat)
  | jle (lab : Nat)
  | jmp (lab : Nat)
  | jne (lab : Nat)
  | leave
  | mov_r8_rm8 (reg srcreg : Nat)
  | mov_rm8_r8 (reg srcreg : Nat)
  | mov_r_r (reg srcreg : Nat)
  | mov_r_immptr (reg imm : Nat)
  | mov_rm_rint (reg srcreg : Nat)
  | pop_r (reg : Nat)
  | push_r (reg : Nat)
  | push_label (lab : Nat)
  | ret
  | sub_r_immz32 (reg imm : Nat)
  | xor_r_r (reg srcreg : Nat)
deriving DecidableEq, Repr

/-- The call of an emit operation on a buffer. -/
def EmitOp.run (x64 : Bool) (buf : Asm) : EmitOp → Option Asm
  | EmitOp.add_rm8_imm8 reg imm => emit_add_rm8_imm8 buf reg imm
  | EmitOp.add_r_immz32 reg imm => emit_add_r_immz32 x64 buf reg imm
  | EmitOp.and_r_immz32 reg imm => emit_and_r_immz32 x64 buf reg imm
  | EmitOp.call imm => emit_call x64 buf imm
  | EmitOp.cmp_rm8_imm8 reg imm => emit_cmp_rm8_imm8 buf reg imm
  | EmitOp.cmp_r_immz32 reg imm => emit_cmp_r_immz32 x64 buf reg imm
  | EmitOp.cmp_r_r reg srcreg => emit_cmp_r_r x64 buf reg srcreg
  | EmitOp.je lab => emit_je buf lab
  | EmitOp.jle lab => emit_jle buf lab
  | EmitOp.jmp lab => emit_jmp buf lab
  | EmitOp.jne lab => emit_jne buf lab
  | EmitOp.leave => emit_leave buf
  | EmitOp.mov_r8_rm8 reg srcreg => emit_mov_r8_rm8 buf reg srcreg
  | EmitOp.mov_rm8_r8 reg srcreg => emit_mov_rm8_r8 buf reg srcreg
  | EmitOp.mov_r_r reg srcreg => emit_mov_r_r x64 buf reg srcreg
  | EmitOp.mov_r_immptr reg imm => emit_mov_r_immptr x64 buf reg imm
  | EmitOp.mov_rm_rint reg srcreg => emit_mov_rm_rint x64 buf reg srcreg
  | EmitOp.pop_r reg => emit_pop_r buf reg
  | EmitOp.push_r reg => emit_push_r buf reg
  | EmitOp.push_label lab => emit_push_label buf lab
  | EmitOp.ret => emit_ret buf
  | EmitOp.sub_r_immz32 reg imm => emit_sub_r_immz32 x64 buf reg imm
  | EmitOp.xor_r_r reg srcreg => emit_xor_r_r x64 buf reg srcreg

/-- The number of bytes for which the `check_space` assertions of an emit
operation ask: the argument of the single assertion; for `emit_call` the sum
of the assertion of `emit_mov_r_immptr` and of its own (`2`); for the jumps
the assertion made before the opcode (`emit_source` asserts the four bytes of
the displacement once more); nothing for `emit_push_label`, which has no such
assertion. -/
def EmitOp.space (x64 : Bool) : EmitOp → Nat
  | EmitOp.add_rm8_imm8 _ _ => 3
  | EmitOp.add_r_immz32 reg _ =>
    if reg = EAX then (if x64 then 2 else 1) + 4 else (if x64 then 3 else 2) + 4
  | EmitOp.and_r_immz32 reg _ =>
    if reg = EAX then (if x64 then 2 else 1) + 4 else (if x64 then 3 else 2) + 4
  | EmitOp.call _ => (if x64 then 2 else 1) + wordBytes x64 + 2
  | EmitOp.cmp_rm8_imm8 _ _ => 3
  | EmitOp.cmp_r_immz32 reg _ =>
    if reg = EAX then (if x64 then 2 else 1) + 4 else (if x64 then 3 else 2) + 4
  | EmitOp.cmp_r_r _ _ => if x64 then 3 else 2
  | EmitOp.je _ => 2 + 4
  | EmitOp.jle _ => 2 + 4
  | EmitOp.jmp _ => 1 + 4
  | EmitOp.jne _ => 2 + 4
  | EmitOp.leave => 1
  | EmitOp.mov_r8_rm8 _ _ => 2
  | EmitOp.mov_rm8_r8 _ _ => 2
  | EmitOp.mov_r_r _ _ => if x64 then 3 else 2
  | EmitOp.mov_r_immptr _ _ => (if x64 then 2 else 1) + wordBytes x64
  | EmitOp.mov_rm_rint reg _ =>
    if reg = ESP then (if x64 then 4 else 3) else (if x64 then 3 else 2)
  | EmitOp.pop_r _ => 1
  | EmitOp.push_r _ => 1
  | EmitOp.push_label _ => 0
  | EmitOp.ret => 1
  | EmitOp.sub_r_immz32 reg _ =>
    if reg = EAX then (if x64 then 2 else 1) + 4 else (if x64 then 3 else 2) + 4
  | EmitOp.xor_r_r _ _ => if x64 then 3 else 2

/-- The bytes between the offsets of two states of a buffer, read from the
later state: what the operations between the two states have appended. -/
def emitted (buf buf' : Asm) : List Nat :=
  codeBytes buf' (buf.buffer + buf.offset) (buf'.offset - buf.offset)

/-- Modelled from the spec: the emitters whose operand has pointer width
(add, sub, and, cmp of a register with a 32-bit immediate; cmp, mov and xor of
two registers; mov of a pointer-sized immediate into a register). -/
def EmitOp.pointerWidth : EmitOp → Bool
  | EmitOp.add_r_immz32 _ _ => true
  | EmitOp.sub_r_immz32 _ _ => true
  | EmitOp.and_r_immz32 _ _ => true
  | EmitOp.cmp_r_immz32 _ _ => true
  | EmitOp.cmp_r_r _ _ => true
  | EmitOp.mov_r_r _ _ => true
  | EmitOp.mov_r_immptr _ _ => true
  | EmitOp.xor_r_r _ _ => true
  | _ => false

/-- Modelled from the spec: the eight-bit emitters (add and cmp of a byte
through a register, byte load and byte store through a register) and the
conditional branches `je`, `jle`, `jne`. -/
def EmitOp.narrow : EmitOp → Bool
  | EmitOp.add_rm8_imm8 _ _ => true
  | EmitOp.cmp_rm8_imm8 _ _ => true
  | EmitOp.mov_r8_rm8 _ _ => true
  | EmitOp.mov_rm8_r8 _ _ => true
  | EmitOp.je _ => true
  | EmitOp.jle _ => true
  | EmitOp.jne _ => true
  | _ => false

/-! ## Decoding of register-register instructions -/

/-- Modelled from the spec: an instruction with two register operands, the
first being the destination (for `cmp`, the left operand). -/
structure RegInstr where
  opcode : Nat
  first : Nat
  second : Nat
deriving DecidableEq, Repr

/-- Modelled from the spec: the ModR/M rules of the instruction set for the
opcodes `0x8B` (`MOV r, r/m`), `0x39` (`CMP r/m, r`) and `0x31` (`XOR r/m, r`)
in register-direct mode (the two high bits of the ModR/M byte set): bits 5..3
are the `reg` field, bits 2..0 the `r/m` field; for `0x8B` the first operand
is `reg` and the second `r/m`, for `0x39` and `0x31` the first operand is
`r/m` and the second `reg`. -/
def decodeModRM (opcode modrm : Nat) : Option RegInstr :=
  if modrm / 64 = 3 then
    if opcode = 0x8B then some ⟨opcode, modrm / 8 % 8, modrm % 8⟩
    else if opcode = 0x39 ∨ opcode = 0x31 then some ⟨opcode, modrm % 8, modrm / 8 % 8⟩
    else none
  else none

/-- Modelled from the spec: decoding of one register-register instruction
from its bytes, with the REX.W byte `0x48` in front (which widens the operands
and leaves the register numbers as they are) or without it. -/
def decodeRegInstr : List Nat → Option RegInstr
  | [p, opcode, modrm] => if p = 0x48 then decodeModRM opcode modrm else none
  | [opcode, modrm] => decodeModRM opcode modrm
  | _ => none

/-! ## Finalization and destruction of the code buffer -/

/-- Access permission of the region of the code buffer as the operating
system holds it: read and write (after `mmap`), or read and execute (after a
successful `mprotect`). -/
inductive Prot where
  | rw
  | rx
deriving DecidableEq, Repr

/-- A code buffer together with the permission of its region. -/
structure Region where
  buf : Asm
  prot : Prot

/-- The region of a code buffer that has just been created. -/
def Region.fresh (buf : Asm) : Region := ⟨buf, Prot.rw⟩

/-- `finalize_assembler_buffer`; `mprotect_ret` is what `mprotect` answers if
it is called (`-1`: refused, the permission stays).  The result is the new
state and the returned pointer, `0` for `NULL`. -/
def finalize_assembler_buffer (r : Region) (mprotect_ret : Int) : Region × Nat :=
  if r.buf.finalized = false then
    if mprotect_ret = -1 then (⟨{ r.buf with finalized := true }, r.prot⟩, 0)
    else (⟨{ r.buf with finalized := true }, Prot.rx⟩, r.buf.buffer)
  else (r, r.buf.buffer)

/-- `delete_label`: the assertion `lab->resolved || lab->sources == NULL`. -/
def delete_label (l : label_t) : Option Unit :=
  if l.resolved = true ∨ l.sources = [] then some () else none

/-- The loop of `delete_assembler_buffer` over the list of the labels that the
buffer owns, `freed` being the labels already released.  The result is the
list of the released labels; `none` stands for a failed assertion
(`lab->sources == NULL`, or the one of `delete_label`) and for the release of
a label that has been released before. -/
def deleteLabels (heap : List label_t) : List Nat → List Nat → Option (List Nat)
  | [], freed => some freed
  | lab :: next, freed =>
    match heap[lab]? with
    | none => none
    | some l =>
      if lab ∈ freed then none
      else if l.sources = [] then
        match delete_label l with
        | none => none
        | some _ => deleteLabels heap next (lab :: freed)
      else none

/-- `delete_assembler_buffer` on a buffer that is not `NULL`. -/
def delete_assembler_buffer (buf : Asm) : Option (List Nat) :=
  deleteLabels buf.heap buf.labels []

/-! ## Resources of a call of `interpret` -/

/-- The resources that a call of `interpret` acquires: the array of condensed
instructions, the resolver stack and the branches array (`malloc`), the tape
(`mmap`) and the code buffer (`new_assembler_buffer`). -/
inductive Resource where
  | instructions
  | stack
  | branches
  | tape
  | buffer
deriving DecidableEq, Repr

/-- Acquisition of a resource, or a call that releases it (`free`, `munmap`,
`delete_assembler_buffer`). -/
inductive Event where
  | acquire (r : Resource)
  | release (r : Resource)
deriving DecidableEq, Repr

/-- The acquisitions and releases of `setupHandlers`, in the order of the
source: each failure return is preceded by `free(instructions)` and
`delete_assembler_buffer(buffer)`; after the run the buffer is deleted and the
tape unmapped. -/
def eventsHandlers (env : Env) (timelimit : Option Nat) : List Event :=
  if env.sigaction_segv ≠ 0 then
    [Event.release Resource.instructions, Event.release Resource.buffer]
  else if timelimit.isSome ∧ env.sigaction_vtalrm ≠ 0 then
    [Event.release Resource.instructions, Event.release Resource.buffer]
  else if timelimit.isSome ∧ env.setitimer_ret ≠ 0 then
    [Event.release Resource.instructions, Event.release Resource.buffer]
  else if env.mprotect_exec = -1 then []
  else [Event.release Resource.buffer, Event.release Resource.tape]

/-- The acquisitions and releases of `setupCode`: `free(stack)` after the
resolver loop, `new_assembler_buffer`, and after the assembly
`free(instructions)` and `free(branches)`. -/
def eventsCode (env : Env) (program : List Char) (timelimit : Option Nat) (gcfp pcfp : Nat)
    (sc : ScanState) (L : Layout) : List Event :=
  match resolve sc.max_stack_size (condense program), env.buffer with
  | some instructions, some addr =>
    Event.release Resource.stack :: Event.acquire Resource.buffer ::
      (match generate (genEnvOf env L gcfp pcfp) addr sc.branch_count instructions with
       | none => []
       | some _ =>
         Event.release Resource.instructions :: Event.release Resource.branches ::
           eventsHandlers env timelimit)
  | some _, none => [Event.release Resource.stack]
  | none, _ => []

/-- The acquisitions and releases of `setupTape`: each failure return is
preceded by `free(instructions)` and by nothing else. -/
def eventsTape (env : Env) (program : List Char) (timelimit : Option Nat) (gcfp pcfp : Nat)
    (sc : ScanState) (L : Layout) : List Event :=
  if env.mmap_tape = 0 then [Event.release Resource.instructions]
  else Event.acquire Resource.tape ::
    (if env.mprotect_reverse ≠ 0 then [Event.release Resource.instructions]
     else if env.mprotect_forward ≠ 0 then [Event.release Resource.instructions]
     else if env.malloc_stack = false then [Event.release Resource.instructions]
     else Event.acquire Resource.stack ::
       (if env.malloc_branches = false then [Event.release Resource.instructions]
        else Event.acquire Resource.branches ::
          eventsCode env program timelimit gcfp pcfp sc L))

/-- The acquisitions and releases of a call of `interpret`, in their order,
up to the return (or to the failed assertion). -/
def interpretEvents (env : Env) (program : List Char) (max_data_size : Nat)
    (timelimit : Option Nat) (gcfp pcfp : Nat) : List Event :=
  if env.page_size_ ≤ 0 then []
  else
    match balanceScan program with
    | none => []
    | some sc =>
      if env.malloc_instructions = false then []
      else Event.acquire Resource.instructions ::
        (match tapeLayout env.x64 (toSize env.x64 env.page_size_) max_data_size
            (condense program) with
         | none => [Event.release Resource.instructions]
         | some L => eventsTape env program timelimit gcfp pcfp sc L)

/-- Modelled from the spec: every resource that has been acquired has been
released exactly once. -/
def ReleasedOnce (evs : List Event) : Prop :=
  ∀ r : Resource, Event.acquire r ∈ evs → evs.count (Event.release r) = 1

/-- The value `MAP_FAILED`, `(void *) -1`, with which `mmap` reports a
failure. -/
def MAP_FAILED (x64 : Bool) : Nat := toSize x64 (-1)

/-- The environment `env64` with a failing `mmap` of the tape: `mmap` returns
`MAP_FAILED`, and `mprotect` refuses that address. -/
def envMapFailed : Env :=
  { env64 with mmap_tape := MAP_FAILED true, mprotect_reverse := -1, mprotect_forward := -1 }

/-- The environment `env64` with `mprotect` refusing the reverse guard. -/
def envGuardRefused : Env := { env64 with mprotect_reverse := -1 }

/-- The environment `env64` with `sigaction` refusing the handler of
`SIGSEGV`. -/
def envSigactionRefused : Env := { env64 with sigaction_segv := -1 }

/-- A program of eighty thousand `.`. -/
def putProgram : List Char := List.replicate 80000 '.'

/-- The program `,[<.,]`, which has a loop, a `get` before and one inside the
loop and a move to the left. -/
def echoProgram : List Char := [',', '[', '<', '.', ',', ']']

/-- The condensed and resolved entries of `,[<.,]`. -/
def echoCode : List instruction_t :=
  [⟨op_get, 0, 0⟩, ⟨op_if, 0, 0⟩, ⟨op_left, 1, 0⟩, ⟨op_put, 0, 0⟩, ⟨op_get, 0, 0⟩,
   ⟨op_endif, 0, 0⟩]

/-! ## Binding state of the labels (proof device) -/

/-- The `resolved` flags of the label objects, by label. -/
def Asm.flags (buf : Asm) : List Bool := buf.heap.map (fun l => l.resolved)

/-- The step from `buf` to `buf'` has appended `n` bytes inside the region and
has left alone the region's description, the binding state and the ownership
of the labels, and the bytes emitted before. -/
def Adv (buf buf' : Asm) (n : Nat) : Prop :=
  buf'.offset = buf.offset + n ∧ (0 < n → buf.offset + n < buf.buffer_size) ∧
  buf'.buffer_size = buf.buffer_size ∧ buf'.buffer = buf.buffer ∧
  buf'.finalized = buf.finalized ∧ buf'.flags = buf.flags ∧ buf'.labels = buf.labels ∧
  ∀ a, a < buf.buffer + buf.offset → buf'.mem a = buf.mem a

/-- The number of bytes that an emit operation appends when its assertions
pass: the bytes written by its calls of `emit_u8`, `emit_u32`, `emit_ptr` and
`emit_source`. -/
def EmitOp.size (x64 : Bool) : EmitOp → Nat
  | EmitOp.mov_rm_rint reg _ => if reg = ESP then 3 else 2
  | op => op.space x64

/-- The registers passed to an emit operation are below eight (the assertions
`reg < 8`, `srcreg < 8`). -/
def EmitOp.regsOK : EmitOp → Prop
  | EmitOp.add_rm8_imm8 reg _ => reg < 8
  | EmitOp.add_r_immz32 reg _ => reg < 8
  | EmitOp.and_r_immz32 reg _ => reg < 8
  | EmitOp.cmp_rm8_imm8 reg _ => reg < 8
  | EmitOp.cmp_r_immz32 reg _ => reg < 8
  | EmitOp.cmp_r_r reg srcreg => reg < 8 ∧ srcreg < 8
  | EmitOp.mov_r8_rm8 reg srcreg => reg < 8 ∧ srcreg < 8
  | EmitOp.mov_rm8_r8 reg srcreg => reg < 8 ∧ srcreg < 8
  | EmitOp.mov_r_r reg srcreg => reg < 8 ∧ srcreg < 8
  | EmitOp.mov_r_immptr reg _ => reg < 8
  | EmitOp.mov_rm_rint reg srcreg => reg < 8 ∧ srcreg < 8
  | EmitOp.pop_r reg => reg < 8
  | EmitOp.push_r reg => reg < 8
  | EmitOp.sub_r_immz32 reg _ => reg < 8
  | EmitOp.xor_r_r reg srcreg => reg < 8 ∧ srcreg < 8
  | _ => True

/-- The label passed to a jump exists (the assertion `lab`); the label passed
to `emit_push_label` exists and is not bound (the assertion
`!(lab->resolved)`).  `flags` are the `resolved` flags of the labels. -/
def EmitOp.labelOK (flags : List Bool) : EmitOp → Prop
  | EmitOp.je lab => lab < flags.length
  | EmitOp.jle lab => lab < flags.length
  | EmitOp.jmp lab => lab < flags.length
  | EmitOp.jne lab => lab < flags.length
  | EmitOp.push_label lab => flags[lab]? = some false
  | _ => True

/-- The buffer after `emit_mov_rm_rint(buf, ESP, EAX)` on a fresh buffer at
`0x1000`: the bytes `89 04 24`. -/
def rintDemo : Asm :=
  emit_u8 (emit_u8 (emit_u8 (new_assembler_buffer 0x1000) 0x89) 0x04) 0x24

/-- The first byte that an emit operation appends: the argument of its first
call of `emit_u8` (the REX.W byte where the operation emits it). -/
def EmitOp.firstByte (x64 : Bool) : EmitOp → Nat
  | EmitOp.add_rm8_imm8 _ _ => 0x80
  | EmitOp.add_r_immz32 reg _ => if x64 then 0x48 else if reg = EAX then 0x05 else 0x81
  | EmitOp.and_r_immz32 reg _ => if x64 then 0x48 else if reg = EAX then 0x25 else 0x81
  | EmitOp.call _ => if x64 then 0x48 else 0xB8
  | EmitOp.cmp_rm8_imm8 _ _ => 0x80
  | EmitOp.cmp_r_immz32 reg _ => if x64 then 0x48 else if reg = EAX then 0x3D else 0x81
  | EmitOp.cmp_r_r _ _ => if x64 then 0x48 else 0x39
  | EmitOp.je _ => 0x0F
  | EmitOp.jle _ => 0x0F
  | EmitOp.jmp _ => 0xE9
  | EmitOp.jne _ => 0x0F
  | EmitOp.leave => 0xC9
  | EmitOp.mov_r8_rm8 _ _ => 0x8A
  | EmitOp.mov_rm8_r8 _ _ => 0x88
  | EmitOp.mov_r_r _ _ => if x64 then 0x48 else 0x8B
  | EmitOp.mov_r_immptr reg _ => if x64 then 0x48 else 0xB8 + reg
  | EmitOp.mov_rm_rint _ _ => 0x89
  | EmitOp.pop_r reg => 0x58 + reg
  | EmitOp.push_r reg => 0x50 + reg
  | EmitOp.push_label _ => 0
  | EmitOp.ret => 0xC3
  | EmitOp.sub_r_immz32 reg _ => if x64 then 0x48 else if reg = EAX then 0x2D else 0x81
  | EmitOp.xor_r_r _ _ => if x64 then 0x48 else 0x31

/-- The buffer after `emit_xor_r_r(buf, EAX, EAX)` on a fresh buffer at
`0x1000` on the 64-bit architecture: the bytes `48 31 C0`. -/
def xorDemo : Asm :=
  emit_u8 (emit_u8 (emit_u8 (new_assembler_buffer 0x1000) 0x48) 0x31) 0xC0

/-- The buffer with its `finalized` flag set to `f`. -/
def Asm.setFinalized (buf : Asm) (f : Bool) : Asm := { buf with finalized := f }

/-- A fresh code buffer at `0x1000` after a call of
`finalize_assembler_buffer` in which `mprotect` refuses the change. -/
def refusedDemo : Region :=
  (finalize_assembler_buffer (Region.fresh (new_assembler_buffer 0x1000)) (-1)).1

/-! ## Labels during the assembly (proof device) -/

/-- The loop ordinals that the `endif` entries of a list carry in their
`branch` fields, in the order of the entries. -/
def closers (l : List instruction_t) : List Nat :=
  (l.filter (fun e => decide (e.op = op_endif))).map (fun e => e.branch)

/-- The number of labels that the assembly loop creates for a list of entries:
two for each `op_left` entry, one for each `op_get` entry. -/
def entryLabels (l : List instruction_t) : Nat :=
  2 * l.countP (fun e => decide (e.op = op_left)) + l.countP (fun e => decide (e.op = op_get))

/-- The labels of the loops, as `newBranches` creates them on a buffer
without labels: loop `j` has the labels `2 * j` (top) and `2 * j + 1` (end). -/
def loopLabels (B : Nat) : List (Nat × Nat) :=
  (List.range B).map (fun j => (2 * j, 2 * j + 1))

/-- Invariant of the assembly loop after the entries `pre`, for `B` loops: the
loop counter is the number of `if` entries seen; the labels are the `2 * B`
loop labels and those created for the entries; the top label of a loop is
bound exactly when its `if` has been assembled and its end label exactly when
its `endif` has been; every other label is bound. -/
def LInv (B : Nat) (pre : List instruction_t) (st : Asm × Nat) : Prop :=
  st.2 = ifCount pre ∧ st.1.flags.length = 2 * B + entryLabels pre ∧
  (∀ j, j < B → (st.1.flags[2 * j]? = some true ↔ j < ifCount pre)) ∧
  (∀ j, j < B → (st.1.flags[2 * j + 1]? = some true ↔ j ∈ closers pre)) ∧
  (∀ lab, 2 * B ≤ lab → lab < st.1.flags.length → st.1.flags[lab]? = some true)

/-- The buffer owns exactly the bound labels, each once. -/
def Owned (buf : Asm) : Prop :=
  buf.labels.Nodup ∧ ∀ lab, lab ∈ buf.labels ↔ buf.flags[lab]? = some true

/-- What the resolved entries of a balanced program are like: no entry has the
tag `op_invalid`, an `op_left` entry has a value other than zero, there are
`B` `if` entries, and the `branch` fields of the `endif` entries are the
ordinals `0 .. B - 1`, each once. -/
def GoodCode (B : Nat) (r : List instruction_t) : Prop :=
  (∀ x ∈ r, x.op ≠ op_invalid) ∧ (∀ x ∈ r, x.op = op_left → x.val ≠ 0) ∧
  ifCount r = B ∧ (closers r).Nodup ∧ ∀ j, j ∈ closers r ↔ j < B

/-- A sequence of emit operations, each applied to the result of the one
before. -/
def runOps (x64 : Bool) : List EmitOp → Asm → Option Asm
  | [], b => some b
  | op :: rest, b => (op.run x64 b).bind (runOps x64 rest)

/-- The `resolved` flags after an emit operation: `emit_push_label` sets the
flag of its label. -/
def flagsStep (fl : List Bool) (op : EmitOp) : List Bool :=
  match op with
  | EmitOp.push_label lab => fl.set lab true
  | _ => fl

/-- The label arguments of a sequence of emit operations are as the
assertions want them, each at its turn. -/
def labelsReady : List EmitOp → List Bool → Prop
  | [], _ => True
  | op :: rest, fl => op.labelOK fl ∧ labelsReady rest (flagsStep fl op)

/-- The number of bytes that a sequence of emit operations appends. -/
def opsSize (x64 : Bool) (ops : List EmitOp) : Nat := (ops.map (EmitOp.size x64)).sum

/-- The buffer with `n` more labels, created by `new_label`. -/
def addLabels : Nat → Asm → Asm
  | 0, b => b
  | n + 1, b => addLabels n (new_label b).1

/-- The emit operations of the clamp sequence of `op_left` with its two
labels. -/
def leftOps (env : GenEnv) (val : Int) (minlabel finlabel : Nat) : List EmitOp :=
  (if env.x64 = false then [EmitOp.cmp_r_immz32 ptrreg (min_value env val % 2 ^ 32)]
   else [EmitOp.mov_r_immptr EDI (min_value env val), EmitOp.cmp_r_r ptrreg EDI]) ++
  [EmitOp.jle minlabel, EmitOp.sub_r_immz32 ptrreg (low32 val), EmitOp.jmp finlabel,
   EmitOp.push_label minlabel, EmitOp.mov_r_immptr ptrreg env.tape_start,
   EmitOp.push_label finlabel]

/-- The emit operations of the sequence of `op_put`. -/
def putOps (env : GenEnv) : List EmitOp :=
  [EmitOp.xor_r_r EAX EAX, EmitOp.mov_r8_rm8 EAX ptrreg,
   if env.x64 = true then EmitOp.mov_r_r EDI EAX else EmitOp.mov_rm_rint ESP EAX,
   EmitOp.call env.pcfp]

/-- The emit operations of the sequence of `op_get` with its label. -/
def getOps (env : GenEnv) (eof_label : Nat) : List EmitOp :=
  [EmitOp.call env.gcfp, EmitOp.cmp_r_immz32 EAX 0xFFFFFFFF, EmitOp.jne eof_label,
   EmitOp.xor_r_r EAX EAX, EmitOp.push_label eof_label, EmitOp.mov_rm8_r8 ptrreg EAX]

/-- One iteration of the assembly loop as data: the number of labels it
creates, the emit operations it calls and the loop counter it leaves, for `L`
labels and the loop counter `k` before it.  `none`: the assertion on the entry
or on the branches array fails. -/
def stepPlan (env : GenEnv) (branches : List (Nat × Nat)) (L k : Nat) (i : instruction_t) :
    Option (Nat × List EmitOp × Nat) :=
  match i.op with
  | op_right =>
    some (0, if i.val = 0 then [] else [EmitOp.add_r_immz32 ptrreg (low32 i.val)], k)
  | op_left => some (if i.val = 0 then (0, [], k) else (2, leftOps env i.val L (L + 1), k))
  | op_modify =>
    some (0, if (i.val % 256).toNat = 0 then []
             else [EmitOp.add_rm8_imm8 ptrreg (i.val % 256).toNat], k)
  | op_put => some (0, putOps env, k)
  | op_get => some (1, getOps env L, k)
  | op_if =>
    (branches[k]?).map (fun br =>
      (0, [EmitOp.cmp_rm8_imm8 ptrreg 0, EmitOp.je br.2, EmitOp.push_label br.1], k + 1))
  | op_endif =>
    (branches[i.branch]?).map (fun br =>
      (0, [EmitOp.cmp_rm8_imm8 ptrreg 0, EmitOp.jne br.1, EmitOp.push_label br.2], k))
  | op_invalid => none

/-- The emit operations of the preamble. -/
def prologueOps (env : GenEnv) : List EmitOp :=
  [EmitOp.push_r EBP, EmitOp.mov_r_r EBP ESP, EmitOp.and_r_immz32 ESP 0xFFFFFFF0,
   EmitOp.push_r EBX, EmitOp.push_r EDI] ++
  (if stack_adjust env.x64 > 0 then [EmitOp.sub_r_immz32 ESP (stack_adjust env.x64)] else []) ++
  [EmitOp.mov_r_immptr ptrreg env.tape_start]

/-- The emit operations of the coda. -/
def epilogueOps (env : GenEnv) : List EmitOp :=
  (if stack_adjust env.x64 > 0 then [EmitOp.add_r_immz32 ESP (stack_adjust env.x64)] else []) ++
  [EmitOp.pop_r EDI, EmitOp.pop_r EBX, EmitOp.xor_r_r EAX EAX, EmitOp.leave, EmitOp.ret]

/-- The number of bytes of the sequence assembled for an entry. -/
def stepSize (x64 : Bool) (i : instruction_t) : Nat :=
  match i.op with
  | op_right => if i.val = 0 then 0 else if x64 then 7 else 6
  | op_left => if i.val = 0 then 0 else if x64 then 41 else 28
  | op_modify => if (i.val % 256).toNat = 0 then 0 else 3
  | op_put => if x64 then 20 else 14
  | op_get => if x64 then 29 else 22
  | op_if => 9
  | op_endif => 9
  | op_invalid => 0

/-- The number of bytes of the code assembled for a list of entries: the
preamble (23 bytes on the 64-bit architecture, 22 on the 32-bit one), the
sequences of the entries, the coda (7 bytes, or 12). -/
def codeSize (x64 : Bool) (r : List instruction_t) : Nat :=
  (if x64 then 23 else 22) + (r.map (stepSize x64)).sum + (if x64 then 7 else 12)

/-- The buffer with which the assembly loop starts (a fresh buffer when the
preamble fails an assertion). -/
def genStartBuf (env : GenEnv) (addr branch_count : Nat) : Asm :=
  match genStart env addr branch_count with
  | none => new_assembler_buffer addr
  | some st => st.1


/-! ## Neighbouring entries of the condensed list -/

/-- Two neighbouring entries that the condensing pass would have merged: they
carry the same tag, and it is one of `op_modify`, `op_right`, `op_left`. -/
def SameRun (a b : instruction_t) : Prop := a.op = b.op ∧ isRunOp a.op = true

/-! ## The condensing pass with its index checks -/

/-- The index `op` of the condensing pass: the entries written so far are
`instructions[0 .. op]`; before the first write `op` is `0`. -/
def opIndex (written : List instruction_t) : Nat := written.length - 1

/-- One iteration of the condensing pass with the check of its index.  Each of
the eight operator cases stores into `instructions[op]`, after
`op++; assert(op < op_count)` when it starts a new entry behind a written one.
`none`: that index is not below `op_count` (the assertion fails, or the store
is outside the allocated array). -/
def condenseStepChecked (op_count : Nat) (written : List instruction_t) (c : Char) :
    Option (List instruction_t) :=
  if isOperator c = true then
    if opIndex (condenseStep written c) < op_count then some (condenseStep written c)
    else none
  else some written

/-- The loop of the condensing pass with the check of its index. -/
def condenseLoopChecked (op_count : Nat) :
    List Char → List instruction_t → Option (List instruction_t)
  | [], written => some written
  | c :: cs, written =>
    (condenseStepChecked op_count written c).bind (condenseLoopChecked op_count cs)

/-- The counting pass followed by the condensing pass with its checks and the
final `assert(op_count == 0 || op == op_count - 1u)`; the result is the array
in index order. -/
def condenseChecked (program : List Char) : Option (List instruction_t) :=
  (condenseLoopChecked (op_count program) program []).bind (fun written =>
    if op_count program = 0 ∨ opIndex written = op_count program - 1 then some written.reverse
    else none)

/-! ## The resolver loop with the state it leaves -/

/-- The resolver loop over the remaining entries, with the state in which it
ends: the entries with their `branch` fields, the live part
`stack[0..stack_offset)` of the scratch stack (top first) and `branch_count`.
`none` stands for a failed assertion (`stack_offset <= max_stack_size` after a
push, `stack_offset > 0` before a pop). -/
def resolveRun (max_stack_size : Nat) :
    List instruction_t → List Nat → Nat → Option (List instruction_t × List Nat × Nat)
  | [], stack, branch_count => some ([], stack, branch_count)
  | i :: rest, stack, branch_count =>
    if i.op = op_if then
      if stack.length + 1 ≤ max_stack_size then
        (resolveRun max_stack_size rest (branch_count :: stack) (branch_count + 1)).map
          (fun r => (i :: r.1, r.2))
      else none
    else if i.op = op_endif then
      match stack with
      | [] => none
      | top :: below =>
        (resolveRun max_stack_size rest below branch_count).map
          (fun r => ({ i with branch := top } :: r.1, r.2))
    else
      (resolveRun max_stack_size rest stack branch_count).map (fun r => (i :: r.1, r.2))

/-! ## The boundaries of the user region in `handler` -/

/-- The local variable `user_start` of `handler`:
`tape + pages_reverse * page_size`. -/
def handler_user_start (x64 : Bool) (g : RunState) : Nat :=
  toSize x64 ((g.tape : Int) + toSize x64 ((g.pages_reverse : Int) * g.page_size))

/-- The local variable `user_end` of `handler`:
`tape + allocated - pages_forward * page_size`. -/
def handler_user_end (x64 : Bool) (g : RunState) : Nat :=
  toSize x64 ((g.tape : Int) + g.allocated -
    toSize x64 ((g.pages_forward : Int) * g.page_size))

/-! ## The bytes that the emit operations append -/

/-- The `n` low bytes of `v`, least significant first: what `emit_u32` and
`emit_ptr` store. -/
def leBytes (n v : Nat) : List Nat := (List.range n).map (fun k => v / 256 ^ k % 256)

/-- The byte appended by `emit_rexw`, if any. -/
def rexwCode (x64 : Bool) : List Nat := if x64 then [0x48] else []

/-- The bytes appended by the four emitters of the shape `emit_alu_r_immz32`
when their assertions pass. -/
def aluCode (opA modrm : Nat) (x64 : Bool) (reg imm : Nat) : List Nat :=
  if reg = EAX then rexwCode x64 ++ [opA % 256] ++ leBytes 4 imm
  else rexwCode x64 ++ [0x81, (modrm ||| reg) % 256] ++ leBytes 4 imm

/-- The bytes that an emit operation without a label argument appends when
its assertions pass: the arguments of its calls of `emit_u8`, `emit_u32` and
`emit_ptr`, in order.  `none` for the jumps and for `emit_push_label`. -/
def EmitOp.code (x64 : Bool) : EmitOp → Option (List Nat)
  | EmitOp.add_rm8_imm8 reg imm => some [0x80, reg % 256, imm % 256]
  | EmitOp.add_r_immz32 reg imm => some (aluCode 0x05 0xC0 x64 reg imm)
  | EmitOp.and_r_immz32 reg imm => some (aluCode 0x25 0xE0 x64 reg imm)
  | EmitOp.call imm =>
    some (rexwCode x64 ++ [(0xB8 + EAX) % 256] ++ leBytes (wordBytes x64) imm ++ [0xFF, 0xD0])
  | EmitOp.cmp_rm8_imm8 reg imm => some [0x80, (0x38 ||| reg) % 256, imm % 256]
  | EmitOp.cmp_r_immz32 reg imm => some (aluCode 0x3D 0xF8 x64 reg imm)
  | EmitOp.cmp_r_r reg srcreg =>
    some (rexwCode x64 ++ [0x39, (0xC0 ||| (srcreg <<< 3) ||| reg) % 256])
  | EmitOp.leave => some [0xC9]
  | EmitOp.mov_r8_rm8 reg srcreg => some [0x8A, ((reg <<< 3) ||| srcreg) % 256]
  | EmitOp.mov_rm8_r8 reg srcreg => some [0x88, ((srcreg <<< 3) ||| reg) % 256]
  | EmitOp.mov_r_r reg srcreg =>
    some (rexwCode x64 ++ [0x8B, (0xC0 ||| (reg <<< 3) ||| srcreg) % 256])
  | EmitOp.mov_r_immptr reg imm =>
    some (rexwCode x64 ++ [(0xB8 + reg) % 256] ++ leBytes (wordBytes x64) imm)
  | EmitOp.mov_rm_rint reg srcreg =>
    some ([0x89, ((srcreg <<< 3) ||| reg) % 256] ++ (if reg = ESP then [0x24] else []))
  | EmitOp.pop_r reg => some [(0x58 + reg) % 256]
  | EmitOp.push_r reg => some [(0x50 + reg) % 256]
  | EmitOp.ret => some [0xC3]
  | EmitOp.sub_r_immz32 reg imm => some (aluCode 0x2D 0xE8 x64 reg imm)
  | EmitOp.xor_r_r reg srcreg =>
    some (rexwCode x64 ++ [0x31, (0xC0 ||| (reg <<< 3) ||| srcreg) % 256])
  | _ => none

/-- The bytes that a sequence of emit operations without label arguments
appends. -/
def opsCode (x64 : Bool) : List EmitOp → List Nat
  | [] => []
  | op :: rest => (op.code x64).getD [] ++ opsCode x64 rest

/-! ## Instructions of the preamble and of the coda -/

/-- Modelled from the spec: the instructions that the preamble and the coda
consist of, with register operands by index. -/
inductive Insn where
  | push (r : Nat)
  | pop (r : Nat)
  | mov (dst src : Nat)
  | and_imm (r imm : Nat)
  | sub_imm (r imm : Nat)
  | add_imm (r imm : Nat)
  | mov_imm (r imm : Nat)
  | xor (dst src : Nat)
  | leave
  | ret
deriving DecidableEq, Repr

/-- Modelled from the spec: an encoding of an instruction at the operand
width of the architecture (with the `REX.W` prefix on the 64-bit one):
`50+r` push, `58+r` pop, `8B /r` mov (`reg` field destination), `81 /4 id`
and, `81 /5 id` sub, `81 /0 id` add, `B8+r` mov with an immediate of pointer
size, `31 /r` xor (`r/m` field destination), `C9` leave, `C3` ret. -/
def Insn.encode (x64 : Bool) : Insn → List Nat
  | Insn.push r => [0x50 + r]
  | Insn.pop r => [0x58 + r]
  | Insn.mov dst src => rexwCode x64 ++ [0x8B, 0xC0 + 8 * dst + src]
  | Insn.and_imm r imm => rexwCode x64 ++ [0x81, 0xE0 + r] ++ leBytes 4 imm
  | Insn.sub_imm r imm => rexwCode x64 ++ [0x81, 0xE8 + r] ++ leBytes 4 imm
  | Insn.add_imm r imm => rexwCode x64 ++ [0x81, 0xC0 + r] ++ leBytes 4 imm
  | Insn.mov_imm r imm => rexwCode x64 ++ [0xB8 + r] ++ leBytes (wordBytes x64) imm
  | Insn.xor dst src => rexwCode x64 ++ [0x31, 0xC0 + 8 * src + dst]
  | Insn.leave => [0xC9]
  | Insn.ret => [0xC3]

/-- Modelled from the spec: the encoding of a sequence of instructions. -/
def encodeAll (x64 : Bool) : List Insn → List Nat
  | [] => []
  | i :: rest => i.encode x64 ++ encodeAll x64 rest

/-- Modelled from the spec: the instruction that undoes the effect of an
instruction on the stack pointer: a pop for a push, an addition for a
subtraction. -/
def Insn.undo : Insn → Insn
  | Insn.push r => Insn.pop r
  | Insn.sub_imm r imm => Insn.add_imm r imm
  | i => i

/-- Modelled from the spec: the number of bytes by which an instruction
lowers the stack pointer. -/
def Insn.lowers (x64 : Bool) : Insn → Nat
  | Insn.push _ => wordBytes x64
  | Insn.sub_imm r imm => if r = ESP then imm else 0
  | _ => 0

/-- Modelled from the spec: what the preamble does after the alignment of the
stack pointer and before it loads the pointer register: push `P` (`EBX`), push
the second scratch register (`EDI`), and subtract `16 - 2 * word_size` from
the stack pointer when that is not zero. -/
def savedInsns (x64 : Bool) : List Insn :=
  [Insn.push EBX, Insn.push EDI] ++
    (if 16 - 2 * wordBytes x64 = 0 then [] else [Insn.sub_imm ESP (16 - 2 * wordBytes x64)])

/-- Modelled from the spec: the instruction sequence of the preamble. -/
def prologueInsns (x64 : Bool) (tape_start : Nat) : List Insn :=
  [Insn.push EBP, Insn.mov EBP ESP, Insn.and_imm ESP 0xFFFFFFF0] ++ savedInsns x64 ++
    [Insn.mov_imm EBX tape_start]

/-- Modelled from the spec: the instruction sequence of the coda: the
instructions of `savedInsns` undone in reverse order, the return register
zeroed, `leave`, `ret`. -/
def epilogueInsns (x64 : Bool) : List Insn :=
  (savedInsns x64).reverse.map Insn.undo ++ [Insn.xor EAX EAX, Insn.leave, Insn.ret]

/-- Whether an emit operation assembles an instruction that changes the stack
pointer other than by the call itself: a push, a pop, `leave`, `ret`, or an
operation with `ESP` as a register that it writes (`emit_xor_r_r` writes the
register passed as `srcreg`). -/
def EmitOp.movesStack : EmitOp → Bool
  | EmitOp.push_r _ => true
  | EmitOp.pop_r _ => true
  | EmitOp.leave => true
  | EmitOp.ret => true
  | EmitOp.add_r_immz32 reg _ => decide (reg = ESP)
  | EmitOp.and_r_immz32 reg _ => decide (reg = ESP)
  | EmitOp.sub_r_immz32 reg _ => decide (reg = ESP)
  | EmitOp.mov_r_r reg _ => decide (reg = ESP)
  | EmitOp.mov_r_immptr reg _ => decide (reg = ESP)
  | EmitOp.mov_r8_rm8 reg _ => decide (reg = ESP)
  | EmitOp.xor_r_r reg srcreg => decide (reg = ESP) || decide (srcreg = ESP)
  | _ => false

/-- The finished code of the program `,[<.,]` on the 64-bit architecture with
the tape at `0x7f0000000000` and the code buffer at `0x7e0000000000` (a fresh
buffer if the assembly failed). -/
def echoFin : Asm :=
  (generate ⟨true, 0x7f0000000000, 1, 2⟩ 0x7e0000000000 1 echoCode).getD
    (new_assembler_buffer 0x7e0000000000)

/-! ## Long moves -/

/-- A program of `2 ^ 31` characters `>` followed by `+`. -/
def farRightProgram : List Char := List.replicate (2147483647 + 1) '>' ++ ['+']

/-- The condensed and resolved entries of `farRightProgram`. -/
def farRightCode : List instruction_t := [⟨op_right, 2147483648, 0⟩, ⟨op_modify, 1, 0⟩]

/-- The environment `env32` with the tape mapped at `0x7FFFE000`, two pages
below the address `2 ^ 31`. -/
def env32Straddle : Env := { env32 with mmap_tape := 0x7FFFE000 }

/-- A program of 4096 characters `<` followed by `+`. -/
def pageLeftProgram : List Char := List.replicate (4095 + 1) '<' ++ ['+']

/-- The condensed and resolved entries of `pageLeftProgram`. -/
def pageLeftCode : List instruction_t := [⟨op_left, 4096, 0⟩, ⟨op_modify, 1, 0⟩]

/-! ## Emit operations on a region with its permission

The emit operations store through `buf->buffer`.  A store into a region that
the operating system holds read+execute raises `SIGSEGV` at the store, before
the statement that advances `offset`. -/

/-- How a call of an emit operation on a region ends: it returns; one of its
assertions fails; or a store into the region raises `SIGSEGV`, the state being
the one at that store. -/
inductive EmitResult where
  | returned (r : Region)
  | aborted
  | faulted (r : Region)

/-- The state that a call leaves: the one it returns with or the one at the
faulting store; none after a failed assertion. -/
def EmitResult.state : EmitResult → Option Region
  | EmitResult.returned r => some r
  | EmitResult.aborted => none
  | EmitResult.faulted r => some r

/-- Whether the call returns. -/
def EmitResult.isReturned : EmitResult → Bool
  | EmitResult.returned _ => true
  | _ => false

/-- Whether the call ends at a faulting store. -/
def EmitResult.isFaulted : EmitResult → Bool
  | EmitResult.faulted _ => true
  | _ => false

/-- The result with the buffer of its state changed by `g`. -/
def EmitResult.mapBuf (g : Asm → Asm) : EmitResult → EmitResult
  | EmitResult.returned r => EmitResult.returned ⟨g r.buf, r.prot⟩
  | EmitResult.aborted => EmitResult.aborted
  | EmitResult.faulted r => EmitResult.faulted ⟨g r.buf, r.prot⟩

/-- The assertions that an emit operation makes before its first store: those
on its registers, in `emit_jcc` the one on its label (`assert(lab)`), and its
first `check_space` (for `emit_call` the one of `emit_mov_r_immptr`;
`emit_jmp` asserts nothing on its label before it stores the opcode).
`emit_push_label` makes no store through `emit_u8`; its case is not used. -/
def EmitOp.entryAsserts (x64 : Bool) (buf : Asm) : EmitOp → Bool
  | EmitOp.add_rm8_imm8 reg _ => decide (reg < 8) && check_space buf 3
  | EmitOp.add_r_immz32 reg _ =>
    decide (reg < 8) && check_space buf
      (if reg = EAX then (if x64 then 2 else 1) + 4 else (if x64 then 3 else 2) + 4)
  | EmitOp.and_r_immz32 reg _ =>
    decide (reg < 8) && check_space buf
      (if reg = EAX then (if x64 then 2 else 1) + 4 else (if x64 then 3 else 2) + 4)
  | EmitOp.call _ => check_space buf ((if x64 then 2 else 1) + wordBytes x64)
  | EmitOp.cmp_rm8_imm8 reg _ => decide (reg < 8) && check_space buf 3
  | EmitOp.cmp_r_immz32 reg _ =>
    decide (reg < 8) && check_space buf
      (if reg = EAX then (if x64 then 2 else 1) + 4 else (if x64 then 3 else 2) + 4)
  | EmitOp.cmp_r_r reg srcreg =>
    decide (reg < 8) && decide (srcreg < 8) && check_space buf (if x64 then 3 else 2)
  | EmitOp.je lab => (buf.heap[lab]?).isSome && check_space buf (2 + 4)
  | EmitOp.jle lab => (buf.heap[lab]?).isSome && check_space buf (2 + 4)
  | EmitOp.jmp _ => check_space buf (1 + 4)
  | EmitOp.jne lab => (buf.heap[lab]?).isSome && check_space buf (2 + 4)
  | EmitOp.leave => check_space buf 1
  | EmitOp.mov_r8_rm8 reg srcreg =>
    decide (reg < 8) && decide (srcreg < 8) && check_space buf 2
  | EmitOp.mov_rm8_r8 reg srcreg =>
    decide (reg < 8) && decide (srcreg < 8) && check_space buf 2
  | EmitOp.mov_r_r reg srcreg =>
    decide (reg < 8) && decide (srcreg < 8) && check_space buf (if x64 then 3 else 2)
  | EmitOp.mov_r_immptr reg _ =>
    decide (reg < 8) && check_space buf ((if x64 then 2 else 1) + wordBytes x64)
  | EmitOp.mov_rm_rint reg srcreg =>
    decide (reg < 8) && decide (srcreg < 8) && check_space buf
      (if reg = ESP then (if x64 then 4 else 3) else (if x64 then 3 else 2))
  | EmitOp.pop_r reg => decide (reg < 8) && check_space buf 1
  | EmitOp.push_r reg => decide (reg < 8) && check_space buf 1
  | EmitOp.push_label _ => true
  | EmitOp.ret => check_space buf 1
  | EmitOp.sub_r_immz32 reg _ =>
    decide (reg < 8) && check_space buf
      (if reg = EAX then (if x64 then 2 else 1) + 4 else (if x64 then 3 else 2) + 4)
  | EmitOp.xor_r_r reg srcreg =>
    decide (reg < 8) && decide (srcreg < 8) && check_space buf (if x64 then 3 else 2)

/-- Whether the four bytes of the slot at `src` meet the region of the buffer,
`buffer_size` bytes from `buffer`. -/
def Asm.slotInRegion (buf : Asm) (src : Nat) : Bool :=
  decide (src < buf.buffer + buf.buffer_size) && decide (buf.buffer < src + 4)

/-- The patch loop of `emit_push_label` on a region that is read+execute,
`mem` being the memory after the slots patched so far: a slot is popped, then
the displacement is stored to it.  The store to a slot that meets the region
faults; the store to a slot elsewhere is done as in `patchSources`.  When no
slot is left the label is handed over to the buffer and the call returns. -/
def patchProtected (r : Region) (lab dest : Nat) : List Nat → (Nat → Nat) → EmitResult
  | [], mem =>
    EmitResult.returned
      ⟨{ setLabel r.buf lab { resolved := true, ptr := dest, sources := [] } with
           mem := mem, labels := lab :: r.buf.labels }, r.prot⟩
  | src :: rest, mem =>
    if r.buf.slotInRegion src = true then
      EmitResult.faulted
        ⟨{ setLabel r.buf lab { resolved := true, ptr := dest, sources := rest } with
             mem := mem }, r.prot⟩
    else
      patchProtected r lab dest rest
        (writeLE mem src 4 (toU32 ((dest : Int) - ((src + 4 : Nat) : Int))))

/-- `emit_push_label` on a region that is read+execute: after its assertions it
binds the label at the current offset and runs the patch loop. -/
def pushLabelProtected (r : Region) (lab : Nat) : EmitResult :=
  match r.buf.heap[lab]? with
  | none => EmitResult.aborted
  | some l =>
    if l.resolved then EmitResult.aborted
    else patchProtected r lab (r.buf.buffer + r.buf.offset) l.sources r.buf.mem

/-- The call of an emit operation on a region.  On a writable region it is
`EmitOp.run`.  On a region that is read+execute the first store into the
region faults: for every operation but `emit_push_label` that is the first
`emit_u8` after the assertions (at `buffer + offset`, which `check_space` has
found inside the region), with the buffer as the call found it. -/
def Region.emit (x64 : Bool) (r : Region) (op : EmitOp) : EmitResult :=
  match r.prot with
  | Prot.rw =>
    match op.run x64 r.buf with
    | none => EmitResult.aborted
    | some b => EmitResult.returned ⟨b, Prot.rw⟩
  | Prot.rx =>
    match op with
    | EmitOp.push_label lab => pushLabelProtected r lab
    | op => if op.entryAsserts x64 r.buf = true then EmitResult.faulted r else EmitResult.aborted

/-- A fresh code buffer at `0x1000` after a call of
`finalize_assembler_buffer` in which `mprotect` succeeds. -/
def finalizedDemo : Region :=
  (finalize_assembler_buffer (Region.fresh (new_assembler_buffer 0x1000)) 0).1

/-- A fresh code buffer at `0x1000` to which `emit_jmp` to a label not yet
bound has been emitted (the pending slot is at `0x1001`), after a call of
`finalize_assembler_buffer` in which `mprotect` succeeds. -/
def pendingDemo : Region :=
  match emit_jmp (new_label (new_assembler_buffer 0x1000)).1
      (new_label (new_assembler_buffer 0x1000)).2 with
  | some b => (finalize_assembler_buffer (Region.fresh b) 0).1
  | none => Region.fresh (new_assembler_buffer 0x1000)

/-! ## The condensing pass, right to left -/

theorem glueHead_consRun_new (o : op_t) (d : Int) (ho : isRunOp o = true)
    (ys : List instruction_t) :
    glueHead ⟨o, 0 + d, 0⟩ ys = consRun o d ys := by
  cases ys with
  | nil => simp [glueHead, consRun]
  | cons i r =>
    by_cases h : i.op = o
    · simp [glueHead, consRun, h, ho]
    · simp [glueHead, consRun, h]

theorem glueHead_single (e : instruction_t) (he : isRunOp e.op = false)
    (ys : List instruction_t) : glueHead e ys = e :: ys := by
  cases ys with
  | nil => rfl
  | cons i r => simp [glueHead, he]

theorem glueHead_consRun_same (e : instruction_t) (d : Int)
    (ho : isRunOp e.op = true) (ys : List instruction_t) :
    glueHead { e with val := e.val + d } ys = glueHead e (consRun e.op d ys) := by
  cases ys with
  | nil => simp [glueHead, consRun, ho]
  | cons i r =>
    by_cases h : i.op = e.op
    · simp [glueHead, consRun, h, ho, add_assoc]
    · simp [glueHead, consRun, h, ho]

theorem glueHead_consRun_other (e : instruction_t) (o : op_t) (d : Int)
    (h : e.op ≠ o) (ys : List instruction_t) :
    glueHead e (consRun o d ys) = e :: consRun o d ys := by
  cases ys with
  | nil => simp [glueHead, consRun, Ne.symm h]
  | cons i r =>
    by_cases hi : i.op = o
    · simp [glueHead, consRun, hi, Ne.symm h]
    · simp [glueHead, consRun, hi, Ne.symm h]

theorem glueHead_cons_other (e i : instruction_t) (h : isRunOp i.op = false)
    (ys : List instruction_t) : glueHead e (i :: ys) = e :: i :: ys := by
  by_cases he : i.op = e.op
  · have : isRunOp e.op = false := he ▸ h
    simp [glueHead, this]
  · simp [glueHead, he]

theorem last_op_cons (e : instruction_t) (r : List instruction_t) :
    last_op (e :: r) = e.op := rfl

/-- Loop invariant of the condensing pass: the entries written so far, joined
with the right-to-left condensation of the text that remains. -/
theorem foldl_condenseStep (cs : List Char) :
    ∀ (e : instruction_t) (r : List instruction_t), e.op ≠ op_invalid →
      (cs.foldl condenseStep (e :: r)).reverse = r.reverse ++ glueHead e (condSpec cs) := by
  induction cs with
  | nil => intro e r _; simp [condSpec, glueHead]
  | cons c cs ih =>
    intro e r he
    have run : ∀ (o : op_t) (d : Int), isRunOp o = true → o ≠ op_invalid →
        ((cs.foldl condenseStep (condenseRun (e :: r) o d)).reverse
          = r.reverse ++ glueHead e (consRun o d (condSpec cs))) := by
      intro o d ho hoi
      by_cases heo : e.op = o
      · subst heo
        have h1 : condenseRun (e :: r) e.op d = { e with val := e.val + d } :: r := by
          unfold condenseRun
          rw [last_op_cons, if_neg he, if_neg (by simp)]
          rfl
        rw [h1, ih _ _ (by simpa using he), glueHead_consRun_same e d ho]
      · have h1 : condenseRun (e :: r) o d = ⟨o, 0 + d, 0⟩ :: e :: r := by
          unfold condenseRun
          rw [last_op_cons, if_neg he, if_pos heo]
          rfl
        rw [h1, ih _ _ (by simpa using hoi), glueHead_consRun_new o d ho,
          glueHead_consRun_other e o d heo]
        simp
    have single : ∀ (o : op_t), isRunOp o = false → o ≠ op_invalid →
        ((cs.foldl condenseStep (condenseSingle (e :: r) o)).reverse
          = r.reverse ++ glueHead e (⟨o, 0, 0⟩ :: condSpec cs)) := by
      intro o ho hoi
      have h1 : condenseSingle (e :: r) o = ⟨o, 0, 0⟩ :: e :: r := by
        unfold condenseSingle
        rw [last_op_cons, if_pos he]
      rw [h1, ih _ _ (by simpa using hoi), glueHead_single _ (by simpa using ho),
        glueHead_cons_other e ⟨o, 0, 0⟩ (by simpa using ho)]
      simp
    simp only [List.foldl_cons, condenseStep, condSpec, addChar]
    split_ifs
    · exact run _ _ rfl (by decide)
    · exact run _ _ rfl (by decide)
    · exact run _ _ rfl (by decide)
    · exact run _ _ rfl (by decide)
    · exact single _ rfl (by decide)
    · exact single _ rfl (by decide)
    · exact single _ rfl (by decide)
    · exact single _ rfl (by decide)
    · exact ih e r he

/-- The condensing pass computes the right-to-left condensation. -/
theorem condense_eq_condSpec (p : List Char) : condense p = condSpec p := by
  unfold condense
  induction p with
  | nil => rfl
  | cons c cs ih =>
    have run : ∀ (o : op_t) (d : Int), isRunOp o = true → o ≠ op_invalid →
        (cs.foldl condenseStep (condenseRun [] o d)).reverse = consRun o d (condSpec cs) := by
      intro o d ho hoi
      have h1 : condenseRun [] o d = [⟨o, 0 + d, 0⟩] := by
        simp [condenseRun, last_op, overwrite, bumpLast]
      rw [h1, foldl_condenseStep cs _ _ (by simpa using hoi), glueHead_consRun_new o d ho]
      simp
    have single : ∀ (o : op_t), isRunOp o = false → o ≠ op_invalid →
        (cs.foldl condenseStep (condenseSingle [] o)).reverse = ⟨o, 0, 0⟩ :: condSpec cs := by
      intro o ho hoi
      have h1 : condenseSingle [] o = [⟨o, 0, 0⟩] := by
        simp [condenseSingle, last_op, overwrite]
      rw [h1, foldl_condenseStep cs _ _ (by simpa using hoi), glueHead_single _ (by simpa using ho)]
      simp
    simp only [List.foldl_cons, condenseStep, condSpec, addChar]
    split_ifs
    · exact run _ _ rfl (by decide)
    · exact run _ _ rfl (by decide)
    · exact run _ _ rfl (by decide)
    · exact run _ _ rfl (by decide)
    · exact single _ rfl (by decide)
    · exact single _ rfl (by decide)
    · exact single _ rfl (by decide)
    · exact single _ rfl (by decide)
    · exact ih

/-! ## Ignored characters and splitting the condensed list -/

theorem next_op_invalid_iff (c : Char) : next_op c = op_invalid ↔ isOperator c = false := by
  unfold next_op isOperator
  split_ifs <;> simp_all

theorem addChar_ignored (c : Char) (ys : List instruction_t) (h : isOperator c = false) :
    addChar c ys = ys := by
  simp only [isOperator, Bool.or_eq_false_iff, decide_eq_false_iff_not] at h
  obtain ⟨⟨⟨⟨⟨⟨⟨h1, h2⟩, h3⟩, h4⟩, h5⟩, h6⟩, h7⟩, h8⟩ := h
  simp [addChar, h1, h2, h3, h4, h5, h6, h7, h8]

theorem condSpec_cons (c : Char) (cs : List Char) :
    condSpec (c :: cs) = addChar c (condSpec cs) := rfl

theorem condSpec_cons_ignored (c : Char) (cs : List Char) (h : isOperator c = false) :
    condSpec (c :: cs) = condSpec cs := by
  rw [condSpec_cons, addChar_ignored c _ h]

theorem condSpec_filter (p : List Char) : condSpec (p.filter isOperator) = condSpec p := by
  induction p with
  | nil => rfl
  | cons c cs ih =>
    by_cases h : isOperator c = true
    · rw [List.filter_cons_of_pos h, condSpec_cons, condSpec_cons, ih]
    · have h' : isOperator c = false := by simpa using h
      rw [List.filter_cons_of_neg h, ih, condSpec_cons_ignored c cs h']

theorem condSpec_eq_nil_of_filter (p : List Char) (h : p.filter isOperator = []) :
    condSpec p = [] := by
  rw [← condSpec_filter, h]; rfl

theorem head_consRun (o : op_t) (d : Int) (ys : List instruction_t) :
    ∃ v r, consRun o d ys = ⟨o, v, 0⟩ :: r := by
  cases ys with
  | nil => exact ⟨d, [], rfl⟩
  | cons i r =>
    by_cases h : i.op = o
    · exact ⟨d + i.val, r, by simp [consRun, h]⟩
    · exact ⟨d, i :: r, by simp [consRun, h]⟩

/-- An operator character put in front of a condensed text shows its tag in the
first entry. -/
theorem addChar_head (c : Char) (ys : List instruction_t) (h : isOperator c = true) :
    ∃ v r, addChar c ys = ⟨next_op c, v, 0⟩ :: r := by
  unfold addChar next_op
  split_ifs
  · exact head_consRun _ _ _
  · exact head_consRun _ _ _
  · exact head_consRun _ _ _
  · exact head_consRun _ _ _
  · exact ⟨0, ys, rfl⟩
  · exact ⟨0, ys, rfl⟩
  · exact ⟨0, ys, rfl⟩
  · exact ⟨0, ys, rfl⟩
  · exfalso
    have := (next_op_invalid_iff c).1 (by simp [next_op, *])
    simp [this] at h

/-- The first entry of the condensed list carries the tag of the first
operator character. -/
theorem condSpec_head (p : List Char) :
    (condSpec p).head?.map instruction_t.op = (firstOperator p).map next_op := by
  unfold firstOperator
  induction p with
  | nil => rfl
  | cons c cs ih =>
    by_cases h : isOperator c = true
    · rw [List.filter_cons_of_pos h, condSpec_cons]
      obtain ⟨v, r, e⟩ := addChar_head c (condSpec cs) h
      rw [e]; rfl
    · have h' : isOperator c = false := by simpa using h
      rw [List.filter_cons_of_neg h, condSpec_cons_ignored c cs h', ih]

theorem consRun_append (o : op_t) (d : Int) (xs ys : List instruction_t)
    (h : xs ≠ [] ∨ ys.head?.map instruction_t.op ≠ some o) :
    consRun o d (xs ++ ys) = consRun o d xs ++ ys := by
  cases xs with
  | cons x r =>
    by_cases hx : x.op = o <;> simp [consRun, hx]
  | nil =>
    cases ys with
    | nil => rfl
    | cons y r =>
      have hy : y.op ≠ o := by simpa using h
      simp [consRun, hy]

theorem addChar_append (c : Char) (xs ys : List instruction_t)
    (h : xs ≠ [] ∨ isRunOp (next_op c) = false ∨
      ys.head?.map instruction_t.op ≠ some (next_op c)) :
    addChar c (xs ++ ys) = addChar c xs ++ ys := by
  have key : ∀ (o : op_t) (d : Int), isRunOp o = true → next_op c = o →
      consRun o d (xs ++ ys) = consRun o d xs ++ ys := by
    intro o d ho hc
    apply consRun_append
    rcases h with h | h | h
    · exact Or.inl h
    · rw [hc, ho] at h; exact absurd h (by simp)
    · rw [hc] at h; exact Or.inr h
  unfold addChar
  split_ifs with h1 h2 h3 h4
  · exact key op_modify 1 rfl (by simp [next_op, h1])
  · exact key op_modify (-1) rfl (by simp [next_op, h1, h2])
  · exact key op_right 1 rfl (by simp [next_op, h1, h2, h3])
  · exact key op_left 1 rfl (by simp [next_op, h1, h2, h3, h4])
  all_goals rfl

/-- The condensed list of a concatenation is the concatenation of the condensed
lists as soon as the operator characters on the two sides of the cut do not
belong to one run. -/
theorem condSpec_append (a b : List Char)
    (h : (lastOperator a).map next_op ≠ (firstOperator b).map next_op ∨
      ∀ c, firstOperator b = some c → isRunOp (next_op c) = false) :
    condSpec (a ++ b) = condSpec a ++ condSpec b := by
  induction a with
  | nil => rfl
  | cons x a ih =>
    by_cases hx : isOperator x = true
    · by_cases ha : a.filter isOperator = []
      · -- the character `x` is the last operator of the left part
        have hnil : condSpec a = [] := condSpec_eq_nil_of_filter a ha
        have hab : condSpec (a ++ b) = condSpec b := by
          rw [← condSpec_filter, List.filter_append, ha, List.nil_append, condSpec_filter]
        have hlast : lastOperator (x :: a) = some x := by
          simp [lastOperator, List.filter_cons_of_pos hx, ha]
        rw [List.cons_append, condSpec_cons, condSpec_cons, hab, hnil]
        apply addChar_append x [] (condSpec b)
        by_cases hr : isRunOp (next_op x) = false
        · exact Or.inr (Or.inl hr)
        · refine Or.inr (Or.inr ?_)
          intro hb
          rw [condSpec_head] at hb
          rcases h with h | h
          · rw [hlast] at h
            exact h (by rw [hb]; rfl)
          · cases hf : firstOperator b with
            | none => simp [hf] at hb
            | some c =>
              have h2 := h c hf
              rw [hf] at hb
              simp only [Option.map_some', Option.some.injEq] at hb
              rw [hb] at h2
              exact hr h2
      · have hlast : lastOperator (x :: a) = lastOperator a := by
          unfold lastOperator
          rw [List.filter_cons_of_pos hx]
          cases hf : a.filter isOperator with
          | nil => exact absurd hf ha
          | cons y r => simp [List.getLast?_cons_cons]
        have hne : condSpec a ≠ [] := by
          intro hc
          have h3 := condSpec_head a
          rw [hc] at h3
          unfold firstOperator at h3
          cases hf : a.filter isOperator with
          | nil => exact ha hf
          | cons y r => rw [hf] at h3; simp at h3
        rw [hlast] at h
        rw [List.cons_append, condSpec_cons, condSpec_cons, ih h]
        exact addChar_append x _ _ (Or.inl hne)
    · have hx' : isOperator x = false := by simpa using hx
      have hlast : lastOperator (x :: a) = lastOperator a := by
        unfold lastOperator
        rw [List.filter_cons_of_neg hx]
      rw [hlast] at h
      rw [List.cons_append, condSpec_cons_ignored x _ hx', condSpec_cons_ignored x _ hx', ih h]

/-! ## Runs -/

theorem firstOperator_cons_ignored (c : Char) (cs : List Char) (h : isOperator c = false) :
    firstOperator (c :: cs) = firstOperator cs := by
  unfold firstOperator
  rw [List.filter_cons_of_neg (by simp [h])]

theorem firstOperator_cons_op (c : Char) (cs : List Char) (h : isOperator c = true) :
    firstOperator (c :: cs) = some c := by
  unfold firstOperator
  rw [List.filter_cons_of_pos h]; rfl

theorem addChar_run_nil (c : Char) (h : isRunOp (next_op c) = true) :
    addChar c [] = [⟨next_op c, runDelta c, 0⟩] := by
  unfold addChar next_op runDelta isOperator
  unfold next_op at h
  split_ifs at h ⊢ <;> simp_all [consRun, isRunOp]

theorem addChar_run_cons (c : Char) (v : Int) (r : List instruction_t)
    (h : isRunOp (next_op c) = true) :
    addChar c (⟨next_op c, v, 0⟩ :: r) = ⟨next_op c, runDelta c + v, 0⟩ :: r := by
  unfold addChar next_op runDelta isOperator
  unfold next_op at h
  split_ifs at h ⊢ <;> simp_all [consRun, isRunOp]

/-- A stretch of characters of one run kind, possibly interleaved with ignored
characters, condenses to nothing or to a single entry. -/
theorem condSpec_run_only (o : op_t) (ho : isRunOp o = true) (run : List Char)
    (hrun : ∀ c ∈ run, next_op c = o ∨ isOperator c = false) :
    (condSpec run = [] ∧ run.filter isOperator = []) ∨
      (condSpec run = [⟨o, runValue run, 0⟩] ∧ (firstOperator run).map next_op = some o ∧
        (lastOperator run).map next_op = some o) := by
  induction run with
  | nil => exact Or.inl ⟨rfl, rfl⟩
  | cons c cs ih =>
    have ih' := ih (fun x hx => hrun x (List.mem_cons_of_mem _ hx))
    rcases hrun c (List.mem_cons_self _ _) with hc | hc
    · have hop : isOperator c = true := by
        by_contra hn
        have := (next_op_invalid_iff c).2 (by simpa using hn)
        rw [this] at hc; rw [← hc] at ho; simp [isRunOp] at ho
      have hr : isRunOp (next_op c) = true := hc ▸ ho
      refine Or.inr ?_
      rcases ih' with ⟨h1, h2⟩ | ⟨h1, _, h3⟩
      · refine ⟨?_, ?_, ?_⟩
        · rw [condSpec_cons, h1, addChar_run_nil c hr, hc]
          have : runValue cs = 0 := by
            unfold runValue
            have : ∀ x ∈ cs, runDelta x = 0 := by
              intro x hx
              have hx' : isOperator x = false := by
                by_contra hn
                have : x ∈ cs.filter isOperator := List.mem_filter.2 ⟨hx, by simpa using hn⟩
                rw [h2] at this; simp at this
              have hm : x ≠ '-' := by
                intro hm; rw [hm] at hx'; simp [isOperator] at hx'
              simp [runDelta, hx', hm]
            rw [List.sum_eq_zero]
            intro y hy
            obtain ⟨x, hx, rfl⟩ := List.mem_map.1 hy
            exact this x hx
          simp [runValue] at this ⊢
          rw [this]
        · rw [firstOperator_cons_op c cs hop]; simp [hc]
        · simp [lastOperator, List.filter_cons_of_pos hop, h2, hc]
      · refine ⟨?_, ?_, ?_⟩
        · rw [condSpec_cons, h1, ← hc, addChar_run_cons c _ _ hr]
          simp [runValue]
        · rw [firstOperator_cons_op c cs hop]; simp [hc]
        · unfold lastOperator at h3 ⊢
          rw [List.filter_cons_of_pos hop]
          cases hf : cs.filter isOperator with
          | nil => rw [hf] at h3; simp at h3
          | cons y r => rw [hf] at h3; simpa [List.getLast?_cons_cons] using h3
    · have hd : runDelta c = 0 := by
        have hm : c ≠ '-' := by
          intro hm; rw [hm] at hc; simp [isOperator] at hc
        simp [runDelta, hc, hm]
      have hv : runValue (c :: cs) = runValue cs := by simp [runValue, hd]
      rcases ih' with ⟨h1, h2⟩ | ⟨h1, h2, h3⟩
      · exact Or.inl ⟨by rw [condSpec_cons_ignored c cs hc, h1],
          by rw [List.filter_cons_of_neg (by simp [hc]), h2]⟩
      · refine Or.inr ⟨by rw [condSpec_cons_ignored c cs hc, h1, hv], ?_, ?_⟩
        · rw [firstOperator_cons_ignored c cs hc]; exact h2
        · unfold lastOperator at h3 ⊢
          rw [List.filter_cons_of_neg (by simp [hc])]; exact h3

theorem lastOperator_append_of_ne (a b : List Char) (h : b.filter isOperator ≠ []) :
    lastOperator (a ++ b) = lastOperator b := by
  unfold lastOperator
  rw [List.filter_append, List.getLast?_append_of_ne_nil _ h]

/-- A maximal stretch of one run kind contributes exactly one entry, between
the entries of the text before it and those of the text after it. -/
theorem condSpec_run (o : op_t) (ho : isRunOp o = true) (pre run post : List Char)
    (hrun : ∀ c ∈ run, next_op c = o ∨ isOperator c = false)
    (hne : ∃ c ∈ run, next_op c = o)
    (hpre : (lastOperator pre).map next_op ≠ some o)
    (hpost : (firstOperator post).map next_op ≠ some o) :
    condSpec (pre ++ run ++ post) =
      condSpec pre ++ ⟨o, runValue run, 0⟩ :: condSpec post := by
  rcases condSpec_run_only o ho run hrun with ⟨_, h2⟩ | ⟨h1, h2, h3⟩
  · exfalso
    obtain ⟨c, hc, hco⟩ := hne
    have hop : isOperator c = true := by
      by_contra hn
      have := (next_op_invalid_iff c).2 (by simpa using hn)
      rw [this] at hco; rw [← hco] at ho; simp [isRunOp] at ho
    have : c ∈ run.filter isOperator := List.mem_filter.2 ⟨hc, hop⟩
    rw [h2] at this; simp at this
  · have hf : run.filter isOperator ≠ [] := by
      intro hf
      unfold firstOperator at h2
      rw [hf] at h2; simp at h2
    rw [condSpec_append (pre ++ run) post, condSpec_append pre run, h1]
    · simp
    · left; rw [h2]; exact hpre
    · left; rw [lastOperator_append_of_ne pre run hf, h3]; exact fun h => hpost h.symm

theorem next_op_eq_modify (c : Char) : next_op c = op_modify ↔ c = '+' ∨ c = '-' := by
  unfold next_op
  split_ifs <;> simp_all

theorem next_op_eq_right (c : Char) : next_op c = op_right ↔ c = '>' := by
  unfold next_op
  split_ifs <;> simp_all

theorem next_op_eq_left (c : Char) : next_op c = op_left ↔ c = '<' := by
  unfold next_op
  split_ifs <;> simp_all

theorem runValue_cons (c : Char) (cs : List Char) :
    runValue (c :: cs) = runDelta c + runValue cs := by
  simp [runValue]

theorem runValue_modify (run : List Char)
    (hrun : ∀ c ∈ run, c = '+' ∨ c = '-' ∨ isOperator c = false) :
    runValue run = (run.count '+' : Int) - (run.count '-' : Int) := by
  induction run with
  | nil => rfl
  | cons c cs ih =>
    rw [runValue_cons, ih (fun x hx => hrun x (List.mem_cons_of_mem _ hx))]
    rcases hrun c (List.mem_cons_self _ _) with h | h | h
    · subst h
      simp [runDelta, isOperator, List.count_cons]
      ring
    · subst h
      simp [runDelta, List.count_cons]
      ring
    · have h1 : c ≠ '+' := by intro e; rw [e] at h; simp [isOperator] at h
      have h2 : c ≠ '-' := by intro e; rw [e] at h; simp [isOperator] at h
      simp [runDelta, h, h2, List.count_cons, h1]

theorem runValue_single (k : Char) (hk : isOperator k = true) (hk' : k ≠ '-')
    (run : List Char) (hrun : ∀ c ∈ run, c = k ∨ isOperator c = false) :
    runValue run = (run.count k : Int) := by
  induction run with
  | nil => rfl
  | cons c cs ih =>
    rw [runValue_cons, ih (fun x hx => hrun x (List.mem_cons_of_mem _ hx))]
    rcases hrun c (List.mem_cons_self _ _) with h | h
    · subst h
      simp [runDelta, hk, hk', List.count_cons]
      ring
    · have h1 : c ≠ k := by intro e; rw [e] at h; rw [hk] at h; simp at h
      have h2 : c ≠ '-' := by intro e; rw [e] at h; simp [isOperator] at h
      simp [runDelta, h, h2, List.count_cons, h1]

theorem option_map_next_op_ne (x : Option Char) (o : op_t)
    (h : ∀ c, x = some c → next_op c ≠ o) : x.map next_op ≠ some o := by
  cases x with
  | none => simp
  | some c => simpa using h c rfl

/-! ## Claims on the condensing pass -/

/-- C3: a maximal run of `+` and `-` characters (any stretch without another
operator character, bounded on both sides by a different operator or by the
end of the text) yields exactly one `op_modify` entry, placed between the
entries of the text before it and of the text after it, and its value is the
number of `+` minus the number of `-`. -/
theorem condense_modify_run (pre run post : List Char)
    (hrun : ∀ c ∈ run, c = '+' ∨ c = '-' ∨ isOperator c = false)
    (hne : ∃ c ∈ run, c = '+' ∨ c = '-')
    (hpre : lastOperator pre ≠ some '+' ∧ lastOperator pre ≠ some '-')
    (hpost : firstOperator post ≠ some '+' ∧ firstOperator post ≠ some '-') :
    condense (pre ++ run ++ post) =
      condense pre ++
        ⟨op_modify, (run.count '+' : Int) - (run.count '-' : Int), 0⟩ :: condense post := by
  simp only [condense_eq_condSpec]
  rw [← runValue_modify run hrun]
  apply condSpec_run op_modify rfl
  · intro c hc
    rcases hrun c hc with h | h | h
    · exact Or.inl ((next_op_eq_modify c).2 (Or.inl h))
    · exact Or.inl ((next_op_eq_modify c).2 (Or.inr h))
    · exact Or.inr h
  · obtain ⟨c, hc, h⟩ := hne
    exact ⟨c, hc, (next_op_eq_modify c).2 h⟩
  · apply option_map_next_op_ne
    intro c hc hn
    rcases (next_op_eq_modify c).1 hn with h | h
    · exact hpre.1 (h ▸ hc)
    · exact hpre.2 (h ▸ hc)
  · apply option_map_next_op_ne
    intro c hc hn
    rcases (next_op_eq_modify c).1 hn with h | h
    · exact hpost.1 (h ▸ hc)
    · exact hpost.2 (h ▸ hc)

/-- Witness for C3: in `>+x-++.` the run `+x-++` gives the single entry
modify(2) between the entries of `>` and of `.`. -/
theorem condense_modify_run_witness :
    condense (['>'] ++ ['+', 'x', '-', '+', '+'] ++ ['.']) =
      condense ['>'] ++
        ⟨op_modify, ((['+', 'x', '-', '+', '+'].count '+' : Nat) : Int)
          - ((['+', 'x', '-', '+', '+'].count '-' : Nat) : Int), 0⟩ :: condense ['.'] :=
  condense_modify_run ['>'] ['+', 'x', '-', '+', '+'] ['.']
    (by decide) (by decide) (by decide) (by decide)

/-- C4: a maximal run of `>` yields exactly one `op_right` entry whose value is
the run length, and a maximal run of `<` yields exactly one `op_left` entry
whose value is the run length; a run of `>` followed directly by a run of `<`
(or the other way round) gives two separate entries.  The test program
`++>+><<.` condenses to modify(2), right(1), modify(1), right(1), left(2),
put. -/
theorem condense_move_runs :
    (∀ pre run post : List Char,
      (∀ c ∈ run, c = '>' ∨ isOperator c = false) → '>' ∈ run →
      lastOperator pre ≠ some '>' → firstOperator post ≠ some '>' →
      condense (pre ++ run ++ post) =
        condense pre ++ ⟨op_right, (run.count '>' : Int), 0⟩ :: condense post) ∧
    (∀ pre run post : List Char,
      (∀ c ∈ run, c = '<' ∨ isOperator c = false) → '<' ∈ run →
      lastOperator pre ≠ some '<' → firstOperator post ≠ some '<' →
      condense (pre ++ run ++ post) =
        condense pre ++ ⟨op_left, (run.count '<' : Int), 0⟩ :: condense post) ∧
    (∀ (pre post : List Char) (a b : Nat), 0 < a → 0 < b →
      lastOperator pre ≠ some '>' → firstOperator post ≠ some '<' →
      condense (pre ++ List.replicate a '>' ++ List.replicate b '<' ++ post) =
        condense pre ++ ⟨op_right, a, 0⟩ :: ⟨op_left, b, 0⟩ :: condense post) ∧
    (∀ (pre post : List Char) (a b : Nat), 0 < a → 0 < b →
      lastOperator pre ≠ some '<' → firstOperator post ≠ some '>' →
      condense (pre ++ List.replicate a '<' ++ List.replicate b '>' ++ post) =
        condense pre ++ ⟨op_left, a, 0⟩ :: ⟨op_right, b, 0⟩ :: condense post) ∧
    condense ['+', '+', '>', '+', '>', '<', '<', '.'] =
      [⟨op_modify, 2, 0⟩, ⟨op_right, 1, 0⟩, ⟨op_modify, 1, 0⟩, ⟨op_right, 1, 0⟩,
        ⟨op_left, 2, 0⟩, ⟨op_put, 0, 0⟩] := by
  have right : ∀ pre run post : List Char,
      (∀ c ∈ run, c = '>' ∨ isOperator c = false) → '>' ∈ run →
      lastOperator pre ≠ some '>' → firstOperator post ≠ some '>' →
      condense (pre ++ run ++ post) =
        condense pre ++ ⟨op_right, (run.count '>' : Int), 0⟩ :: condense post := by
    intro pre run post hrun hne hpre hpost
    simp only [condense_eq_condSpec]
    rw [← runValue_single '>' rfl (by decide) run hrun]
    apply condSpec_run op_right rfl
    · intro c hc
      exact (hrun c hc).imp (fun h => (next_op_eq_right c).2 h) id
    · exact ⟨'>', hne, rfl⟩
    · exact option_map_next_op_ne _ _ fun c hc hn => hpre ((next_op_eq_right c).1 hn ▸ hc)
    · exact option_map_next_op_ne _ _ fun c hc hn => hpost ((next_op_eq_right c).1 hn ▸ hc)
  have left : ∀ pre run post : List Char,
      (∀ c ∈ run, c = '<' ∨ isOperator c = false) → '<' ∈ run →
      lastOperator pre ≠ some '<' → firstOperator post ≠ some '<' →
      condense (pre ++ run ++ post) =
        condense pre ++ ⟨op_left, (run.count '<' : Int), 0⟩ :: condense post := by
    intro pre run post hrun hne hpre hpost
    simp only [condense_eq_condSpec]
    rw [← runValue_single '<' rfl (by decide) run hrun]
    apply condSpec_run op_left rfl
    · intro c hc
      exact (hrun c hc).imp (fun h => (next_op_eq_left c).2 h) id
    · exact ⟨'<', hne, rfl⟩
    · exact option_map_next_op_ne _ _ fun c hc hn => hpre ((next_op_eq_left c).1 hn ▸ hc)
    · exact option_map_next_op_ne _ _ fun c hc hn => hpost ((next_op_eq_left c).1 hn ▸ hc)
  have rep_mem : ∀ (k : Char) (n : Nat), 0 < n → k ∈ List.replicate n k := by
    intro k n hn
    exact List.mem_replicate.2 ⟨by omega, rfl⟩
  have rep_all : ∀ (k : Char) (n : Nat), ∀ c ∈ List.replicate n k, c = k ∨ isOperator c = false :=
    fun k n c hc => Or.inl (List.eq_of_mem_replicate hc)
  have first_rep : ∀ (k : Char) (n : Nat) (post : List Char), isOperator k = true → 0 < n →
      firstOperator (List.replicate n k ++ post) = some k := by
    intro k n post hk hn
    obtain ⟨m, rfl⟩ : ∃ m, n = m + 1 := ⟨n - 1, by omega⟩
    rw [List.replicate_succ, List.cons_append, firstOperator_cons_op k _ hk]
  refine ⟨right, left, ?_, ?_, by decide⟩
  · intro pre post a b ha hb hpre hpost
    have h1 := right pre (List.replicate a '>') (List.replicate b '<' ++ post)
      (rep_all _ _) (rep_mem _ _ ha) hpre
      (by rw [first_rep '<' b post rfl hb]; decide)
    have h2 := left [] (List.replicate b '<') post (rep_all _ _) (rep_mem _ _ hb)
      (by decide) hpost
    rw [List.append_assoc, h1]
    simp only [List.nil_append] at h2
    rw [h2]
    simp [List.count_replicate, condense]
  · intro pre post a b ha hb hpre hpost
    have h1 := left pre (List.replicate a '<') (List.replicate b '>' ++ post)
      (rep_all _ _) (rep_mem _ _ ha) hpre
      (by rw [first_rep '>' b post rfl hb]; decide)
    have h2 := right [] (List.replicate b '>') post (rep_all _ _) (rep_mem _ _ hb)
      (by decide) hpost
    rw [List.append_assoc, h1]
    simp only [List.nil_append] at h2
    rw [h2]
    simp [List.count_replicate, condense]

/-- Witness for C4: in `+>>x><<.` the stretch `>>x>` gives right(3), and the
stretch `<<` that follows gives left(2). -/
theorem condense_move_runs_witness :
    condense (['+'] ++ ['>', '>', 'x', '>'] ++ ['<', '<', '.']) =
        condense ['+'] ++ ⟨op_right, ((['>', '>', 'x', '>'].count '>' : Nat) : Int), 0⟩
          :: condense ['<', '<', '.'] ∧
    condense (['>'] ++ ['<', '<'] ++ ['.']) =
        condense ['>'] ++ ⟨op_left, ((['<', '<'].count '<' : Nat) : Int), 0⟩
          :: condense ['.'] ∧
    condense (['+'] ++ List.replicate 3 '>' ++ List.replicate 2 '<' ++ ['.']) =
        condense ['+'] ++ ⟨op_right, (3 : Nat), 0⟩ :: ⟨op_left, (2 : Nat), 0⟩ :: condense ['.'] ∧
    condense (['+'] ++ List.replicate 2 '<' ++ List.replicate 3 '>' ++ ['.']) =
        condense ['+'] ++ ⟨op_left, (2 : Nat), 0⟩ :: ⟨op_right, (3 : Nat), 0⟩ :: condense ['.'] :=
  ⟨condense_move_runs.1 ['+'] ['>', '>', 'x', '>'] ['<', '<', '.']
      (by decide) (by decide) (by decide) (by decide),
    condense_move_runs.2.1 ['>'] ['<', '<'] ['.']
      (by decide) (by decide) (by decide) (by decide),
    condense_move_runs.2.2.1 ['+'] ['.'] 3 2 (by decide) (by decide) (by decide) (by decide),
    condense_move_runs.2.2.2.1 ['+'] ['.'] 2 3 (by decide) (by decide) (by decide) (by decide)⟩

theorem condSpec_single (pre post : List Char) (c : Char) (hop : isOperator c = true)
    (hc : isRunOp (next_op c) = false) :
    condSpec (pre ++ c :: post) = condSpec pre ++ ⟨next_op c, 0, 0⟩ :: condSpec post := by
  rw [condSpec_append pre (c :: post)
    (Or.inr (by intro x hx; rw [firstOperator_cons_op c post hop] at hx; cases hx; exact hc)),
    condSpec_cons]
  congr 1
  unfold addChar next_op
  unfold next_op at hc
  unfold isOperator at hop
  split_ifs at hc ⊢ <;> simp_all [isRunOp]

/-- C5: each `,`, `.`, `[` and `]` character produces exactly one entry of its
own (get, put, if, endif), placed between the entries of the text before it
and of the text after it, which are condensed independently of each other: two
runs separated by such a character stay two entries.  The test program
`+.++++++.` condenses to modify(1), put, modify(6), put. -/
theorem condense_single_entries :
    (∀ pre post : List Char,
      condense (pre ++ ',' :: post) = condense pre ++ ⟨op_get, 0, 0⟩ :: condense post ∧
      condense (pre ++ '.' :: post) = condense pre ++ ⟨op_put, 0, 0⟩ :: condense post ∧
      condense (pre ++ '[' :: post) = condense pre ++ ⟨op_if, 0, 0⟩ :: condense post ∧
      condense (pre ++ ']' :: post) = condense pre ++ ⟨op_endif, 0, 0⟩ :: condense post) ∧
    condense ['+', '.', '+', '+', '+', '+', '+', '+', '.'] =
      [⟨op_modify, 1, 0⟩, ⟨op_put, 0, 0⟩, ⟨op_modify, 6, 0⟩, ⟨op_put, 0, 0⟩] := by
  refine ⟨fun pre post => ?_, by decide⟩
  simp only [condense_eq_condSpec]
  exact ⟨condSpec_single pre post ',' rfl rfl, condSpec_single pre post '.' rfl rfl,
    condSpec_single pre post '[' rfl rfl, condSpec_single pre post ']' rfl rfl⟩

/-! ## Ignored bytes -/

theorem scanStep_ignored (s : ScanState) (c : Char) (h : isOperator c = false) :
    scanStep s c = some s := by
  have h1 : c ≠ '[' := by intro e; rw [e] at h; simp [isOperator] at h
  have h2 : c ≠ ']' := by intro e; rw [e] at h; simp [isOperator] at h
  simp [scanStep, h1, h2]

theorem scanLoop_filter (p : List Char) :
    ∀ s, scanLoop (p.filter isOperator) s = scanLoop p s := by
  induction p with
  | nil => intro s; rfl
  | cons c cs ih =>
    intro s
    by_cases h : isOperator c = true
    · rw [List.filter_cons_of_pos h]
      simp only [scanLoop]
      cases scanStep s c with
      | none => rfl
      | some s' => exact ih s'
    · have h' : isOperator c = false := by simpa using h
      rw [List.filter_cons_of_neg h, ih s]
      simp [scanLoop, scanStep_ignored s c h']

theorem countStep_ignored (st : op_t × Nat) (c : Char) (h : isOperator c = false) :
    countStep st c = st := by
  unfold countStep
  rw [(next_op_invalid_iff c).2 h]

theorem foldl_countStep_filter (p : List Char) :
    ∀ st, (p.filter isOperator).foldl countStep st = p.foldl countStep st := by
  induction p with
  | nil => intro st; rfl
  | cons c cs ih =>
    intro st
    by_cases h : isOperator c = true
    · rw [List.filter_cons_of_pos h]
      simp only [List.foldl_cons]
      exact ih _
    · have h' : isOperator c = false := by simpa using h
      rw [List.filter_cons_of_neg h, ih st]
      simp [List.foldl_cons, countStep_ignored st c h']

/-- C6: the outputs of the scanning passes (balance verdict, loop count and
maximum nesting depth, entry count, condensed list) are those of the text with
every non-operator byte deleted; in particular an ignored byte inside a text
changes nothing, so it does not split a run. -/
theorem scanner_ignores_non_operators (p : List Char) :
    balanceScan (p.filter isOperator) = balanceScan p ∧
    op_count (p.filter isOperator) = op_count p ∧
    condense (p.filter isOperator) = condense p ∧
    (∀ (pre post : List Char) (c : Char), isOperator c = false →
      condense (pre ++ c :: post) = condense (pre ++ post)) := by
  refine ⟨?_, ?_, ?_, ?_⟩
  · unfold balanceScan
    rw [scanLoop_filter]
  · unfold op_count
    rw [foldl_countStep_filter]
  · simp only [condense_eq_condSpec, condSpec_filter]
  · intro pre post c hc
    simp only [condense_eq_condSpec]
    rw [← condSpec_filter (pre ++ c :: post), ← condSpec_filter (pre ++ post)]
    simp [List.filter_append, List.filter_cons_of_neg, hc]

/-- Witness for C6: the byte `a` between the two `+` of `+a+` does not split
the run. -/
theorem scanner_ignores_non_operators_witness :
    condense (['+'] ++ 'a' :: ['+']) = condense (['+'] ++ ['+']) ∧
    condense (['+'] ++ ['+']) = [⟨op_modify, 2, 0⟩] :=
  ⟨(scanner_ignores_non_operators []).2.2.2 ['+'] ['+'] 'a' (by decide), by decide⟩

/-! ## Positions in a list -/

theorem getElem?_of_drop_eq_cons {α : Type} {xs : List α} {n : Nat} {a : α} {r : List α}
    (h : xs.drop n = a :: r) : xs[n]? = some a := by
  have := List.head?_drop xs n
  rw [h] at this
  simpa using this.symm

theorem drop_add_of_drop_eq_append {α : Type} {xs : List α} {n : Nat} {l r : List α}
    (h : xs.drop n = l ++ r) : xs.drop (n + l.length) = r := by
  rw [← List.drop_drop, h, List.drop_left]

theorem drop_succ_of_drop_eq_cons {α : Type} {xs : List α} {n : Nat} {a : α} {r : List α}
    (h : xs.drop n = a :: r) : xs.drop (n + 1) = r := by
  have := drop_add_of_drop_eq_append (l := [a]) (r := r) (by simpa using h)
  simpa using this

theorem getElem?_of_drop_eq_nil {α : Type} {xs : List α} {n : Nat}
    (h : xs.drop n = []) : xs[n]? = none := by
  rw [List.drop_eq_nil_iff] at h
  exact List.getElem?_eq_none h

theorem drop_length_le {α : Type} {xs : List α} {n : Nat} {a : α} {r : List α}
    (h : xs.drop n = a :: r) : n < xs.length := by
  by_contra hn
  have : xs.drop n = [] := List.drop_eq_nil_iff.2 (by omega)
  rw [this] at h; cases h

/-! ## The flat machine against the structured machine -/

theorem Sim_drop {α : Type} (kind : α → Br) (xs : List α) (pc : Nat) (t : Tree α)
    (K : List (Frame α)) (h : Sim kind xs pc t K) : xs.drop pc = unwindK t K := by
  cases K with
  | nil => exact h.1
  | cons f K => exact h.1

theorem Sim_WF {α : Type} (kind : α → Br) (xs : List α) (pc : Nat) (t : Tree α)
    (K : List (Frame α)) (h : Sim kind xs pc t K) : t.WF kind := by
  cases K with
  | nil => exact h.2
  | cons f K => exact h.2.1

/-- Moving past the head of the current tree keeps the correspondence. -/
theorem Sim_advance {α : Type} (kind : α → Br) (xs : List α) (pc : Nat)
    (pre : List α) (t t' : Tree α) (K : List (Frame α))
    (hfl : t.flatten = pre ++ t'.flatten) (hwf : t'.WF kind)
    (h : Sim kind xs pc t K) : Sim kind xs (pc + pre.length) t' K := by
  cases K with
  | nil =>
    refine ⟨?_, hwf⟩
    have h1 := h.1
    rw [hfl] at h1
    exact drop_add_of_drop_eq_append h1
  | cons f K =>
    obtain ⟨h1, _, h3, h4, h5, start, h6, h7, h8⟩ := h
    refine ⟨?_, hwf, h3, h4, h5, start, h6, ?_, h8⟩
    · rw [hfl, List.append_assoc] at h1
      exact drop_add_of_drop_eq_append h1
    · rw [hfl, List.length_append] at h7
      omega

/-- One step of the flat machine is one step of the structured machine. -/
theorem flatStep_cfgStep {α : Type} (kind : α → Br) (eff : α → Data → Data)
    (jump : Nat → Nat) (xs : List α) (hj : JumpOK kind jump xs)
    (pc : Nat) (t : Tree α) (K : List (Frame α)) (d : Data)
    (h : Sim kind xs pc t K) :
    (cfgStep eff ⟨t, K, d⟩ = none ∧ flatStep kind eff jump xs ⟨pc, d⟩ = none) ∨
    ∃ pc' t' K' d', cfgStep eff ⟨t, K, d⟩ = some ⟨t', K', d'⟩ ∧
      flatStep kind eff jump xs ⟨pc, d⟩ = some ⟨pc', d'⟩ ∧ Sim kind xs pc' t' K' := by
  have hdrop := Sim_drop kind xs pc t K h
  have hwf := Sim_WF kind xs pc t K h
  cases t with
  | act a k =>
    right
    have hd : xs.drop pc = a :: unwindK k K := by
      rw [hdrop]; cases K <;> simp [unwindK, Tree.flatten]
    refine ⟨pc + 1, k, K, eff a d, rfl, ?_, ?_⟩
    · simp only [flatStep, getElem?_of_drop_eq_cons hd, hwf.1]
    · exact Sim_advance kind xs pc [a] (Tree.act a k) k K rfl hwf.2 h
  | loop o b c k =>
    right
    obtain ⟨ho, hc, hb, hk⟩ := hwf
    have hd : xs.drop pc = o :: (b.flatten ++ c :: unwindK k K) := by
      rw [hdrop]; cases K <;> simp [unwindK, Tree.flatten]
    have hjump := (hj pc o b c _ hd ho hc hb).1
    by_cases hz : d.cell = 0
    · refine ⟨pc + b.flatten.length + 2, k, K, d, by simp [cfgStep, hz], ?_, ?_⟩
      · simp only [flatStep, getElem?_of_drop_eq_cons hd, ho, hz, if_true, hjump]
      · have := Sim_advance kind xs pc (o :: (b.flatten ++ [c])) (Tree.loop o b c k) k K
          (by simp [Tree.flatten]) hk h
        have e : pc + (o :: (b.flatten ++ [c])).length = pc + b.flatten.length + 2 := by
          simp; omega
        rw [e] at this
        exact this
    · refine ⟨pc + 1, b, ⟨o, b, c, k⟩ :: K, d, by simp [cfgStep, hz], ?_, ?_⟩
      · simp only [flatStep, getElem?_of_drop_eq_cons hd, ho, hz, if_false]
      · refine ⟨drop_succ_of_drop_eq_cons hd, hb, hb, ho, hc, pc, hd, ?_, ?_⟩
        · show pc + 1 + b.flatten.length = pc + 1 + b.flatten.length
          rfl
        · have := Sim_advance kind xs pc (o :: (b.flatten ++ [c])) (Tree.loop o b c k) k K
            (by simp [Tree.flatten]) hk h
          have e : pc + (o :: (b.flatten ++ [c])).length = pc + b.flatten.length + 2 := by
            simp; omega
          rw [e] at this
          exact this
  | nil =>
    cases K with
    | nil =>
      left
      refine ⟨rfl, ?_⟩
      have h1 : xs.drop pc = [] := h.1
      simp only [flatStep, getElem?_of_drop_eq_nil h1]
    | cons f K =>
      right
      obtain ⟨h1, _, h3, h4, h5, start, h6, h7, h8⟩ := h
      have hd : xs.drop pc = f.c :: unwindK f.k K := by simpa [Tree.flatten] using h1
      have hpc : pc = start + f.b.flatten.length + 1 := by
        simp [Tree.flatten] at h7; omega
      have hjump := (hj start f.o f.b f.c _ h6 h4 h5 h3).2
      by_cases hz : d.cell = 0
      · refine ⟨pc + 1, f.k, K, d, by simp [cfgStep, hz], ?_, ?_⟩
        · simp only [flatStep, getElem?_of_drop_eq_cons hd, h5, hz, ne_eq, not_true_eq_false,
            if_false]
        · rw [hpc]; exact h8
      · refine ⟨start + 1, f.b, f :: K, d, by simp [cfgStep, hz], ?_, ?_⟩
        · simp only [flatStep, getElem?_of_drop_eq_cons hd, h5, hz, ne_eq, not_false_eq_true,
            if_true]
          rw [hpc, hjump]
        · exact ⟨drop_succ_of_drop_eq_cons h6, h3, h3, h4, h5, start, h6, by omega, h8⟩

/-- The flat machine and the structured machine run in lock step. -/
theorem flatRun_eq_cfgRun {α : Type} (kind : α → Br) (eff : α → Data → Data)
    (jump : Nat → Nat) (xs : List α) (hj : JumpOK kind jump xs) (fuel : Nat) :
    ∀ (pc : Nat) (t : Tree α) (K : List (Frame α)) (d : Data), Sim kind xs pc t K →
      flatRun kind eff jump xs fuel ⟨pc, d⟩ = cfgRun eff fuel ⟨t, K, d⟩ := by
  induction fuel with
  | zero => intros; rfl
  | succ n ih =>
    intro pc t K d h
    rcases flatStep_cfgStep kind eff jump xs hj pc t K d h with ⟨h1, h2⟩ | ⟨pc', t', K', d', h1, h2, h3⟩
    · simp [flatRun, cfgRun, h1, h2]
    · simp only [flatRun, cfgRun, h1, h2]
      exact ih pc' t' K' d' h3

/-! ## Bracket matching on the flattening of a tree -/

theorem scanMatch_other {α : Type} (kind : α → Br) (x : α) (rest : List α) (d : Nat)
    (h : kind x = Br.other) :
    scanMatch kind (x :: rest) d = (scanMatch kind rest d).map (fun n => n + 1) := by
  simp only [scanMatch, h]

theorem scanMatch_opn {α : Type} (kind : α → Br) (x : α) (rest : List α) (d : Nat)
    (h : kind x = Br.opn) :
    scanMatch kind (x :: rest) d = (scanMatch kind rest (d + 1)).map (fun n => n + 1) := by
  simp only [scanMatch, h]

theorem scanMatch_cls_succ {α : Type} (kind : α → Br) (x : α) (rest : List α) (d : Nat)
    (h : kind x = Br.cls) :
    scanMatch kind (x :: rest) (d + 1) = (scanMatch kind rest d).map (fun n => n + 1) := by
  simp only [scanMatch, h]

theorem scanMatch_cls_zero {α : Type} (kind : α → Br) (x : α) (rest : List α)
    (h : kind x = Br.cls) : scanMatch kind (x :: rest) 0 = some 0 := by
  simp only [scanMatch, h]

/-- Scanning forward skips a well-nested stretch without changing the depth. -/
theorem scanMatch_flatten {α : Type} (kind : α → Br) (t : Tree α) :
    t.WF kind → ∀ (rest : List α) (d : Nat),
      scanMatch kind (t.flatten ++ rest) d =
        (scanMatch kind rest d).map (fun n => n + t.flatten.length) := by
  induction t with
  | nil => intro _ rest d; simp [Tree.flatten]
  | act a k ih =>
    intro h rest d
    simp only [Tree.flatten, List.cons_append, List.length_cons]
    rw [scanMatch_other kind a _ d h.1, ih h.2]
    cases scanMatch kind rest d <;> simp [Nat.add_assoc]
  | loop o b c k ihb ihk =>
    intro h rest d
    obtain ⟨ho, hc, hb, hk⟩ := h
    simp only [Tree.flatten, List.cons_append, List.length_cons, List.append_assoc,
      List.length_append]
    rw [scanMatch_opn kind o _ d ho, ihb hb, scanMatch_cls_succ kind c _ d hc, ihk hk]
    cases scanMatch kind rest d <;> simp
    omega

/-- Scanning backward skips a well-nested stretch without changing the depth. -/
theorem scanMatch_flatten_reverse {α : Type} (kind : α → Br) (t : Tree α) :
    t.WF kind → ∀ (rest : List α) (d : Nat),
      scanMatch (fun x => (kind x).swap) (t.flatten.reverse ++ rest) d =
        (scanMatch (fun x => (kind x).swap) rest d).map (fun n => n + t.flatten.length) := by
  induction t with
  | nil => intro _ rest d; simp [Tree.flatten]
  | act a k ih =>
    intro h rest d
    simp only [Tree.flatten, List.reverse_cons, List.append_assoc, List.singleton_append,
      List.length_cons]
    rw [ih h.2, scanMatch_other _ a _ d (by simp [h.1, Br.swap])]
    cases scanMatch (fun x => (kind x).swap) rest d <;> simp [Nat.add_assoc, Nat.add_comm]
  | loop o b c k ihb ihk =>
    intro h rest d
    obtain ⟨ho, hc, hb, hk⟩ := h
    simp only [Tree.flatten, List.reverse_cons, List.reverse_append, List.append_assoc,
      List.singleton_append, List.length_cons, List.length_append, List.cons_append,
      List.nil_append]
    rw [ihk hk, scanMatch_opn _ c _ d (by simp [hc, Br.swap]), ihb hb,
      scanMatch_cls_succ _ o _ d (by simp [ho, Br.swap])]
    cases scanMatch (fun x => (kind x).swap) rest d <;> simp
    omega

/-- At a loop of the text the depth-counting scans find the matching
brackets. -/
theorem match_of_drop {α : Type} (kind : α → Br) (xs : List α) (i : Nat) (o c : α)
    (b : Tree α) (rest : List α) (hd : xs.drop i = o :: (b.flatten ++ c :: rest))
    (ho : kind o = Br.opn) (hc : kind c = Br.cls) (hb : b.WF kind) :
    matchClose kind xs i = some (i + b.flatten.length + 1) ∧
    matchOpen kind xs (i + b.flatten.length + 1) = some i := by
  constructor
  · unfold matchClose
    rw [drop_succ_of_drop_eq_cons hd, scanMatch_flatten kind b hb, scanMatch_cls_zero kind c _ hc]
    simp; omega
  · unfold matchOpen
    have hi : i < xs.length := drop_length_le hd
    have htake : xs.take (i + b.flatten.length + 1) = xs.take i ++ o :: b.flatten := by
      have e : i + b.flatten.length + 1 = i + (o :: b.flatten).length := by simp; omega
      rw [e, List.take_add, hd]
      simp
    rw [htake, List.reverse_append, List.reverse_cons, List.append_assoc,
      scanMatch_flatten_reverse kind b hb, List.singleton_append,
      scanMatch_cls_zero _ o _ (by simp [ho, Br.swap])]
    simp

theorem charBr_opn (c : Char) : charBr c = Br.opn ↔ c = '[' := by
  unfold charBr; split_ifs <;> simp_all

theorem charBr_cls (c : Char) : charBr c = Br.cls ↔ c = ']' := by
  unfold charBr; split_ifs <;> simp_all

/-- The jump table of the source text agrees with the nesting structure. -/
theorem srcJump_ok (p : List Char) : JumpOK charBr (srcJump p) p := by
  intro i o b c rest hd ho hc hb
  obtain ⟨h1, h2⟩ := match_of_drop charBr p i o c b rest hd ho hc hb
  have hdc : p.drop (i + b.flatten.length + 1) = c :: rest := by
    have := @drop_add_of_drop_eq_append _ p i (o :: b.flatten) (c :: rest)
      (by simpa using hd)
    have e : i + (o :: b.flatten).length = i + b.flatten.length + 1 := by simp; omega
    rwa [e] at this
  constructor
  · unfold srcJump
    rw [getElem?_of_drop_eq_cons hd, h1]
    simp [(charBr_opn o).1 ho]
  · unfold srcJump
    rw [getElem?_of_drop_eq_cons hdc, h2]
    have : c ≠ '[' := by
      intro e; rw [(charBr_cls c).1 hc] at e; exact absurd e (by decide)
    simp [this]

/-! ## The balance scan -/

theorem scanStep_open (s : ScanState) :
    scanStep s '[' = some ⟨s.branch_count + 1, s.stack_size + 1,
      if s.stack_size + 1 > s.max_stack_size then s.stack_size + 1 else s.max_stack_size⟩ := by
  simp [scanStep]

theorem scanStep_close (s : ScanState) :
    scanStep s ']' = if s.stack_size = 0 then none
      else some ⟨s.branch_count, s.stack_size - 1, s.max_stack_size⟩ := by
  simp [scanStep]

theorem scanStep_other (s : ScanState) (c : Char) (h1 : c ≠ '[') (h2 : c ≠ ']') :
    scanStep s c = some s := by
  simp [scanStep, h1, h2]

theorem scanStep_stack (s s1 : ScanState) (c : Char) (h : scanStep s c = some s1) :
    (c = '[' ∧ s1.stack_size = s.stack_size + 1 ∧ s1.branch_count = s.branch_count + 1) ∨
    (c = ']' ∧ s.stack_size ≠ 0 ∧ s1.stack_size = s.stack_size - 1 ∧
      s1.branch_count = s.branch_count) ∨
    (c ≠ '[' ∧ c ≠ ']' ∧ s1 = s) := by
  by_cases h1 : c = '['
  · subst h1
    rw [scanStep_open] at h
    cases h
    exact Or.inl ⟨rfl, rfl, rfl⟩
  · by_cases h2 : c = ']'
    · subst h2
      rw [scanStep_close] at h
      by_cases h3 : s.stack_size = 0
      · simp [h3] at h
      · simp [h3] at h
        subst h
        exact Or.inr (Or.inl ⟨rfl, h3, rfl, rfl⟩)
    · rw [scanStep_other s c h1 h2] at h
      cases h
      exact Or.inr (Or.inr ⟨h1, h2, rfl⟩)

theorem scanStep_max (s s1 : ScanState) (c : Char) (h : scanStep s c = some s1) :
    s.max_stack_size ≤ s1.max_stack_size ∧
      (c = '[' → s1.stack_size ≤ s1.max_stack_size) := by
  by_cases h1 : c = '['
  · subst h1
    rw [scanStep_open] at h
    cases h
    constructor
    · show s.max_stack_size ≤
        if s.stack_size + 1 > s.max_stack_size then s.stack_size + 1 else s.max_stack_size
      split_ifs <;> omega
    · intro _
      show s.stack_size + 1 ≤
        if s.stack_size + 1 > s.max_stack_size then s.stack_size + 1 else s.max_stack_size
      split_ifs <;> omega
  · by_cases h2 : c = ']'
    · subst h2
      rw [scanStep_close] at h
      by_cases h3 : s.stack_size = 0
      · simp [h3] at h
      · simp [h3] at h
        subst h
        exact ⟨le_refl _, fun e => absurd e h1⟩
    · rw [scanStep_other s c h1 h2] at h
      cases h
      exact ⟨le_refl _, fun e => absurd e h1⟩

theorem scanLoop_cons (c : Char) (cs : List Char) (s s' : ScanState)
    (h : scanLoop (c :: cs) s = some s') :
    ∃ s1, scanStep s c = some s1 ∧ scanLoop cs s1 = some s' := by
  simp only [scanLoop] at h
  cases h1 : scanStep s c with
  | none => rw [h1] at h; cases h
  | some s1 => rw [h1] at h; exact ⟨s1, rfl, h⟩

theorem scanLoop_max (p : List Char) :
    ∀ s s', scanLoop p s = some s' → s.max_stack_size ≤ s'.max_stack_size := by
  induction p with
  | nil => intro s s' h; cases h; exact le_refl _
  | cons c cs ih =>
    intro s s' h
    obtain ⟨s1, h1, h2⟩ := scanLoop_cons c cs s s' h
    exact le_trans (scanStep_max s s1 c h1).1 (ih s1 s' h2)

theorem count_cons_other (c x : Char) (cs : List Char) (h : c ≠ x) :
    (c :: cs).count x = cs.count x := by
  rw [List.count_cons]
  have : ¬ (c == x) = true := by simpa using h
  simp [this]

theorem count_cons_same (c : Char) (cs : List Char) :
    (c :: cs).count c = cs.count c + 1 := by
  rw [List.count_cons]; simp

/-- A successful scan loop never saw a prefix closing more brackets than were
open; its counters are the bracket counts. -/
theorem scanLoop_some (p : List Char) :
    ∀ s s', scanLoop p s = some s' →
      (∀ k, k ≤ p.length → (p.take k).count ']' ≤ s.stack_size + (p.take k).count '[') ∧
      s'.stack_size + p.count ']' = s.stack_size + p.count '[' ∧
      s'.branch_count = s.branch_count + p.count '[' := by
  induction p with
  | nil => intro s s' h; cases h; simp
  | cons c cs ih =>
    intro s s' h
    obtain ⟨s1, h1, h2⟩ := scanLoop_cons c cs s s' h
    obtain ⟨ih1, ih2, ih3⟩ := ih s1 s' h2
    have hbr : ']' ≠ '[' := by decide
    rcases scanStep_stack s s1 c h1 with ⟨e, h3, h4⟩ | ⟨e, h3, h4, h5⟩ | ⟨e1, e2, h3⟩
    · subst e
      refine ⟨?_, ?_, ?_⟩
      · intro k hk
        cases k with
        | zero => simp
        | succ k =>
          have := ih1 k (by simpa using hk)
          rw [List.take_succ_cons, count_cons_same, count_cons_other _ _ _ hbr.symm]
          omega
      · rw [count_cons_same, count_cons_other _ _ _ hbr.symm]; omega
      · rw [count_cons_same]; omega
    · subst e
      refine ⟨?_, ?_, ?_⟩
      · intro k hk
        cases k with
        | zero => simp
        | succ k =>
          have := ih1 k (by simpa using hk)
          rw [List.take_succ_cons, count_cons_same, count_cons_other _ _ _ hbr]
          omega
      · rw [count_cons_same, count_cons_other _ _ _ hbr]; omega
      · rw [count_cons_other _ _ _ hbr]; omega
    · subst h3
      refine ⟨?_, ?_, ?_⟩
      · intro k hk
        cases k with
        | zero => simp
        | succ k =>
          have := ih1 k (by simpa using hk)
          rw [List.take_succ_cons, count_cons_other _ _ _ e1, count_cons_other _ _ _ e2]
          exact this
      · rw [count_cons_other _ _ _ e1, count_cons_other _ _ _ e2]; exact ih2
      · rw [count_cons_other _ _ _ e1]; exact ih3

/-- The scan loop succeeds when no prefix closes more brackets than are open. -/
theorem scanLoop_of_prefix (p : List Char) :
    ∀ s, (∀ k, k ≤ p.length → (p.take k).count ']' ≤ s.stack_size + (p.take k).count '[') →
      ∃ s', scanLoop p s = some s' := by
  induction p with
  | nil => intro s _; exact ⟨s, rfl⟩
  | cons c cs ih =>
    intro s hk
    have hbr : ']' ≠ '[' := by decide
    by_cases h1 : c = '['
    · subst h1
      obtain ⟨s', hs'⟩ := ih ⟨s.branch_count + 1, s.stack_size + 1,
          if s.stack_size + 1 > s.max_stack_size then s.stack_size + 1
            else s.max_stack_size⟩ (by
        intro k hk'
        have := hk (k + 1) (by simpa using hk')
        rw [List.take_succ_cons, count_cons_same, count_cons_other _ _ _ hbr.symm] at this
        show _ ≤ s.stack_size + 1 + _
        omega)
      exact ⟨s', by simp only [scanLoop, scanStep_open]; exact hs'⟩
    · by_cases h2 : c = ']'
      · subst h2
        have h0 : s.stack_size ≠ 0 := by
          have := hk 1 (by simp)
          simp at this
          omega
        obtain ⟨s', hs'⟩ := ih ⟨s.branch_count, s.stack_size - 1, s.max_stack_size⟩ (by
          intro k hk'
          have := hk (k + 1) (by simpa using hk')
          rw [List.take_succ_cons, count_cons_same, count_cons_other _ _ _ hbr] at this
          show _ ≤ s.stack_size - 1 + _
          omega)
        exact ⟨s', by simp only [scanLoop, scanStep_close, h0, if_false]; exact hs'⟩
      · obtain ⟨s', hs'⟩ := ih s (by
          intro k hk'
          have := hk (k + 1) (by simpa using hk')
          rw [List.take_succ_cons, count_cons_other _ _ _ h1, count_cons_other _ _ _ h2] at this
          exact this)
        exact ⟨s', by simp only [scanLoop, scanStep_other s c h1 h2]; exact hs'⟩

/-- The balance scan accepts exactly the bracket-balanced texts. -/
theorem balanceScan_isSome_iff (p : List Char) :
    (∃ s, balanceScan p = some s) ↔ Balanced p := by
  unfold balanceScan Balanced
  constructor
  · rintro ⟨s, h⟩
    cases h1 : scanLoop p ⟨0, 0, 0⟩ with
    | none => rw [h1] at h; cases h
    | some s1 =>
      rw [h1] at h
      obtain ⟨a, b, _⟩ := scanLoop_some p _ _ h1
      by_cases h0 : s1.stack_size = 0
      · refine ⟨fun k hk => by simpa using a k hk, ?_⟩
        simp only at b
        omega
      · simp [h0] at h
  · rintro ⟨a, b⟩
    obtain ⟨s', hs'⟩ := scanLoop_of_prefix p ⟨0, 0, 0⟩ (fun k hk => by simpa using a k hk)
    obtain ⟨_, c, _⟩ := scanLoop_some p _ _ hs'
    have h0 : s'.stack_size = 0 := by simp only at c; omega
    exact ⟨s', by simp [hs', h0]⟩

/-! ## Effects of characters and entries -/

theorem addCell_addCell (v w : Int) (c : Nat) : addCell w (addCell v c) = addCell (v + w) c := by
  unfold addCell
  have h : 0 ≤ ((c : Int) + v) % 256 := Int.emod_nonneg _ (by decide)
  rw [Int.toNat_of_nonneg h, Int.emod_add_emod, add_assoc]

theorem Data.modify_modify (d : Data) (v w : Int) :
    (d.modify v).modify w = d.modify (v + w) := by
  simp [Data.modify, Data.setCell, Data.cell, addCell_addCell]

theorem Data.right_right (d : Data) (m n : Nat) : (d.right m).right n = d.right (m + n) := by
  simp [Data.right, Nat.add_assoc]

theorem Data.left_left (d : Data) (m n : Nat) : (d.left m).left n = d.left (m + n) := by
  simp [Data.left, Nat.sub_sub]

theorem charEff_ignored (c : Char) (d : Data) (h : isOperator c = false) : charEff c d = d := by
  simp only [isOperator, Bool.or_eq_false_iff, decide_eq_false_iff_not] at h
  obtain ⟨⟨⟨⟨⟨⟨⟨h1, h2⟩, h3⟩, h4⟩, h5⟩, h6⟩, _⟩, _⟩ := h
  simp [charEff, h1, h2, h3, h4, h5, h6]

theorem charsEff_cons (c : Char) (cs : List Char) (d : Data) :
    charsEff (c :: cs) d = charsEff cs (charEff c d) := rfl

theorem charsEff_ignored (cs : List Char) (h : ∀ c ∈ cs, isOperator c = false) (d : Data) :
    charsEff cs d = d := by
  induction cs generalizing d with
  | nil => rfl
  | cons c cs ih =>
    rw [charsEff_cons, charEff_ignored c d (h c (List.mem_cons_self _ _))]
    exact ih (fun x hx => h x (List.mem_cons_of_mem _ hx)) d

theorem charBr_other_of_ignored (c : Char) (h : isOperator c = false) : charBr c = Br.other := by
  have h1 : c ≠ '[' := by intro e; rw [e] at h; simp [isOperator] at h
  have h2 : c ≠ ']' := by intro e; rw [e] at h; simp [isOperator] at h
  simp [charBr, h1, h2]

/-! ## Correspondence of the nesting structures -/

theorem Tree.acts_cons {α : Type} (a : α) (as : List α) (t : Tree α) :
    Tree.acts (a :: as) t = Tree.act a (Tree.acts as t) := rfl

theorem Tree.flatten_acts {α : Type} (as : List α) (t : Tree α) :
    (Tree.acts as t).flatten = as ++ t.flatten := by
  induction as with
  | nil => rfl
  | cons a as ih => rw [Tree.acts_cons, Tree.flatten, ih]; rfl

theorem Tree.WF_acts {α : Type} (kind : α → Br) (as : List α) (t : Tree α)
    (h : ∀ a ∈ as, kind a = Br.other) (ht : t.WF kind) : (Tree.acts as t).WF kind := by
  induction as with
  | nil => exact ht
  | cons a as ih =>
    exact ⟨h a (List.mem_cons_self _ _), ih (fun x hx => h x (List.mem_cons_of_mem _ hx))⟩

theorem Coal.wf {t : Tree Char} {u : Tree instruction_t} (h : Coal t u) :
    t.WF charBr ∧ u.WF instrBr := by
  induction h with
  | nil cs h =>
    exact ⟨Tree.WF_acts _ _ _ (fun c hc => charBr_other_of_ignored c (h c hc)) trivial, trivial⟩
  | act cs a t u h _ ih =>
    exact ⟨Tree.WF_acts _ _ _ h.2.1 ih.1, h.2.2.1, ih.2⟩
  | loop cs o c o' c' b k b' k' h ho hc ho' hc' _ _ ihb ihk =>
    exact ⟨Tree.WF_acts _ _ _ (fun c hc => charBr_other_of_ignored c (h c hc))
      ⟨ho, hc, ihb.1, ihk.1⟩, ho', hc', ihb.2, ihk.2⟩

/-- An ignored character in front keeps the correspondence. -/
theorem Coal.cons_ignored {t : Tree Char} {u : Tree instruction_t} (c : Char)
    (hc : isOperator c = false) (h : Coal t u) : Coal (Tree.act c t) u := by
  cases h with
  | nil cs h =>
    exact Coal.nil (c :: cs) (by
      intro x hx
      rcases List.mem_cons.1 hx with e | e
      · exact e ▸ hc
      · exact h x e)
  | act cs a t u h hcu =>
    refine Coal.act (c :: cs) a t u ⟨by simp, ?_, h.2.2.1, h.2.2.2.1, ?_⟩ hcu
    · intro x hx
      rcases List.mem_cons.1 hx with e | e
      · exact e ▸ charBr_other_of_ignored c hc
      · exact h.2.1 x e
    · intro d
      rw [charsEff_cons, charEff_ignored c d hc]
      exact h.2.2.2.2 d
  | loop cs o cl o' c' b k b' k' h ho hcl ho' hc' hb hk =>
    exact Coal.loop (c :: cs) o cl o' c' b k b' k' (by
      intro x hx
      rcases List.mem_cons.1 hx with e | e
      · exact e ▸ hc
      · exact h x e) ho hcl ho' hc' hb hk

theorem consRun_of_head_ne (o : op_t) (v : Int) (ys : List instruction_t)
    (h : ∀ i, ys.head? = some i → i.op ≠ o) : consRun o v ys = ⟨o, v, 0⟩ :: ys := by
  cases ys with
  | nil => rfl
  | cons i r => simp [consRun, h i rfl]

theorem addChar_run (c : Char) (ys : List instruction_t) (h : isRunOp (next_op c) = true) :
    addChar c ys = consRun (next_op c) (runDelta c) ys := by
  unfold addChar next_op runDelta isOperator
  unfold next_op at h
  split_ifs at h ⊢ <;> simp_all [isRunOp]

theorem instrBr_other_of_run (a : instruction_t) (h : isRunOp a.op = true) :
    instrBr a = Br.other := by
  unfold instrBr
  cases ha : a.op <;> simp_all [isRunOp]

theorem instrBr_opn (a : instruction_t) : instrBr a = Br.opn ↔ a.op = op_if := by
  unfold instrBr; split_ifs <;> simp_all

theorem instrBr_cls (a : instruction_t) : instrBr a = Br.cls ↔ a.op = op_endif := by
  unfold instrBr; split_ifs <;> simp_all

theorem charBr_other_of_run (c : Char) (h : isRunOp (next_op c) = true) :
    charBr c = Br.other := by
  unfold charBr
  unfold next_op at h
  split_ifs at h ⊢ <;> simp_all [isRunOp]

theorem run_char_cases (c : Char) (h : isRunOp (next_op c) = true) :
    c = '+' ∨ c = '-' ∨ c = '>' ∨ c = '<' := by
  unfold next_op at h
  split_ifs at h <;> simp_all [isRunOp]

/-- A run character has the effect of a fresh entry of value `runDelta`. -/
theorem charEff_run (c : Char) (d : Data) (h : isRunOp (next_op c) = true) :
    charEff c d = instrEff ⟨next_op c, runDelta c, 0⟩ d := by
  rcases run_char_cases c h with e | e | e | e <;> subst e <;> rfl

theorem runDelta_nonneg (c : Char) (h : isRunOp (next_op c) = true)
    (hm : next_op c ≠ op_modify) : runDelta c = 1 := by
  unfold runDelta isOperator
  unfold next_op at h hm
  split_ifs at h hm ⊢ <;> simp_all [isRunOp]

/-- A run character in front of an entry of its kind adds to the value. -/
theorem instrEff_run_cons (c : Char) (a : instruction_t) (d : Data)
    (h : isRunOp (next_op c) = true) (ha : a.op = next_op c)
    (hv : a.op = op_modify ∨ 0 ≤ a.val) :
    instrEff a (charEff c d) = instrEff ⟨next_op c, runDelta c + a.val, 0⟩ d := by
  rw [charEff_run c d h]
  by_cases hm : next_op c = op_modify
  · simp only [instrEff, ha, hm, Data.modify_modify]
  · have h1 := runDelta_nonneg c h hm
    have h0 : 0 ≤ a.val := by
      rcases hv with hv | hv
      · exact absurd (ha ▸ hv) hm
      · exact hv
    have e : (1 + a.val).toNat = 1 + a.val.toNat := by omega
    rw [h1]
    cases ho : next_op c <;> simp_all [isRunOp, instrEff, Data.right_right, Data.left_left]

theorem actOK_run_fresh (c : Char) (h : isRunOp (next_op c) = true) :
    ActOK [c] ⟨next_op c, runDelta c, 0⟩ := by
  refine ⟨by simp, ?_, instrBr_other_of_run _ h, ?_, fun d => charEff_run c d h⟩
  · intro x hx
    rw [List.mem_singleton.1 hx]
    exact charBr_other_of_run c h
  · by_cases hm : next_op c = op_modify
    · exact Or.inl hm
    · right; simp [runDelta_nonneg c h hm]

theorem actOK_run_cons (c : Char) (cs : List Char) (a : instruction_t)
    (h : isRunOp (next_op c) = true) (ha : a.op = next_op c) (hok : ActOK cs a) :
    ActOK (c :: cs) ⟨next_op c, runDelta c + a.val, 0⟩ := by
  obtain ⟨_, h2, _, h4, h5⟩ := hok
  refine ⟨by simp, ?_, instrBr_other_of_run _ h, ?_, ?_⟩
  · intro x hx
    rcases List.mem_cons.1 hx with e | e
    · exact e ▸ charBr_other_of_run c h
    · exact h2 x e
  · by_cases hm : next_op c = op_modify
    · exact Or.inl hm
    · right
      have h0 : 0 ≤ a.val := by
        rcases h4 with hv | hv
        · exact absurd (ha ▸ hv) hm
        · exact hv
      simp only [runDelta_nonneg c h hm]
      omega
  · intro d
    rw [charsEff_cons, h5, instrEff_run_cons c a d h ha h4]

/-- Kinds of source characters. -/
theorem char_cases (c : Char) :
    isOperator c = false ∨ c = '[' ∨ c = ']' ∨ c = ',' ∨ c = '.' ∨
      isRunOp (next_op c) = true := by
  unfold isOperator next_op
  split_ifs <;> simp_all [isRunOp]

theorem closeI_head (S : List (Tree Char × Tree instruction_t)) (i : instruction_t)
    (h : (closeI S).head? = some i) : i.op = op_endif := by
  cases S with
  | nil => simp [closeI] at h
  | cons x S =>
    obtain ⟨t, u⟩ := x
    simp [closeI] at h
    rw [← h]

/-- A balanced text and its condensed list have corresponding nesting
structures, whose depth the scan has measured. -/
theorem parse_pair (p : List Char) :
    ∀ s s', scanLoop p s = some s' → s'.stack_size = 0 →
      s.stack_size ≤ s.max_stack_size →
      ∃ (T : Tree Char) (U : Tree instruction_t) (S : List (Tree Char × Tree instruction_t)),
        S.length = s.stack_size ∧ p = T.flatten ++ closeC S ∧
        condSpec p = U.flatten ++ closeI S ∧ Coal T U ∧
        S.length + U.depth ≤ s'.max_stack_size ∧ AllGood s'.max_stack_size S := by
  induction p with
  | nil =>
    intro s s' h h0 _
    cases h
    refine ⟨Tree.nil, Tree.nil, [], h0.symm, rfl, rfl, Coal.nil [] (by simp), ?_, trivial⟩
    simp [Tree.depth]
  | cons c cs ih =>
    intro s s' h h0 hmax
    obtain ⟨s1, h1, h2⟩ := scanLoop_cons c cs s s' h
    have hmax1 : s1.stack_size ≤ s1.max_stack_size := by
      rcases scanStep_stack s s1 c h1 with ⟨e, _, _⟩ | ⟨_, _, h4, _⟩ | ⟨_, _, h3⟩
      · exact (scanStep_max s s1 c h1).2 e
      · have := (scanStep_max s s1 c h1).1
        omega
      · rw [h3]; exact hmax
    obtain ⟨T, U, S, hlen, hp, hq, hcoal, hdep, hgood⟩ := ih s1 s' h2 h0 hmax1
    rcases scanStep_stack s s1 c h1 with ⟨e, h3, _⟩ | ⟨e, h3, h4, _⟩ | ⟨e1, e2, h3⟩
    · -- an opening bracket: the current tree becomes the body of a loop
      subst e
      cases S with
      | nil => simp at hlen; omega
      | cons x S =>
        obtain ⟨T1, U1⟩ := x
        obtain ⟨hc1, hd1, hg1⟩ := hgood
        refine ⟨Tree.loop '[' T ']' T1, Tree.loop ⟨op_if, 0, 0⟩ U ⟨op_endif, 0, 0⟩ U1, S,
          ?_, ?_, ?_, ?_, ?_, hg1⟩
        · simp at hlen; omega
        · rw [hp]; simp [Tree.flatten, closeC]
        · rw [condSpec_cons, hq]; simp [addChar, Tree.flatten, closeI]
        · exact Coal.loop [] '[' ']' _ _ T T1 U U1 (by simp) rfl rfl rfl rfl hcoal hc1
        · simp only [Tree.depth, List.length_cons] at hdep ⊢
          omega
    · -- a closing bracket: a new innermost level starts empty
      subst e
      refine ⟨Tree.nil, Tree.nil, (T, U) :: S, ?_, ?_, ?_, Coal.nil [] (by simp), ?_,
        ⟨hcoal, hdep, hgood⟩⟩
      · simp [hlen]; omega
      · rw [hp]; simp [Tree.flatten, closeC]
      · rw [condSpec_cons, hq]; simp [addChar, Tree.flatten, closeI]
      · have := scanLoop_max _ _ _ h
        simp only [Tree.depth, List.length_cons]
        omega
    · rw [h3] at hlen
      rcases char_cases c with hc | hc | hc | hc | hc | hc
      · -- an ignored character
        refine ⟨Tree.act c T, U, S, hlen, ?_, ?_, Coal.cons_ignored c hc hcoal, hdep, hgood⟩
        · rw [hp]; simp [Tree.flatten]
        · rw [condSpec_cons_ignored c cs hc, hq]
      · exact absurd hc e1
      · exact absurd hc e2
      · subst hc
        refine ⟨Tree.act ',' T, Tree.act ⟨op_get, 0, 0⟩ U, S, hlen, ?_, ?_, ?_, hdep, hgood⟩
        · rw [hp]; simp [Tree.flatten]
        · rw [condSpec_cons, hq]; simp [addChar, Tree.flatten]
        · exact Coal.act [','] _ T U ⟨by simp, by simp [charBr], rfl, Or.inr (le_refl _),
            fun d => rfl⟩ hcoal
      · subst hc
        refine ⟨Tree.act '.' T, Tree.act ⟨op_put, 0, 0⟩ U, S, hlen, ?_, ?_, ?_, hdep, hgood⟩
        · rw [hp]; simp [Tree.flatten]
        · rw [condSpec_cons, hq]; simp [addChar, Tree.flatten]
        · exact Coal.act ['.'] _ T U ⟨by simp, by simp [charBr], rfl, Or.inr (le_refl _),
            fun d => rfl⟩ hcoal
      · -- a run character: join the first entry of its kind or open a fresh one
        have fresh : (∀ i, (U.flatten ++ closeI S).head? = some i → i.op ≠ next_op c) →
            ∃ (T' : Tree Char) (U' : Tree instruction_t),
              c :: cs = T'.flatten ++ closeC S ∧
              condSpec (c :: cs) = U'.flatten ++ closeI S ∧ Coal T' U' ∧
              S.length + U'.depth ≤ s'.max_stack_size := by
          intro hne
          refine ⟨Tree.act c T, Tree.act ⟨next_op c, runDelta c, 0⟩ U, ?_, ?_, ?_, hdep⟩
          · rw [hp]; simp [Tree.flatten]
          · rw [condSpec_cons, hq, addChar_run c _ hc, consRun_of_head_ne _ _ _ hne]
            simp [Tree.flatten]
          · exact Coal.act [c] _ T U (actOK_run_fresh c hc) hcoal
        have done : (∃ (T' : Tree Char) (U' : Tree instruction_t),
              c :: cs = T'.flatten ++ closeC S ∧
              condSpec (c :: cs) = U'.flatten ++ closeI S ∧ Coal T' U' ∧
              S.length + U'.depth ≤ s'.max_stack_size) →
            ∃ (T : Tree Char) (U : Tree instruction_t)
              (S : List (Tree Char × Tree instruction_t)),
              S.length = s.stack_size ∧ c :: cs = T.flatten ++ closeC S ∧
              condSpec (c :: cs) = U.flatten ++ closeI S ∧ Coal T U ∧
              S.length + U.depth ≤ s'.max_stack_size ∧ AllGood s'.max_stack_size S := by
          rintro ⟨T', U', a1, a2, a3, a4⟩
          exact ⟨T', U', S, hlen, a1, a2, a3, a4, hgood⟩
        apply done
        cases hcoal with
        | nil cs0 h0 =>
          apply fresh
          intro i hi
          have := closeI_head S i (by simpa [Tree.flatten] using hi)
          intro e; rw [this] at e; rw [← e] at hc; simp [isRunOp] at hc
        | loop cs0 o cl o' c' b k b' k' h0 ho hcl ho' hc' hb hk =>
          apply fresh
          intro i hi
          have : i = o' := by simpa [Tree.flatten] using hi.symm
          subst this
          have := (instrBr_opn i).1 ho'
          intro e; rw [this] at e; rw [← e] at hc; simp [isRunOp] at hc
        | act cs0 a t u hok hcu =>
          by_cases ha : a.op = next_op c
          · refine ⟨Tree.acts (c :: cs0) t, Tree.act ⟨next_op c, runDelta c + a.val, 0⟩ u,
              ?_, ?_, ?_, hdep⟩
            · rw [hp]; rfl
            · rw [condSpec_cons, hq, addChar_run c _ hc]
              simp [Tree.flatten, consRun, ha]
            · exact Coal.act (c :: cs0) _ t u (actOK_run_cons c cs0 a hc ha hok) hcu
          · apply fresh
            intro i hi
            have : i = a := by simpa [Tree.flatten] using hi.symm
            rw [this]; exact ha

/-! ## The resolver on a nested text -/

theorem ifCount_nil : ifCount [] = 0 := rfl

theorem ifCount_cons (a : instruction_t) (l : List instruction_t) :
    ifCount (a :: l) = (if a.op = op_if then 1 else 0) + ifCount l := by
  unfold ifCount
  by_cases h : a.op = op_if
  · simp [List.filter_cons, h]; omega
  · simp [List.filter_cons, h]

theorem ifCount_append (l1 l2 : List instruction_t) :
    ifCount (l1 ++ l2) = ifCount l1 + ifCount l2 := by
  unfold ifCount
  simp [List.filter_append]

theorem Tree.WF_annot (U : Tree instruction_t) :
    ∀ n, U.WF instrBr → (U.annot n).WF instrBr := by
  induction U with
  | nil => intro n h; exact h
  | act a k ih => intro n h; exact ⟨h.1, ih n h.2⟩
  | loop o b c k ihb ihk =>
    intro n h
    refine ⟨h.1, ?_, ihb _ h.2.2.1, ihk _ h.2.2.2⟩
    have := (instrBr_cls c).1 h.2.1
    exact (instrBr_cls _).2 this

theorem Tree.length_annot (U : Tree instruction_t) :
    ∀ n, (U.annot n).flatten.length = U.flatten.length := by
  induction U with
  | nil => intro n; rfl
  | act a k ih => intro n; simp [Tree.annot, Tree.flatten, ih]
  | loop o b c k ihb ihk => intro n; simp [Tree.annot, Tree.flatten, ihb, ihk]

theorem Tree.ifCount_annot (U : Tree instruction_t) :
    ∀ n, U.WF instrBr → ifCount (U.annot n).flatten = U.loops := by
  induction U with
  | nil => intro n _; rfl
  | act a k ih =>
    intro n h
    have ha : a.op ≠ op_if := by
      intro e; have := (instrBr_opn a).2 e; rw [h.1] at this; cases this
    simp [Tree.annot, Tree.flatten, Tree.loops, ifCount_cons, ha, ih n h.2]
  | loop o b c k ihb ihk =>
    intro n h
    obtain ⟨ho, hc, hb, hk⟩ := h
    have ho' := (instrBr_opn o).1 ho
    have hc' : c.op ≠ op_if := by
      rw [(instrBr_cls c).1 hc]; decide
    simp [Tree.annot, Tree.flatten, Tree.loops, ifCount_cons, ifCount_append, ho', hc',
      ihb _ hb, ihk _ hk]
    omega

theorem resolveLoop_if (m : Nat) (i : instruction_t) (rest : List instruction_t)
    (stack : List Nat) (bc : Nat) (h : i.op = op_if) (hm : stack.length + 1 ≤ m) :
    resolveLoop m (i :: rest) stack bc =
      (resolveLoop m rest (bc :: stack) (bc + 1)).map (fun r => i :: r) := by
  simp only [resolveLoop, h, if_true, hm]

theorem resolveLoop_endif (m : Nat) (i : instruction_t) (rest : List instruction_t)
    (top : Nat) (stack : List Nat) (bc : Nat) (h : i.op = op_endif) :
    resolveLoop m (i :: rest) (top :: stack) bc =
      (resolveLoop m rest stack bc).map (fun r => { i with branch := top } :: r) := by
  have h1 : i.op ≠ op_if := by rw [h]; decide
  simp only [resolveLoop, h1, if_false]
  simp [h]

theorem resolveLoop_other (m : Nat) (i : instruction_t) (rest : List instruction_t)
    (stack : List Nat) (bc : Nat) (h1 : i.op ≠ op_if) (h2 : i.op ≠ op_endif) :
    resolveLoop m (i :: rest) stack bc =
      (resolveLoop m rest stack bc).map (fun r => i :: r) := by
  simp only [resolveLoop, h1, h2, if_false]

/-- Loop invariant of the resolver: a well-nested stretch leaves the stack as
it found it, advances the loop ordinal by the number of loops and writes the
pre-order ordinals into the closing entries. -/
theorem resolveLoop_flatten (m : Nat) (U : Tree instruction_t) :
    U.WF instrBr → ∀ (rest : List instruction_t) (stack : List Nat) (bc : Nat),
      stack.length + U.depth ≤ m →
      resolveLoop m (U.flatten ++ rest) stack bc =
        (resolveLoop m rest stack (bc + U.loops)).map (fun r => (U.annot bc).flatten ++ r) := by
  induction U with
  | nil =>
    intro _ rest stack bc _
    simp [Tree.flatten, Tree.loops, Tree.annot]
  | act a k ih =>
    intro h rest stack bc hd
    have h1 : a.op ≠ op_if := by
      intro e; have := (instrBr_opn a).2 e; rw [h.1] at this; cases this
    have h2 : a.op ≠ op_endif := by
      intro e; have := (instrBr_cls a).2 e; rw [h.1] at this; cases this
    rw [Tree.flatten, List.cons_append, resolveLoop_other m a _ stack bc h1 h2,
      ih h.2 rest stack bc hd]
    simp only [Tree.loops, Tree.annot, Tree.flatten]
    cases resolveLoop m rest stack (bc + k.loops) <;> simp
  | loop o b c k ihb ihk =>
    intro h rest stack bc hd
    obtain ⟨ho, hc, hb, hk⟩ := h
    have ho' := (instrBr_opn o).1 ho
    have hc' := (instrBr_cls c).1 hc
    simp only [Tree.depth] at hd
    have hd1 : stack.length + 1 ≤ m := by omega
    rw [Tree.flatten, List.cons_append, resolveLoop_if m o _ stack bc ho' hd1,
      List.append_assoc, ihb hb _ (bc :: stack) (bc + 1) (by simp; omega), List.cons_append,
      resolveLoop_endif m c _ bc stack _ hc', ihk hk rest stack (bc + 1 + b.loops) (by omega)]
    have e : bc + 1 + b.loops + k.loops = bc + (1 + b.loops + k.loops) := by omega
    rw [e]
    simp only [Tree.loops, Tree.annot, Tree.flatten]
    cases resolveLoop m rest stack (bc + (1 + b.loops + k.loops)) <;> simp

/-- Every closing entry of an annotated tree closes a loop of the text and
carries the ordinal of the opening entry of that loop. -/
theorem annot_match (U : Tree instruction_t) :
    U.WF instrBr → ∀ (n j : Nat) (e : instruction_t),
      (U.annot n).flatten[j]? = some e → e.op = op_endif →
      ∃ (i : Nat) (o : instruction_t) (b : Tree instruction_t) (rest : List instruction_t),
        (U.annot n).flatten.drop i = o :: (b.flatten ++ e :: rest) ∧
        j = i + b.flatten.length + 1 ∧ instrBr o = Br.opn ∧ b.WF instrBr ∧
        e.branch = n + ifCount ((U.annot n).flatten.take i) := by
  induction U with
  | nil => intro _ n j e h; simp [Tree.annot, Tree.flatten] at h
  | act a k ih =>
    intro hwf n j e h he
    have ha : a.op ≠ op_if := by
      intro e; have := (instrBr_opn a).2 e; rw [hwf.1] at this; cases this
    cases j with
    | zero =>
      simp only [Tree.annot, Tree.flatten, List.getElem?_cons_zero, Option.some.injEq] at h
      subst h
      have := (instrBr_cls a).2 he
      rw [hwf.1] at this; cases this
    | succ j =>
      simp only [Tree.annot, Tree.flatten, List.getElem?_cons_succ] at h
      obtain ⟨i, o, b, rest, h1, h2, h3, h4, h5⟩ := ih hwf.2 n j e h he
      refine ⟨i + 1, o, b, rest, ?_, by omega, h3, h4, ?_⟩
      · simpa [Tree.annot, Tree.flatten] using h1
      · simp only [Tree.annot, Tree.flatten, List.take_succ_cons, ifCount_cons, ha, if_false]
        omega
  | loop o b c k ihb ihk =>
    intro hwf n j e h he
    obtain ⟨ho, hc, hb, hk⟩ := hwf
    have ho' := (instrBr_opn o).1 ho
    have hc' := (instrBr_cls c).1 hc
    cases j with
    | zero =>
      simp only [Tree.annot, Tree.flatten, List.getElem?_cons_zero, Option.some.injEq] at h
      subst h
      rw [ho'] at he; cases he
    | succ j =>
      simp only [Tree.annot, Tree.flatten, List.getElem?_cons_succ] at h
      rcases Nat.lt_trichotomy j (b.annot (n + 1)).flatten.length with hj | hj | hj
      · -- inside the body
        rw [List.getElem?_append_left hj] at h
        obtain ⟨i, o1, b1, rest, h1, h2, h3, h4, h5⟩ := ihb hb (n + 1) j e h he
        have hi : i ≤ (b.annot (n + 1)).flatten.length := by omega
        refine ⟨i + 1, o1, b1, rest ++ { c with branch := n } :: (k.annot (n + 1 + b.loops)).flatten,
          ?_, by omega, h3, h4, ?_⟩
        · simp only [Tree.annot, Tree.flatten, List.drop_succ_cons]
          rw [List.drop_append_of_le_length hi, h1]
          simp
        · simp only [Tree.annot, Tree.flatten, List.take_succ_cons, ifCount_cons, ho', if_true]
          rw [List.take_append_of_le_length hi, h5]
          omega
      · -- the closing entry of this loop
        rw [List.getElem?_append_right (by omega), hj] at h
        simp only [Nat.sub_self, List.getElem?_cons_zero, Option.some.injEq] at h
        subst h
        refine ⟨0, o, b.annot (n + 1), (k.annot (n + 1 + b.loops)).flatten, rfl, by omega, ho,
          Tree.WF_annot b _ hb, ?_⟩
        simp [ifCount_nil]
      · -- after the loop
        rw [List.getElem?_append_right (by omega)] at h
        obtain ⟨j2, hj2⟩ : ∃ j2, j - (b.annot (n + 1)).flatten.length = j2 + 1 :=
          ⟨j - (b.annot (n + 1)).flatten.length - 1, by omega⟩
        rw [hj2, List.getElem?_cons_succ] at h
        obtain ⟨i, o1, b1, rest, h1, h2, h3, h4, h5⟩ := ihk hk (n + 1 + b.loops) j2 e h he
        refine ⟨(b.annot (n + 1)).flatten.length + 2 + i, o1, b1, rest, ?_, by omega, h3, h4, ?_⟩
        · have e1 : (Tree.annot (Tree.loop o b c k) n).flatten =
              (o :: ((b.annot (n + 1)).flatten ++ [{ c with branch := n }])) ++
                (k.annot (n + 1 + b.loops)).flatten := by
            simp [Tree.annot, Tree.flatten]
          have e2 : (b.annot (n + 1)).flatten.length + 2 + i =
              (o :: ((b.annot (n + 1)).flatten ++ [{ c with branch := n }])).length + i := by
            simp
          rw [e1, e2, List.drop_append, h1]
        · have e1 : (Tree.annot (Tree.loop o b c k) n).flatten =
              (o :: ((b.annot (n + 1)).flatten ++ [{ c with branch := n }])) ++
                (k.annot (n + 1 + b.loops)).flatten := by
            simp [Tree.annot, Tree.flatten]
          have e2 : (b.annot (n + 1)).flatten.length + 2 + i =
              (o :: ((b.annot (n + 1)).flatten ++ [{ c with branch := n }])).length + i := by
            simp
          have hc'' : ¬ (op_endif = op_if) := by decide
          rw [e1, e2, List.take_append, ifCount_append, ifCount_cons, ifCount_append,
            ifCount_cons, ifCount_nil, Tree.ifCount_annot b _ hb, h5]
          simp [ho', hc', hc'']
          omega

/-! ## Coalescing preserves the execution -/

theorem cfgRun_mono {α : Type} (eff : α → Data → Data) (n : Nat) :
    ∀ (c : Cfg α) (r : Data) (k : Nat), cfgRun eff n c = some r →
      cfgRun eff (n + k) c = some r := by
  induction n with
  | zero => intro c r k h; cases h
  | succ n ih =>
    intro c r k h
    have e : n + 1 + k = (n + k) + 1 := by omega
    rw [e]
    simp only [cfgRun] at h ⊢
    cases hs : cfgStep eff c with
    | none => rw [hs] at h; exact h
    | some c' => rw [hs] at h; exact ih c' r k h

/-- A stretch of elements that are no brackets is executed one per step. -/
theorem cfgRun_acts {α : Type} (eff : α → Data → Data) (as : List α) (t : Tree α)
    (K : List (Frame α)) :
    ∀ (d : Data) (f : Nat),
      cfgRun eff (as.length + f) ⟨Tree.acts as t, K, d⟩ =
        cfgRun eff f ⟨t, K, as.foldl (fun d a => eff a d) d⟩ := by
  induction as with
  | nil => intro d f; simp [Tree.acts]
  | cons a as ih =>
    intro d f
    have e : (a :: as).length + f = (as.length + f) + 1 := by simp; omega
    rw [e, Tree.acts_cons]
    simp only [cfgRun, cfgStep, List.foldl_cons]
    exact ih (eff a d) f

/-- One step on the condensed text is a positive number of steps on the source
text, and the condensed text halts only where the source text halts. -/
theorem cfgStep_coal (c : Cfg Char) (c' : Cfg instruction_t) (h : CfgRel c c') :
    (cfgStep instrEff c' = none ∧
      ∃ m, ∀ f, cfgRun charEff (m + 1 + f) c = some c'.d) ∨
    (∃ (c1 : Cfg Char) (c1' : Cfg instruction_t) (m : Nat),
      cfgStep instrEff c' = some c1' ∧ CfgRel c1 c1' ∧
      ∀ f, cfgRun charEff (m + 1 + f) c = cfgRun charEff f c1) := by
  obtain ⟨t, K, d⟩ := c
  obtain ⟨t', K', d'⟩ := c'
  obtain ⟨hc, hK, hd⟩ := h
  simp only at hc hK hd
  subst hd
  cases hc with
  | nil cs hcs =>
    have hrun : ∀ f, cfgRun charEff (cs.length + f) ⟨Tree.acts cs Tree.nil, K, d⟩ =
        cfgRun charEff f ⟨Tree.nil, K, d⟩ := by
      intro f
      rw [cfgRun_acts charEff cs Tree.nil K d f]
      have := charsEff_ignored cs hcs d
      unfold charsEff at this
      rw [this]
    cases hK with
    | nil =>
      left
      refine ⟨rfl, cs.length, fun f => ?_⟩
      rw [Nat.add_assoc, hrun, Nat.add_comm 1 f]
      simp [cfgRun, cfgStep]
    | @cons f f' K1 K1' hf hK1 =>
      right
      by_cases hz : d.cell = 0
      · refine ⟨⟨f.k, K1, d⟩, ⟨f'.k, K1', d⟩, cs.length, by simp [cfgStep, hz],
          ⟨hf.2, hK1, rfl⟩, fun n => ?_⟩
        rw [Nat.add_assoc, hrun, Nat.add_comm 1 n]
        simp [cfgRun, cfgStep, hz]
      · refine ⟨⟨f.b, f :: K1, d⟩, ⟨f'.b, f' :: K1', d⟩, cs.length, by simp [cfgStep, hz],
          ⟨hf.1, List.Forall₂.cons hf hK1, rfl⟩, fun n => ?_⟩
        rw [Nat.add_assoc, hrun, Nat.add_comm 1 n]
        simp [cfgRun, cfgStep, hz]
  | act cs a t u hok hcu =>
    right
    obtain ⟨hne, _, _, _, heff⟩ := hok
    obtain ⟨m, hm⟩ : ∃ m, cs.length = m + 1 :=
      ⟨cs.length - 1, by have := List.length_pos.2 hne; omega⟩
    refine ⟨⟨t, K, charsEff cs d⟩, ⟨u, K', instrEff a d⟩, m, rfl, ⟨hcu, hK, heff d⟩,
      fun f => ?_⟩
    rw [← hm, cfgRun_acts charEff cs t K d f]
    rfl
  | loop cs o cl o' c' b k b' k' hcs ho hcl ho' hc' hb hk =>
    right
    have hrun : ∀ f, cfgRun charEff (cs.length + f) ⟨Tree.acts cs (Tree.loop o b cl k), K, d⟩ =
        cfgRun charEff f ⟨Tree.loop o b cl k, K, d⟩ := by
      intro f
      rw [cfgRun_acts charEff cs _ K d f]
      have := charsEff_ignored cs hcs d
      unfold charsEff at this
      rw [this]
    by_cases hz : d.cell = 0
    · refine ⟨⟨k, K, d⟩, ⟨k', K', d⟩, cs.length, by simp [cfgStep, hz],
        ⟨hk, hK, rfl⟩, fun n => ?_⟩
      rw [Nat.add_assoc, hrun, Nat.add_comm 1 n]
      simp [cfgRun, cfgStep, hz]
    · refine ⟨⟨b, ⟨o, b, cl, k⟩ :: K, d⟩, ⟨b', ⟨o', b', c', k'⟩ :: K', d⟩, cs.length,
        by simp [cfgStep, hz], ⟨hb, List.Forall₂.cons ⟨hb, hk⟩ hK, rfl⟩, fun n => ?_⟩
      rw [Nat.add_assoc, hrun, Nat.add_comm 1 n]
      simp [cfgRun, cfgStep, hz]

/-- A halting run of the condensed text is matched by a run of the source
text. -/
theorem cfgRun_coal_forward (n : Nat) :
    ∀ (c : Cfg Char) (c' : Cfg instruction_t) (r : Data), CfgRel c c' →
      cfgRun instrEff n c' = some r → ∃ m, cfgRun charEff m c = some r := by
  induction n with
  | zero => intro c c' r _ h; cases h
  | succ n ih =>
    intro c c' r hrel h
    rcases cfgStep_coal c c' hrel with ⟨h1, m, h2⟩ | ⟨c1, c1', m, h1, h2, h3⟩
    · simp only [cfgRun, h1] at h
      exact ⟨m + 1 + 0, by rw [h2 0, ← h]⟩
    · simp only [cfgRun, h1] at h
      obtain ⟨m', hm'⟩ := ih c1 c1' r h2 h
      exact ⟨m + 1 + m', by rw [h3 m', hm']⟩

/-- A halting run of the source text is matched by a run of the condensed
text. -/
theorem cfgRun_coal_backward (n : Nat) :
    ∀ (c : Cfg Char) (c' : Cfg instruction_t) (r : Data), CfgRel c c' →
      cfgRun charEff n c = some r → ∃ m, cfgRun instrEff m c' = some r := by
  induction n using Nat.strong_induction_on with
  | _ n ih =>
    intro c c' r hrel h
    rcases cfgStep_coal c c' hrel with ⟨h1, m, h2⟩ | ⟨c1, c1', m, h1, h2, h3⟩
    · refine ⟨1, ?_⟩
      have e1 := cfgRun_mono charEff n c r (m + 1) h
      have e2 := h2 n
      rw [show m + 1 + n = n + (m + 1) by omega, e1] at e2
      simp only [cfgRun, h1]
      exact e2.symm
    · by_cases hn : m + 1 ≤ n
      · obtain ⟨f, rfl⟩ : ∃ f, n = m + 1 + f := ⟨n - (m + 1), by omega⟩
        rw [h3 f] at h
        obtain ⟨m', hm'⟩ := ih f (by omega) c1 c1' r h2 h
        exact ⟨m' + 1, by simp only [cfgRun, h1]; exact hm'⟩
      · exfalso
        have e1 := cfgRun_mono charEff n c r (m + 1 - n) h
        rw [show n + (m + 1 - n) = m + 1 + 0 by omega, h3 0] at e1
        cases e1

/-! ## Labels of the condensed program -/

theorem topLabel_spec (l : List instruction_t) :
    ∀ (bc k idx i : Nat) (e : instruction_t), l[i]? = some e → e.op = op_if →
      k = bc + ifCount (l.take i) → topLabel l bc k idx = some (idx + i + 1) := by
  induction l with
  | nil => intro bc k idx i e h; simp at h
  | cons a l ih =>
    intro bc k idx i e h he hk
    cases i with
    | zero =>
      simp only [List.getElem?_cons_zero, Option.some.injEq] at h
      subst h
      simp [topLabel, he, hk, ifCount_nil]
    | succ i =>
      simp only [List.getElem?_cons_succ] at h
      rw [List.take_succ_cons, ifCount_cons] at hk
      by_cases ha : a.op = op_if
      · simp only [ha, if_true] at hk
        have hne : bc ≠ k := by omega
        simp only [topLabel, ha, if_true, hne, if_false]
        rw [ih (bc + 1) k (idx + 1) i e h he (by omega)]
        congr 1; omega
      · simp only [ha, if_false] at hk
        simp only [topLabel, ha, if_false]
        rw [ih bc k (idx + 1) i e h he (by omega)]
        congr 1; omega

theorem endLabel_spec (l : List instruction_t) :
    ∀ (k idx j : Nat) (e : instruction_t), l[j]? = some e → e.op = op_endif →
      e.branch = k →
      (∀ j' e', j' < j → l[j']? = some e' → ¬ (e'.op = op_endif ∧ e'.branch = k)) →
      endLabel l k idx = some (idx + j + 1) := by
  induction l with
  | nil => intro k idx j e h; simp at h
  | cons a l ih =>
    intro k idx j e h he hk hfirst
    cases j with
    | zero =>
      simp only [List.getElem?_cons_zero, Option.some.injEq] at h
      subst h
      simp [endLabel, he, hk]
    | succ j =>
      simp only [List.getElem?_cons_succ] at h
      have ha : ¬ (a.op = op_endif ∧ a.branch = k) :=
        hfirst 0 a (by omega) (List.getElem?_cons_zero)
      simp only [endLabel, ha, if_false]
      rw [ih k (idx + 1) j e h he hk (fun j' e' hj' he' =>
        hfirst (j' + 1) e' (by omega) (by simpa using he'))]
      congr 1; omega

theorem ifCount_take_lt (l : List instruction_t) :
    ∀ (i i' : Nat) (e : instruction_t), l[i]? = some e → e.op = op_if → i < i' →
      ifCount (l.take i) + 1 ≤ ifCount (l.take i') := by
  induction l with
  | nil => intro i i' e h; simp at h
  | cons a l ih =>
    intro i i' e h he hlt
    obtain ⟨i2, rfl⟩ : ∃ i2, i' = i2 + 1 := ⟨i' - 1, by omega⟩
    cases i with
    | zero =>
      simp only [List.getElem?_cons_zero, Option.some.injEq] at h
      subst h
      simp [List.take_succ_cons, ifCount_cons, he, ifCount_nil]
    | succ i =>
      simp only [List.getElem?_cons_succ] at h
      have := ih i i2 e h he (by omega)
      simp only [List.take_succ_cons, ifCount_cons]
      omega

theorem ifOrdinal_inj (l : List instruction_t) (i i' : Nat) (e e' : instruction_t)
    (h : l[i]? = some e) (h' : l[i']? = some e') (he : e.op = op_if) (he' : e'.op = op_if)
    (hq : ifOrdinal l i = ifOrdinal l i') : i = i' := by
  unfold ifOrdinal at hq
  rcases Nat.lt_trichotomy i i' with hlt | heq | hgt
  · have := ifCount_take_lt l i i' e h he hlt; omega
  · exact heq
  · have := ifCount_take_lt l i' i e' h' he' hgt; omega

theorem getElem?_closing_of_drop {α : Type} {xs : List α} {i : Nat} {o c : α}
    {b : Tree α} {rest : List α} (hd : xs.drop i = o :: (b.flatten ++ c :: rest)) :
    xs[i + b.flatten.length + 1]? = some c := by
  have := @drop_add_of_drop_eq_append _ xs i (o :: b.flatten) (c :: rest)
    (by simpa using hd)
  have e : i + (o :: b.flatten).length = i + b.flatten.length + 1 := by simp; omega
  rw [e] at this
  exact getElem?_of_drop_eq_cons this

/-- The labels of the resolved condensed program agree with its nesting
structure. -/
theorem labelJump_ok (U : Tree instruction_t) (hU : U.WF instrBr) :
    JumpOK instrBr (labelJump (U.annot 0).flatten) (U.annot 0).flatten := by
  intro i o b c rest hd ho hc hb
  have ho' := (instrBr_opn o).1 ho
  have hc' := (instrBr_cls c).1 hc
  have hcj := getElem?_closing_of_drop hd
  have hoi := getElem?_of_drop_eq_cons hd
  obtain ⟨hm1, hm2⟩ := match_of_drop instrBr _ i o c b rest hd ho hc hb
  -- the closing entry carries the ordinal of the opening entry
  have hbranch : c.branch = ifOrdinal (U.annot 0).flatten i := by
    obtain ⟨i', o', b', rest', h1, h2, h3, h4, h5⟩ :=
      annot_match U hU 0 (i + b.flatten.length + 1) c hcj hc'
    have hm := (match_of_drop instrBr _ i' o' c b' rest' h1 h3 hc h4).2
    rw [← h2, hm2] at hm
    have hii : i = i' := Option.some.inj hm
    rw [h5, hii]; simp [ifOrdinal]
  constructor
  · unfold labelJump
    rw [hoi]
    simp only [ho', if_true]
    rw [endLabel_spec _ _ 0 (i + b.flatten.length + 1) c hcj hc' hbranch]
    · simp
    · intro j' e' hj' he' hcontra
      obtain ⟨i', o', b', rest', h1, h2, h3, h4, h5⟩ :=
        annot_match U hU 0 j' e' he' hcontra.1
      have hoi' := getElem?_of_drop_eq_cons h1
      have hii : i' = i := by
        apply ifOrdinal_inj _ i' i o' o hoi' hoi ((instrBr_opn o').1 h3) ho'
        rw [← hcontra.2, h5]; simp [ifOrdinal]
      subst hii
      have hm := (match_of_drop instrBr _ i' o' e' b' rest' h1 h3
        ((instrBr_cls e').2 hcontra.1) h4).1
      rw [hm1] at hm
      have := Option.some.inj hm
      omega
  · unfold labelJump
    rw [hcj]
    have hne : c.op ≠ op_if := by rw [hc']; decide
    simp only [hne, if_false]
    rw [topLabel_spec _ 0 c.branch 0 i o hoi ho' (by rw [hbranch]; simp [ifOrdinal])]
    simp

/-! ## The pipeline on a balanced text -/

theorem Tree.map_annot (U : Tree instruction_t) :
    ∀ n, (U.annot n).flatten.map (fun e => (e.op, e.val)) =
      U.flatten.map (fun e => (e.op, e.val)) := by
  induction U with
  | nil => intro n; rfl
  | act a k ih => intro n; simp [Tree.annot, Tree.flatten, ih]
  | loop o b c k ihb ihk => intro n; simp [Tree.annot, Tree.flatten, ihb, ihk]

/-- On a balanced text the scan, the condensing pass and the resolver succeed,
and their results have corresponding nesting structures. -/
theorem compile_spec (p : List Char) (hb : Balanced p) :
    ∃ (s : ScanState) (T : Tree Char) (U : Tree instruction_t),
      balanceScan p = some s ∧ p = T.flatten ∧ condense p = U.flatten ∧ Coal T U ∧
      U.depth ≤ s.max_stack_size ∧ compile p = some (U.annot 0).flatten := by
  obtain ⟨s, hs⟩ := (balanceScan_isSome_iff p).2 hb
  have hs' := hs
  unfold balanceScan at hs'
  cases h1 : scanLoop p ⟨0, 0, 0⟩ with
  | none => rw [h1] at hs'; cases hs'
  | some s1 =>
    rw [h1] at hs'
    by_cases h0 : s1.stack_size = 0
    · simp [h0] at hs'
      subst hs'
      obtain ⟨T, U, S, hlen, hp, hq, hcoal, hdep, _⟩ :=
        parse_pair p _ _ h1 h0 (le_refl _)
      have hS : S = [] := List.length_eq_zero.1 hlen
      subst hS
      simp only [closeC, closeI, List.append_nil, List.length_nil, Nat.zero_add] at hp hq hdep
      refine ⟨s1, T, U, hs, hp, by rw [condense_eq_condSpec, hq], hcoal, hdep, ?_⟩
      unfold compile resolve
      rw [hs, condense_eq_condSpec, hq]
      have := resolveLoop_flatten s1.max_stack_size U hcoal.wf.2 [] [] 0 (by simpa using hdep)
      rw [List.append_nil] at this
      simp only [this]
      simp [resolveLoop]
    · simp [h0] at hs'

theorem Coal.annot {t : Tree Char} {u : Tree instruction_t} (h : Coal t u) :
    ∀ n, Coal t (u.annot n) := by
  induction h with
  | nil cs h => intro n; exact Coal.nil cs h
  | act cs a t u h _ ih => intro n; exact Coal.act cs a t (u.annot n) h (ih n)
  | loop cs o c o' c' b k b' k' h ho hc ho' hc' _ _ ihb ihk =>
    intro n
    exact Coal.loop cs o c o' _ b k _ _ h ho hc ho'
      ((instrBr_cls _).2 ((instrBr_cls c').1 hc')) (ihb _) (ihk _)

/-! ## Claims on the resolver and on the refinement -/

/-- C7: for every bracket-balanced program the scan, the condensing pass and
the resolver pass produce a result in which only `branch` fields differ from
the condensed list, and the `branch` field of each `endif` entry equals the
0-based ordinal (the number of `if` entries before it) of the `if` entry that
matches it under bracket matching by depth counting. -/
theorem resolver_branch_matches (p : List Char) (hb : Balanced p) :
    ∃ r, compile p = some r ∧
      r.map (fun e => (e.op, e.val)) = (condense p).map (fun e => (e.op, e.val)) ∧
      ∀ (j : Nat) (e : instruction_t), r[j]? = some e → e.op = op_endif →
        ∃ i, matchOpen instrBr r j = some i ∧
          (r[i]?).map instruction_t.op = some op_if ∧ e.branch = ifOrdinal r i := by
  obtain ⟨s, T, U, _, _, hq, hcoal, _, hcomp⟩ := compile_spec p hb
  refine ⟨_, hcomp, by rw [hq, Tree.map_annot], ?_⟩
  intro j e hj he
  obtain ⟨i, o, b, rest, h1, h2, h3, h4, h5⟩ := annot_match U hcoal.wf.2 0 j e hj he
  refine ⟨i, ?_, ?_, ?_⟩
  · rw [h2]
    exact (match_of_drop instrBr _ i o e b rest h1 h3 ((instrBr_cls e).2 he) h4).2
  · rw [getElem?_of_drop_eq_cons h1]
    simp [(instrBr_opn o).1 h3]
  · rw [h5]; simp [ifOrdinal]

/-- Witness for C7: in `+[>[-]<[,]]` (two loops nested in a third) the three
`endif` entries at indices 4, 8 and 9 receive the ordinals 1, 2 and 0. -/
theorem resolver_branch_matches_witness :
    (∃ r, compile "+[>[-]<[,]]".toList = some r ∧
      r.map (fun e => (e.op, e.val)) =
        (condense "+[>[-]<[,]]".toList).map (fun e => (e.op, e.val)) ∧
      ∀ (j : Nat) (e : instruction_t), r[j]? = some e → e.op = op_endif →
        ∃ i, matchOpen instrBr r j = some i ∧
          (r[i]?).map instruction_t.op = some op_if ∧ e.branch = ifOrdinal r i) ∧
    (compile "+[>[-]<[,]]".toList).map (fun r => r.map instruction_t.branch) =
      some [0, 0, 0, 0, 0, 1, 0, 0, 0, 2, 0] :=
  ⟨resolver_branch_matches "+[>[-]<[,]]".toList
    ((balanceScan_isSome_iff _).1 ⟨⟨3, 0, 2⟩, by decide⟩), by decide⟩

/-- C1: for every bracket-balanced program and every input stream, the
execution of the condensed instruction list with its resolved loop indices
halts exactly when the execution of the source text, one character at a time
under the same per-character rules, halts, and then with the same data: the
same output bytes, the same tape, the same pointer (and the same remaining
input).  The tape of the model is unbounded to the right, which is the
behaviour of the program as long as the pointer stays inside the user region. -/
theorem condensed_refines_source (p : List Char) (hb : Balanced p) (input : List Nat) :
    ∃ r, compile p = some r ∧
      ∀ res : Data, (∃ fuel, srcRun p fuel input = some res) ↔
        (∃ fuel, condRun r fuel input = some res) := by
  obtain ⟨s, T, U, _, hp, _, hcoal, _, hcomp⟩ := compile_spec p hb
  refine ⟨_, hcomp, fun res => ?_⟩
  have hsrc : ∀ fuel, srcRun p fuel input = cfgRun charEff fuel ⟨T, [], Data.init input⟩ := by
    intro fuel
    unfold srcRun
    exact flatRun_eq_cfgRun charBr charEff (srcJump p) p (srcJump_ok p) fuel 0 T []
      (Data.init input) ⟨by simpa using hp, hcoal.wf.1⟩
  have hcond : ∀ fuel, condRun (U.annot 0).flatten fuel input =
      cfgRun instrEff fuel ⟨U.annot 0, [], Data.init input⟩ := by
    intro fuel
    unfold condRun
    exact flatRun_eq_cfgRun instrBr instrEff _ _ (labelJump_ok U hcoal.wf.2) fuel 0
      (U.annot 0) [] (Data.init input) ⟨by simp, Tree.WF_annot U 0 hcoal.wf.2⟩
  have hrel : CfgRel ⟨T, [], Data.init input⟩ ⟨U.annot 0, [], Data.init input⟩ :=
    ⟨hcoal.annot 0, List.Forall₂.nil, rfl⟩
  constructor
  · rintro ⟨fuel, h⟩
    rw [hsrc] at h
    obtain ⟨m, hm⟩ := cfgRun_coal_backward fuel _ _ res hrel h
    exact ⟨m, by rw [hcond]; exact hm⟩
  · rintro ⟨fuel, h⟩
    rw [hcond] at h
    obtain ⟨m, hm⟩ := cfgRun_coal_forward fuel _ _ res hrel h
    exact ⟨m, by rw [hsrc]; exact hm⟩

/-! ## Memory of the code buffer -/

theorem writeLE_out (n : Nat) : ∀ (mem : Nat → Nat) (addr v a : Nat),
    (a < addr ∨ addr + n ≤ a) → writeLE mem addr n v a = mem a := by
  induction n with
  | zero => intro mem addr v a _; rfl
  | succ n ih =>
    intro mem addr v a h
    simp only [writeLE]
    rw [ih _ _ _ _ (by omega), Function.update_noteq (by omega)]

theorem readLE_congr (n : Nat) : ∀ (m1 m2 : Nat → Nat) (addr : Nat),
    (∀ a, addr ≤ a → a < addr + n → m1 a = m2 a) → readLE m1 addr n = readLE m2 addr n := by
  induction n with
  | zero => intro m1 m2 addr _; rfl
  | succ n ih =>
    intro m1 m2 addr h
    simp only [readLE]
    rw [h addr (le_refl _) (by omega), ih m1 m2 (addr + 1) (fun a h1 h2 => h a (by omega) (by omega))]

theorem readLE_writeLE (n : Nat) : ∀ (mem : Nat → Nat) (addr v : Nat),
    readLE (writeLE mem addr n v) addr n = v % 256 ^ n := by
  induction n with
  | zero => intro mem addr v; simp [readLE, Nat.mod_one]
  | succ n ih =>
    intro mem addr v
    simp only [readLE, writeLE]
    rw [ih, writeLE_out n _ _ _ _ (Or.inl (by omega)), Function.update_same]
    rw [pow_succ, Nat.mul_comm (256 ^ n) 256, Nat.mod_mul]

theorem sread32_congr (m1 m2 : Nat → Nat) (addr : Nat)
    (h : ∀ a, addr ≤ a → a < addr + 4 → m1 a = m2 a) : sread32 m1 addr = sread32 m2 addr := by
  unfold sread32
  rw [readLE_congr 4 m1 m2 addr h]

/-- A displacement that fits 32 bits is read back from its slot. -/
theorem sread32_writeLE (mem : Nat → Nat) (addr : Nat) (d : Int)
    (h1 : -(2 ^ 31) ≤ d) (h2 : d < 2 ^ 31) :
    sread32 (writeLE mem addr 4 (toU32 d)) addr = d := by
  unfold sread32
  rw [readLE_writeLE]
  unfold toU32
  have hnn : 0 ≤ d % 2 ^ 32 := Int.emod_nonneg _ (by norm_num)
  have hlt : d % 2 ^ 32 < 2 ^ 32 := Int.emod_lt_of_pos _ (by norm_num)
  have hm : (d % 2 ^ 32).toNat % 256 ^ 4 = (d % 2 ^ 32).toNat := by
    apply Nat.mod_eq_of_lt
    have : ((d % 2 ^ 32).toNat : Int) < 2 ^ 32 := by rw [Int.toNat_of_nonneg hnn]; exact hlt
    norm_num
    exact_mod_cast this
  rw [hm]
  have hc : ((d % 2 ^ 32).toNat : Int) = d % 2 ^ 32 := Int.toNat_of_nonneg hnn
  by_cases hd : 0 ≤ d
  · have e : d % 2 ^ 32 = d := Int.emod_eq_of_lt hd (by omega)
    have hlt' : (d % 2 ^ 32).toNat < 2 ^ 31 := by
      have : ((d % 2 ^ 32).toNat : Int) < 2 ^ 31 := by rw [hc, e]; exact h2
      exact_mod_cast this
    rw [if_pos hlt', hc, e]
  · have e : d % 2 ^ 32 = d + 2 ^ 32 := by
      have : (d + 2 ^ 32) % 2 ^ 32 = d + 2 ^ 32 := Int.emod_eq_of_lt (by omega) (by omega)
      rw [← this, Int.add_emod_self]
    have hge : ¬ (d % 2 ^ 32).toNat < 2 ^ 31 := by
      intro hh
      have : ((d % 2 ^ 32).toNat : Int) < 2 ^ 31 := by exact_mod_cast hh
      rw [hc, e] at this
      omega
    rw [if_neg hge, hc, e]
    omega

theorem patchSources_out (S : List Nat) : ∀ (mem : Nat → Nat) (dest a : Nat),
    (∀ s ∈ S, a < s ∨ s + 4 ≤ a) → patchSources mem dest S a = mem a := by
  induction S with
  | nil => intro mem dest a _; rfl
  | cons x S ih =>
    intro mem dest a h
    simp only [patchSources]
    rw [ih _ _ _ (fun s hs => h s (List.mem_cons_of_mem _ hs)),
      writeLE_out 4 _ _ _ _ (h x (List.mem_cons_self _ _))]

/-- After the patch loop every pending slot holds the displacement to the
destination. -/
theorem patchSources_in (S : List Nat) : ∀ (mem : Nat → Nat) (dest s : Nat), s ∈ S →
    (∀ s1 ∈ S, ∀ s2 ∈ S, s1 = s2 ∨ s1 + 4 ≤ s2 ∨ s2 + 4 ≤ s1) →
    readLE (patchSources mem dest S) s 4 =
      readLE (writeLE mem s 4 (toU32 ((dest : Int) - ((s + 4 : Nat) : Int)))) s 4 := by
  induction S with
  | nil => intro mem dest s h; cases h
  | cons x S ih =>
    intro mem dest s hs hp
    simp only [patchSources]
    by_cases hin : s ∈ S
    · rw [ih _ dest s hin (fun s1 h1 s2 h2 =>
        hp s1 (List.mem_cons_of_mem _ h1) s2 (List.mem_cons_of_mem _ h2))]
      rw [readLE_writeLE, readLE_writeLE]
    · have hx : s = x := by
        rcases List.mem_cons.1 hs with e | e
        · exact e
        · exact absurd e hin
      subst hx
      apply readLE_congr
      intro a h1 h2
      apply patchSources_out
      intro s2 hs2
      rcases hp s (List.mem_cons_self _ _) s2 (List.mem_cons_of_mem _ hs2) with e | e | e
      · exact absurd (e ▸ hs2) hin
      · left; omega
      · right; omega

/-! ## Primitive operations of the assembler -/

theorem emit_source_spec (buf buf' : Asm) (lab : Nat) (h : emit_source buf lab = some buf') :
    ∃ l, buf.heap[lab]? = some l ∧ buf.offset + 4 < buf.buffer_size ∧
      buf'.offset = buf.offset + 4 ∧ buf'.buffer = buf.buffer ∧
      buf'.buffer_size = buf.buffer_size ∧
      ((l.resolved = true ∧ buf'.heap = buf.heap ∧
          buf'.mem = writeLE buf.mem (buf.buffer + buf.offset) 4
            (toU32 ((l.ptr : Int) - ((buf.buffer + buf.offset + 4 : Nat) : Int)))) ∨
       (l.resolved = false ∧
          buf'.heap = buf.heap.set lab
            { l with sources := (buf.buffer + buf.offset) :: l.sources } ∧
          buf'.mem = writeLE buf.mem (buf.buffer + buf.offset) 4 0)) := by
  unfold emit_source at h
  cases hl : buf.heap[lab]? with
  | none => rw [hl] at h; cases h
  | some l =>
    rw [hl] at h
    simp only at h
    by_cases hc : check_space buf 4 = false
    · rw [if_pos hc] at h; cases h
    · rw [if_neg hc] at h
      have hsp : buf.offset + 4 < buf.buffer_size := by
        simpa [check_space] using hc
      by_cases hr : l.resolved = true
      · rw [if_pos hr] at h
        cases h
        exact ⟨l, rfl, hsp, rfl, rfl, rfl, Or.inl ⟨hr, rfl, rfl⟩⟩
      · rw [if_neg hr] at h
        cases h
        exact ⟨l, rfl, hsp, rfl, rfl, rfl, Or.inr ⟨by simpa using hr, rfl, rfl⟩⟩

theorem emit_push_label_spec (buf buf' : Asm) (lab : Nat)
    (h : emit_push_label buf lab = some buf') :
    ∃ l, buf.heap[lab]? = some l ∧ l.resolved = false ∧
      buf'.heap = buf.heap.set lab
        { resolved := true, ptr := buf.buffer + buf.offset, sources := [] } ∧
      buf'.offset = buf.offset ∧ buf'.buffer = buf.buffer ∧
      buf'.buffer_size = buf.buffer_size ∧
      buf'.mem = patchSources buf.mem (buf.buffer + buf.offset) l.sources := by
  unfold emit_push_label at h
  cases hl : buf.heap[lab]? with
  | none => rw [hl] at h; cases h
  | some l =>
    rw [hl] at h
    simp only at h
    by_cases hr : l.resolved = true
    · rw [if_pos hr] at h; cases h
    · rw [if_neg hr] at h
      cases h
      exact ⟨l, rfl, by simpa using hr, rfl, rfl, rfl, rfl, rfl⟩

/-- Every primitive operation keeps the region and is of one of four kinds. -/
theorem Prim.spec {buf buf' : Asm} (h : Prim buf buf') :
    buf'.buffer = buf.buffer ∧ buf'.buffer_size = buf.buffer_size ∧ PrimKind buf buf' := by
  cases h with
  | u8 _ v h =>
    exact ⟨rfl, rfl, Or.inl ⟨rfl, 1, rfl, h, fun a ha => writeLE_out 1 _ _ _ _ ha⟩⟩
  | u32 _ v h =>
    exact ⟨rfl, rfl, Or.inl ⟨rfl, 4, rfl, h, fun a ha => writeLE_out 4 _ _ _ _ ha⟩⟩
  | ptr x64 _ v h =>
    exact ⟨rfl, rfl, Or.inl ⟨rfl, wordBytes x64, rfl, h, fun a ha => writeLE_out _ _ _ _ _ ha⟩⟩
  | source _ lab _ h =>
    obtain ⟨l, hl, hsp, ho, hb, hs, hk⟩ := emit_source_spec buf buf' lab h
    refine ⟨hb, hs, ?_⟩
    rcases hk with ⟨_, hh, hm⟩ | ⟨hr, hh, hm⟩
    · exact Or.inl ⟨hh, 4, ho, by omega, fun a ha => by rw [hm]; exact writeLE_out 4 _ _ _ _ ha⟩
    · exact Or.inr (Or.inl ⟨lab, l, hl, hr, hh, ho, by omega,
        fun a ha => by rw [hm]; exact writeLE_out 4 _ _ _ _ ha⟩)
  | push _ lab _ h =>
    obtain ⟨l, hl, hr, hh, ho, hb, hs, hm⟩ := emit_push_label_spec buf buf' lab h
    exact ⟨hb, hs, Or.inr (Or.inr (Or.inl ⟨lab, l, hl, hr, hh, ho, hm⟩))⟩
  | label _ =>
    exact ⟨rfl, rfl, Or.inr (Or.inr (Or.inr ⟨rfl, rfl, rfl⟩))⟩

theorem getElem?_lt {α : Type} {l : List α} {i : Nat} {a : α} (h : l[i]? = some a) :
    i < l.length := by
  obtain ⟨h1, _⟩ := List.getElem?_eq_some.1 h
  exact h1

/-- Pending slots after a primitive operation: those before it, except the ones
of a label being bound, plus the slot being registered. -/
theorem PrimKind.pending {buf buf' : Asm} (hk : PrimKind buf buf') (lab s : Nat)
    (h : Pending buf' lab s) :
    Pending buf lab s ∨ (s = buf.buffer + buf.offset ∧ buf'.offset = buf.offset + 4 ∧
      ∃ l, buf.heap[lab]? = some l ∧ l.resolved = false ∧ buf'.heap[lab]? =
        some { l with sources := (buf.buffer + buf.offset) :: l.sources }) := by
  obtain ⟨l', hl', hs⟩ := h
  rcases hk with ⟨hh, _⟩ | ⟨lab0, l0, hl0, hr0, hh, ho, _, _⟩ | ⟨lab0, l0, hl0, hr0, hh, _, _⟩ |
    ⟨hh, _, _⟩
  · rw [hh] at hl'; exact Or.inl ⟨l', hl', hs⟩
  · rw [hh, List.getElem?_set] at hl'
    by_cases e : lab0 = lab
    · subst e
      rw [if_pos rfl, if_pos (getElem?_lt hl0)] at hl'
      cases hl'
      rcases List.mem_cons.1 hs with e | e
      · right
        refine ⟨e, ho, l0, hl0, hr0, ?_⟩
        rw [hh, List.getElem?_set_self (getElem?_lt hl0)]
      · exact Or.inl ⟨l0, hl0, e⟩
    · rw [if_neg e] at hl'
      exact Or.inl ⟨l', hl', hs⟩
  · rw [hh, List.getElem?_set] at hl'
    by_cases e : lab0 = lab
    · subst e
      rw [if_pos rfl, if_pos (getElem?_lt hl0)] at hl'
      cases hl'
      cases hs
    · rw [if_neg e] at hl'
      exact Or.inl ⟨l', hl', hs⟩
  · rw [hh] at hl'
    by_cases e : lab < buf.heap.length
    · rw [List.getElem?_append_left e] at hl'
      exact Or.inl ⟨l', hl', hs⟩
    · rw [List.getElem?_append_right (by omega)] at hl'
      cases hq : lab - buf.heap.length with
      | zero => rw [hq] at hl'; simp at hl'; subst hl'; cases hs
      | succ n => rw [hq] at hl'; simp at hl'

theorem PrimKind.offset_le {buf buf' : Asm} (hk : PrimKind buf buf') :
    buf.offset ≤ buf'.offset := by
  rcases hk with ⟨_, n, h, _⟩ | ⟨_, _, _, _, _, h, _⟩ | ⟨_, _, _, _, _, h, _⟩ | ⟨_, h, _⟩ <;>
    omega

/-- Bound labels are never changed again. -/
theorem Prim.resolved_stable {buf buf' : Asm} (h : Prim buf buf') (lab : Nat) (l : label_t)
    (hl : buf.heap[lab]? = some l) (hr : l.resolved = true) : buf'.heap[lab]? = some l := by
  obtain ⟨_, _, hk⟩ := h.spec
  rcases hk with ⟨hh, _⟩ | ⟨lab0, l0, hl0, hr0, hh, _⟩ | ⟨lab0, l0, hl0, hr0, hh, _⟩ | ⟨hh, _, _⟩
  · rw [hh]; exact hl
  · have e : lab0 ≠ lab := by
      intro e; subst e; rw [hl0] at hl; cases hl; rw [hr] at hr0; cases hr0
    rw [hh, List.getElem?_set_ne e]; exact hl
  · have e : lab0 ≠ lab := by
      intro e; subst e; rw [hl0] at hl; cases hl; rw [hr] at hr0; cases hr0
    rw [hh, List.getElem?_set_ne e]; exact hl
  · rw [hh, List.getElem?_append_left (getElem?_lt hl)]; exact hl

/-- The well-formedness of the buffer is kept by every primitive operation. -/
theorem Prim.wfa {buf buf' : Asm} (h : Prim buf buf') (hw : WFA buf) : WFA buf' := by
  obtain ⟨hb, hs, hk⟩ := h.spec
  obtain ⟨w1, w2, w3, w4, w5⟩ := hw
  have hle := hk.offset_le
  have hpend := hk.pending
  refine ⟨?_, by rw [hs]; exact w2, ?_, ?_, ?_⟩
  · rw [hs]
    rcases hk with ⟨_, n, h1, h2, _⟩ | ⟨_, _, _, _, _, h1, h2, _⟩ | ⟨_, _, _, _, _, h1, _⟩ |
      ⟨_, h1, _⟩ <;> omega
  · intro lab l hl hr
    rw [hb]
    rcases hk with ⟨hh, _⟩ | ⟨lab0, l0, hl0, hr0, hh, _⟩ | ⟨lab0, l0, hl0, hr0, hh, ho, _⟩ |
      ⟨hh, _, _⟩
    · rw [hh] at hl
      obtain ⟨a, b, c⟩ := w3 lab l hl hr
      exact ⟨a, b, by omega⟩
    · rw [hh, List.getElem?_set] at hl
      by_cases e : lab0 = lab
      · subst e
        rw [if_pos rfl, if_pos (getElem?_lt hl0)] at hl
        cases hl
        simp only at hr
        rw [hr] at hr0; cases hr0
      · rw [if_neg e] at hl
        obtain ⟨a, b, c⟩ := w3 lab l hl hr
        exact ⟨a, b, by omega⟩
    · rw [hh, List.getElem?_set] at hl
      by_cases e : lab0 = lab
      · subst e
        rw [if_pos rfl, if_pos (getElem?_lt hl0)] at hl
        cases hl
        exact ⟨rfl, by simp, by simp; omega⟩
      · rw [if_neg e] at hl
        obtain ⟨a, b, c⟩ := w3 lab l hl hr
        exact ⟨a, b, by omega⟩
    · rw [hh] at hl
      by_cases e : lab < buf.heap.length
      · rw [List.getElem?_append_left e] at hl
        obtain ⟨a, b, c⟩ := w3 lab l hl hr
        exact ⟨a, b, by omega⟩
      · rw [List.getElem?_append_right (by omega)] at hl
        cases hq : lab - buf.heap.length with
        | zero => rw [hq] at hl; simp at hl; subst hl; cases hr
        | succ n => rw [hq] at hl; simp at hl
  · intro lab s hp
    rw [hb]
    rcases hpend lab s hp with h1 | ⟨h1, h2, _⟩
    · obtain ⟨a, b⟩ := w4 lab s h1
      exact ⟨a, by omega⟩
    · omega
  · intro lab1 s1 lab2 s2 hp1 hp2
    rcases hpend lab1 s1 hp1 with h1 | ⟨h1, _, l1, hl1, _, hl1'⟩ <;>
      rcases hpend lab2 s2 hp2 with h2 | ⟨h2, _, l2, hl2, _, hl2'⟩
    · exact w5 lab1 s1 lab2 s2 h1 h2
    · have := (w4 lab1 s1 h1).2
      right; left; omega
    · have := (w4 lab2 s2 h2).2
      right; right; omega
    · left
      refine ⟨by omega, ?_⟩
      -- only one label has changed
      rcases hk with ⟨hh, _⟩ | ⟨lab0, l0, hl0, hr0, hh, _⟩ | ⟨_, _, _, _, _, ho, _⟩ |
        ⟨_, ho, _⟩
      · rw [hh, hl1] at hl1'
        have := congrArg (fun o => o.map (fun l => l.sources.length)) hl1'
        simp at this
      · by_contra hne
        have a1 : lab0 = lab1 := by
          by_contra e
          rw [hh, List.getElem?_set_ne e, hl1] at hl1'
          have := congrArg (fun o => o.map (fun l => l.sources.length)) hl1'
          simp at this
        have a2 : lab0 = lab2 := by
          by_contra e
          rw [hh, List.getElem?_set_ne e, hl2] at hl2'
          have := congrArg (fun o => o.map (fun l => l.sources.length)) hl2'
          simp at this
        exact hne (a1 ▸ a2)
      · omega
      · omega

theorem sread32_of_readLE {m1 m2 : Nat → Nat} {s : Nat}
    (h : readLE m1 s 4 = readLE m2 s 4) : sread32 m1 s = sread32 m2 s := by
  unfold sread32; rw [h]

/-- A settled byte is never written again. -/
theorem Prim.settled {buf buf' : Asm} (h : Prim buf buf') (a : Nat)
    (ha : Settled buf a) : Settled buf' a ∧ buf'.mem a = buf.mem a := by
  obtain ⟨hb, hs, hk⟩ := h.spec
  obtain ⟨a1, a2⟩ := ha
  have hle := hk.offset_le
  refine ⟨⟨by rw [hb]; omega, ?_⟩, ?_⟩
  · intro lab s hp
    rcases hk.pending lab s hp with h1 | ⟨h1, _⟩
    · exact a2 lab s h1
    · left; omega
  · rcases hk with ⟨_, n, _, _, hm⟩ | ⟨_, _, _, _, _, _, _, hm⟩ | ⟨lab0, l0, hl0, _, _, _, hm⟩ |
      ⟨_, _, hm⟩
    · exact hm a (Or.inl a1)
    · exact hm a (Or.inl a1)
    · rw [hm]
      exact patchSources_out _ _ _ _ (fun s hs => a2 lab0 s ⟨l0, hl0, hs⟩)
    · rw [hm]

/-- C9 core: a slot emitted against a label stays pending on it until the label
is bound and holds the displacement to the label from then on. -/
theorem Prim.slotOK {buf buf' : Asm} (h : Prim buf buf') (hw : WFA buf) (s lab : Nat)
    (hs : SlotOK buf s lab) : SlotOK buf' s lab := by
  obtain ⟨hb, hsz, hk⟩ := h.spec
  obtain ⟨s1, s2, s3, l, hl, s4⟩ := hs
  obtain ⟨w1, w2, w3, w4, w5⟩ := hw
  have hle := hk.offset_le
  refine ⟨by rw [hb]; exact s1, by rw [hb]; omega, ?_, ?_⟩
  · intro lab2 s' hp
    rcases hk.pending lab2 s' hp with h1 | ⟨h1, _⟩
    · exact s3 lab2 s' h1
    · right; right; omega
  · have hmem_of : (∀ a, s ≤ a → a < s + 4 → buf'.mem a = buf.mem a) →
        buf'.heap[lab]? = some l →
        ∃ l, buf'.heap[lab]? = some l ∧
          ((l.resolved = true ∧ sread32 buf'.mem s = (l.ptr : Int) - ((s + 4 : Nat) : Int)) ∨
           (l.resolved = false ∧ s ∈ l.sources)) := by
      intro hm hl'
      refine ⟨l, hl', ?_⟩
      rcases s4 with ⟨r, e⟩ | ⟨r, e⟩
      · exact Or.inl ⟨r, by rw [sread32_congr _ _ s hm]; exact e⟩
      · exact Or.inr ⟨r, e⟩
    rcases hk with ⟨hh, n, _, _, hm⟩ | ⟨lab0, l0, hl0, hr0, hh, _, _, hm⟩ |
      ⟨lab0, l0, hl0, hr0, hh, ho, hm⟩ | ⟨hh, _, hm⟩
    · exact hmem_of (fun a _ h2 => hm a (Or.inl (by omega))) (by rw [hh]; exact hl)
    · by_cases e : lab0 = lab
      · subst e
        have e0 : l = l0 := by rw [hl] at hl0; exact Option.some.inj hl0
        rw [e0] at s4
        refine ⟨{ l0 with sources := (buf.buffer + buf.offset) :: l0.sources },
          by rw [hh, List.getElem?_set_self (getElem?_lt hl0)], Or.inr ⟨hr0, ?_⟩⟩
        rcases s4 with ⟨r, _⟩ | ⟨_, e⟩
        · rw [r] at hr0; cases hr0
        · exact List.mem_cons_of_mem _ e
      · exact hmem_of (fun a _ h2 => hm a (Or.inl (by omega)))
          (by rw [hh, List.getElem?_set_ne e]; exact hl)
    · by_cases e : lab0 = lab
      · subst e
        have e0 : l = l0 := by rw [hl] at hl0; exact Option.some.inj hl0
        rw [e0] at s4
        refine ⟨{ resolved := true, ptr := buf.buffer + buf.offset, sources := [] },
          by rw [hh, List.getElem?_set_self (getElem?_lt hl0)], Or.inl ⟨rfl, ?_⟩⟩
        rcases s4 with ⟨r, _⟩ | ⟨_, e⟩
        · rw [r] at hr0; cases hr0
        · rw [hm]
          have hpair : ∀ x1 ∈ l0.sources, ∀ x2 ∈ l0.sources,
              x1 = x2 ∨ x1 + 4 ≤ x2 ∨ x2 + 4 ≤ x1 := by
            intro x1 h1 x2 h2
            rcases w5 lab0 x1 lab0 x2 ⟨l0, hl0, h1⟩ ⟨l0, hl0, h2⟩ with ⟨a, _⟩ | a | a
            · exact Or.inl a
            · exact Or.inr (Or.inl a)
            · exact Or.inr (Or.inr a)
          rw [sread32_of_readLE (patchSources_in l0.sources buf.mem _ s e hpair)]
          apply sread32_writeLE
          · push_cast; omega
          · push_cast; omega
      · refine hmem_of (fun a h1 h2 => ?_) (by rw [hh, List.getElem?_set_ne e]; exact hl)
        rw [hm]
        apply patchSources_out
        intro x hx
        rcases s3 lab0 x ⟨l0, hl0, hx⟩ with ⟨_, a⟩ | a | a
        · exact absurd a e
        · right; omega
        · left; omega
    · exact hmem_of (fun a _ _ => by rw [hm])
        (by rw [hh, List.getElem?_append_left (getElem?_lt hl)]; exact hl)

/-- C9 core: `emit_source` makes the slot at the current offset a slot of the
label, holding the displacement at once when the label is already bound. -/
theorem emit_source_slotOK (buf buf' : Asm) (lab : Nat) (hw : WFA buf)
    (h : emit_source buf lab = some buf') : SlotOK buf' (buf.buffer + buf.offset) lab := by
  obtain ⟨l, hl, hsp, ho, hb, hs, hk⟩ := emit_source_spec buf buf' lab h
  obtain ⟨w1, w2, w3, w4, w5⟩ := hw
  have hpend := (Prim.source buf lab buf' h).spec.2.2.pending
  refine ⟨by rw [hb]; omega, by rw [hb, ho]; omega, ?_, ?_⟩
  · intro lab2 s2 hp
    rcases hpend lab2 s2 hp with h1 | ⟨h1, _, l2, hl2, hr2, hl2'⟩
    · have := (w4 lab2 s2 h1).2
      right; left; omega
    · left
      refine ⟨h1, ?_⟩
      rcases hk with ⟨_, hh, _⟩ | ⟨_, hh, _⟩
      · rw [hh, hl2] at hl2'
        have := congrArg (fun o => o.map (fun l => l.sources.length)) hl2'
        simp at this
      · by_contra e
        rw [hh, List.getElem?_set_ne (fun e' => e e'.symm), hl2] at hl2'
        have := congrArg (fun o => o.map (fun l => l.sources.length)) hl2'
        simp at this
  · rcases hk with ⟨hr, hh, hm⟩ | ⟨hr, hh, hm⟩
    · refine ⟨l, by rw [hh]; exact hl, Or.inl ⟨hr, ?_⟩⟩
      rw [hm]
      obtain ⟨_, p1, p2⟩ := w3 lab l hl hr
      apply sread32_writeLE
      · push_cast; omega
      · push_cast; omega
    · exact ⟨{ l with sources := (buf.buffer + buf.offset) :: l.sources },
        by rw [hh, List.getElem?_set_self (getElem?_lt hl)],
        Or.inr ⟨hr, List.mem_cons_self _ _⟩⟩

/-! ## Sequences of primitive operations -/

theorem Reach.refl (buf : Asm) : Reach buf buf := Relation.ReflTransGen.refl

theorem Reach.trans {a b c : Asm} (h1 : Reach a b) (h2 : Reach b c) : Reach a c :=
  Relation.ReflTransGen.trans h1 h2

theorem Reach.single {a b : Asm} (h : Prim a b) : Reach a b :=
  Relation.ReflTransGen.single h

theorem Reach.wfa_of_reach {buf buf' : Asm} (h : Reach buf buf') (hw : WFA buf) : WFA buf' := by
  induction h with
  | refl => exact hw
  | tail _ hp ih => exact hp.wfa ih

theorem Reach.slotOK_of_reach {buf buf' : Asm} (h : Reach buf buf') (hw : WFA buf) (s lab : Nat)
    (hs : SlotOK buf s lab) : SlotOK buf' s lab := by
  induction h with
  | refl => exact hs
  | tail h1 hp ih => exact hp.slotOK (Reach.wfa_of_reach h1 hw) s lab ih

theorem Reach.settled_of_reach {buf buf' : Asm} (h : Reach buf buf') (a : Nat)
    (ha : Settled buf a) : Settled buf' a ∧ buf'.mem a = buf.mem a := by
  induction h with
  | refl => exact ⟨ha, rfl⟩
  | tail _ hp ih =>
    obtain ⟨h2, h3⟩ := hp.settled a ih.1
    exact ⟨h2, by rw [h3, ih.2]⟩

theorem Reach.resolved_stable_of_reach {buf buf' : Asm} (h : Reach buf buf') (lab : Nat) (l : label_t)
    (hl : buf.heap[lab]? = some l) (hr : l.resolved = true) : buf'.heap[lab]? = some l := by
  induction h with
  | refl => exact hl
  | tail _ hp ih => exact hp.resolved_stable lab l ih hr

theorem Reach.base {buf buf' : Asm} (h : Reach buf buf') :
    buf'.buffer = buf.buffer ∧ buf'.buffer_size = buf.buffer_size ∧
      buf.offset ≤ buf'.offset := by
  induction h with
  | refl => exact ⟨rfl, rfl, le_refl _⟩
  | tail _ hp ih =>
    obtain ⟨a, b, c⟩ := hp.spec
    exact ⟨by rw [a, ih.1], by rw [b, ih.2.1], le_trans ih.2.2 c.offset_le⟩

/-! ## The emitters as sequences of primitive operations -/

@[simp] theorem emit_u8_offset (buf : Asm) (v : Nat) : (emit_u8 buf v).offset = buf.offset + 1 := rfl

@[simp] theorem emit_u8_size (buf : Asm) (v : Nat) :
    (emit_u8 buf v).buffer_size = buf.buffer_size := rfl

@[simp] theorem emit_u8_buffer (buf : Asm) (v : Nat) : (emit_u8 buf v).buffer = buf.buffer := rfl

@[simp] theorem emit_u8_heap (buf : Asm) (v : Nat) : (emit_u8 buf v).heap = buf.heap := rfl

@[simp] theorem emit_u32_offset (buf : Asm) (v : Nat) :
    (emit_u32 buf v).offset = buf.offset + 4 := rfl

@[simp] theorem emit_u32_size (buf : Asm) (v : Nat) :
    (emit_u32 buf v).buffer_size = buf.buffer_size := rfl

@[simp] theorem emit_ptr_offset (x64 : Bool) (buf : Asm) (v : Nat) :
    (emit_ptr x64 buf v).offset = buf.offset + wordBytes x64 := rfl

@[simp] theorem emit_ptr_size (x64 : Bool) (buf : Asm) (v : Nat) :
    (emit_ptr x64 buf v).buffer_size = buf.buffer_size := rfl

@[simp] theorem emit_rexw_size (x64 : Bool) (buf : Asm) :
    (emit_rexw x64 buf).buffer_size = buf.buffer_size := by
  unfold emit_rexw; split_ifs <;> rfl

@[simp] theorem emit_rexw_offset (x64 : Bool) (buf : Asm) :
    (emit_rexw x64 buf).offset = buf.offset + (if x64 = true then 1 else 0) := by
  unfold emit_rexw; split_ifs <;> rfl

@[simp] theorem new_label_offset (buf : Asm) : (new_label buf).1.offset = buf.offset := rfl

@[simp] theorem new_label_size (buf : Asm) :
    (new_label buf).1.buffer_size = buf.buffer_size := rfl

theorem check_space_iff (buf : Asm) (o : Nat) :
    check_space buf o = true ↔ buf.offset + o < buf.buffer_size := by
  simp [check_space]

theorem Reach.u8 {a b : Asm} (h : Reach a b) (v : Nat) (hb : b.offset + 1 ≤ b.buffer_size) :
    Reach a (emit_u8 b v) :=
  Relation.ReflTransGen.tail h (Prim.u8 b v hb)

theorem Reach.u32 {a b : Asm} (h : Reach a b) (v : Nat) (hb : b.offset + 4 ≤ b.buffer_size) :
    Reach a (emit_u32 b v) :=
  Relation.ReflTransGen.tail h (Prim.u32 b v hb)

theorem Reach.ptr {a b : Asm} (h : Reach a b) (x64 : Bool) (v : Nat)
    (hb : b.offset + wordBytes x64 ≤ b.buffer_size) : Reach a (emit_ptr x64 b v) :=
  Relation.ReflTransGen.tail h (Prim.ptr x64 b v hb)

theorem Reach.rexw {a b : Asm} (h : Reach a b) (x64 : Bool)
    (hb : b.offset + 1 ≤ b.buffer_size) : Reach a (emit_rexw x64 b) := by
  unfold emit_rexw
  split_ifs
  · exact h.u8 _ hb
  · exact h

theorem Reach.source {a b c : Asm} (h : Reach a b) (lab : Nat)
    (hc : emit_source b lab = some c) : Reach a c :=
  Relation.ReflTransGen.tail h (Prim.source b lab c hc)

theorem Reach.push {a b c : Asm} (h : Reach a b) (lab : Nat)
    (hc : emit_push_label b lab = some c) : Reach a c :=
  Relation.ReflTransGen.tail h (Prim.push b lab c hc)

theorem Reach.label {a b : Asm} (h : Reach a b) : Reach a (new_label b).1 :=
  Relation.ReflTransGen.tail h (Prim.label b)

theorem emit_add_rm8_imm8_reach (buf buf' : Asm) (reg imm : Nat)
    (h : emit_add_rm8_imm8 buf reg imm = some buf') : Reach buf buf' := by
  unfold emit_add_rm8_imm8 at h
  split_ifs at h with hc
  cases h
  have := (check_space_iff buf 3).1 hc.2
  exact (((Reach.refl buf).u8 _ (by omega)).u8 _ (by simp; omega)).u8 _ (by simp; omega)

theorem emit_cmp_rm8_imm8_reach (buf buf' : Asm) (reg imm : Nat)
    (h : emit_cmp_rm8_imm8 buf reg imm = some buf') : Reach buf buf' := by
  unfold emit_cmp_rm8_imm8 at h
  split_ifs at h with hc
  cases h
  have := (check_space_iff buf 3).1 hc.2
  exact (((Reach.refl buf).u8 _ (by omega)).u8 _ (by simp; omega)).u8 _ (by simp; omega)

theorem emit_alu_r_immz32_reach (opA modrm : Nat) (x64 : Bool) (buf buf' : Asm) (reg imm : Nat)
    (h : emit_alu_r_immz32 opA modrm x64 buf reg imm = some buf') : Reach buf buf' := by
  unfold emit_alu_r_immz32 at h
  cases x64
  all_goals
    simp only [Bool.false_eq_true, if_false, if_true] at h
    split_ifs at h with h1 h2 h3 h3
    · cases h
      have := (check_space_iff buf _).1 h3
      refine (((Reach.refl buf).rexw _ (by omega)).u8 _ ?_).u32 _ ?_ <;> simp <;> omega
    · cases h
      have := (check_space_iff buf _).1 h3
      refine ((((Reach.refl buf).rexw _ (by omega)).u8 _ ?_).u8 _ ?_).u32 _ ?_ <;> simp <;> omega

theorem emit_mov_r_immptr_reach (x64 : Bool) (buf buf' : Asm) (reg imm : Nat)
    (h : emit_mov_r_immptr x64 buf reg imm = some buf') : Reach buf buf' := by
  unfold emit_mov_r_immptr at h
  cases x64
  all_goals
    simp only [Bool.false_eq_true, if_false, if_true] at h
    split_ifs at h with hc
    cases h
    have := (check_space_iff buf _).1 hc.2
    simp only [wordBytes, Bool.false_eq_true, if_false, if_true] at this
    refine (((Reach.refl buf).rexw _ (by omega)).u8 _ ?_).ptr _ _ ?_ <;> simp [wordBytes] <;> omega

theorem emit_call_reach (x64 : Bool) (buf buf' : Asm) (imm : Nat)
    (h : emit_call x64 buf imm = some buf') : Reach buf buf' := by
  unfold emit_call at h
  cases h1 : emit_mov_r_immptr x64 buf EAX imm with
  | none => rw [h1] at h; cases h
  | some b =>
    rw [h1] at h
    simp only at h
    split_ifs at h with hc
    cases h
    have := (check_space_iff b 2).1 hc
    exact ((emit_mov_r_immptr_reach x64 buf b EAX imm h1).u8 _ (by omega)).u8 _ (by simp; omega)

theorem emit_op_r_r_reach (opcode : Nat) (x64 : Bool) (buf buf' : Asm) (r1 r2 : Nat)
    (h : emit_op_r_r opcode x64 buf r1 r2 = some buf') : Reach buf buf' := by
  unfold emit_op_r_r at h
  cases x64
  all_goals
    simp only [Bool.false_eq_true, if_false, if_true] at h
    split_ifs at h with hc
    cases h
    have := (check_space_iff buf _).1 hc.2.2
    refine (((Reach.refl buf).rexw _ (by omega)).u8 _ ?_).u8 _ ?_ <;> simp <;> omega

theorem emit_jcc_reach (buf buf' : Asm) (lab : Nat) (cc : cc_t)
    (h : emit_jcc buf lab cc = some buf') : Reach buf buf' := by
  unfold emit_jcc at h
  split_ifs at h with hc
  have := (check_space_iff buf _).1 hc
  exact (((Reach.refl buf).u8 _ (by omega)).u8 _ (by simp; omega)).source lab h

theorem emit_jmp_reach (buf buf' : Asm) (lab : Nat)
    (h : emit_jmp buf lab = some buf') : Reach buf buf' := by
  unfold emit_jmp at h
  split_ifs at h with hc
  have := (check_space_iff buf _).1 hc
  exact ((Reach.refl buf).u8 _ (by omega)).source lab h

theorem emit_leave_reach (buf buf' : Asm) (h : emit_leave buf = some buf') : Reach buf buf' := by
  unfold emit_leave at h
  split_ifs at h with hc
  cases h
  have := (check_space_iff buf _).1 hc
  exact (Reach.refl buf).u8 _ (by omega)

theorem emit_ret_reach (buf buf' : Asm) (h : emit_ret buf = some buf') : Reach buf buf' := by
  unfold emit_ret at h
  split_ifs at h with hc
  cases h
  have := (check_space_iff buf _).1 hc
  exact (Reach.refl buf).u8 _ (by omega)

theorem emit_mov_r8_rm8_reach (buf buf' : Asm) (r1 r2 : Nat)
    (h : emit_mov_r8_rm8 buf r1 r2 = some buf') : Reach buf buf' := by
  unfold emit_mov_r8_rm8 at h
  split_ifs at h with hc
  cases h
  have := (check_space_iff buf _).1 hc.2.2
  exact ((Reach.refl buf).u8 _ (by omega)).u8 _ (by simp; omega)

theorem emit_mov_rm8_r8_reach (buf buf' : Asm) (r1 r2 : Nat)
    (h : emit_mov_rm8_r8 buf r1 r2 = some buf') : Reach buf buf' := by
  unfold emit_mov_rm8_r8 at h
  split_ifs at h with hc
  cases h
  have := (check_space_iff buf _).1 hc.2.2
  exact ((Reach.refl buf).u8 _ (by omega)).u8 _ (by simp; omega)

theorem emit_mov_rm_rint_reach (x64 : Bool) (buf buf' : Asm) (r1 r2 : Nat)
    (h : emit_mov_rm_rint x64 buf r1 r2 = some buf') : Reach buf buf' := by
  unfold emit_mov_rm_rint at h
  cases x64
  all_goals
    simp only [Bool.false_eq_true, if_false, if_true] at h
    split_ifs at h with h1 h2 h3 h3
    · cases h
      have := (check_space_iff buf _).1 h3
      refine (((Reach.refl buf).u8 _ ?_).u8 _ ?_).u8 _ ?_ <;>
        first | omega | (simp only [emit_u8_offset, emit_u8_size]; omega)
    · cases h
      have := (check_space_iff buf _).1 h3
      refine ((Reach.refl buf).u8 _ ?_).u8 _ ?_ <;>
        first | omega | (simp only [emit_u8_offset, emit_u8_size]; omega)

theorem emit_pop_r_reach (buf buf' : Asm) (reg : Nat)
    (h : emit_pop_r buf reg = some buf') : Reach buf buf' := by
  unfold emit_pop_r at h
  split_ifs at h with hc
  cases h
  have := (check_space_iff buf _).1 hc.2
  exact (Reach.refl buf).u8 _ (by omega)

theorem emit_push_r_reach (buf buf' : Asm) (reg : Nat)
    (h : emit_push_r buf reg = some buf') : Reach buf buf' := by
  unfold emit_push_r at h
  split_ifs at h with hc
  cases h
  have := (check_space_iff buf _).1 hc.2
  exact (Reach.refl buf).u8 _ (by omega)

/-! ## The code generator as a sequence of primitive operations -/

theorem genRight_reach (env : GenEnv) (buf buf' : Asm) (val : Int)
    (h : genRight env buf val = some buf') : Reach buf buf' := by
  unfold genRight at h
  split_ifs at h
  · cases h; exact Reach.refl _
  · exact emit_alu_r_immz32_reach _ _ _ _ _ _ _ h

theorem genModify_reach (buf buf' : Asm) (val : Int)
    (h : genModify buf val = some buf') : Reach buf buf' := by
  unfold genModify at h
  split_ifs at h
  · cases h; exact Reach.refl _
  · exact emit_add_rm8_imm8_reach _ _ _ _ h

theorem genPut_reach (env : GenEnv) (buf buf' : Asm)
    (h : genPut env buf = some buf') : Reach buf buf' := by
  simp only [genPut, Option.bind_eq_bind, Option.bind_eq_some] at h
  obtain ⟨b1, h1, b2, h2, b3, h3, h4⟩ := h
  have r3 : Reach b2 b3 := by
    unfold genPutArg at h3
    split_ifs at h3
    · exact emit_op_r_r_reach _ _ _ _ _ _ h3
    · exact emit_mov_rm_rint_reach _ _ _ _ _ h3
  exact (((emit_op_r_r_reach _ _ _ _ _ _ h1).trans (emit_mov_r8_rm8_reach _ _ _ _ h2)).trans
    r3).trans (emit_call_reach _ _ _ _ h4)

theorem genGetSeq_reach (env : GenEnv) (buf buf' : Asm) (lab : Nat)
    (h : genGetSeq env buf lab = some buf') : Reach buf buf' := by
  simp only [genGetSeq, Option.bind_eq_bind, Option.bind_eq_some] at h
  obtain ⟨b1, h1, b2, h2, b3, h3, b4, h4, b5, h5, h6⟩ := h
  exact (((((emit_call_reach _ _ _ _ h1).trans
    (emit_alu_r_immz32_reach _ _ _ _ _ _ _ h2)).trans (emit_jcc_reach _ _ _ _ h3)).trans
    (emit_op_r_r_reach _ _ _ _ _ _ h4)).push _ h5).trans (emit_mov_rm8_r8_reach _ _ _ _ h6)

theorem genGet_reach (env : GenEnv) (buf buf' : Asm)
    (h : genGet env buf = some buf') : Reach buf buf' :=
  (Reach.refl buf).label.trans (genGetSeq_reach env _ _ _ h)

theorem genLeftCmp_reach (env : GenEnv) (buf buf' : Asm) (val : Int)
    (h : genLeftCmp env buf val = some buf') : Reach buf buf' := by
  unfold genLeftCmp at h
  split_ifs at h
  · exact emit_alu_r_immz32_reach _ _ _ _ _ _ _ h
  · simp only [Option.bind_eq_some] at h
    obtain ⟨c, hc1, hc2⟩ := h
    exact (emit_mov_r_immptr_reach _ _ _ _ _ hc1).trans (emit_op_r_r_reach _ _ _ _ _ _ hc2)

theorem genLeftSeq_reach (env : GenEnv) (buf buf' : Asm) (val : Int) (l1 l2 : Nat)
    (h : genLeftSeq env buf val l1 l2 = some buf') : Reach buf buf' := by
  simp only [genLeftSeq, Option.bind_eq_bind, Option.bind_eq_some] at h
  obtain ⟨b1, h1, b2, h2, b3, h3, b4, h4, b5, h5, b6, h6, h7⟩ := h
  exact ((((((genLeftCmp_reach _ _ _ _ h1).trans (emit_jcc_reach _ _ _ _ h2)).trans
    (emit_alu_r_immz32_reach _ _ _ _ _ _ _ h3)).trans (emit_jmp_reach _ _ _ h4)).push _ h5).trans
    (emit_mov_r_immptr_reach _ _ _ _ _ h6)).push _ h7

theorem genLeft_reach (env : GenEnv) (buf buf' : Asm) (val : Int)
    (h : genLeft env buf val = some buf') : Reach buf buf' := by
  unfold genLeft at h
  split_ifs at h with hv
  · cases h; exact Reach.refl _
  · exact (Reach.refl buf).label.label.trans (genLeftSeq_reach env _ _ _ _ _ h)

theorem genIf_reach (branches : List (Nat × Nat)) (buf buf' : Asm) (bc : Nat)
    (h : genIf branches buf bc = some buf') : Reach buf buf' := by
  unfold genIf at h
  cases hb : branches[bc]? with
  | none => rw [hb] at h; cases h
  | some br =>
    rw [hb] at h
    simp only [Option.bind_eq_bind, Option.bind_eq_some] at h
    obtain ⟨b1, h1, b2, h2, h3⟩ := h
    exact ((emit_cmp_rm8_imm8_reach _ _ _ _ h1).trans (emit_jcc_reach _ _ _ _ h2)).push _ h3

theorem genEndif_reach (branches : List (Nat × Nat)) (buf buf' : Asm) (br : Nat)
    (h : genEndif branches buf br = some buf') : Reach buf buf' := by
  unfold genEndif at h
  cases hb : branches[br]? with
  | none => rw [hb] at h; cases h
  | some b =>
    rw [hb] at h
    simp only [Option.bind_eq_bind, Option.bind_eq_some] at h
    obtain ⟨b1, h1, b2, h2, h3⟩ := h
    exact ((emit_cmp_rm8_imm8_reach _ _ _ _ h1).trans (emit_jcc_reach _ _ _ _ h2)).push _ h3

theorem genStep_reach (env : GenEnv) (branches : List (Nat × Nat)) (st st' : Asm × Nat)
    (i : instruction_t) (h : genStep env branches st i = some st') : Reach st.1 st'.1 := by
  unfold genStep at h
  cases ho : i.op <;> rw [ho] at h <;> simp only [Option.map_eq_some'] at h
  · obtain ⟨b, hb, rfl⟩ := h; exact genModify_reach _ _ _ hb
  · obtain ⟨b, hb, rfl⟩ := h; exact genRight_reach _ _ _ _ hb
  · obtain ⟨b, hb, rfl⟩ := h; exact genLeft_reach _ _ _ _ hb
  · obtain ⟨b, hb, rfl⟩ := h; exact genGet_reach _ _ _ hb
  · obtain ⟨b, hb, rfl⟩ := h; exact genPut_reach _ _ _ hb
  · obtain ⟨b, hb, rfl⟩ := h; exact genIf_reach _ _ _ _ hb
  · obtain ⟨b, hb, rfl⟩ := h; exact genEndif_reach _ _ _ _ hb
  · cases h

theorem genLoop_reach (env : GenEnv) (branches : List (Nat × Nat)) (is : List instruction_t) :
    ∀ st st', genLoop env branches is st = some st' → Reach st.1 st'.1 := by
  induction is with
  | nil => intro st st' h; cases h; exact Reach.refl _
  | cons i rest ih =>
    intro st st' h
    simp only [genLoop] at h
    cases h1 : genStep env branches st i with
    | none => rw [h1] at h; cases h
    | some s1 =>
      rw [h1] at h
      exact (genStep_reach env branches st s1 i h1).trans (ih s1 st' h)

theorem genPrologue_reach (env : GenEnv) (buf buf' : Asm)
    (h : genPrologue env buf = some buf') : Reach buf buf' := by
  simp only [genPrologue, Option.bind_eq_bind, Option.bind_eq_some] at h
  obtain ⟨b1, h1, b2, h2, b3, h3, b4, h4, b5, h5, b6, h6, h7⟩ := h
  have r6 : Reach b5 b6 := by
    unfold genAdjustSub at h6
    split_ifs at h6
    · exact emit_alu_r_immz32_reach _ _ _ _ _ _ _ h6
    · cases h6; exact Reach.refl _
  exact ((((((emit_push_r_reach _ _ _ h1).trans (emit_op_r_r_reach _ _ _ _ _ _ h2)).trans
    (emit_alu_r_immz32_reach _ _ _ _ _ _ _ h3)).trans (emit_push_r_reach _ _ _ h4)).trans
    (emit_push_r_reach _ _ _ h5)).trans r6).trans (emit_mov_r_immptr_reach _ _ _ _ _ h7)

theorem genEpilogue_reach (env : GenEnv) (buf buf' : Asm)
    (h : genEpilogue env buf = some buf') : Reach buf buf' := by
  simp only [genEpilogue, Option.bind_eq_bind, Option.bind_eq_some] at h
  obtain ⟨b1, h1, b2, h2, b3, h3, b4, h4, b5, h5, h6⟩ := h
  have r1 : Reach buf b1 := by
    unfold genAdjustAdd at h1
    split_ifs at h1
    · exact emit_alu_r_immz32_reach _ _ _ _ _ _ _ h1
    · cases h1; exact Reach.refl _
  exact ((((r1.trans (emit_pop_r_reach _ _ _ h2)).trans (emit_pop_r_reach _ _ _ h3)).trans
    (emit_op_r_r_reach _ _ _ _ _ _ h4)).trans (emit_leave_reach _ _ h5)).trans
    (emit_ret_reach _ _ h6)

theorem newBranches_reach (n : Nat) : ∀ buf, Reach buf (newBranches n buf).1 := by
  induction n with
  | zero => intro buf; exact Reach.refl _
  | succ n ih =>
    intro buf
    simp only [newBranches]
    exact (Reach.refl buf).label.label.trans (ih _)

theorem WFA_new (addr : Nat) : WFA (new_assembler_buffer addr) := by
  refine ⟨by simp [new_assembler_buffer], by simp [new_assembler_buffer], ?_, ?_, ?_⟩
  · intro lab l h; simp [new_assembler_buffer] at h
  · rintro lab s ⟨l, h, _⟩; simp [new_assembler_buffer] at h
  · rintro lab1 s1 lab2 s2 ⟨l, h, _⟩; simp [new_assembler_buffer] at h

/-! ## Status codes and messages -/

/-- C20: the enumeration assigns the values 0..11 in the order ok, guard-error,
handler, malloc-error, mmap-error, munmap-error, no-memory, page-size,
tape-exceeded, tape-underflow, time-exceeded, unbalanced;
`get_interpret_error_string` gives each of the twelve codes its own message,
the twelve messages being pairwise distinct and distinct from
`"Unknown error."`, and gives `"Unknown error."` for every integer outside
0..11. -/
theorem status_codes_and_messages :
    allStatuses.map interpret_error_t.code = [0, 1, 2, 3, 4, 5, 6, 7, 8, 9, 10, 11] ∧
    (∀ e : interpret_error_t, e ∈ allStatuses) ∧
    (allStatuses.map (fun e => get_interpret_error_string (e.code : Int))) =
      ["Okay.", "Error configuring guard pages.", "Error configuring SIGSEGV handler.",
       "Error allocating memory.", "Error during mmap.", "Error during munmap.",
       "Out of memory.", "Error retrieving page size.", "Tape limit exceeded.",
       "Tape underflow.", "Time limit exceeded.", "Unbalanced number of '[' and ']'."] ∧
    ("Unknown error." :: allStatuses.map (fun e => get_interpret_error_string (e.code : Int))).Nodup ∧
    (∀ n : Int, (n < 0 ∨ 11 < n) → get_interpret_error_string n = "Unknown error.") := by
  refine ⟨by decide, ?_, by decide, by decide, ?_⟩
  · intro e; cases e <;> decide
  · intro n hn
    unfold get_interpret_error_string
    have h0 : n ≠ 0 := by omega
    have h1 : n ≠ 1 := by omega
    have h2 : n ≠ 2 := by omega
    have h3 : n ≠ 3 := by omega
    have h4 : n ≠ 4 := by omega
    have h5 : n ≠ 5 := by omega
    have h6 : n ≠ 6 := by omega
    have h7 : n ≠ 7 := by omega
    have h8 : n ≠ 8 := by omega
    have h9 : n ≠ 9 := by omega
    have h10 : n ≠ 10 := by omega
    have h11 : n ≠ 11 := by omega
    simp [h0, h1, h2, h3, h4, h5, h6, h7, h8, h9, h10, h11]

/-- Witness for C20: the integers `-1` and `12` are outside the enumeration. -/
theorem status_codes_and_messages_witness :
    get_interpret_error_string (-1) = "Unknown error." ∧
    get_interpret_error_string 12 = "Unknown error." :=
  ⟨status_codes_and_messages.2.2.2.2 (-1) (by decide),
   status_codes_and_messages.2.2.2.2 12 (by decide)⟩

/-! ## Machine words -/

theorem wordBits_pos (x64 : Bool) : 0 < wordBits x64 := by
  cases x64 <;> decide

theorem two_pow_wordBits (x64 : Bool) :
    (2 : Nat) ^ wordBits x64 = 2 * 2 ^ (wordBits x64 - 1) := by
  cases x64 <;> decide

theorem toSize_of_lt (x64 : Bool) (v : Int) (h0 : 0 ≤ v) (h1 : v < 2 ^ wordBits x64) :
    toSize x64 v = v.toNat := by
  unfold toSize
  rw [Int.emod_eq_of_lt h0 h1]

theorem toSize_natCast (x64 : Bool) (n : Nat) (h : n < 2 ^ wordBits x64) :
    toSize x64 (n : Int) = n := by
  rw [toSize_of_lt x64 _ (Int.natCast_nonneg n) (by exact_mod_cast h)]
  simp

theorem toSize_lt (x64 : Bool) (v : Int) : toSize x64 v < 2 ^ wordBits x64 := by
  unfold toSize
  have hp : (0 : Int) < 2 ^ wordBits x64 := by positivity
  have h1 := Int.emod_lt_of_pos v hp
  have h0 := Int.emod_nonneg v (ne_of_gt hp)
  zify
  rw [Int.toNat_of_nonneg h0]
  exact_mod_cast h1

theorem signedOf_of_lt (bits v : Nat) (h : v < 2 ^ (bits - 1)) (hb : 0 < bits) :
    signedOf bits v = v := by
  unfold signedOf
  have h2 : (2 : Nat) ^ (bits - 1) ≤ 2 ^ bits := Nat.pow_le_pow_right (by decide) (by omega)
  have hv : v % 2 ^ bits = v := Nat.mod_eq_of_lt (by omega)
  rw [hv, if_pos h]

/-! ## The signal handler -/

theorem handler_forward_guard (x64 : Bool) (g : RunState) (a : Nat)
    (hmap : g.tape + g.allocated < 2 ^ wordBits x64)
    (hg : g.pages_reverse * g.page_size + g.pages_forward * g.page_size ≤ g.allocated)
    (h1 : g.tape + g.allocated - g.pages_forward * g.page_size ≤ a)
    (h2 : a < g.tape + g.allocated) :
    handler x64 g a = HandlerAction.jump interpret_tape_exceeded := by
  obtain ⟨tape, allocated, page_size, pf, pr⟩ := g
  simp only at hmap hg h1 h2 ⊢
  generalize hR : pr * page_size = R at hg
  generalize hF : pf * page_size = F at hg h1
  have e1 : toSize x64 ((pr : Int) * page_size) = R := by
    rw [← hR]; rw [← Nat.cast_mul]; exact toSize_natCast x64 _ (by omega)
  have e2 : toSize x64 ((pf : Int) * page_size) = F := by
    rw [← hF]; rw [← Nat.cast_mul]; exact toSize_natCast x64 _ (by omega)
  have e3 : toSize x64 ((tape : Int) + (R : Nat)) = tape + R := by
    rw [← Nat.cast_add]; exact toSize_natCast x64 _ (by omega)
  have e4 : toSize x64 ((tape : Int) + allocated) = tape + allocated := by
    rw [← Nat.cast_add]; exact toSize_natCast x64 _ (by omega)
  have e5 : toSize x64 ((tape : Int) + allocated - (F : Nat)) = tape + allocated - F := by
    have : ((tape : Int) + allocated - (F : Nat)) = ((tape + allocated - F : Nat) : Int) := by
      omega
    rw [this]; exact toSize_natCast x64 _ (by omega)
  unfold handler
  simp only [e1, e2, e3, e4, e5]
  rw [if_neg (by omega), if_neg (by omega), if_neg (by omega), if_pos (by omega)]

/-- C13: in a run state whose tape mapping lies in the address space and
contains its two guards, `handler` re-raises exactly for a fault address below
`tape` or at or above `tape + allocated`, jumps with tape-underflow exactly for
`tape <= a < tape + pages_reverse * page_size`, with tape-exceeded exactly for
`tape + allocated - pages_forward * page_size <= a < tape + allocated`, and with
no-memory exactly for the addresses in between (the user region); so it takes
exactly one of the four actions. -/
theorem handler_classifies (x64 : Bool) (g : RunState) (a : Nat)
    (hmap : g.tape + g.allocated < 2 ^ wordBits x64)
    (hg : g.pages_reverse * g.page_size + g.pages_forward * g.page_size ≤ g.allocated) :
    (handler x64 g a = HandlerAction.reraise ↔ (a < g.tape ∨ g.tape + g.allocated ≤ a)) ∧
    (handler x64 g a = HandlerAction.jump interpret_tape_underflow ↔
      (g.tape ≤ a ∧ a < g.tape + g.pages_reverse * g.page_size)) ∧
    (handler x64 g a = HandlerAction.jump interpret_tape_exceeded ↔
      (g.tape + g.allocated - g.pages_forward * g.page_size ≤ a ∧
        a < g.tape + g.allocated)) ∧
    (handler x64 g a = HandlerAction.jump interpret_no_memory ↔
      (g.tape + g.pages_reverse * g.page_size ≤ a ∧
        a < g.tape + g.allocated - g.pages_forward * g.page_size)) ∧
    (handler x64 g a = HandlerAction.reraise ∨
      handler x64 g a = HandlerAction.jump interpret_tape_underflow ∨
      handler x64 g a = HandlerAction.jump interpret_tape_exceeded ∨
      handler x64 g a = HandlerAction.jump interpret_no_memory) := by
  obtain ⟨tape, allocated, page_size, pf, pr⟩ := g
  simp only at hmap hg ⊢
  generalize hR : pr * page_size = R at hg ⊢
  generalize hF : pf * page_size = F at hg ⊢
  have e1 : toSize x64 ((pr : Int) * page_size) = R := by
    rw [← hR]; rw [← Nat.cast_mul]; exact toSize_natCast x64 _ (by omega)
  have e2 : toSize x64 ((pf : Int) * page_size) = F := by
    rw [← hF]; rw [← Nat.cast_mul]; exact toSize_natCast x64 _ (by omega)
  have e3 : toSize x64 ((tape : Int) + (R : Nat)) = tape + R := by
    rw [← Nat.cast_add]; exact toSize_natCast x64 _ (by omega)
  have e4 : toSize x64 ((tape : Int) + allocated) = tape + allocated := by
    rw [← Nat.cast_add]; exact toSize_natCast x64 _ (by omega)
  have e5 : toSize x64 ((tape : Int) + allocated - (F : Nat)) = tape + allocated - F := by
    have : ((tape : Int) + allocated - (F : Nat)) = ((tape + allocated - F : Nat) : Int) := by
      omega
    rw [this]; exact toSize_natCast x64 _ (by omega)
  unfold handler
  simp only [e1, e2, e3, e4, e5]
  by_cases h1 : a < tape
  · simp only [h1, if_true]
    refine ⟨?_, ?_, ?_, ?_, ?_⟩ <;> first | (simp; done) | (simp; omega)
  · simp only [h1, if_false]
    by_cases h2 : tape + allocated ≤ a
    · simp only [h2, if_true]
      refine ⟨?_, ?_, ?_, ?_, ?_⟩ <;> first | (simp; done) | (simp; omega)
    · simp only [h2, if_false]
      by_cases h3 : tape ≤ a ∧ a < tape + R
      · simp only [h3, and_self, if_true]
        refine ⟨?_, ?_, ?_, ?_, ?_⟩ <;> first | (simp; done) | (simp; omega)
      · simp only [h3, if_false]
        by_cases h4 : tape + allocated - F ≤ a ∧ a < tape + allocated
        · simp only [h4, and_self, if_true]
          refine ⟨?_, ?_, ?_, ?_, ?_⟩ <;> first | (simp; done) | (simp; omega)
        · simp only [h4, if_false]
          refine ⟨?_, ?_, ?_, ?_, ?_⟩ <;> first | (simp; done) | (simp; omega)

/-- Witness for C13: a tape of three pages mapped at `0x10000` with one guard
page on either side. -/
theorem handler_classifies_witness :
    handler true ⟨0x10000, 0x3000, 0x1000, 1, 1⟩ 0x10800 =
      HandlerAction.jump interpret_tape_underflow ∧
    handler true ⟨0x10000, 0x3000, 0x1000, 1, 1⟩ 0x12000 =
      HandlerAction.jump interpret_tape_exceeded :=
  ⟨(handler_classifies true ⟨0x10000, 0x3000, 0x1000, 1, 1⟩ 0x10800
      (by decide) (by decide)).2.1.2 (by decide),
   (handler_classifies true ⟨0x10000, 0x3000, 0x1000, 1, 1⟩ 0x12000
      (by decide) (by decide)).2.2.1.2 (by decide)⟩

/-! ## Guard pages -/

theorem largestMove_cons (o : op_t) (i : instruction_t) (l : List instruction_t) :
    largestMove o (i :: l) =
      if i.op = o then max i.val.toNat (largestMove o l) else largestMove o l := by
  unfold largestMove
  by_cases h : i.op = o <;> simp [List.filter_cons, h]

theorem traverseStep_eq (a b : Int) (i : instruction_t) :
    traverseStep (a, b) i =
      (if i.op = op_right then max a i.val else a, if i.op = op_left then max b i.val else b) := by
  unfold traverseStep
  cases hop : i.op <;> simp only [reduceCtorEq, if_false, if_true]
  all_goals first
    | rfl
    | (split_ifs with h
       · rw [max_eq_right (le_of_lt h)]
       · rw [max_eq_left (not_lt.1 h)])

theorem foldl_traverseStep (l : List instruction_t) (a b : Int) (ha : 0 ≤ a) (hb : 0 ≤ b) :
    l.foldl traverseStep (a, b) =
      (max a (largestMove op_right l : Nat), max b (largestMove op_left l : Nat)) := by
  induction l generalizing a b with
  | nil => simp [largestMove, ha, hb]
  | cons i l ih =>
    rw [List.foldl_cons, traverseStep_eq, largestMove_cons, largestMove_cons]
    rw [ih _ _ (by split_ifs <;> omega) (by split_ifs <;> omega)]
    congr 1 <;> split_ifs <;> omega

theorem traverse_eq (l : List instruction_t) :
    traverse l = (((largestMove op_right l : Nat) : Int), ((largestMove op_left l : Nat) : Int)) := by
  unfold traverse
  rw [foldl_traverseStep l 0 0 (le_refl _) (le_refl _)]
  simp

theorem guardOverflow_false (x64 : Bool) (page_size : Nat) (t : Nat)
    (hp : page_size < 2 ^ (wordBits x64 - 1))
    (h : guardOverflow x64 page_size (t : Int) = false) :
    t + page_size + 1 < 2 ^ (wordBits x64 - 1) := by
  unfold guardOverflow at h
  have h2 := two_pow_wordBits x64
  have hpos := wordBits_pos x64
  have e0 : SIZE_MAX x64 / 2 = 2 ^ (wordBits x64 - 1) - 1 := by
    unfold SIZE_MAX; omega
  have hpw : 0 < 2 ^ (wordBits x64 - 1) := by positivity
  have e1 : ((SIZE_MAX x64 / 2 : Nat) : Int) - (page_size : Int) =
      ((2 ^ (wordBits x64 - 1) - 1 - page_size : Nat) : Int) := by
    rw [e0]; omega
  rw [e1, toSize_natCast x64 _ (by omega)] at h
  unfold toPtrdiff at h
  rw [signedOf_of_lt _ _ (by omega) hpos] at h
  simp only [decide_eq_false_iff_not, not_le] at h
  omega

theorem guardPages_eq (x64 : Bool) (page_size : Nat) (t : Nat)
    (hp : 0 < page_size)
    (h : t + page_size + 1 < 2 ^ (wordBits x64 - 1)) :
    guardPages x64 page_size (t : Int) = ceilDiv t page_size := by
  unfold guardPages ceilDiv
  have h2 := two_pow_wordBits x64
  rw [toSize_natCast x64 t (by omega)]
  have e : ((t : Int) + page_size - 1) = ((t + page_size - 1 : Nat) : Int) := by omega
  rw [e, toSize_natCast x64 _ (by omega)]

theorem ceilDiv_spec (a b : Nat) (hb : 0 < b) :
    a ≤ ceilDiv a b * b ∧ ceilDiv a b * b < a + b ∧ ∀ n, a ≤ n * b → ceilDiv a b ≤ n := by
  unfold ceilDiv
  have h1 := Nat.div_add_mod (a + b - 1) b
  have h2 := Nat.mod_lt (a + b - 1) hb
  rw [Nat.mul_comm] at h1
  refine ⟨by omega, by omega, ?_⟩
  intro n hn
  apply Nat.le_of_lt_succ
  rw [Nat.div_lt_iff_lt_mul hb, Nat.succ_mul]
  omega

/-- C14: when `interpret` computes a tape layout (it does not return the guard
error for a traverse distance), the forward and reverse guard page counts are
`ceil(F / page_size)` and `ceil(R / page_size)` for the largest values `F` and
`R` on a right and on a left entry of the condensed list; the sums and products
of the computation stay below `SIZE_MAX / 2`, so nothing wraps; and each guard
is at least as many bytes as the largest single move in its direction and less
than one page larger. -/
theorem guard_pages_ceil (x64 : Bool) (page_size max_data_size : Nat) (program : List Char)
    (L : Layout) (hp : 0 < page_size) (hp2 : page_size < 2 ^ (wordBits x64 - 1))
    (h : tapeLayout x64 page_size max_data_size (condense program) = some L) :
    L.pages_forward = ceilDiv (largestMove op_right (condense program)) page_size ∧
    L.pages_reverse = ceilDiv (largestMove op_left (condense program)) page_size ∧
    largestMove op_right (condense program) + page_size - 1 < SIZE_MAX x64 / 2 ∧
    largestMove op_left (condense program) + page_size - 1 < SIZE_MAX x64 / 2 ∧
    L.pages_forward * page_size < SIZE_MAX x64 / 2 ∧
    L.pages_reverse * page_size < SIZE_MAX x64 / 2 ∧
    largestMove op_right (condense program) ≤ L.pages_forward * page_size ∧
    largestMove op_left (condense program) ≤ L.pages_reverse * page_size ∧
    (∀ n, largestMove op_right (condense program) ≤ n * page_size → L.pages_forward ≤ n) ∧
    (∀ n, largestMove op_left (condense program) ≤ n * page_size → L.pages_reverse ≤ n) := by
  unfold tapeLayout at h
  rw [traverse_eq] at h
  simp only at h
  split_ifs at h with h1 h2
  have h1 := guardOverflow_false x64 page_size _ hp2 (by simpa using h1)
  have h2 := guardOverflow_false x64 page_size _ hp2 (by simpa using h2)
  have e1 := guardPages_eq x64 page_size _ hp h1
  have e2 := guardPages_eq x64 page_size _ hp h2
  have hL := Option.some.inj h
  subst hL
  simp only [e1, e2]
  have s1 := ceilDiv_spec (largestMove op_right (condense program)) page_size hp
  have s2 := ceilDiv_spec (largestMove op_left (condense program)) page_size hp
  have h2w := two_pow_wordBits x64
  have e0 : SIZE_MAX x64 / 2 = 2 ^ (wordBits x64 - 1) - 1 := by
    unfold SIZE_MAX; omega
  rw [e0]
  refine ⟨trivial, trivial, by omega, by omega, by omega, by omega, s1.1, s2.1, s1.2.2, s2.2.2⟩

/-- Witness for C14: `>>><<` with pages of 4096 bytes has one guard page on
either side. -/
theorem guard_pages_ceil_witness :
    tapeLayout true 4096 30000 (condense ['>', '>', '>', '<', '<']) =
      some ⟨4096, 1, 1, 32768, 40960⟩ ∧
    (1 : Nat) = ceilDiv (largestMove op_right (condense ['>', '>', '>', '<', '<'])) 4096 :=
  ⟨by decide,
   (guard_pages_ceil true 4096 30000 ['>', '>', '>', '<', '<'] ⟨4096, 1, 1, 32768, 40960⟩
      (by decide) (by decide) (by decide)).1⟩

/-! ## Tape size -/

theorem land_page_mask (W k x : Nat) (hk : k ≤ W) (hx : x < 2 ^ W) :
    x &&& (2 ^ W - 1 - (2 ^ k - 1)) = x / 2 ^ k * 2 ^ k := by
  have hpw : 2 ^ W = 2 ^ k * 2 ^ (W - k) := by
    rw [← pow_add]; congr 1; omega
  have hm : 2 ^ W - 1 - (2 ^ k - 1) = 2 ^ k * (2 ^ (W - k) - 1) := by
    rw [Nat.mul_sub, ← hpw, Nat.mul_one]
    have : 0 < 2 ^ k := by positivity
    omega
  apply Nat.eq_of_testBit_eq
  intro i
  rw [Nat.testBit_and, hm, Nat.testBit_mul_pow_two, Nat.testBit_two_pow_sub_one,
    Nat.mul_comm (x / 2 ^ k), Nat.testBit_mul_pow_two, ← Nat.shiftRight_eq_div_pow,
    Nat.testBit_shiftRight]
  by_cases h1 : k ≤ i
  · have e : k + (i - k) = i := by omega
    rw [e]
    by_cases h2 : i < W
    · have : i - k < W - k := by omega
      simp [h1, this]
    · have hx2 : x < 2 ^ i := lt_of_lt_of_le hx (Nat.pow_le_pow_right (by decide) (by omega))
      rw [Nat.testBit_lt_two_pow hx2]
      simp
  · simp [h1]

theorem roundTape_eq (x64 : Bool) (k max_data_size : Nat) (hk : k < wordBits x64)
    (h : max_data_size + 2 ^ k ≤ 2 ^ wordBits x64) :
    roundTape x64 (2 ^ k) max_data_size = ceilDiv max_data_size (2 ^ k) * 2 ^ k := by
  unfold roundTape ceilDiv SIZE_MAX
  have hp : 0 < 2 ^ k := by positivity
  have hlt : 2 ^ k < 2 ^ wordBits x64 := Nat.pow_lt_pow_right (by decide) hk
  have e1 : ((max_data_size : Int) + ((2 ^ k : Nat) : Int) - 1) =
      ((max_data_size + 2 ^ k - 1 : Nat) : Int) := by omega
  have e2 : (((2 ^ k : Nat) : Int) - 1) = ((2 ^ k - 1 : Nat) : Int) := by omega
  rw [e1, e2, toSize_natCast x64 _ (by omega), toSize_natCast x64 _ (by omega)]
  exact land_page_mask _ k _ (le_of_lt hk) (by omega)

/-- C15: on the 64-bit architecture with pages of 4096 bytes and
`max_data_size = SIZE_MAX`, the rounded size of the user region computed by
`interpret` is `0` because the addition wraps, while
`ceil(max_data_size / page_size) * page_size` is `2 ^ 64`; for the program
`>.` the mapped length is then the single forward guard page. -/
theorem tape_size_wraps :
    roundTape true 4096 (2 ^ 64 - 1) = 0 ∧
    ceilDiv (2 ^ 64 - 1) 4096 * 4096 = 2 ^ 64 ∧
    tapeLayout true 4096 (2 ^ 64 - 1) (condense ['>', '.']) = some ⟨4096, 1, 0, 0, 4096⟩ := by
  refine ⟨by decide, by decide, by decide⟩

/-! ## The sequences for `op_left`, `op_modify` and `op_get` -/

theorem min_value_eq (env : GenEnv) (n : Nat)
    (h : env.tape_start + n < 2 ^ wordBits env.x64) :
    min_value env (n : Int) = env.tape_start + n := by
  unfold min_value
  have e : (8 * wordBytes env.x64) = wordBits env.x64 := rfl
  rw [e, ← Nat.cast_add]
  exact toSize_natCast env.x64 _ h

theorem low32_natCast (n : Nat) (h : n < 2 ^ 32) : low32 (n : Int) = n := by
  unfold low32
  omega

/-- Inside the envelope (a move of less than `2 ^ 31` cells, all addresses in
the lower half of the address space) the sequence for `op_left` clamps at
`tape_start`. -/
theorem runLeft_in_range (env : GenEnv) (n P : Nat) (hn : 1 ≤ n) (hn2 : n < 2 ^ 31)
    (hT : env.tape_start ≤ P) (hP : P < 2 ^ (wordBits env.x64 - 1))
    (hb : env.tape_start + n < 2 ^ (wordBits env.x64 - 1)) :
    runLeft env (n : Int) P = if env.tape_start + n ≤ P then P - n else env.tape_start := by
  have h2 := two_pow_wordBits env.x64
  have hpos := wordBits_pos env.x64
  have hmv := min_value_eq env n (by omega)
  have hlo := low32_natCast n (by omega)
  have hbound : leftBound env (n : Int) = env.tape_start + n := by
    unfold leftBound
    rw [hmv]
    cases hx : env.x64
    · rw [hx] at hb h2
      have h32 : wordBits false = 32 := rfl
      rw [h32] at hb h2
      simp only [if_true, immOperand, Bool.false_eq_true, if_false]
      have e1 : (env.tape_start + n) % 2 ^ 32 % 2 ^ 32 = env.tape_start + n := by omega
      rw [e1]
      exact toSize_natCast false _ (by rw [h32]; omega)
    · simp
  unfold runLeft
  have hn0 : ((n : Nat) : Int) ≠ 0 := by omega
  rw [if_neg hn0, hbound]
  unfold jle_taken
  rw [signedOf_of_lt _ _ hP hpos, signedOf_of_lt _ _ hb hpos]
  by_cases hle : P ≤ env.tape_start + n
  · have : ((P : Nat) : Int) ≤ ((env.tape_start + n : Nat) : Int) := by exact_mod_cast hle
    simp only [this, decide_True, if_true]
    rw [toSize_natCast _ _ (by omega)]
    split_ifs with h3
    · omega
    · rfl
  · have : ¬ ((P : Nat) : Int) ≤ ((env.tape_start + n : Nat) : Int) := by
      intro h; exact hle (by exact_mod_cast h)
    simp only [this, decide_False, Bool.false_eq_true, if_false]
    rw [if_pos (by omega)]
    unfold exec_sub_r_imm32
    rw [hlo]
    have himm : immOperand env.x64 n = n := by
      unfold immOperand
      cases env.x64
      · simp only [Bool.false_eq_true, if_false]
        have : n % 2 ^ 32 = n := by omega
        rw [this]
      · simp only [if_true]
        exact signedOf_of_lt 32 n (by omega) (by decide)
    rw [himm]
    have e : ((P : Int) - (n : Int)) = ((P - n : Nat) : Int) := by omega
    rw [e]
    exact toSize_natCast _ _ (by omega)

/-- C10: two inputs on which the sequence assembled for `left(n)` does not
leave `max(tape_start, P - n)`.  On the 64-bit architecture with
`n = 2 ^ 31` and `P = tape_start + 2 ^ 31 + 1` the field `imm32` of `sub` is
sign-extended and the pointer moves up to `tape_start + 2 ^ 32 + 1` instead of
down to `tape_start + 1`.  On the 32-bit architecture with
`tape_start = 0x7FFFF000`, `n = 1` and `P = 0x80000001` the signed `jle` is
taken and the pointer becomes `tape_start` instead of `0x80000000`.  The two
test programs `<.` and `++>+><<<.>.` of `main.c` stay inside the envelope and
give the expected output. -/
theorem left_sequence_misfires :
    runLeft ⟨true, 0x7f0000000000, 0, 0⟩ (2 ^ 31) (0x7f0000000000 + 2 ^ 31 + 1) =
      0x7f0000000000 + 2 ^ 32 + 1 ∧
    runLeft ⟨false, 0x7FFFF000, 0, 0⟩ 1 0x80000001 = 0x7FFFF000 ∧
    interpret env64 ['<', '.'] 30000 none 1 2 [] 100 = some ⟨interpret_ok, [0]⟩ ∧
    interpret env64 ['+', '+', '>', '+', '>', '<', '<', '<', '.', '>', '.'] 30000 none 1 2 []
      100 = some ⟨interpret_ok, [2, 1]⟩ := by
  refine ⟨by decide, by decide, by decide!, by decide!⟩

theorem runModify_eq_addCell (v : Int) (c : Nat) (hc : c < 256) :
    runModify v c = addCell v c := by
  unfold runModify addCell
  split_ifs with h <;> omega

theorem addCell_lt (v : Int) (c : Nat) : addCell v c < 256 := by
  unfold addCell
  omega

theorem foldl_addCell (run : List Char) (c : Nat) (hc : c < 256) :
    run.foldl (fun cell ch => addCell (runDelta ch) cell) c = addCell (runValue run) c := by
  induction run generalizing c with
  | nil =>
    simp only [List.foldl_nil, runValue, List.map_nil, List.sum_nil]
    unfold addCell
    omega
  | cons ch cs ih =>
    rw [List.foldl_cons, ih _ (addCell_lt _ _), addCell_addCell, runValue_cons]

/-- C11: for a run of `+` and `-` characters with net sum `s` and a cell value
`c` in 0..255, `genModify` assembles nothing when `s` is a multiple of 256 and
otherwise the single instruction `add byte ptr [ptrreg], s mod 256`; executing
what it assembled leaves the cell equal to `(c + s) mod 256`, which is also the
result of applying `+1` / `-1` modulo 256 once per character. -/
theorem modify_run_is_sum_mod_256 (run : List Char) (c : Nat) (buf : Asm)
    (hrun : ∀ ch ∈ run, ch = '+' ∨ ch = '-') (hc : c < 256) :
    runModify (runValue run) c = (((c : Int) + runValue run) % 256).toNat ∧
    runModify (runValue run) c =
      run.foldl (fun cell ch => if ch = '+' then (cell + 1) % 256 else (cell + 255) % 256) c ∧
    runValue run = (run.count '+' : Int) - (run.count '-' : Int) ∧
    ((256 : Int) ∣ runValue run → genModify buf (runValue run) = some buf) ∧
    (¬ (256 : Int) ∣ runValue run →
      genModify buf (runValue run) =
        emit_add_rm8_imm8 buf ptrreg (runValue run % 256).toNat) := by
  have hfold : run.foldl (fun cell ch => if ch = '+' then (cell + 1) % 256
      else (cell + 255) % 256) c =
      run.foldl (fun cell ch => addCell (runDelta ch) cell) c := by
    clear hc
    induction run generalizing c with
    | nil => rfl
    | cons ch cs ih =>
      rw [List.foldl_cons, List.foldl_cons,
        ih _ (fun x hx => hrun x (List.mem_cons_of_mem _ hx))]
      congr 1
      rcases hrun ch (List.mem_cons_self _ _) with h | h
      · subst h
        have : runDelta '+' = 1 := by decide
        rw [this, if_pos rfl]
        unfold addCell
        omega
      · subst h
        have : runDelta '-' = -1 := by decide
        rw [this, if_neg (by decide)]
        unfold addCell
        omega
  refine ⟨runModify_eq_addCell _ _ hc, ?_, ?_, ?_, ?_⟩
  · rw [hfold, foldl_addCell run c hc]
    exact runModify_eq_addCell _ _ hc
  · exact runValue_modify run (fun ch h => by
      rcases hrun ch h with h | h
      · exact Or.inl h
      · exact Or.inr (Or.inl h))
  · intro hd
    unfold genModify
    rw [if_pos]
    omega
  · intro hd
    unfold genModify
    rw [if_neg]
    omega

/-- Witness for C11: the run `-+` on a zero cell, and the program `-+.`, whose
output is a single zero byte. -/
theorem modify_run_is_sum_mod_256_witness :
    runModify (runValue ['-', '+']) 0 = ((((0 : Nat) : Int) + runValue ['-', '+']) % 256).toNat ∧
    interpret env64 ['-', '+', '.'] 30000 none 1 2 [] 100 = some ⟨interpret_ok, [0]⟩ :=
  ⟨(modify_run_is_sum_mod_256 ['-', '+'] 0 (new_assembler_buffer 0) (by decide) (by decide)).1,
   by decide!⟩

theorem runGet_byte (x64 : Bool) (hi b : Nat) (hb : b < 256) :
    runGet x64 (raxOfInt x64 hi (b : Int)) = b := by
  unfold runGet getIsEOF raxOfInt immOperand toSize
  cases x64
  · have h32 : wordBits false = 32 := rfl
    simp only [Bool.false_eq_true, if_false, h32]
    rw [if_neg]
    · omega
    · simp only [decide_eq_true_eq]
      omega
  · have h64 : wordBits true = 64 := rfl
    have hs : signedOf 32 0xFFFFFFFF = -1 := by decide
    simp only [if_true, h64, hs]
    rw [if_neg]
    · omega
    · simp only [decide_eq_true_eq]
      omega

theorem runGet_eof_ia32 (hi : Nat) : runGet false (raxOfInt false hi (-1)) = 0 := by
  have : raxOfInt false hi (-1) = 0xFFFFFFFF := rfl
  rw [this]
  decide

theorem runGet_eof_x64 (hi : Nat) :
    runGet true (raxOfInt true hi (-1)) = if hi % 2 ^ 32 = 2 ^ 32 - 1 then 0 else 255 := by
  unfold runGet getIsEOF raxOfInt immOperand toSize
  have h64 : wordBits true = 64 := rfl
  have hs : signedOf 32 0xFFFFFFFF = -1 := by decide
  simp only [if_true, h64, hs]
  split_ifs with h1 h2 h2
  · rfl
  · simp only [decide_eq_true_eq] at h1
    omega
  · simp only [decide_eq_true_eq] at h1
    omega
  · omega

/-- C12: on the 64-bit architecture, when the input callable returns `EOF`
with the upper half of `rax` cleared (the value `0x00000000FFFFFFFF` that
`mov eax, -1` leaves), the sequence assembled for `op_get` stores `0xFF` into
the cell and not `0`: the comparison carries the `REX.W` prefix and compares all
of `rax` with the sign-extended field.  The program `,.` with empty input
outputs the byte 255. -/
theorem get_eof_stores_ff_on_x64 :
    runGet true (raxOfInt true 0 (-1)) = 255 ∧
    interpret env64 [',', '.'] 30000 none 1 2 [] 100 = some ⟨interpret_ok, [255]⟩ ∧
    interpret env32 [',', '.'] 30000 none 1 2 [] 100 = some ⟨interpret_ok, [0]⟩ ∧
    interpret env64 [',', ','] 30000 none 1 2 [] 100 = some ⟨interpret_ok, []⟩ ∧
    interpret env64 [',', '+', '.'] 30000 none 1 2 [0] 100 = some ⟨interpret_ok, [1]⟩ := by
  refine ⟨by decide, by decide!, by decide!, by decide!, by decide!⟩

/-! ## The statuses of a run -/

/-- The codes with which a run of the generated code can end. -/
theorem handler_codes (x64 : Bool) (g : RunState) (a : Nat) (c : interpret_error_t)
    (h : handler x64 g a = HandlerAction.jump c) :
    c = interpret_tape_underflow ∨ c = interpret_tape_exceeded ∨ c = interpret_no_memory := by
  unfold handler at h
  simp only at h
  split_ifs at h <;> cases h <;> simp

theorem touch_halt (e : JitEnv) (d : Data) (k : MState) (r : JitResult)
    (h : touch e d k = JitOut.halt r) :
    (e.access d.ptr = Access.stray ∧ r = JitResult.stray d.ptr d) ∨
    (e.access d.ptr = Access.fault ∧
      ((handler e.gen.x64 e.g d.ptr = HandlerAction.reraise ∧ r = JitResult.reraised d.ptr d) ∨
       ∃ c, handler e.gen.x64 e.g d.ptr = HandlerAction.jump c ∧ r = JitResult.status c d)) := by
  unfold touch at h
  cases ha : e.access d.ptr <;> rw [ha] at h <;> simp only at h
  · cases h
  · right
    refine ⟨rfl, ?_⟩
    cases hh : handler e.gen.x64 e.g d.ptr <;> rw [hh] at h <;> simp only at h
    · left; exact ⟨rfl, (JitOut.halt.inj h).symm⟩
    · right; exact ⟨_, rfl, (JitOut.halt.inj h).symm⟩
  · left
    exact ⟨rfl, (JitOut.halt.inj h).symm⟩

theorem touch_ok (e : JitEnv) (d : Data) (k : MState) (h : e.access d.ptr = Access.ok) :
    touch e d k = JitOut.next k := by
  unfold touch
  rw [h]

/-- How a step of the generated code ends the run: by returning past the last
entry, or in an access to the current cell. -/
theorem jitStep_halt (e : JitEnv) (r : List instruction_t) (s : MState) (res : JitResult)
    (h : jitStep e r s = JitOut.halt res) :
    res = JitResult.returned s.d ∨
    ∃ d : Data, (d.ptr = s.d.ptr ∧ d.output = s.d.output) ∧
      ((e.access d.ptr = Access.stray ∧ res = JitResult.stray d.ptr d) ∨
       (e.access d.ptr = Access.fault ∧
        ((handler e.gen.x64 e.g d.ptr = HandlerAction.reraise ∧
            res = JitResult.reraised d.ptr d) ∨
         ∃ c, handler e.gen.x64 e.g d.ptr = HandlerAction.jump c ∧
            res = JitResult.status c d))) := by
  unfold jitStep at h
  cases hi : r[s.pc]? with
  | none =>
    rw [hi] at h
    left
    exact (JitOut.halt.inj h).symm
  | some i =>
    rw [hi] at h
    simp only at h
    cases hop : i.op <;> rw [hop] at h <;> simp only at h
    · split_ifs at h
      exact Or.inr ⟨_, ⟨rfl, rfl⟩, touch_halt _ _ _ _ h⟩
    · cases h
    · cases h
    · refine Or.inr ⟨_, ⟨?_, ?_⟩, touch_halt _ _ _ _ h⟩
      · unfold callGet; split <;> rfl
      · unfold callGet; split <;> rfl
    · exact Or.inr ⟨_, ⟨rfl, rfl⟩, touch_halt _ _ _ _ h⟩
    · exact Or.inr ⟨_, ⟨rfl, rfl⟩, touch_halt _ _ _ _ h⟩
    · exact Or.inr ⟨_, ⟨rfl, rfl⟩, touch_halt _ _ _ _ h⟩
    · left
      exact (JitOut.halt.inj h).symm

theorem jitStep_halt_code (e : JitEnv) (r : List instruction_t) (s : MState) (res : JitResult)
    (c : interpret_error_t) (h : jitStep e r s = JitOut.halt res) (hc : res.code = some c) :
    c = interpret_ok ∨
    ((c = interpret_tape_underflow ∨ c = interpret_tape_exceeded ∨ c = interpret_no_memory) ∧
      e.access s.d.ptr = Access.fault ∧ handler e.gen.x64 e.g s.d.ptr = HandlerAction.jump c) := by
  rcases jitStep_halt e r s res h with h1 | ⟨d, ⟨hd, _⟩, h2 | ⟨hf, h3 | ⟨c', h4, h5⟩⟩⟩
  · subst h1
    left
    exact (Option.some.inj hc).symm
  · rw [h2.2] at hc; cases hc
  · rw [h3.2] at hc; cases hc
  · rw [h5] at hc
    have : c' = c := Option.some.inj hc
    subst this
    right
    rw [← hd]
    exact ⟨handler_codes _ _ _ _ h4, hf, h4⟩

theorem jitRun_code (e : JitEnv) (r : List instruction_t) (fuel : Nat) (s : MState)
    (res : JitResult) (c : interpret_error_t)
    (h : jitRun e r fuel s = some res) (hc : res.code = some c) :
    c = interpret_ok ∨ c = interpret_tape_underflow ∨ c = interpret_tape_exceeded ∨
      c = interpret_no_memory := by
  induction fuel generalizing s with
  | zero => cases h
  | succ n ih =>
    unfold jitRun at h
    cases hs : jitStep e r s with
    | halt r' =>
      rw [hs] at h
      have : r' = res := Option.some.inj h
      subst this
      rcases jitStep_halt_code e r s r' c hs hc with h1 | ⟨h1, _⟩
      · exact Or.inl h1
      · exact Or.inr h1
    | next s' =>
      rw [hs] at h
      exact ih s' h

theorem runPhase_status (env : Env) (e : JitEnv) (r : List instruction_t)
    (timelimit : Option Nat) (input : List Nat) (fuel : Nat) (o : Outcome)
    (h : runPhase env e r timelimit input fuel = some o) :
    o.status = interpret_munmap_error ∨ o.status = interpret_time_exceeded ∨
    o.status = interpret_ok ∨ o.status = interpret_tape_underflow ∨
    o.status = interpret_tape_exceeded ∨ o.status = interpret_no_memory := by
  unfold runPhase at h
  cases hr : jitRun e r (timelimit.getD fuel) (jitInit e input) with
  | none =>
    rw [hr] at h
    cases timelimit with
    | none => cases h
    | some t =>
      simp only at h
      have := Option.some.inj h
      rw [← this]
      unfold afterRun
      split_ifs <;> simp
  | some res =>
    rw [hr] at h
    simp only at h
    cases hc : res.code with
    | none => rw [hc] at h; cases h
    | some c =>
      rw [hc] at h
      simp only at h
      have := Option.some.inj h
      rw [← this]
      have hcode := jitRun_code e r _ _ res c hr hc
      unfold afterRun
      split_ifs
      · simp
      · simp only
        rcases hcode with h1 | h1 | h1 | h1 <;> simp [h1]

/-! ## The balance scan as seen by the caller -/

theorem setupHandlers_status (env : Env) (timelimit : Option Nat) (e : JitEnv)
    (r : List instruction_t) (o : Outcome)
    (h : setupHandlers env timelimit e r = Setup.done (some o)) :
    o.status = interpret_handler := by
  unfold setupHandlers at h
  split_ifs at h <;> cases h <;> rfl

theorem setupCode_status (env : Env) (program : List Char) (timelimit : Option Nat)
    (gcfp pcfp : Nat) (sc : ScanState) (L : Layout) (o : Outcome)
    (h : setupCode env program timelimit gcfp pcfp sc L = Setup.done (some o)) :
    o.status = interpret_handler := by
  unfold setupCode at h
  split at h
  · split at h
    · cases h
    · exact setupHandlers_status _ _ _ _ _ h
  · cases h

theorem setupTape_status (env : Env) (program : List Char) (timelimit : Option Nat)
    (gcfp pcfp : Nat) (sc : ScanState) (L : Layout) (o : Outcome)
    (h : setupTape env program timelimit gcfp pcfp sc L = Setup.done (some o)) :
    o.status = interpret_malloc_error ∨ o.status = interpret_guard_error ∨
    o.status = interpret_mmap_error ∨ o.status = interpret_handler := by
  unfold setupTape at h
  split_ifs at h
  · cases h; simp
  · cases h; simp
  · cases h; simp
  · cases h; simp
  · cases h; simp
  · exact Or.inr (Or.inr (Or.inr (setupCode_status _ _ _ _ _ _ _ _ h)))

theorem setup_done_status (env : Env) (program : List Char) (max_data_size : Nat)
    (timelimit : Option Nat) (gcfp pcfp : Nat) (sc : ScanState) (o : Outcome)
    (hp : 0 < env.page_size_) (hsc : balanceScan program = some sc)
    (h : setup env program max_data_size timelimit gcfp pcfp = Setup.done (some o)) :
    o.status = interpret_malloc_error ∨ o.status = interpret_guard_error ∨
    o.status = interpret_mmap_error ∨ o.status = interpret_handler := by
  unfold setup at h
  rw [if_neg (not_le.2 hp), hsc] at h
  simp only at h
  split_ifs at h
  · cases h; simp
  · split at h
    · cases h; simp
    · exact setupTape_status _ _ _ _ _ _ _ _ h

theorem setup_unbalanced (env : Env) (program : List Char) (max_data_size : Nat)
    (timelimit : Option Nat) (gcfp pcfp : Nat)
    (hp : 0 < env.page_size_) (hsc : balanceScan program = none) :
    setup env program max_data_size timelimit gcfp pcfp =
      Setup.done (some ⟨interpret_unbalanced, []⟩) := by
  unfold setup
  rw [if_neg (not_le.2 hp), hsc]

/-- C2: with the page-size query succeeding, `interpret` returns the status
unbalanced (11), without any output, exactly when the brackets of the program
are not balanced, that is, when some prefix holds more `]` than `[` or the
totals of `[` and `]` differ; and every program past the balance scan has equal
totals and no prefix with more `]` than `[`. -/
theorem interpret_unbalanced_iff (env : Env) (program : List Char) (max_data_size : Nat)
    (timelimit : Option Nat) (gcfp pcfp : Nat) (input : List Nat) (fuel : Nat)
    (hp : 0 < env.page_size_) :
    ((interpret env program max_data_size timelimit gcfp pcfp input fuel).map Outcome.status =
        some interpret_unbalanced ↔ ¬ Balanced program) ∧
    (¬ Balanced program →
      interpret env program max_data_size timelimit gcfp pcfp input fuel =
        some ⟨interpret_unbalanced, []⟩) ∧
    (¬ Balanced program ↔
      ((∃ k, k ≤ program.length ∧
          (program.take k).count '[' < (program.take k).count ']') ∨
        program.count '[' ≠ program.count ']')) ∧
    (∀ sc, balanceScan program = some sc →
      program.count '[' = program.count ']' ∧
      ∀ k, k ≤ program.length → (program.take k).count ']' ≤ (program.take k).count '[') := by
  have hno : ¬ Balanced program →
      interpret env program max_data_size timelimit gcfp pcfp input fuel =
        some ⟨interpret_unbalanced, []⟩ := by
    intro hb
    have hsc : balanceScan program = none := by
      cases hs : balanceScan program with
      | none => rfl
      | some sc => exact absurd ((balanceScan_isSome_iff program).1 ⟨sc, hs⟩) hb
    unfold interpret
    rw [setup_unbalanced env program max_data_size timelimit gcfp pcfp hp hsc]
  refine ⟨⟨?_, fun hb => by rw [hno hb]; rfl⟩, hno, ?_, ?_⟩
  · intro h hb
    obtain ⟨sc, hsc⟩ := (balanceScan_isSome_iff program).2 hb
    unfold interpret at h
    cases hs : setup env program max_data_size timelimit gcfp pcfp with
    | done r =>
      rw [hs] at h
      simp only at h
      cases r with
      | none => cases h
      | some o =>
        have h1 := setup_done_status env program max_data_size timelimit gcfp pcfp sc o hp hsc hs
        simp only [Option.map_some', Option.some.injEq] at h
        rw [h] at h1
        revert h1
        decide
    | run e r =>
      rw [hs] at h
      simp only at h
      cases hr : runPhase env e r timelimit input fuel with
      | none => rw [hr] at h; cases h
      | some o =>
        have h1 := runPhase_status env e r timelimit input fuel o hr
        rw [hr] at h
        simp only [Option.map_some', Option.some.injEq] at h
        rw [h] at h1
        revert h1
        decide
  · unfold Balanced
    constructor
    · intro h
      by_contra hc
      push_neg at hc
      exact h ⟨fun k hk => hc.1 k hk, hc.2⟩
    · rintro (⟨k, hk, hlt⟩ | hne) ⟨h1, h2⟩
      · exact absurd (h1 k hk) (by omega)
      · exact hne h2
  · intro sc hsc
    have hb := (balanceScan_isSome_iff program).1 ⟨sc, hsc⟩
    exact ⟨hb.2, hb.1⟩

/-- Witness for C2: the programs `[` and `[]]` return 11. -/
theorem interpret_unbalanced_iff_witness :
    interpret env64 ['['] 30000 none 1 2 [] 100 = some ⟨interpret_unbalanced, []⟩ ∧
    interpret env64 ['[', ']', ']'] 30000 none 1 2 [] 100 = some ⟨interpret_unbalanced, []⟩ ∧
    ((interpret env64 ['['] 30000 none 1 2 [] 100).map Outcome.status =
        some interpret_unbalanced ↔ ¬ Balanced ['[']) :=
  ⟨by decide, by decide,
   (interpret_unbalanced_iff env64 ['['] 30000 none 1 2 [] 100 (by decide)).1⟩

/-! ## A call in which every system call succeeds -/

theorem guardOverflow_eq_false (x64 : Bool) (page_size : Nat) (t : Nat)
    (h : t + page_size + 1 < 2 ^ (wordBits x64 - 1)) :
    guardOverflow x64 page_size (t : Int) = false := by
  unfold guardOverflow
  have h2 := two_pow_wordBits x64
  have hpos := wordBits_pos x64
  have e0 : SIZE_MAX x64 / 2 = 2 ^ (wordBits x64 - 1) - 1 := by
    unfold SIZE_MAX; omega
  have e1 : ((SIZE_MAX x64 / 2 : Nat) : Int) - (page_size : Int) =
      ((2 ^ (wordBits x64 - 1) - 1 - page_size : Nat) : Int) := by
    rw [e0]; omega
  rw [e1, toSize_natCast x64 _ (by omega)]
  unfold toPtrdiff
  rw [signedOf_of_lt _ _ (by omega) hpos]
  simp only [decide_eq_false_iff_not, not_le]
  omega

theorem tapeLayout_eq (x64 : Bool) (page_size max_data_size : Nat)
    (instructions : List instruction_t) (hp : 0 < page_size)
    (hF : largestMove op_right instructions + page_size + 1 < 2 ^ (wordBits x64 - 1))
    (hR : largestMove op_left instructions + page_size + 1 < 2 ^ (wordBits x64 - 1)) :
    tapeLayout x64 page_size max_data_size instructions =
      some ⟨page_size, ceilDiv (largestMove op_right instructions) page_size,
        ceilDiv (largestMove op_left instructions) page_size,
        roundTape x64 page_size max_data_size,
        toSize x64 ((roundTape x64 page_size max_data_size : Int) +
          (toSize x64 ((((ceilDiv (largestMove op_right instructions) page_size : Nat) : Int) +
            ((ceilDiv (largestMove op_left instructions) page_size : Nat) : Int)) *
              (page_size : Int)) : Nat))⟩ := by
  unfold tapeLayout
  rw [traverse_eq]
  simp only
  rw [guardOverflow_eq_false x64 page_size _ hF, guardOverflow_eq_false x64 page_size _ hR,
    guardPages_eq x64 page_size _ hp hF, guardPages_eq x64 page_size _ hp hR]
  simp

theorem setup_run (env : Env) (program : List Char) (max_data_size : Nat)
    (timelimit : Option Nat) (gcfp pcfp : Nat) (sc : ScanState) (L : Layout)
    (r : List instruction_t) (addr : Nat)
    (hs : env.Succeeds) (hsc : balanceScan program = some sc)
    (hL : tapeLayout env.x64 (toSize env.x64 env.page_size_) max_data_size
      (condense program) = some L)
    (hr : resolve sc.max_stack_size (condense program) = some r)
    (hb : env.buffer = some addr)
    (hg : (generate (genEnvOf env L gcfp pcfp) addr sc.branch_count r).isSome = true) :
    setup env program max_data_size timelimit gcfp pcfp =
      Setup.run (jitEnvOf env L gcfp pcfp) r := by
  unfold setup
  rw [if_neg (not_le.2 hs.page_size_pos), hsc]
  simp only
  rw [if_neg (by rw [hs.malloc_instructions]; decide), hL]
  simp only
  unfold setupTape
  rw [if_neg hs.mmap_tape, if_neg (by rw [hs.mprotect_reverse]; decide),
    if_neg (by rw [hs.mprotect_forward]; decide),
    if_neg (by rw [hs.malloc_stack]; decide), if_neg (by rw [hs.malloc_branches]; decide)]
  unfold setupCode
  rw [hr, hb]
  simp only
  obtain ⟨fin, hfin⟩ := Option.isSome_iff_exists.1 hg
  rw [hfin]
  simp only
  unfold setupHandlers
  rw [if_neg (by rw [hs.sigaction_segv]; decide),
    if_neg (by rw [hs.sigaction_vtalrm]; simp),
    if_neg (by rw [hs.setitimer_ret]; simp), if_neg hs.mprotect_exec]

theorem generate_nil_isSome (gen : GenEnv) (addr : Nat) :
    (generate gen addr 0 []).isSome = true := by
  obtain ⟨x64, ts, g, p⟩ := gen
  cases x64 <;>
  simp [generate, genStart, newBranches, genLoop, genPrologue, genEpilogue, genAdjustSub,
    genAdjustAdd, stack_adjust, wordBytes, emit_push_r, emit_mov_r_r, emit_op_r_r,
    emit_and_r_immz32, emit_sub_r_immz32, emit_add_r_immz32, emit_alu_r_immz32,
    emit_mov_r_immptr, emit_pop_r, emit_xor_r_r, emit_leave, emit_ret, check_space,
    new_assembler_buffer, emit_rexw, emit_u8, emit_u32, emit_ptr, EBP, ESP, EBX, EDI, EAX,
    ptrreg, Option.bind]

theorem toSize_page (env : Env) (hp : 0 < env.page_size_)
    (hp2 : env.page_size_ + 2 < 2 ^ (wordBits env.x64 - 1)) :
    0 < toSize env.x64 env.page_size_ ∧
    toSize env.x64 env.page_size_ + 2 < 2 ^ (wordBits env.x64 - 1) ∧
    (toSize env.x64 env.page_size_ : Int) = env.page_size_ := by
  have h2 := two_pow_wordBits env.x64
  have hc : ((2 : Nat) ^ wordBits env.x64 : Int) = 2 * 2 ^ (wordBits env.x64 - 1) := by
    exact_mod_cast h2
  have e : toSize env.x64 env.page_size_ = env.page_size_.toNat := by
    apply toSize_of_lt _ _ (le_of_lt hp)
    have : (0 : Int) < 2 ^ (wordBits env.x64 - 1) := by positivity
    push_cast at hc
    omega
  rw [e]
  refine ⟨by omega, ?_, by omega⟩
  zify
  rw [Int.toNat_of_nonneg (le_of_lt hp)]
  exact hp2

theorem jitRun_nil (e : JitEnv) (fuel : Nat) (s : MState) (hf : 0 < fuel) :
    jitRun e [] fuel s = some (JitResult.returned s.d) := by
  cases fuel with
  | zero => omega
  | succ n => rfl

theorem condense_no_operators (program : List Char)
    (hops : ∀ c ∈ program, isOperator c = false) :
    program.filter isOperator = [] ∧ condense program = [] ∧
    balanceScan program = some ⟨0, 0, 0⟩ ∧ op_count program = 0 := by
  have hfilter : program.filter isOperator = [] :=
    List.filter_eq_nil_iff.2 (fun c hc => by simp [hops c hc])
  refine ⟨hfilter, ?_, ?_, ?_⟩
  · rw [condense_eq_condSpec]
    exact condSpec_eq_nil_of_filter _ hfilter
  · unfold balanceScan
    rw [← scanLoop_filter, hfilter]
    rfl
  · unfold op_count
    rw [← foldl_countStep_filter, hfilter]
    rfl

/-- C19: for a program without any of the eight operator characters (the empty
program included) the counting pass counts no entry and the condensed list is
empty; the code assembled for it is the preamble followed directly by the coda;
and when every system call succeeds, `interpret` returns ok (0) and the output
callable has received nothing. -/
theorem no_operators_returns_ok (env : Env) (program : List Char) (max_data_size : Nat)
    (timelimit : Option Nat) (gcfp pcfp : Nat) (input : List Nat) (fuel : Nat)
    (hops : ∀ c ∈ program, isOperator c = false)
    (hs : env.Succeeds) (hpage : env.page_size_ + 2 < 2 ^ (wordBits env.x64 - 1))
    (hfuel : 0 < fuel) (ht : ∀ t, timelimit = some t → 0 < t) :
    op_count program = 0 ∧ condense program = [] ∧
    (∀ (gen : GenEnv) (addr : Nat), generate gen addr 0 (condense program) =
      (genPrologue gen (new_assembler_buffer addr)).bind (genEpilogue gen)) ∧
    (∀ (gen : GenEnv) (addr : Nat), (generate gen addr 0 (condense program)).isSome = true) ∧
    interpret env program max_data_size timelimit gcfp pcfp input fuel =
      some ⟨interpret_ok, []⟩ := by
  obtain ⟨_, hcond, hscan, hcount⟩ := condense_no_operators program hops
  obtain ⟨hp1, hp2, _⟩ := toSize_page env hs.page_size_pos hpage
  refine ⟨hcount, hcond, ?_, ?_, ?_⟩
  · intro gen addr
    rw [hcond]
    unfold generate genStart
    simp only [newBranches, genLoop]
    cases genPrologue gen (new_assembler_buffer addr) <;> rfl
  · intro gen addr
    rw [hcond]
    exact generate_nil_isSome gen addr
  · obtain ⟨addr, hb⟩ := Option.isSome_iff_exists.1 hs.buffer
    have hL := tapeLayout_eq env.x64 (toSize env.x64 env.page_size_) max_data_size
      (condense program) hp1 (by rw [hcond]; simp [largestMove]; omega)
      (by rw [hcond]; simp [largestMove]; omega)
    have hrun := setup_run env program max_data_size timelimit gcfp pcfp ⟨0, 0, 0⟩ _ [] addr
      hs hscan hL (by rw [hcond]; rfl) hb (generate_nil_isSome _ _)
    unfold interpret
    rw [hrun]
    simp only
    unfold runPhase
    have hbudget : 0 < timelimit.getD fuel := by
      cases timelimit with
      | none => exact hfuel
      | some t => exact ht t rfl
    rw [jitRun_nil _ _ _ hbudget]
    simp only [JitResult.code, JitResult.data, jitInit]
    unfold afterRun
    rw [if_neg (by rw [hs.munmap_ret]; decide)]

theorem env64_succeeds : env64.Succeeds := by
  constructor <;> decide

theorem env32_succeeds : env32.Succeeds := by
  constructor <;> decide

/-- Witness for C19: the program `a`. -/
theorem no_operators_returns_ok_witness :
    interpret env64 ['a'] 30000 none 1 2 [] 100 = some ⟨interpret_ok, []⟩ :=
  (no_operators_returns_ok env64 ['a'] 30000 none 1 2 [] 100 (by decide) env64_succeeds
    (by decide) (by decide) (by intro t h; cases h)).2.2.2.2

/-! ## Programs that never move the pointer -/

theorem setup_run_inv (env : Env) (program : List Char) (max_data_size : Nat)
    (timelimit : Option Nat) (gcfp pcfp : Nat) (e : JitEnv) (r : List instruction_t)
    (h : setup env program max_data_size timelimit gcfp pcfp = Setup.run e r) :
    0 < env.page_size_ ∧ ∃ sc L, balanceScan program = some sc ∧
      tapeLayout env.x64 (toSize env.x64 env.page_size_) max_data_size (condense program) =
        some L ∧
      resolve sc.max_stack_size (condense program) = some r ∧
      e = jitEnvOf env L gcfp pcfp ∧
      (∃ addr, (generate (genEnvOf env L gcfp pcfp) addr sc.branch_count r).isSome = true) := by
  unfold setup at h
  by_cases hp : env.page_size_ ≤ 0
  · rw [if_pos hp] at h; cases h
  rw [if_neg hp] at h
  refine ⟨not_le.1 hp, ?_⟩
  cases hsc : balanceScan program with
  | none => rw [hsc] at h; cases h
  | some sc =>
    rw [hsc] at h
    simp only at h
    by_cases hmal : env.malloc_instructions = false
    · rw [if_pos hmal] at h; cases h
    rw [if_neg hmal] at h
    cases hL : tapeLayout env.x64 (toSize env.x64 env.page_size_) max_data_size
        (condense program) with
    | none => rw [hL] at h; cases h
    | some L =>
      rw [hL] at h
      simp only at h
      refine ⟨sc, L, rfl, rfl, ?_⟩
      unfold setupTape at h
      split_ifs at h
      unfold setupCode at h
      cases hres : resolve sc.max_stack_size (condense program) with
      | none => rw [hres] at h; cases h
      | some r' =>
        cases hbuf : env.buffer with
        | none => rw [hres, hbuf] at h; cases h
        | some addr =>
          rw [hres, hbuf] at h
          simp only at h
          cases hg : generate (genEnvOf env L gcfp pcfp) addr sc.branch_count r' with
          | none => rw [hg] at h; cases h
          | some fin =>
            rw [hg] at h
            simp only at h
            unfold setupHandlers at h
            split_ifs at h
            have h1 := Setup.run.inj h
            rw [← h1.2]
            exact ⟨rfl, h1.1.symm, addr, by rw [hg]; rfl⟩

theorem resolveLoop_ops (m : Nat) (l : List instruction_t) :
    ∀ (stack : List Nat) (bc : Nat) (r : List instruction_t),
      resolveLoop m l stack bc = some r →
      r.map (fun i => (i.op, i.val)) = l.map (fun i => (i.op, i.val)) := by
  induction l with
  | nil =>
    intro stack bc r h
    simp only [resolveLoop] at h
    rw [← Option.some.inj h]
  | cons i rest ih =>
    intro stack bc r h
    by_cases h1 : i.op = op_if
    · by_cases hm : stack.length + 1 ≤ m
      · rw [resolveLoop_if m i rest stack bc h1 hm] at h
        cases hr : resolveLoop m rest (bc :: stack) (bc + 1) with
        | none => rw [hr] at h; cases h
        | some r' =>
          rw [hr] at h
          rw [← Option.some.inj h, List.map_cons, List.map_cons, ih _ _ _ hr]
      · simp only [resolveLoop, h1, if_true, hm, if_false] at h
        cases h
    · by_cases h2 : i.op = op_endif
      · cases stack with
        | nil =>
          simp only [resolveLoop, h1, if_false, h2, if_true] at h
          cases h
        | cons top below =>
          rw [resolveLoop_endif m i rest top below bc h2] at h
          cases hr : resolveLoop m rest below bc with
          | none => rw [hr] at h; cases h
          | some r' =>
            rw [hr] at h
            rw [← Option.some.inj h, List.map_cons, List.map_cons, ih _ _ _ hr]
      · rw [resolveLoop_other m i rest stack bc h1 h2] at h
        cases hr : resolveLoop m rest stack bc with
        | none => rw [hr] at h; cases h
        | some r' =>
          rw [hr] at h
          rw [← Option.some.inj h, List.map_cons, List.map_cons, ih _ _ _ hr]

/-- The entries of `consRun o d ys` carry the tag `o` or are entries of `ys`. -/
theorem consRun_ops (o : op_t) (d : Int) (ys : List instruction_t) (i : instruction_t)
    (h : i ∈ consRun o d ys) : i.op = o ∨ i ∈ ys := by
  cases ys with
  | nil =>
    simp only [consRun, List.mem_singleton] at h
    left; rw [h]
  | cons y r =>
    simp only [consRun] at h
    split_ifs at h
    · rcases List.mem_cons.1 h with h | h
      · left; rw [h]
      · right; exact List.mem_cons_of_mem _ h
    · rcases List.mem_cons.1 h with h | h
      · left; rw [h]
      · right; exact h

theorem condSpec_no_moves (p : List Char) (hm : ∀ c ∈ p, c ≠ '<' ∧ c ≠ '>') :
    ∀ i ∈ condSpec p, i.op ≠ op_right ∧ i.op ≠ op_left := by
  induction p with
  | nil => intro i hi; cases hi
  | cons c cs ih =>
    intro i hi
    have ih' := ih (fun x hx => hm x (List.mem_cons_of_mem _ hx))
    have hc := hm c (List.mem_cons_self _ _)
    simp only [condSpec, addChar, hc.1, hc.2, if_false] at hi
    split_ifs at hi
    · rcases consRun_ops _ _ _ _ hi with h | h
      · rw [h]; decide
      · exact ih' i h
    · rcases consRun_ops _ _ _ _ hi with h | h
      · rw [h]; decide
      · exact ih' i h
    · rcases List.mem_cons.1 hi with h | h
      · rw [h]; decide
      · exact ih' i h
    · rcases List.mem_cons.1 hi with h | h
      · rw [h]; decide
      · exact ih' i h
    · rcases List.mem_cons.1 hi with h | h
      · rw [h]; decide
      · exact ih' i h
    · rcases List.mem_cons.1 hi with h | h
      · rw [h]; decide
      · exact ih' i h
    · exact ih' i hi

theorem largestMove_eq_zero (o : op_t) (l : List instruction_t) (h : ∀ i ∈ l, i.op ≠ o) :
    largestMove o l = 0 := by
  unfold largestMove
  have : l.filter (fun i => decide (i.op = o)) = [] :=
    List.filter_eq_nil_iff.2 (fun i hi => by simp [h i hi])
  rw [this]
  rfl

theorem ops_of_map_eq (r l : List instruction_t)
    (h : r.map (fun i => (i.op, i.val)) = l.map (fun i => (i.op, i.val)))
    (P : op_t → Prop) (hl : ∀ i ∈ l, P i.op) : ∀ i ∈ r, P i.op := by
  intro i hi
  have : (i.op, i.val) ∈ l.map (fun i => (i.op, i.val)) := by
    rw [← h]; exact List.mem_map_of_mem _ hi
  obtain ⟨j, hj, hji⟩ := List.mem_map.1 this
  have := hl j hj
  rw [show j.op = i.op from congrArg Prod.fst hji] at this
  exact this

theorem guardPages_zero (x64 : Bool) (page_size : Nat) (hp : page_size < 2 ^ wordBits x64) :
    guardPages x64 page_size ((0 : Nat) : Int) = 0 := by
  unfold guardPages
  rw [toSize_natCast x64 0 (by positivity)]
  by_cases h0 : page_size = 0
  · rw [h0]; simp
  · have e : (((0 : Nat) : Int) + (page_size : Int) - 1) = ((page_size - 1 : Nat) : Int) := by
      omega
    rw [e, toSize_natCast x64 _ (by omega)]
    exact Nat.div_eq_of_lt (by omega)

theorem touch_next (e : JitEnv) (d : Data) (k s' : MState) (h : touch e d k = JitOut.next s') :
    s' = k ∧ e.access d.ptr = Access.ok := by
  unfold touch at h
  cases ha : e.access d.ptr <;> rw [ha] at h <;> simp only at h
  · exact ⟨(JitOut.next.inj h).symm, rfl⟩
  · split at h <;> cases h
  · cases h

theorem callGet_ptr (e : JitEnv) (d : Data) :
    (callGet e d).2.ptr = d.ptr ∧ (callGet e d).2.output = d.output ∧
    (callGet e d).2.tape = d.tape := by
  unfold callGet
  split <;> exact ⟨rfl, rfl, rfl⟩

theorem jitStep_ptr (e : JitEnv) (r : List instruction_t) (s s' : MState)
    (hr : ∀ i ∈ r, i.op ≠ op_right ∧ i.op ≠ op_left)
    (h : jitStep e r s = JitOut.next s') : s'.d.ptr = s.d.ptr := by
  unfold jitStep at h
  cases hi : r[s.pc]? with
  | none => rw [hi] at h; cases h
  | some i =>
    have hmem : i ∈ r := List.mem_iff_getElem?.2 ⟨_, hi⟩
    have hop := hr i hmem
    rw [hi] at h
    simp only at h
    cases hop' : i.op <;> rw [hop'] at h <;> simp only at h
    · split_ifs at h
      · rw [← JitOut.next.inj h]
      · rw [(touch_next _ _ _ _ h).1]; rfl
    · exact absurd hop' hop.1
    · exact absurd hop' hop.2
    · rw [(touch_next _ _ _ _ h).1]
      exact (callGet_ptr e s.d).1
    · rw [(touch_next _ _ _ _ h).1]; rfl
    · rw [(touch_next _ _ _ _ h).1]
    · rw [(touch_next _ _ _ _ h).1]
    · cases h

theorem jitState_ptr (e : JitEnv) (r : List instruction_t)
    (hr : ∀ i ∈ r, i.op ≠ op_right ∧ i.op ≠ op_left) (n : Nat) :
    ∀ s : MState, (jitState e r n s).d.ptr = s.d.ptr := by
  induction n with
  | zero => intro s; rfl
  | succ n ih =>
    intro s
    unfold jitState
    cases hs : jitStep e r s with
    | halt res => rfl
    | next s' =>
      simp only
      rw [ih s', jitStep_ptr e r s s' hr hs]

theorem jitRun_ptr (e : JitEnv) (r : List instruction_t)
    (hr : ∀ i ∈ r, i.op ≠ op_right ∧ i.op ≠ op_left) (n : Nat) :
    ∀ (s : MState) (res : JitResult), jitRun e r n s = some res →
      res = JitResult.returned res.data ∨
      (e.access s.d.ptr ≠ Access.ok ∧ res.code ≠ some interpret_ok) := by
  induction n with
  | zero => intro s res h; cases h
  | succ n ih =>
    intro s res h
    unfold jitRun at h
    cases hs : jitStep e r s with
    | halt res' =>
      rw [hs] at h
      have := Option.some.inj h
      subst this
      rcases jitStep_halt e r s res' hs with h1 | ⟨d, ⟨hd, _⟩, h2 | ⟨hf, h3 | ⟨c', h4, h5⟩⟩⟩
      · left; rw [h1]; rfl
      · right; rw [← hd, h2.1, h2.2]; exact ⟨by decide, by simp [JitResult.code]⟩
      · right; rw [← hd, hf, h3.2]; exact ⟨by decide, by simp [JitResult.code]⟩
      · right
        rw [← hd, hf, h5]
        refine ⟨by decide, ?_⟩
        rcases handler_codes _ _ _ _ h4 with h6 | h6 | h6 <;> rw [h6] <;>
          simp [JitResult.code]
    | next s' =>
      rw [hs] at h
      simp only at h
      rw [← jitStep_ptr e r s s' hr hs]
      exact ih s' res h

theorem inGuard_no_pages (e : JitEnv) (a : Nat) (hf : e.g.pages_forward = 0)
    (hr : e.g.pages_reverse = 0) : e.inGuard a = false := by
  unfold JitEnv.inGuard
  have z : toSize e.gen.x64 (((0 : Nat) : Int) * (e.g.page_size : Int)) = 0 := by
    rw [Int.natCast_zero, zero_mul]
    exact toSize_natCast _ 0 (by positivity)
  rw [hf, hr, z]
  simp

theorem access_no_pages (e : JitEnv) (a : Nat) (hf : e.g.pages_forward = 0)
    (hr : e.g.pages_reverse = 0) : e.access a ≠ Access.fault := by
  unfold JitEnv.access
  rw [inGuard_no_pages e a hf hr]
  split_ifs with h1 h2
  · exact absurd h2 (by decide)
  · decide
  · decide

theorem jitRun_no_fault (e : JitEnv) (r : List instruction_t)
    (hacc : ∀ a, e.access a ≠ Access.fault) (n : Nat) :
    ∀ (s : MState) (res : JitResult), jitRun e r n s = some res →
      res.code = some interpret_ok ∨ res.code = none := by
  induction n with
  | zero => intro s res h; cases h
  | succ n ih =>
    intro s res h
    unfold jitRun at h
    cases hs : jitStep e r s with
    | halt res' =>
      rw [hs] at h
      have := Option.some.inj h
      subst this
      rcases jitStep_halt e r s res' hs with h1 | ⟨d, _, h2 | ⟨hf, _⟩⟩
      · left; rw [h1]; rfl
      · right; rw [h2.2]; rfl
      · exact absurd hf (hacc _)
    | next s' =>
      rw [hs] at h
      exact ih s' res h

theorem roundTape_lt (x64 : Bool) (page_size max_data_size : Nat) :
    roundTape x64 page_size max_data_size < 2 ^ wordBits x64 := by
  unfold roundTape
  exact lt_of_le_of_lt Nat.and_le_left (toSize_lt _ _)

theorem tapeLayout_no_moves (x64 : Bool) (page_size max_data_size : Nat)
    (l : List instruction_t) (L : Layout)
    (hF : largestMove op_right l = 0) (hR : largestMove op_left l = 0)
    (hp : page_size < 2 ^ wordBits x64)
    (h : tapeLayout x64 page_size max_data_size l = some L) :
    L.pages_forward = 0 ∧ L.pages_reverse = 0 ∧ L.page_size = page_size ∧
    L.rnd = roundTape x64 page_size max_data_size ∧
    L.allocated = roundTape x64 page_size max_data_size := by
  unfold tapeLayout at h
  rw [traverse_eq, hF, hR] at h
  simp only at h
  split_ifs at h
  have hL := Option.some.inj h
  rw [← hL]
  simp only [guardPages_zero x64 page_size hp]
  refine ⟨trivial, trivial, trivial, trivial, ?_⟩
  have z : toSize x64 ((((0 : Nat) : Int) + ((0 : Nat) : Int)) * (page_size : Int)) = 0 := by
    rw [Int.natCast_zero, add_zero, zero_mul]
    exact toSize_natCast _ 0 (by positivity)
  rw [z, Int.natCast_zero, add_zero]
  exact toSize_natCast _ _ (roundTape_lt _ _ _)

/-- C18: for a program that contains neither `<` nor `>`, whenever `interpret`
reaches the generated code, the pointer register holds `tape_start` after any
number of steps, no guard page exists and so no access can raise the fault
that the handler turns into tape-exceeded or tape-underflow, and `interpret`
returns neither 8 nor 9.  When moreover the page size is a power of two,
`max_data_size` is at least one page and the rounding does not wrap, the cell
at `tape_start` lies in the read+write user region, so every access succeeds
and a run that ends does so by returning. -/
theorem no_moves_no_tape_fault (env : Env) (program : List Char) (max_data_size : Nat)
    (timelimit : Option Nat) (gcfp pcfp : Nat) (input : List Nat) (fuel : Nat)
    (hm : ∀ c ∈ program, c ≠ '<' ∧ c ≠ '>') :
    (∀ e r, setup env program max_data_size timelimit gcfp pcfp = Setup.run e r →
      (∀ n, (jitState e r n (jitInit e input)).d.ptr = toSize e.gen.x64 e.gen.tape_start) ∧
      (∀ a, e.access a ≠ Access.fault) ∧
      (∀ n res, jitRun e r n (jitInit e input) = some res →
        res.code = some interpret_ok ∨ res.code = none) ∧
      (∀ k : Nat, env.page_size_ = 2 ^ k → k < wordBits env.x64 →
        2 ^ k ≤ max_data_size → max_data_size + 2 ^ k ≤ 2 ^ wordBits env.x64 →
        env.mmap_tape < 2 ^ wordBits env.x64 →
        e.access (toSize e.gen.x64 e.gen.tape_start) = Access.ok ∧
        ∀ n res, jitRun e r n (jitInit e input) = some res →
          res = JitResult.returned res.data)) ∧
    (∀ o, interpret env program max_data_size timelimit gcfp pcfp input fuel = some o →
      o.status ≠ interpret_tape_exceeded ∧ o.status ≠ interpret_tape_underflow) := by
  have key : ∀ e r, setup env program max_data_size timelimit gcfp pcfp = Setup.run e r →
      (∀ i ∈ r, i.op ≠ op_right ∧ i.op ≠ op_left) ∧ (∀ a, e.access a ≠ Access.fault) ∧
      e.gen.x64 = env.x64 ∧ e.g.tape = env.mmap_tape ∧
      e.gen.tape_start = toSize env.x64 env.mmap_tape ∧
      e.g.allocated = roundTape env.x64 (toSize env.x64 env.page_size_) max_data_size ∧
      e.g.pages_forward = 0 ∧ e.g.pages_reverse = 0 := by
    intro e r hrun
    obtain ⟨hp, sc, L, hsc, hL, hres, he, _⟩ :=
      setup_run_inv env program max_data_size timelimit gcfp pcfp e r hrun
    have hc : ∀ i ∈ condense program, i.op ≠ op_right ∧ i.op ≠ op_left := by
      rw [condense_eq_condSpec]
      exact condSpec_no_moves program hm
    have hr : ∀ i ∈ r, i.op ≠ op_right ∧ i.op ≠ op_left :=
      ops_of_map_eq r (condense program) (resolveLoop_ops _ _ _ _ _ hres)
        (fun o => o ≠ op_right ∧ o ≠ op_left) hc
    obtain ⟨h1, h2, h3, h4, h5⟩ := tapeLayout_no_moves env.x64 _ max_data_size _ L
      (largestMove_eq_zero _ _ (fun i hi => (hc i hi).1))
      (largestMove_eq_zero _ _ (fun i hi => (hc i hi).2)) (toSize_lt _ _) hL
    refine ⟨hr, ?_, ?_, ?_, ?_, ?_, by rw [he]; exact h1, by rw [he]; exact h2⟩
    · intro a
      apply access_no_pages
      · rw [he]; exact h1
      · rw [he]; exact h2
    · rw [he]; rfl
    · rw [he]; rfl
    · rw [he]
      show toSize env.x64 ((env.mmap_tape : Int) +
        toSize env.x64 ((L.pages_reverse : Int) * L.page_size)) = _
      rw [h2]
      have z : toSize env.x64 (((0 : Nat) : Int) * (L.page_size : Int)) = 0 := by
        rw [Int.natCast_zero, zero_mul]
        exact toSize_natCast _ 0 (by positivity)
      rw [z, Int.natCast_zero, add_zero]
    · rw [he]
      exact h5
  constructor
  · intro e r hrun
    obtain ⟨hr, hacc, hx, ht, hts, hal, hpf, hpr⟩ := key e r hrun
    refine ⟨?_, hacc, ?_, ?_⟩
    · intro n
      rw [jitState_ptr e r hr n]
      rfl
    · intro n res h
      exact jitRun_no_fault e r hacc n _ res h
    · intro k hk hkW hmax1 hmax2 htape
      have hpage : toSize env.x64 env.page_size_ = 2 ^ k := by
        rw [hk]
        have : ((2 : Int) ^ k) = ((2 ^ k : Nat) : Int) := by push_cast; rfl
        rw [this]
        exact toSize_natCast _ _ (Nat.pow_lt_pow_right (by decide) hkW)
      have hrnd := roundTape_eq env.x64 k max_data_size hkW hmax2
      have hspec := ceilDiv_spec max_data_size (2 ^ k) (by positivity)
      have hpos : 0 < 2 ^ k := by positivity
      have hok : e.access (toSize e.gen.x64 e.gen.tape_start) = Access.ok := by
        have hT : toSize e.gen.x64 e.gen.tape_start = env.mmap_tape := by
          rw [hts, hx, toSize_natCast _ _ htape]
          exact toSize_natCast _ _ htape
        rw [hT]
        unfold JitEnv.access
        rw [inGuard_no_pages e _ hpf hpr]
        rw [ht, hal, hpage, hrnd]
        rw [if_pos (by constructor <;> omega)]
        simp
      refine ⟨hok, ?_⟩
      intro n res h
      rcases jitRun_ptr e r hr n _ res h with h1 | ⟨h1, _⟩
      · exact h1
      · exact absurd hok h1
  · intro o ho
    unfold interpret at ho
    cases hs : setup env program max_data_size timelimit gcfp pcfp with
    | done res =>
      rw [hs] at ho
      simp only at ho
      subst ho
      by_cases hp : 0 < env.page_size_
      · cases hsc : balanceScan program with
        | none =>
          rw [setup_unbalanced env program max_data_size timelimit gcfp pcfp hp hsc] at hs
          have := Option.some.inj (Setup.done.inj hs)
          rw [← this]
          decide
        | some sc =>
          have := setup_done_status env program max_data_size timelimit gcfp pcfp sc o hp hsc hs
          rcases this with h | h | h | h <;> rw [h] <;> decide
      · unfold setup at hs
        rw [if_pos (not_lt.1 hp)] at hs
        have := Option.some.inj (Setup.done.inj hs)
        rw [← this]
        decide
    | run e r =>
      rw [hs] at ho
      simp only at ho
      obtain ⟨hr, hacc, _⟩ := key e r hs
      unfold runPhase at ho
      cases hj : jitRun e r (timelimit.getD fuel) (jitInit e input) with
      | none =>
        rw [hj] at ho
        cases timelimit with
        | none => cases ho
        | some t =>
          simp only at ho
          rw [← Option.some.inj ho]
          unfold afterRun
          split_ifs <;> simp
      | some res =>
        rw [hj] at ho
        simp only at ho
        rcases jitRun_no_fault e r hacc _ _ res hj with hc | hc
        · rw [hc] at ho
          simp only at ho
          rw [← Option.some.inj ho]
          unfold afterRun
          split_ifs <;> simp
        · rw [hc] at ho
          cases ho

/-- Witness for C18: the program `+[-].` returns ok with the output `0`. -/
theorem no_moves_no_tape_fault_witness :
    interpret env64 ['+', '[', '-', ']', '.'] 30000 none 1 2 [] 100 =
      some ⟨interpret_ok, [0]⟩ ∧
    (∀ o, interpret env64 ['+', '[', '-', ']', '.'] 30000 none 1 2 [] 100 = some o →
      o.status ≠ interpret_tape_exceeded ∧ o.status ≠ interpret_tape_underflow) :=
  ⟨by decide!,
   (no_moves_no_tape_fault env64 ['+', '[', '-', ']', '.'] 30000 none 1 2 [] 100
      (by decide)).2⟩

/-! ## The program `+[>+]` -/

theorem jitRun_mono (e : JitEnv) (r : List instruction_t) (n : Nat) :
    ∀ (m : Nat) (s : MState) (res : JitResult), jitRun e r n s = some res → n ≤ m →
      jitRun e r m s = some res := by
  induction n with
  | zero => intro m s res h; cases h
  | succ n ih =>
    intro m s res h hm
    cases m with
    | zero => omega
    | succ m =>
      unfold jitRun at h ⊢
      cases hs : jitStep e r s with
      | halt res' => rw [hs] at h; exact h
      | next s' =>
        rw [hs] at h
        exact ih m s' res h (by omega)

theorem generate_overflow_isSome (gen : GenEnv) (addr : Nat) :
    (generate gen addr 1 overflowCode).isSome = true := by
  obtain ⟨x64, ts, g, p⟩ := gen
  unfold overflowCode
  cases x64 <;>
  simp [generate, genStart, newBranches, genLoop, genStep, genPrologue, genEpilogue, genAdjustSub,
    genAdjustAdd, stack_adjust, wordBytes, emit_push_r, emit_mov_r_r, emit_op_r_r,
    emit_and_r_immz32, emit_sub_r_immz32, emit_add_r_immz32, emit_alu_r_immz32,
    emit_mov_r_immptr, emit_pop_r, emit_xor_r_r, emit_leave, emit_ret, check_space,
    new_assembler_buffer, emit_rexw, emit_u8, emit_u32, emit_ptr, EBP, ESP, EBX, EDI, EAX,
    ptrreg, Option.bind, genModify, genRight, genIf, genEndif, emit_cmp_rm8_imm8, emit_je,
    emit_jne, emit_jcc, emit_source, emit_push_label, new_label, setLabel, emit_add_rm8_imm8,
    low32]

theorem runRight_one (gen : GenEnv) (P : Nat) (h : P + 1 < 2 ^ wordBits gen.x64) :
    runRight gen 1 P = P + 1 := by
  unfold runRight exec_add_r_imm32
  rw [if_neg (by decide)]
  have himm : immOperand gen.x64 (low32 1) = 1 := by
    cases gen.x64 <;> decide
  rw [himm]
  have : ((P : Int) + 1) = ((P + 1 : Nat) : Int) := by push_cast; rfl
  rw [this]
  exact toSize_natCast _ _ h

/-- One round of the loop of `+[>+]`: from the `+` inside the loop with the
pointer `k` cells into a user region of `N` cells, all cells from the pointer
on being zero, the run goes on to the first byte after the region and ends
there with the status of the handler. -/
theorem overflow_loop (e : JitEnv) (T N : Nat) (c : interpret_error_t)
    (hok : ∀ a, T ≤ a → a < T + N → e.access a = Access.ok)
    (hfault : e.access (T + N) = Access.fault)
    (hh : handler e.gen.x64 e.g (T + N) = HandlerAction.jump c)
    (hw : T + N + 1 < 2 ^ wordBits e.gen.x64) :
    ∀ (m k : Nat) (d : Data), k + m = N → d.ptr = T + k → (∀ a, T + k ≤ a → d.tape a = 0) →
      ∃ d', jitRun e overflowCode (3 * m + 1) ⟨3, d⟩ = some (JitResult.status c d') ∧
        d'.ptr = T + N ∧ d'.output = d.output := by
  intro m
  induction m with
  | zero =>
    intro k d hk hp hz
    have hkN : k = N := by omega
    subst hkN
    refine ⟨d, ?_, hp, rfl⟩
    show (match jitStep e overflowCode ⟨3, d⟩ with
      | JitOut.halt r => some r
      | JitOut.next s' => jitRun e overflowCode 0 s') = _
    have : jitStep e overflowCode ⟨3, d⟩ = JitOut.halt (JitResult.status c d) := by
      simp only [jitStep, overflowCode, List.getElem?_cons_succ, List.getElem?_cons_zero]
      rw [if_neg (by decide)]
      unfold touch
      rw [hp, hfault]
      simp only [hh]
    rw [this]
  | succ m ih =>
    intro k d hk hp hz
    have hacc : e.access d.ptr = Access.ok := by
      rw [hp]; exact hok _ (by omega) (by omega)
    have hcell : d.cell = 0 := by
      unfold Data.cell; rw [hp]; exact hz _ (le_refl _)
    have s1 : jitStep e overflowCode ⟨3, d⟩ = JitOut.next ⟨4, d.setCell 1⟩ := by
      simp only [jitStep, overflowCode, List.getElem?_cons_succ, List.getElem?_cons_zero]
      rw [if_neg (by decide), touch_ok _ _ _ hacc, hcell]
      rfl
    have hcell1 : (d.setCell 1).cell = 1 := by
      simp [Data.cell, Data.setCell]
    have s2 : jitStep e overflowCode ⟨4, d.setCell 1⟩ = JitOut.next ⟨2, d.setCell 1⟩ := by
      simp only [jitStep, overflowCode, List.getElem?_cons_succ, List.getElem?_cons_zero]
      rw [touch_ok _ _ _ (by exact hacc), hcell1]
      rfl
    have s3 : jitStep e overflowCode ⟨2, d.setCell 1⟩ =
        JitOut.next ⟨3, { d.setCell 1 with ptr := T + (k + 1) }⟩ := by
      simp only [jitStep, overflowCode, List.getElem?_cons_succ, List.getElem?_cons_zero]
      have : (d.setCell 1).ptr = T + k := hp
      rw [this, runRight_one _ _ (by omega)]
      rfl
    obtain ⟨d', h1, h2, h3⟩ := ih (k + 1) { d.setCell 1 with ptr := T + (k + 1) } (by omega) rfl
      (by
        intro a ha
        show Function.update d.tape d.ptr 1 a = 0
        rw [Function.update_noteq (by rw [hp]; omega)]
        exact hz a (by omega))
    refine ⟨d', ?_, h2, h3⟩
    have e3 : 3 * (m + 1) + 1 = (3 * m + 1) + 1 + 1 + 1 := by ring
    rw [e3]
    show (match jitStep e overflowCode ⟨3, d⟩ with
      | JitOut.halt r => some r
      | JitOut.next s' => jitRun e overflowCode (3 * m + 1 + 1 + 1) s') = _
    rw [s1]
    show (match jitStep e overflowCode ⟨4, d.setCell 1⟩ with
      | JitOut.halt r => some r
      | JitOut.next s' => jitRun e overflowCode (3 * m + 1 + 1) s') = _
    rw [s2]
    show (match jitStep e overflowCode ⟨2, d.setCell 1⟩ with
      | JitOut.halt r => some r
      | JitOut.next s' => jitRun e overflowCode (3 * m + 1) s') = _
    rw [s3]
    exact h1

theorem overflow_run (e : JitEnv) (T N : Nat) (c : interpret_error_t) (input : List Nat)
    (hT : toSize e.gen.x64 e.gen.tape_start = T)
    (hok : ∀ a, T ≤ a → a < T + N → e.access a = Access.ok)
    (hfault : e.access (T + N) = Access.fault)
    (hh : handler e.gen.x64 e.g (T + N) = HandlerAction.jump c)
    (hw : T + N + 1 < 2 ^ wordBits e.gen.x64) :
    ∃ d', jitRun e overflowCode (3 * N + 1) (jitInit e input) = some (JitResult.status c d') ∧
      d'.ptr = T + N ∧ d'.output = [] := by
  cases N with
  | zero =>
    refine ⟨(jitInit e input).d, ?_, hT, rfl⟩
    show (match jitStep e overflowCode (jitInit e input) with
      | JitOut.halt r => some r
      | JitOut.next s' => jitRun e overflowCode 0 s') = _
    have : jitStep e overflowCode (jitInit e input) =
        JitOut.halt (JitResult.status c (jitInit e input).d) := by
      simp only [jitStep, jitInit, overflowCode, List.getElem?_cons_zero]
      rw [if_neg (by decide)]
      unfold touch
      simp only [hT]
      rw [Nat.add_zero] at hfault hh
      rw [hfault]
      simp only [hh]
    rw [this]
  | succ n =>
    have hacc : e.access (jitInit e input).d.ptr = Access.ok := by
      show e.access (toSize e.gen.x64 e.gen.tape_start) = _
      rw [hT]; exact hok _ (le_refl _) (by omega)
    have s1 : jitStep e overflowCode (jitInit e input) =
        JitOut.next ⟨1, (jitInit e input).d.setCell 1⟩ := by
      show jitStep e overflowCode ⟨0, (jitInit e input).d⟩ = _
      simp only [jitStep, overflowCode, List.getElem?_cons_zero]
      rw [if_neg (by decide), touch_ok _ _ _ hacc]
      rfl
    have hcell1 : ((jitInit e input).d.setCell 1).cell = 1 := by
      simp [Data.cell, Data.setCell]
    have s2 : jitStep e overflowCode ⟨1, (jitInit e input).d.setCell 1⟩ =
        JitOut.next ⟨2, (jitInit e input).d.setCell 1⟩ := by
      simp only [jitStep, overflowCode, List.getElem?_cons_succ, List.getElem?_cons_zero]
      rw [touch_ok _ _ _ (by exact hacc), hcell1]
      rfl
    have s3 : jitStep e overflowCode ⟨2, (jitInit e input).d.setCell 1⟩ =
        JitOut.next ⟨3, { (jitInit e input).d.setCell 1 with ptr := T + 1 }⟩ := by
      simp only [jitStep, overflowCode, List.getElem?_cons_succ, List.getElem?_cons_zero]
      have : ((jitInit e input).d.setCell 1).ptr = T := hT
      rw [this, runRight_one _ _ (by omega)]
    obtain ⟨d', h1, h2, h3⟩ := overflow_loop e T (n + 1) c hok hfault hh hw n 1
      { (jitInit e input).d.setCell 1 with ptr := T + 1 } (by omega) rfl
      (by
        intro a ha
        show Function.update (fun _ => 0) (toSize e.gen.x64 e.gen.tape_start) 1 a = 0
        rw [Function.update_noteq (by rw [hT]; omega)])
    refine ⟨d', ?_, h2, h3⟩
    have e3 : 3 * (n + 1) + 1 = (3 * n + 1) + 1 + 1 + 1 := by ring
    rw [e3]
    show (match jitStep e overflowCode (jitInit e input) with
      | JitOut.halt r => some r
      | JitOut.next s' => jitRun e overflowCode (3 * n + 1 + 1 + 1) s') = _
    rw [s1]
    show (match jitStep e overflowCode ⟨1, (jitInit e input).d.setCell 1⟩ with
      | JitOut.halt r => some r
      | JitOut.next s' => jitRun e overflowCode (3 * n + 1 + 1) s') = _
    rw [s2]
    show (match jitStep e overflowCode ⟨2, (jitInit e input).d.setCell 1⟩ with
      | JitOut.halt r => some r
      | JitOut.next s' => jitRun e overflowCode (3 * n + 1) s') = _
    rw [s3]
    exact h1

theorem ceilDiv_one (b : Nat) (hb : 0 < b) : ceilDiv 1 b = 1 ∧ ceilDiv 0 b = 0 := by
  unfold ceilDiv
  constructor
  · have : 1 + b - 1 = b := by omega
    rw [this]
    exact Nat.div_self hb
  · exact Nat.div_eq_of_lt (by omega)

theorem access_forward_layout (e : JitEnv) (tape page rnd : Nat)
    (hg : e.g = ⟨tape, rnd + page, page, 1, 0⟩) (hr : e.rnd = rnd) (hp : 0 < page)
    (hw : tape + rnd + page < 2 ^ wordBits e.gen.x64) :
    (∀ a, tape ≤ a → a < tape + rnd → e.access a = Access.ok) ∧
    e.access (tape + rnd) = Access.fault ∧
    handler e.gen.x64 e.g (tape + rnd) = HandlerAction.jump interpret_tape_exceeded ∧
    e.user_end = tape + rnd := by
  have z0 : toSize e.gen.x64 (((0 : Nat) : Int) * (page : Int)) = 0 := by
    rw [Int.natCast_zero, zero_mul]
    exact toSize_natCast _ 0 (by positivity)
  have z1 : toSize e.gen.x64 (((1 : Nat) : Int) * (page : Int)) = page := by
    rw [Int.natCast_one, one_mul]
    exact toSize_natCast _ _ (by omega)
  have hue : e.user_end = tape + rnd := by
    unfold JitEnv.user_end
    rw [hg, hr]
    simp only
    rw [z0]
    have : ((tape : Int) + ((0 : Nat) : Int) + (rnd : Int)) = ((tape + rnd : Nat) : Int) := by
      push_cast; ring
    rw [this]
    exact toSize_natCast _ _ (by omega)
  have hin : ∀ a, e.inGuard a = (decide (tape + rnd ≤ a) && decide (a < tape + rnd + page)) := by
    intro a
    unfold JitEnv.inGuard
    rw [hue, hg]
    simp only
    rw [z0, z1]
    have : (decide (tape ≤ a) && decide (a < tape + 0)) = false := by
      simp
    rw [this, Bool.false_or]
  refine ⟨?_, ?_, ?_, hue⟩
  · intro a h1 h2
    unfold JitEnv.access
    rw [hin a, hg]
    simp only
    rw [if_pos ⟨h1, by omega⟩]
    have : (decide (tape + rnd ≤ a) && decide (a < tape + rnd + page)) = false := by
      have : ¬ tape + rnd ≤ a := by omega
      simp [this]
    rw [this]
    rfl
  · unfold JitEnv.access
    rw [hin, hg]
    simp only
    rw [if_pos ⟨by omega, by omega⟩]
    have : (decide (tape + rnd ≤ tape + rnd) && decide (tape + rnd < tape + rnd + page)) =
        true := by
      simp [hp]
    rw [this]
    rfl
  · rw [hg]
    apply handler_forward_guard
    · simp only; omega
    · simp only; omega
    · simp only; omega
    · simp only; omega

/-- C17: when every system call succeeds and the tape mapping with its guard
page lies in the address space, `interpret` on `+[>+]` without a time limit
returns tape-exceeded (8) without output, for every `max_data_size`: the run of
the generated code touches the cells of the user region one after the other and
ends in the access at the first byte of the forward guard, after
`3 * rnd + 1` steps for a user region of `rnd` bytes. -/
theorem overflow_program_tape_exceeded (env : Env) (max_data_size gcfp pcfp : Nat)
    (input : List Nat) (hs : env.Succeeds)
    (hpage : env.page_size_ + 2 < 2 ^ (wordBits env.x64 - 1))
    (hmap : env.mmap_tape +
      roundTape env.x64 (toSize env.x64 env.page_size_) max_data_size +
      toSize env.x64 env.page_size_ < 2 ^ wordBits env.x64) :
    (∀ fuel,
      3 * roundTape env.x64 (toSize env.x64 env.page_size_) max_data_size + 1 ≤ fuel →
      interpret env overflowProgram max_data_size none gcfp pcfp input fuel =
        some ⟨interpret_tape_exceeded, []⟩) ∧
    (∃ e, setup env overflowProgram max_data_size none gcfp pcfp = Setup.run e overflowCode ∧
      ∃ d, jitRun e overflowCode
          (3 * roundTape env.x64 (toSize env.x64 env.page_size_) max_data_size + 1)
          (jitInit e input) = some (JitResult.status interpret_tape_exceeded d) ∧
        d.ptr = e.user_end ∧
        d.ptr = env.mmap_tape +
          roundTape env.x64 (toSize env.x64 env.page_size_) max_data_size) := by
  obtain ⟨hp1, hp2, _⟩ := toSize_page env hs.page_size_pos hpage
  generalize hpg : toSize env.x64 env.page_size_ = page at hp1 hp2 hmap ⊢
  generalize hrn : roundTape env.x64 page max_data_size = rnd at hmap ⊢
  have hcond : condense overflowProgram = overflowCode := by decide
  have hscan : balanceScan overflowProgram = some ⟨1, 0, 1⟩ := by decide
  have hres : resolve 1 overflowCode = some overflowCode := by decide
  have hF : largestMove op_right overflowCode = 1 := by decide
  have hR : largestMove op_left overflowCode = 0 := by decide
  have h2 := two_pow_wordBits env.x64
  have hL := tapeLayout_eq env.x64 page max_data_size overflowCode hp1
    (by rw [hF]; omega) (by rw [hR]; omega)
  rw [hF, hR, (ceilDiv_one page hp1).1, (ceilDiv_one page hp1).2, hrn] at hL
  have ha : toSize env.x64 ((rnd : Int) +
      (toSize env.x64 ((((1 : Nat) : Int) + ((0 : Nat) : Int)) * (page : Int)) : Nat)) =
      rnd + page := by
    have e1 : ((((1 : Nat) : Int) + ((0 : Nat) : Int)) * (page : Int)) = ((page : Nat) : Int) := by
      push_cast; ring
    rw [e1, toSize_natCast _ _ (by omega), ← Nat.cast_add]
    exact toSize_natCast _ _ (by omega)
  rw [ha] at hL
  obtain ⟨addr, hb⟩ := Option.isSome_iff_exists.1 hs.buffer
  have hrun := setup_run env overflowProgram max_data_size none gcfp pcfp ⟨1, 0, 1⟩
    ⟨page, 1, 0, rnd, rnd + page⟩ overflowCode addr hs hscan
    (by rw [hpg, hcond]; exact hL) (by rw [hcond]; exact hres) hb
    (generate_overflow_isSome _ _)
  generalize he : jitEnvOf env ⟨page, 1, 0, rnd, rnd + page⟩ gcfp pcfp = e at hrun
  have hx : e.gen.x64 = env.x64 := by rw [← he]; rfl
  have hg : e.g = ⟨env.mmap_tape, rnd + page, page, 1, 0⟩ := by rw [← he]; rfl
  have hr : e.rnd = rnd := by rw [← he]; rfl
  have hts : toSize e.gen.x64 e.gen.tape_start = env.mmap_tape := by
    rw [← he]
    show toSize env.x64 ((toSize env.x64 ((env.mmap_tape : Int) +
      toSize env.x64 (((0 : Nat) : Int) * ((page : Nat) : Int))) : Nat) : Int) = _
    have z0 : toSize env.x64 (((0 : Nat) : Int) * (page : Int)) = 0 := by
      rw [Int.natCast_zero, zero_mul]
      exact toSize_natCast _ 0 (by positivity)
    rw [z0, Int.natCast_zero, add_zero, toSize_natCast env.x64 env.mmap_tape (by omega)]
    exact toSize_natCast env.x64 env.mmap_tape (by omega)
  obtain ⟨a1, a2, a3, a4⟩ := access_forward_layout e env.mmap_tape page rnd hg hr hp1
    (by rw [hx]; exact hmap)
  obtain ⟨d, hd1, hd2, hd3⟩ := overflow_run e env.mmap_tape rnd interpret_tape_exceeded input
    hts a1 a2 a3 (by rw [hx]; omega)
  constructor
  · intro fuel hfuel
    unfold interpret
    rw [hrun]
    simp only
    unfold runPhase
    simp only [Option.getD_none]
    rw [jitRun_mono e overflowCode _ fuel _ _ hd1 hfuel]
    simp only [JitResult.code, JitResult.data]
    unfold afterRun
    rw [if_neg (by rw [hs.munmap_ret]; decide), hd3]
  · exact ⟨e, hrun, d, hd1, by rw [hd2, a4], hd2⟩

/-- Witness for C17: `max_data_size` = 512 KiB. -/
theorem overflow_program_tape_exceeded_witness :
    interpret env64 overflowProgram 524288 none 1 2 [] 1572865 =
      some ⟨interpret_tape_exceeded, []⟩ :=
  (overflow_program_tape_exceeded env64 524288 1 2 [] env64_succeeds (by decide)
    (by decide)).1 1572865 (by decide)

/-! ## Moves without an access between them -/

theorem consRun_consRun (o : op_t) (a b : Int) (ys : List instruction_t) :
    consRun o a (consRun o b ys) = consRun o (a + b) ys := by
  cases ys with
  | nil => simp [consRun]
  | cons i r =>
    by_cases h : i.op = o
    · simp [consRun, h, add_assoc]
    · simp [consRun, h]

theorem condSpec_replicate_right (n : Nat) (rest : List Char) :
    condSpec (List.replicate (n + 1) '>' ++ rest) =
      consRun op_right ((n : Int) + 1) (condSpec rest) := by
  induction n with
  | zero =>
    show addChar '>' (condSpec rest) = _
    simp [addChar]
  | succ n ih =>
    rw [List.replicate_succ, List.cons_append]
    show addChar '>' (condSpec (List.replicate (n + 1) '>' ++ rest)) = _
    rw [ih]
    have : addChar '>' (consRun op_right ((n : Int) + 1) (condSpec rest)) =
        consRun op_right 1 (consRun op_right ((n : Int) + 1) (condSpec rest)) := by
      simp [addChar]
    rw [this, consRun_consRun]
    congr 1
    push_cast
    ring

theorem condense_guardEscapeProgram : condense guardEscapeProgram = guardEscapeCode := by
  rw [condense_eq_condSpec]
  unfold guardEscapeProgram
  rw [condSpec_replicate_right 4095]
  show consRun op_right _ (addChar '<' (condSpec (List.replicate (4095 + 1) '>' ++ _))) = _
  rw [condSpec_replicate_right 4095]
  show consRun op_right _ (addChar '<' (consRun op_right _
    (addChar '<' (condSpec (List.replicate (4095 + 1) '>' ++ _))))) = _
  rw [condSpec_replicate_right 4095]
  decide

theorem scanLoop_no_brackets (p : List Char) (h : ∀ c ∈ p, c ≠ '[' ∧ c ≠ ']') :
    ∀ s, scanLoop p s = some s := by
  induction p with
  | nil => intro s; rfl
  | cons c cs ih =>
    intro s
    have hc := h c (List.mem_cons_self _ _)
    simp only [scanLoop, scanStep, hc.1, hc.2, if_false]
    exact ih (fun x hx => h x (List.mem_cons_of_mem _ hx)) s

theorem guardEscapeProgram_chars :
    ∀ c ∈ guardEscapeProgram, c = '>' ∨ c = '<' ∨ c = '+' := by
  intro c hc
  unfold guardEscapeProgram at hc
  simp only [List.mem_append, List.mem_cons, List.mem_replicate, List.mem_singleton,
    List.not_mem_nil, or_false] at hc
  rcases hc with h | h | h | h | h | h
  · exact Or.inl h.2
  · exact Or.inr (Or.inl h)
  · exact Or.inl h.2
  · exact Or.inr (Or.inl h)
  · exact Or.inl h.2
  · exact Or.inr (Or.inr h)

theorem setup_guardEscapeProgram :
    setup env64 guardEscapeProgram 1 none 1 2 =
      Setup.run (jitEnvOf env64 ⟨4096, 1, 1, 4096, 12288⟩ 1 2) guardEscapeCode := by
  have hscan : balanceScan guardEscapeProgram = some ⟨0, 0, 0⟩ := by
    unfold balanceScan
    rw [scanLoop_no_brackets guardEscapeProgram (fun c hc => by
      rcases guardEscapeProgram_chars c hc with h | h | h <;> rw [h] <;> decide)]
    rfl
  exact setup_run env64 guardEscapeProgram 1 none 1 2 ⟨0, 0, 0⟩ ⟨4096, 1, 1, 4096, 12288⟩
    guardEscapeCode 0x7e0000000000 env64_succeeds hscan
    (by rw [condense_guardEscapeProgram]; decide)
    (by rw [condense_guardEscapeProgram]; decide) rfl (by decide!)


theorem interpret_of_setup_run (env : Env) (program : List Char) (max_data_size : Nat)
    (timelimit : Option Nat) (gcfp pcfp : Nat) (input : List Nat) (fuel : Nat)
    (e : JitEnv) (r : List instruction_t)
    (h : setup env program max_data_size timelimit gcfp pcfp = Setup.run e r) :
    interpret env program max_data_size timelimit gcfp pcfp input fuel =
      runPhase env e r timelimit input fuel := by
  unfold interpret
  rw [h]

theorem balanced_guardEscapeProgram : Balanced guardEscapeProgram := by
  apply (balanceScan_isSome_iff _).1
  refine ⟨⟨0, 0, 0⟩, ?_⟩
  unfold balanceScan
  rw [scanLoop_no_brackets guardEscapeProgram (fun c hc => by
    rcases guardEscapeProgram_chars c hc with h | h | h <;> rw [h] <;> decide)]
  rfl

theorem runPhase_guardEscapeCode :
    runPhase env64 (jitEnvOf env64 ⟨4096, 1, 1, 4096, 12288⟩ 1 2) guardEscapeCode none [] 100 =
      none := by
  decide!

/-- C16: a bracket-balanced program whose final `+` executes with the pointer
beyond the forward guard.  With pages of 4096 bytes and `max_data_size = 1`
the program of three moves of 4096 cells to the right, separated by single
steps to the left, gets one guard page on either side (the largest single move
is 4096), a user region of 4096 bytes and a mapping of 12288 bytes; the
forward guard is `[tape + 8192, tape + 12288)`, and the `+` touches
`tape + 16382`, which is not in the mapping at all: the access is not a fault
classified as tape-exceeded, and `interpret` does not return a status. -/
theorem moves_escape_forward_guard :
    Balanced guardEscapeProgram ∧
    setup env64 guardEscapeProgram 1 none 1 2 =
      Setup.run (jitEnvOf env64 ⟨4096, 1, 1, 4096, 12288⟩ 1 2) guardEscapeCode ∧
    (jitEnvOf env64 ⟨4096, 1, 1, 4096, 12288⟩ 1 2).user_end = 0x7f0000000000 + 8192 ∧
    (jitRun (jitEnvOf env64 ⟨4096, 1, 1, 4096, 12288⟩ 1 2) guardEscapeCode 6
        (jitInit (jitEnvOf env64 ⟨4096, 1, 1, 4096, 12288⟩ 1 2) [])).bind
        JitResult.strayAddr = some (0x7f0000000000 + 16382) ∧
    (jitEnvOf env64 ⟨4096, 1, 1, 4096, 12288⟩ 1 2).inGuard (0x7f0000000000 + 16382) = false ∧
    handler true ⟨0x7f0000000000, 12288, 4096, 1, 1⟩ (0x7f0000000000 + 16382) =
      HandlerAction.reraise ∧
    interpret env64 guardEscapeProgram 1 none 1 2 [] 100 = none :=
  ⟨balanced_guardEscapeProgram, setup_guardEscapeProgram, by decide, by decide!, by decide,
   by decide,
   (interpret_of_setup_run env64 guardEscapeProgram 1 none 1 2 [] 100 _ _
      setup_guardEscapeProgram).trans runPhase_guardEscapeCode⟩


/-! ## The conditional branches of a loop -/

theorem branch_seq_spec (buf b1 b2 b3 : Asm) (cc : cc_t) (lab1 lab2 : Nat) (hw : WFA buf)
    (h1 : emit_cmp_rm8_imm8 buf ptrreg 0 = some b1) (h2 : emit_jcc b1 lab1 cc = some b2)
    (h3 : emit_push_label b2 lab2 = some b3) :
    b3.buffer = buf.buffer ∧ b3.offset = buf.offset + 9 ∧ Reach buf b3 ∧
    SlotOK b3 (buf.buffer + buf.offset + 5) lab1 ∧
    b3.heap[lab2]? = some ⟨true, buf.buffer + buf.offset + 9, []⟩ := by
  have r1 : Reach buf b1 := emit_cmp_rm8_imm8_reach _ _ _ _ h1
  have o1 : b1.offset = buf.offset + 3 ∧ b1.buffer = buf.buffer := by
    unfold emit_cmp_rm8_imm8 at h1
    split_ifs at h1
    cases h1
    exact ⟨rfl, rfl⟩
  unfold emit_jcc at h2
  split_ifs at h2 with hc
  have hsp := (check_space_iff b1 _).1 hc
  have rm : Reach b1 (emit_u8 (emit_u8 b1 0x0F) cc.opcode) :=
    ((Reach.refl b1).u8 _ (by omega)).u8 _ (by simp; omega)
  have wm : WFA (emit_u8 (emit_u8 b1 0x0F) cc.opcode) := (r1.trans rm).wfa_of_reach hw
  have hslot := emit_source_slotOK _ b2 lab1 wm h2
  obtain ⟨l, _, _, ho2, hb2, _, _⟩ := emit_source_spec _ b2 lab1 h2
  have r2 : Reach buf b2 := (r1.trans rm).source lab1 h2
  have w2 : WFA b2 := r2.wfa_of_reach hw
  obtain ⟨l3, hl3, _, hh3, ho3, hb3, _, _⟩ := emit_push_label_spec b2 b3 lab2 h3
  have hslot3 := (Prim.push b2 lab2 b3 h3).slotOK w2 _ _ hslot
  simp only [emit_u8_offset, emit_u8_buffer] at ho2 hb2 hslot3
  rw [o1.1, o1.2] at hslot3
  rw [o1.1] at ho2
  rw [o1.2] at hb2
  refine ⟨by rw [hb3, hb2], by rw [ho3, ho2], r2.push lab2 h3, ?_, ?_⟩
  · have e : buf.buffer + (buf.offset + 3 + 1 + 1) = buf.buffer + buf.offset + 5 := by omega
    rw [e] at hslot3
    exact hslot3
  · rw [hh3, hb2, ho2]
    have hlt : lab2 < b2.heap.length := by
      by_contra hn
      rw [List.getElem?_eq_none (by omega)] at hl3
      cases hl3
    rw [List.getElem?_set_self hlt]
    have e : buf.buffer + (buf.offset + 3 + 1 + 1 + 4) = buf.buffer + buf.offset + 9 := by omega
    rw [e]

theorem genLoop_append (env : GenEnv) (branches : List (Nat × Nat))
    (xs ys : List instruction_t) :
    ∀ st, genLoop env branches (xs ++ ys) st =
      (genLoop env branches xs st).bind (genLoop env branches ys) := by
  induction xs with
  | nil => intro st; rfl
  | cons x xs ih =>
    intro st
    simp only [List.cons_append, genLoop]
    cases genStep env branches st x with
    | none => rfl
    | some st' => exact ih st'

theorem genStep_count (env : GenEnv) (branches : List (Nat × Nat)) (st st' : Asm × Nat)
    (i : instruction_t) (h : genStep env branches st i = some st') :
    st'.2 = st.2 + (if i.op = op_if then 1 else 0) := by
  unfold genStep at h
  cases ho : i.op <;> rw [ho] at h <;> simp only [Option.map_eq_some'] at h
  all_goals first
    | (obtain ⟨b, _, rfl⟩ := h; simp)
    | cases h

theorem genLoop_count (env : GenEnv) (branches : List (Nat × Nat)) (xs : List instruction_t) :
    ∀ st st', genLoop env branches xs st = some st' → st'.2 = st.2 + ifCount xs := by
  induction xs with
  | nil => intro st st' h; cases h; simp [ifCount_nil]
  | cons x xs ih =>
    intro st st' h
    simp only [genLoop] at h
    cases h1 : genStep env branches st x with
    | none => rw [h1] at h; cases h
    | some s1 =>
      rw [h1] at h
      rw [ih s1 st' h, genStep_count env branches st s1 x h1, ifCount_cons]
      omega

theorem take_succ_of_getElem? {α : Type} (xs : List α) (n : Nat) (x : α)
    (h : xs[n]? = some x) : xs.take (n + 1) = xs.take n ++ [x] := by
  rw [List.take_succ, h]
  rfl

theorem split_at_getElem? {α : Type} (xs : List α) (n : Nat) (x : α)
    (h : xs[n]? = some x) : xs = xs.take n ++ x :: xs.drop (n + 1) := by
  have hn : n < xs.length := by
    by_contra hn
    rw [List.getElem?_eq_none (by omega)] at h
    cases h
  have hx : xs[n] = x := by
    rw [List.getElem?_eq_getElem hn] at h
    exact Option.some.inj h
  conv_lhs => rw [← List.take_append_drop n xs]
  rw [List.drop_eq_getElem_cons hn, hx]

/-- The states of the assembly loop around each entry of a program that is
assembled completely. -/
theorem gen_states (env : GenEnv) (addr bc : Nat) (r : List instruction_t) (fin : Asm)
    (hgen : generate env addr bc r = some fin) :
    ∃ b0 branches, genStart env addr bc = some (b0, branches) ∧
      ∀ n x, r[n]? = some x →
        ∃ st st', genPrefix env addr bc r n = some st ∧
          genPrefix env addr bc r (n + 1) = some st' ∧
          genStep env branches st x = some st' ∧ st.2 = ifOrdinal r n ∧
          WFA st.1 ∧ WFA st'.1 ∧ Reach st'.1 fin := by
  unfold generate at hgen
  cases hs : genStart env addr bc with
  | none => rw [hs] at hgen; cases hgen
  | some p =>
    obtain ⟨b0, branches⟩ := p
    rw [hs] at hgen
    simp only at hgen
    cases hl : genLoop env branches r (b0, 0) with
    | none => rw [hl] at hgen; cases hgen
    | some stF =>
      rw [hl] at hgen
      simp only at hgen
      have w0 : WFA b0 := by
        unfold genStart at hs
        simp only [Option.map_eq_some'] at hs
        obtain ⟨b, hb, hbe⟩ := hs
        have := (Prod.mk.inj hbe).1
        subst this
        exact ((newBranches_reach bc _).trans (genPrologue_reach env _ _ hb)).wfa_of_reach
          (WFA_new addr)
      refine ⟨b0, branches, rfl, ?_⟩
      intro n x hx
      have hsplit := split_at_getElem? r n x hx
      have hl' := hl
      rw [hsplit, genLoop_append] at hl'
      cases h1 : genLoop env branches (r.take n) (b0, 0) with
      | none => rw [h1] at hl'; cases hl'
      | some st =>
        rw [h1] at hl'
        simp only [Option.some_bind, genLoop] at hl'
        cases h2 : genStep env branches st x with
        | none => rw [h2] at hl'; cases hl'
        | some st' =>
          rw [h2] at hl'
          simp only at hl'
          have r1 : Reach b0 st.1 := genLoop_reach env branches _ _ _ h1
          have r2 : Reach st.1 st'.1 := genStep_reach env branches _ _ _ h2
          have r3 : Reach st'.1 stF.1 := genLoop_reach env branches _ _ _ hl'
          have r4 : Reach stF.1 fin := genEpilogue_reach env _ _ hgen
          refine ⟨st, st', ?_, ?_, h2, ?_, r1.wfa_of_reach w0, (r1.trans r2).wfa_of_reach w0,
            r3.trans r4⟩
          · unfold genPrefix
            rw [hs]
            exact h1
          · unfold genPrefix
            rw [hs]
            simp only
            rw [take_succ_of_getElem? r n x hx, genLoop_append, h1]
            simp only [Option.some_bind, genLoop, h2]
          · have := genLoop_count env branches _ _ _ h1
            rw [this]
            simp [ifOrdinal]

theorem slotOK_resolved (buf : Asm) (s lab : Nat) (l : label_t) (h : SlotOK buf s lab)
    (hl : buf.heap[lab]? = some l) (hr : l.resolved = true) :
    sread32 buf.mem s = (l.ptr : Int) - ((s + 4 : Nat) : Int) := by
  obtain ⟨_, _, _, l', hl', h1 | h2⟩ := h
  · rw [hl] at hl'
    rw [Option.some.inj hl']
    exact h1.2
  · rw [hl] at hl'
    rw [← Option.some.inj hl'] at h2
    rw [hr] at h2
    cases h2.1

theorem emit_u8_settled (buf : Asm) (v : Nat) (hw : WFA buf) :
    Settled (emit_u8 buf v) (buf.buffer + buf.offset) ∧
    (emit_u8 buf v).mem (buf.buffer + buf.offset) = v % 256 := by
  obtain ⟨_, _, _, w4, _⟩ := hw
  refine ⟨⟨by simp, ?_⟩, by simp [emit_u8, writeLE]⟩
  rintro lab s ⟨l, hl, hs⟩
  have := (w4 lab s ⟨l, hl, hs⟩).2
  right
  omega

/-- The five bytes in front of the displacement slot of a conditional branch
sequence stay as they were emitted. -/
theorem branch_seq_bytes (buf b1 b2 b3 fin : Asm) (cc : cc_t) (lab1 lab2 : Nat) (hw : WFA buf)
    (h1 : emit_cmp_rm8_imm8 buf ptrreg 0 = some b1) (h2 : emit_jcc b1 lab1 cc = some b2)
    (h3 : emit_push_label b2 lab2 = some b3) (hfin : Reach b3 fin) :
    fin.mem (buf.buffer + buf.offset) = 0x80 ∧ fin.mem (buf.buffer + buf.offset + 1) = 0x3B ∧
    fin.mem (buf.buffer + buf.offset + 2) = 0 ∧ fin.mem (buf.buffer + buf.offset + 3) = 0x0F ∧
    fin.mem (buf.buffer + buf.offset + 4) = cc.opcode := by
  unfold emit_cmp_rm8_imm8 at h1
  split_ifs at h1 with hc1
  have hs1 := (check_space_iff buf 3).1 hc1.2
  have e1 := Option.some.inj h1
  unfold emit_jcc at h2
  split_ifs at h2 with hc2
  have hs2 := (check_space_iff b1 _).1 hc2
  have o1 : b1.offset = buf.offset + 3 ∧ b1.buffer = buf.buffer ∧
      b1.buffer_size = buf.buffer_size := by
    rw [← e1]; exact ⟨rfl, rfl, rfl⟩
  -- the states after each byte
  have ra : Reach buf (emit_u8 buf 0x80) := (Reach.refl buf).u8 _ (by omega)
  have wa := ra.wfa_of_reach hw
  have rb : Reach (emit_u8 buf 0x80) (emit_u8 (emit_u8 buf 0x80) (0x38 ||| ptrreg)) :=
    (Reach.refl _).u8 _ (by simp; omega)
  have wb := rb.wfa_of_reach wa
  have rc : Reach (emit_u8 (emit_u8 buf 0x80) (0x38 ||| ptrreg)) b1 := by
    rw [← e1]; exact (Reach.refl _).u8 _ (by simp; omega)
  have wc := rc.wfa_of_reach wb
  have rd : Reach b1 (emit_u8 b1 0x0F) := (Reach.refl _).u8 _ (by omega)
  have wd := rd.wfa_of_reach wc
  have re : Reach (emit_u8 b1 0x0F) (emit_u8 (emit_u8 b1 0x0F) cc.opcode) :=
    (Reach.refl _).u8 _ (by simp; omega)
  have rf : Reach (emit_u8 (emit_u8 b1 0x0F) cc.opcode) fin :=
    (((Reach.refl _).source lab1 h2).push lab2 h3).trans hfin
  have sa := emit_u8_settled buf 0x80 hw
  have sb := emit_u8_settled (emit_u8 buf 0x80) (0x38 ||| ptrreg) wa
  have sc := emit_u8_settled (emit_u8 (emit_u8 buf 0x80) (0x38 ||| ptrreg)) 0 wb
  have sd := emit_u8_settled b1 0x0F wc
  have se := emit_u8_settled (emit_u8 b1 0x0F) cc.opcode wd
  simp only [emit_u8_offset, emit_u8_buffer] at sb sc se
  rw [o1.1, o1.2.1] at sd se
  have ta := ((rb.trans (rc.trans (rd.trans (re.trans rf)))).settled_of_reach _ sa.1).2
  have tb := ((rc.trans (rd.trans (re.trans rf))).settled_of_reach _ sb.1).2
  have tc := ((e1 ▸ (rd.trans (re.trans rf)) :
    Reach (emit_u8 (emit_u8 (emit_u8 buf 0x80) (0x38 ||| ptrreg)) 0) fin).settled_of_reach _
    sc.1).2
  have td := ((re.trans rf).settled_of_reach _ sd.1).2
  have te := (rf.settled_of_reach _ se.1).2
  have hop : cc.opcode % 256 = cc.opcode := by cases cc <;> rfl
  refine ⟨by rw [ta, sa.2], ?_, ?_, ?_, ?_⟩
  · have : buf.buffer + buf.offset + 1 = buf.buffer + (buf.offset + 1) := by omega
    rw [this, tb, sb.2]
    rfl
  · have : buf.buffer + buf.offset + 2 = buf.buffer + (buf.offset + 1 + 1) := by omega
    rw [this, tc, sc.2]
  · have : buf.buffer + buf.offset + 3 = buf.buffer + (buf.offset + 3) := by omega
    rw [this, td, sd.2]
  · have : buf.buffer + buf.offset + 4 = buf.buffer + (buf.offset + 3 + 1) := by omega
    rw [this, te, se.2, hop]

/-- The two conditional branches of a loop in the finished code: for an `if`
entry at index `i` and an `endif` entry at index `j` whose `branch` field is
the ordinal of the `if` entry, the displacement of each branch leads to the
address immediately after the other. -/
theorem branch_targets (env : GenEnv) (addr bc : Nat) (r : List instruction_t) (fin : Asm)
    (hgen : generate env addr bc r = some fin) (i j : Nat) (o c : instruction_t)
    (hi : r[i]? = some o) (ho : o.op = op_if) (hj : r[j]? = some c) (hc : c.op = op_endif)
    (hbr : c.branch = ifOrdinal r i) : BranchPair env addr bc r fin i j := by
  obtain ⟨b0, branches, hs, hall⟩ := gen_states env addr bc r fin hgen
  obtain ⟨si, si', p1, p2, g1, c1, w1, w1', r1⟩ := hall i o hi
  obtain ⟨sj, sj', q1, q2, g2, c2, w2, w2', r2⟩ := hall j c hj
  unfold genStep at g1 g2
  rw [ho] at g1
  rw [hc] at g2
  simp only [Option.map_eq_some'] at g1 g2
  obtain ⟨bi, gi, ei⟩ := g1
  obtain ⟨bj, gj, ej⟩ := g2
  unfold genIf at gi
  unfold genEndif at gj
  rw [hbr, ← c1] at gj
  cases hbrs : branches[si.2]? with
  | none => rw [hbrs] at gi; cases gi
  | some br =>
    rw [hbrs] at gi gj
    simp only [Option.bind_eq_bind, Option.bind_eq_some] at gi gj
    obtain ⟨x1, hx1, x2, hx2, hx3⟩ := gi
    obtain ⟨y1, hy1, y2, hy2, hy3⟩ := gj
    obtain ⟨a1, a2, _, a4, a5⟩ := branch_seq_spec si.1 x1 x2 bi cc_t.EQ br.2 br.1 w1 hx1 hx2 hx3
    obtain ⟨b1, b2, _, b4, b5⟩ := branch_seq_spec sj.1 y1 y2 bj cc_t.NEQ br.1 br.2 w2 hy1 hy2 hy3
    have ei1 : si'.1 = bi := by rw [← ei]
    have ej1 : sj'.1 = bj := by rw [← ej]
    rw [← ei1] at a1 a2 a4 a5
    rw [← ej1] at b1 b2 b4 b5
    have fi := r1.slotOK_of_reach w1' _ _ a4
    have fj := r2.slotOK_of_reach w2' _ _ b4
    have ti := r1.resolved_stable_of_reach br.1 _ a5 rfl
    have tj := r2.resolved_stable_of_reach br.2 _ b5 rfl
    obtain ⟨m0, m1, m2, m3, m4⟩ := branch_seq_bytes si.1 x1 x2 bi fin cc_t.EQ br.2 br.1 w1
      hx1 hx2 hx3 (ei1 ▸ r1)
    obtain ⟨n0, n1, n2, n3, n4⟩ := branch_seq_bytes sj.1 y1 y2 bj fin cc_t.NEQ br.1 br.2 w2
      hy1 hy2 hy3 (ej1 ▸ r2)
    refine ⟨si, si', sj, sj', p1, p2, q1, q2, by rw [a1, a2]; omega, by rw [b1, b2]; omega,
      ?_, ?_, ?_, ?_⟩
    · simp only [codeBytes, List.range_succ, List.range_zero, List.nil_append, List.map_append,
        List.map_cons, List.map_nil, List.cons_append, Nat.add_zero]
      rw [m0, m1, m2, m3, m4]
      rfl
    · simp only [codeBytes, List.range_succ, List.range_zero, List.nil_append, List.map_append,
        List.map_cons, List.map_nil, List.cons_append, Nat.add_zero]
      rw [n0, n1, n2, n3, n4]
      rfl
    · rw [slotOK_resolved fin _ _ _ fi tj rfl]
      push_cast
      ring
    · rw [slotOK_resolved fin _ _ _ fj ti rfl]
      push_cast
      ring

theorem open_decomp {α : Type} (kind : α → Br) (t : Tree α) :
    t.WF kind → ∀ (i : Nat) (o : α), t.flatten[i]? = some o → kind o = Br.opn →
      ∃ (b : Tree α) (c : α) (rest : List α),
        t.flatten.drop i = o :: (b.flatten ++ c :: rest) ∧ kind c = Br.cls ∧ b.WF kind := by
  induction t with
  | nil => intro _ i o h; simp [Tree.flatten] at h
  | act a k ih =>
    intro hwf i o h ho
    cases i with
    | zero =>
      simp only [Tree.flatten, List.getElem?_cons_zero, Option.some.injEq] at h
      subst h
      rw [hwf.1] at ho; cases ho
    | succ i =>
      simp only [Tree.flatten, List.getElem?_cons_succ] at h
      obtain ⟨b, c, rest, h1, h2, h3⟩ := ih hwf.2 i o h ho
      exact ⟨b, c, rest, by simpa [Tree.flatten] using h1, h2, h3⟩
  | loop o' b' c' k ihb ihk =>
    intro hwf i o h ho
    obtain ⟨ho', hc', hb', hk'⟩ := hwf
    cases i with
    | zero =>
      simp only [Tree.flatten, List.getElem?_cons_zero, Option.some.injEq] at h
      subst h
      exact ⟨b', c', k.flatten, rfl, hc', hb'⟩
    | succ i =>
      simp only [Tree.flatten, List.getElem?_cons_succ] at h
      rcases Nat.lt_trichotomy i b'.flatten.length with hi | hi | hi
      · rw [List.getElem?_append_left hi] at h
        obtain ⟨b, c, rest, h1, h2, h3⟩ := ihb hb' i o h ho
        refine ⟨b, c, rest ++ c' :: k.flatten, ?_, h2, h3⟩
        simp only [Tree.flatten, List.drop_succ_cons]
        rw [List.drop_append_of_le_length (by omega), h1]
        simp
      · rw [List.getElem?_append_right (by omega), hi] at h
        simp only [Nat.sub_self, List.getElem?_cons_zero, Option.some.injEq] at h
        subst h
        rw [hc'] at ho; cases ho
      · rw [List.getElem?_append_right (by omega)] at h
        obtain ⟨i2, hi2⟩ : ∃ i2, i - b'.flatten.length = i2 + 1 :=
          ⟨i - b'.flatten.length - 1, by omega⟩
        rw [hi2, List.getElem?_cons_succ] at h
        obtain ⟨b, c, rest, h1, h2, h3⟩ := ihk hk' i2 o h ho
        refine ⟨b, c, rest, ?_, h2, h3⟩
        have e1 : (Tree.loop o' b' c' k).flatten = (o' :: (b'.flatten ++ [c'])) ++ k.flatten := by
          simp [Tree.flatten]
        have e2 : i + 1 = (o' :: (b'.flatten ++ [c'])).length + i2 := by
          simp; omega
        rw [e1, e2, List.drop_append, h1]

/-- The closing entry of a loop of the resolved program carries the ordinal of
the opening entry. -/
theorem branch_of_drop (U : Tree instruction_t) (hU : U.WF instrBr) (i : Nat)
    (o c : instruction_t) (b : Tree instruction_t) (rest : List instruction_t)
    (hd : (U.annot 0).flatten.drop i = o :: (b.flatten ++ c :: rest))
    (ho : instrBr o = Br.opn) (hc : instrBr c = Br.cls) (hb : b.WF instrBr) :
    c.branch = ifOrdinal (U.annot 0).flatten i := by
  have hc' := (instrBr_cls c).1 hc
  have hcj := getElem?_closing_of_drop hd
  obtain ⟨_, hm2⟩ := match_of_drop instrBr _ i o c b rest hd ho hc hb
  obtain ⟨i', o', b', rest', h1, h2, h3, h4, h5⟩ :=
    annot_match U hU 0 (i + b.flatten.length + 1) c hcj hc'
  have hm := (match_of_drop instrBr _ i' o' c b' rest' h1 h3 hc h4).2
  rw [← h2, hm2] at hm
  have hii : i = i' := Option.some.inj hm
  rw [h5, hii]; simp [ifOrdinal]

/-- C8: for a bracket-balanced program that is assembled completely, the
conditional branch of each `if` entry (`je`, taken when the cell is zero)
targets the address immediately after the conditional branch of the `endif`
entry that matches it, and the conditional branch of each `endif` entry
(`jne`, taken when the cell is not zero) targets the address immediately after
the conditional branch of its matching `if` entry; every `if` entry has a
matching `endif` entry and conversely. -/
theorem loop_branch_targets (env : GenEnv) (addr : Nat) (p : List Char) (hb : Balanced p) :
    ∃ r sc, compile p = some r ∧ balanceScan p = some sc ∧
      ∀ fin, generate env addr sc.branch_count r = some fin →
        (∀ i, (r[i]?).map instruction_t.op = some op_if →
          ∃ j, matchClose instrBr r i = some j ∧ matchOpen instrBr r j = some i ∧
            (r[j]?).map instruction_t.op = some op_endif ∧
            BranchPair env addr sc.branch_count r fin i j) ∧
        (∀ j, (r[j]?).map instruction_t.op = some op_endif →
          ∃ i, matchOpen instrBr r j = some i ∧ matchClose instrBr r i = some j ∧
            (r[i]?).map instruction_t.op = some op_if ∧
            BranchPair env addr sc.branch_count r fin i j) := by
  obtain ⟨sc, T, U, hsc, _, _, hcoal, _, hcomp⟩ := compile_spec p hb
  have hU := hcoal.wf.2
  have hUa := Tree.WF_annot U 0 hU
  refine ⟨_, sc, hcomp, hsc, ?_⟩
  intro fin hgen
  constructor
  · intro i hi
    obtain ⟨o, hio, hoo⟩ := Option.map_eq_some'.1 hi
    obtain ⟨b, c, rest, h1, h2, h3⟩ :=
      open_decomp instrBr _ hUa i o hio ((instrBr_opn o).2 hoo)
    obtain ⟨m1, m2⟩ := match_of_drop instrBr _ i o c b rest h1 ((instrBr_opn o).2 hoo) h2 h3
    have hcj := getElem?_closing_of_drop h1
    have hcop := (instrBr_cls c).1 h2
    refine ⟨_, m1, m2, by rw [hcj]; simp [hcop], ?_⟩
    exact branch_targets env addr _ _ fin hgen i _ o c hio hoo hcj hcop
      (branch_of_drop U hU i o c b rest h1 ((instrBr_opn o).2 hoo) h2 h3)
  · intro j hj
    obtain ⟨c, hjc, hcc⟩ := Option.map_eq_some'.1 hj
    obtain ⟨i, o, b, rest, h1, h2, h3, h4, h5⟩ := annot_match U hU 0 j c hjc hcc
    obtain ⟨m1, m2⟩ := match_of_drop instrBr _ i o c b rest h1 h3 ((instrBr_cls c).2 hcc) h4
    have hio := getElem?_of_drop_eq_cons h1
    have hoo := (instrBr_opn o).1 h3
    rw [← h2] at m1 m2
    refine ⟨i, m2, m1, by rw [hio]; simp [hoo], ?_⟩
    exact branch_targets env addr _ _ fin hgen i j o c hio hoo hjc hcc
      (by rw [h5]; simp [ifOrdinal])

/-- Witness for C8: the program `+[>+]` assembled for the 64-bit architecture
at `0x7e0000000000`; the sequence of `[` starts at offset 26 and that of `]` at
offset 45, so the displacements are `54 - 35 = 19` and `35 - 54 = -19`. -/
theorem loop_branch_targets_witness :
    (∃ r sc, compile overflowProgram = some r ∧ balanceScan overflowProgram = some sc ∧
      ∀ fin, generate ⟨true, 0x7f0000000000, 1, 2⟩ 0x7e0000000000 sc.branch_count r =
          some fin →
        (∀ i, (r[i]?).map instruction_t.op = some op_if →
          ∃ j, matchClose instrBr r i = some j ∧ matchOpen instrBr r j = some i ∧
            (r[j]?).map instruction_t.op = some op_endif ∧
            BranchPair ⟨true, 0x7f0000000000, 1, 2⟩ 0x7e0000000000 sc.branch_count r fin i j) ∧
        (∀ j, (r[j]?).map instruction_t.op = some op_endif →
          ∃ i, matchOpen instrBr r j = some i ∧ matchClose instrBr r i = some j ∧
            (r[i]?).map instruction_t.op = some op_if ∧
            BranchPair ⟨true, 0x7f0000000000, 1, 2⟩ 0x7e0000000000 sc.branch_count r fin i j)) ∧
    (generate ⟨true, 0x7f0000000000, 1, 2⟩ 0x7e0000000000 1 overflowCode).map
        (fun fin => (codeBytes fin (0x7e0000000000 + 26) 9,
          codeBytes fin (0x7e0000000000 + 45) 9)) =
      some ([0x80, 0x3B, 0x00, 0x0F, 0x84, 19, 0, 0, 0],
        [0x80, 0x3B, 0x00, 0x0F, 0x85, 0xED, 0xFF, 0xFF, 0xFF]) :=
  ⟨loop_branch_targets ⟨true, 0x7f0000000000, 1, 2⟩ 0x7e0000000000 overflowProgram
    ((balanceScan_isSome_iff _).1 ⟨⟨1, 0, 1⟩, by decide⟩), by decide!⟩

/-! ## Label displacements -/

/-- C9: for a buffer reached from a fresh one and a 32-bit slot emitted in it
against a label by `emit_source`: when the label is already bound, the slot
holds `label address - (slot address + 4)` at once; otherwise the slot is
registered as pending on the label, and the `emit_push_label` that binds the
label later writes `label address - (slot address + 4)` into it and leaves the
label with an empty list of pending slots; and in every later state of the
buffer in which the label is bound, the slot read as a signed 32-bit number is
`label address - (slot address + 4)` and the label has no pending slot. -/
theorem label_slot_displacement (addr : Nat) (buf slotbuf : Asm) (lab : Nat)
    (h0 : Reach (new_assembler_buffer addr) buf)
    (hs : emit_source buf lab = some slotbuf) :
    (∀ l, buf.heap[lab]? = some l → l.resolved = true →
      sread32 slotbuf.mem (buf.buffer + buf.offset) =
        (l.ptr : Int) - ((buf.buffer + buf.offset + 4 : Nat) : Int)) ∧
    (∀ l, buf.heap[lab]? = some l → l.resolved = false →
      Pending slotbuf lab (buf.buffer + buf.offset)) ∧
    (∀ b b', Reach slotbuf b → emit_push_label b lab = some b' →
      sread32 b'.mem (buf.buffer + buf.offset) =
        ((b.buffer + b.offset : Nat) : Int) - ((buf.buffer + buf.offset + 4 : Nat) : Int) ∧
      b'.heap[lab]? = some ⟨true, b.buffer + b.offset, []⟩) ∧
    (∀ fin l, Reach slotbuf fin → fin.heap[lab]? = some l → l.resolved = true →
      sread32 fin.mem (buf.buffer + buf.offset) =
        (l.ptr : Int) - ((buf.buffer + buf.offset + 4 : Nat) : Int) ∧
      l.sources = []) := by
  have w0 : WFA buf := h0.wfa_of_reach (WFA_new addr)
  have hslot := emit_source_slotOK buf slotbuf lab w0 hs
  have w1 : WFA slotbuf := ((Reach.refl buf).source lab hs).wfa_of_reach w0
  obtain ⟨l0, hl0, _, _, _, _, hcase⟩ := emit_source_spec buf slotbuf lab hs
  refine ⟨?_, ?_, ?_, ?_⟩
  · intro l hl hr
    rcases hcase with ⟨_, hh, _⟩ | ⟨hf, _⟩
    · exact slotOK_resolved slotbuf _ _ l hslot (by rw [hh]; exact hl) hr
    · rw [hl] at hl0
      rw [← Option.some.inj hl0, hr] at hf
      cases hf
  · intro l hl hr
    rcases hcase with ⟨ht, _⟩ | ⟨_, hh, _⟩
    · rw [hl] at hl0
      rw [← Option.some.inj hl0, hr] at ht
      cases ht
    · have hlt : lab < buf.heap.length := by
        by_contra hn
        rw [List.getElem?_eq_none (by omega)] at hl0
        cases hl0
      exact ⟨_, by rw [hh, List.getElem?_set_self hlt], List.mem_cons_self _ _⟩
  · intro b b' hb hp
    obtain ⟨l3, hl3, _, hh3, _, _, _, _⟩ := emit_push_label_spec b b' lab hp
    have hlt : lab < b.heap.length := by
      by_contra hn
      rw [List.getElem?_eq_none (by omega)] at hl3
      cases hl3
    have hheap : b'.heap[lab]? = some ⟨true, b.buffer + b.offset, []⟩ := by
      rw [hh3, List.getElem?_set_self hlt]
    have hslot' := (hb.push lab hp).slotOK_of_reach w1 _ _ hslot
    exact ⟨slotOK_resolved b' _ _ _ hslot' hheap rfl, hheap⟩
  · intro fin l hfin hl hr
    have hslot' := hfin.slotOK_of_reach w1 _ _ hslot
    have wf := hfin.wfa_of_reach w1
    exact ⟨slotOK_resolved fin _ _ l hslot' hl hr, (wf.2.2.1 lab l hl hr).1⟩

/-- Witness for C9: a slot emitted at `0x1000` against an unbound label that is
then bound at `0x1004` holds the displacement `0`. -/
theorem label_slot_displacement_witness :
    sread32 labelDemoBound.mem (labelDemo.buffer + labelDemo.offset) =
      ((labelDemoSlot.buffer + labelDemoSlot.offset : Nat) : Int) -
        ((labelDemo.buffer + labelDemo.offset + 4 : Nat) : Int) ∧
    labelDemoBound.heap[0]? =
      some ⟨true, labelDemoSlot.buffer + labelDemoSlot.offset, []⟩ :=
  (label_slot_displacement 0x1000 labelDemo labelDemoSlot 0 (Reach.refl _).label rfl).2.2.1
    labelDemoSlot labelDemoBound (Reach.refl _) rfl
/-- Witness for C1: `+++[>++<-].>.` outputs the bytes 0 and 6 and the Hello
World program outputs `Hello World!` and a line feed, under both
executions. -/
theorem condensed_refines_source_witness :
    (∃ r, compile doubleProgram = some r ∧
      ∀ res : Data, (∃ fuel, srcRun doubleProgram fuel [] = some res) ↔
        (∃ fuel, condRun r fuel [] = some res)) ∧
    (srcRun doubleProgram 100 []).map Data.output = some [0, 6] ∧
    ((compile doubleProgram).bind (fun r => condRun r 100 [])).map Data.output = some [0, 6] ∧
    (srcRun helloProgram 2000 []).map Data.output = some helloOutput ∧
    ((compile helloProgram).bind (fun r => condRun r 2000 [])).map Data.output =
      some helloOutput :=
  ⟨condensed_refines_source doubleProgram
      ((balanceScan_isSome_iff _).1 ⟨⟨1, 0, 1⟩, by decide⟩) [],
   by decide!, by decide!, by decide!, by decide!⟩

/-! ## What an emit operation does to the buffer -/

theorem Adv.rfl0 (buf : Asm) : Adv buf buf 0 :=
  ⟨rfl, fun h => absurd h (lt_irrefl 0), rfl, rfl, rfl, rfl, rfl, fun _ _ => rfl⟩

theorem Adv.comp {a b c : Asm} {n m : Nat} (h1 : Adv a b n) (h2 : Adv b c m) :
    Adv a c (n + m) := by
  obtain ⟨a1, a2, a3, a4, a5, a6, a7, a8⟩ := h1
  obtain ⟨b1, b2, b3, b4, b5, b6, b7, b8⟩ := h2
  refine ⟨by omega, ?_, by rw [b3, a3], by rw [b4, a4], by rw [b5, a5], by rw [b6, a6],
    by rw [b7, a7], ?_⟩
  · intro h
    by_cases hm : 0 < m
    · have := b2 hm
      omega
    · have := a2 (by omega)
      omega
  · intro x hx
    rw [b8 x (by omega), a8 x hx]

theorem Adv.cast {a b : Asm} {n m : Nat} (h : Adv a b n) (e : n = m) : Adv a b m := e ▸ h

theorem adv_u8 (buf : Asm) (v : Nat) (h : buf.offset + 1 < buf.buffer_size) :
    Adv buf (emit_u8 buf v) 1 :=
  ⟨rfl, fun _ => h, rfl, rfl, rfl, rfl, rfl,
    fun _ ha => writeLE_out 1 _ _ _ _ (Or.inl ha)⟩

theorem adv_u32 (buf : Asm) (v : Nat) (h : buf.offset + 4 < buf.buffer_size) :
    Adv buf (emit_u32 buf v) 4 :=
  ⟨rfl, fun _ => h, rfl, rfl, rfl, rfl, rfl,
    fun _ ha => writeLE_out 4 _ _ _ _ (Or.inl ha)⟩

theorem adv_ptr (x64 : Bool) (buf : Asm) (v : Nat)
    (h : buf.offset + wordBytes x64 < buf.buffer_size) :
    Adv buf (emit_ptr x64 buf v) (wordBytes x64) :=
  ⟨rfl, fun _ => h, rfl, rfl, rfl, rfl, rfl,
    fun _ ha => writeLE_out _ _ _ _ _ (Or.inl ha)⟩

theorem adv_rexw (x64 : Bool) (buf : Asm) (h : buf.offset + 1 < buf.buffer_size) :
    Adv buf (emit_rexw x64 buf) (if x64 then 1 else 0) := by
  unfold emit_rexw
  cases x64
  · exact Adv.rfl0 buf
  · exact adv_u8 buf _ h

theorem set_of_getElem? {α : Type} (l : List α) (i : Nat) (a : α) (h : l[i]? = some a) :
    l.set i a = l := by
  apply List.ext_getElem?
  intro j
  by_cases hj : i = j
  · subst hj
    rw [List.getElem?_set_self (getElem?_lt h), h]
  · rw [List.getElem?_set_ne hj]

theorem flags_set (buf : Asm) (lab : Nat) (l l' : label_t) (h : buf.heap[lab]? = some l)
    (hr : l'.resolved = l.resolved) :
    (buf.heap.set lab l').map (fun l => l.resolved) = buf.flags := by
  unfold Asm.flags
  rw [List.map_set, hr]
  exact set_of_getElem? _ _ _ (by rw [List.getElem?_map, h]; rfl)

theorem adv_source (buf buf' : Asm) (lab : Nat) (h : emit_source buf lab = some buf') :
    Adv buf buf' 4 := by
  unfold emit_source at h
  cases hl : buf.heap[lab]? with
  | none => rw [hl] at h; cases h
  | some l =>
    rw [hl] at h
    simp only at h
    split_ifs at h with h1 h2
    · cases h
      have hs : buf.offset + 4 < buf.buffer_size := by
        simpa [check_space] using h1
      exact ⟨rfl, fun _ => hs, rfl, rfl, rfl, rfl, rfl,
        fun a ha => writeLE_out 4 _ _ _ _ (Or.inl ha)⟩
    · cases h
      have hs : buf.offset + 4 < buf.buffer_size := by
        simpa [check_space] using h1
      exact ⟨rfl, fun _ => hs, rfl, rfl, rfl, flags_set buf lab l _ hl rfl, rfl,
        fun a ha => writeLE_out 4 _ _ _ _ (Or.inl ha)⟩

theorem source_isSome (buf : Asm) (lab : Nat) (hl : lab < buf.heap.length)
    (hs : buf.offset + 4 < buf.buffer_size) : (emit_source buf lab).isSome = true := by
  unfold emit_source
  rw [List.getElem?_eq_getElem hl]
  have : check_space buf 4 = true := by simpa [check_space] using hs
  simp only [this, Bool.true_eq_false, if_false]
  split_ifs <;> rfl

theorem Adv.thenU8 {a b : Asm} {n : Nat} (h : Adv a b n) (v : Nat)
    (hs : a.offset + n + 1 < a.buffer_size) : Adv a (emit_u8 b v) (n + 1) :=
  h.comp (adv_u8 b v (by rw [h.1, h.2.2.1]; exact hs))

theorem Adv.thenU32 {a b : Asm} {n : Nat} (h : Adv a b n) (v : Nat)
    (hs : a.offset + n + 4 < a.buffer_size) : Adv a (emit_u32 b v) (n + 4) :=
  h.comp (adv_u32 b v (by rw [h.1, h.2.2.1]; exact hs))

theorem Adv.thenPtr {a b : Asm} {n : Nat} (h : Adv a b n) (x64 : Bool) (v : Nat)
    (hs : a.offset + n + wordBytes x64 < a.buffer_size) :
    Adv a (emit_ptr x64 b v) (n + wordBytes x64) :=
  h.comp (adv_ptr x64 b v (by rw [h.1, h.2.2.1]; exact hs))

theorem Adv.thenRexw {a b : Asm} {n : Nat} (h : Adv a b n) (x64 : Bool)
    (hs : a.offset + n + 1 < a.buffer_size) :
    Adv a (emit_rexw x64 b) (n + if x64 then 1 else 0) :=
  h.comp (adv_rexw x64 b (by rw [h.1, h.2.2.1]; exact hs))

theorem Adv.thenSource {a b c : Asm} {n : Nat} (h : Adv a b n) (lab : Nat)
    (hc : emit_source b lab = some c) : Adv a c (n + 4) :=
  h.comp (adv_source b c lab hc)

theorem wordBytes_cases (x64 : Bool) : wordBytes x64 = if x64 then 8 else 4 := rfl

theorem emit_alu_r_immz32_adv (opA modrm : Nat) (x64 : Bool) (buf buf' : Asm) (reg imm : Nat)
    (h : emit_alu_r_immz32 opA modrm x64 buf reg imm = some buf') :
    Adv buf buf' (if reg = EAX then (if x64 then 2 else 1) + 4 else (if x64 then 3 else 2) + 4) := by
  simp only [emit_alu_r_immz32, check_space_iff] at h
  cases x64 <;> simp only [Bool.false_eq_true, if_false, if_true] at h <;>
    split_ifs at h with h1 h2 h3 h3 <;> cases h
  · exact ((((Adv.rfl0 buf).thenRexw false (by omega)).thenU8 _ (by simp; omega)).thenU32 _
      (by simp; omega)).cast (by simp [h2])
  · exact (((((Adv.rfl0 buf).thenRexw false (by omega)).thenU8 _ (by simp; omega)).thenU8 _
      (by simp; omega)).thenU32 _ (by simp; omega)).cast (by simp [h2])
  · exact ((((Adv.rfl0 buf).thenRexw true (by omega)).thenU8 _ (by simp; omega)).thenU32 _
      (by simp; omega)).cast (by simp [h2])
  · exact (((((Adv.rfl0 buf).thenRexw true (by omega)).thenU8 _ (by simp; omega)).thenU8 _
      (by simp; omega)).thenU32 _ (by simp; omega)).cast (by simp [h2])

theorem emit_op_r_r_adv (opcode : Nat) (x64 : Bool) (buf buf' : Asm) (r1 r2 : Nat)
    (h : emit_op_r_r opcode x64 buf r1 r2 = some buf') :
    Adv buf buf' (if x64 then 3 else 2) := by
  simp only [emit_op_r_r, check_space_iff] at h
  cases x64 <;> simp only [Bool.false_eq_true, if_false, if_true] at h <;>
    split_ifs at h with h1 <;> cases h
  · exact ((((Adv.rfl0 buf).thenRexw false (by omega)).thenU8 _ (by simp; omega)).thenU8 _
      (by simp; omega)).cast (by simp)
  · exact ((((Adv.rfl0 buf).thenRexw true (by omega)).thenU8 _ (by simp; omega)).thenU8 _
      (by simp; omega)).cast (by simp)

theorem emit_mov_r_immptr_adv (x64 : Bool) (buf buf' : Asm) (reg imm : Nat)
    (h : emit_mov_r_immptr x64 buf reg imm = some buf') :
    Adv buf buf' ((if x64 then 2 else 1) + wordBytes x64) := by
  simp only [emit_mov_r_immptr, check_space_iff, wordBytes_cases] at h
  cases x64 <;> simp only [Bool.false_eq_true, if_false, if_true] at h <;>
    split_ifs at h with h1 <;> cases h
  · exact ((((Adv.rfl0 buf).thenRexw false (by omega)).thenU8 _ (by simp; omega)).thenPtr false _
      (by simp [wordBytes_cases]; omega)).cast (by simp [wordBytes_cases])
  · exact ((((Adv.rfl0 buf).thenRexw true (by omega)).thenU8 _ (by simp; omega)).thenPtr true _
      (by simp [wordBytes_cases]; omega)).cast (by simp [wordBytes_cases])

theorem emit_call_adv (x64 : Bool) (buf buf' : Asm) (imm : Nat)
    (h : emit_call x64 buf imm = some buf') :
    Adv buf buf' ((if x64 then 2 else 1) + wordBytes x64 + 2) := by
  unfold emit_call at h
  cases h1 : emit_mov_r_immptr x64 buf EAX imm with
  | none => rw [h1] at h; cases h
  | some b =>
    rw [h1] at h
    simp only [check_space_iff] at h
    split_ifs at h with h2
    cases h
    have hb := emit_mov_r_immptr_adv x64 buf b EAX imm h1
    have e1 := hb.1
    have e2 := hb.2.2.1
    exact ((hb.thenU8 _ (by omega)).thenU8 _ (by omega)).cast (by omega)

theorem emit_jcc_adv (buf buf' : Asm) (lab : Nat) (cc : cc_t)
    (h : emit_jcc buf lab cc = some buf') : Adv buf buf' 6 := by
  simp only [emit_jcc, check_space_iff] at h
  split_ifs at h with h1
  exact (((Adv.rfl0 buf).thenU8 _ (by omega)).thenU8 _ (by omega)).thenSource lab h

theorem emit_jmp_adv (buf buf' : Asm) (lab : Nat)
    (h : emit_jmp buf lab = some buf') : Adv buf buf' 5 := by
  simp only [emit_jmp, check_space_iff] at h
  split_ifs at h with h1
  exact ((Adv.rfl0 buf).thenU8 _ (by omega)).thenSource lab h

theorem emit_mov_rm_rint_adv (x64 : Bool) (buf buf' : Asm) (reg srcreg : Nat)
    (h : emit_mov_rm_rint x64 buf reg srcreg = some buf') :
    Adv buf buf' (if reg = ESP then 3 else 2) := by
  simp only [emit_mov_rm_rint, check_space_iff] at h
  cases x64 <;> simp only [Bool.false_eq_true, if_false, if_true] at h <;>
    split_ifs at h with h1 h2 h3 h3 <;> cases h
  · exact ((((Adv.rfl0 buf).thenU8 _ (by omega)).thenU8 _ (by omega)).thenU8 _ (by omega)).cast
      (by simp [h2])
  · exact (((Adv.rfl0 buf).thenU8 _ (by omega)).thenU8 _ (by omega)).cast (by simp [h2])
  · exact ((((Adv.rfl0 buf).thenU8 _ (by omega)).thenU8 _ (by omega)).thenU8 _ (by omega)).cast
      (by simp [h2])
  · exact (((Adv.rfl0 buf).thenU8 _ (by omega)).thenU8 _ (by omega)).cast (by simp [h2])

/-- Every emit operation other than `emit_push_label` whose assertions pass
appends `size` bytes and leaves the rest of the buffer as it is. -/
theorem EmitOp.adv (x64 : Bool) (op : EmitOp) (buf buf' : Asm)
    (h : op.run x64 buf = some buf') (hp : ∀ lab, op ≠ EmitOp.push_label lab) :
    Adv buf buf' (op.size x64) := by
  cases op with
  | push_label lab => exact absurd rfl (hp lab)
  | add_rm8_imm8 reg imm =>
    simp only [EmitOp.run, emit_add_rm8_imm8, check_space_iff] at h
    split_ifs at h with hc
    cases h
    exact (((Adv.rfl0 buf).thenU8 _ (by omega)).thenU8 _ (by omega)).thenU8 _ (by omega)
  | cmp_rm8_imm8 reg imm =>
    simp only [EmitOp.run, emit_cmp_rm8_imm8, check_space_iff] at h
    split_ifs at h with hc
    cases h
    exact (((Adv.rfl0 buf).thenU8 _ (by omega)).thenU8 _ (by omega)).thenU8 _ (by omega)
  | add_r_immz32 reg imm => exact emit_alu_r_immz32_adv _ _ x64 buf buf' reg imm h
  | and_r_immz32 reg imm => exact emit_alu_r_immz32_adv _ _ x64 buf buf' reg imm h
  | cmp_r_immz32 reg imm => exact emit_alu_r_immz32_adv _ _ x64 buf buf' reg imm h
  | sub_r_immz32 reg imm => exact emit_alu_r_immz32_adv _ _ x64 buf buf' reg imm h
  | call imm => exact emit_call_adv x64 buf buf' imm h
  | cmp_r_r reg srcreg => exact emit_op_r_r_adv _ x64 buf buf' _ _ h
  | mov_r_r reg srcreg => exact emit_op_r_r_adv _ x64 buf buf' _ _ h
  | xor_r_r reg srcreg => exact emit_op_r_r_adv _ x64 buf buf' _ _ h
  | je lab => exact emit_jcc_adv buf buf' lab _ h
  | jle lab => exact emit_jcc_adv buf buf' lab _ h
  | jne lab => exact emit_jcc_adv buf buf' lab _ h
  | jmp lab => exact emit_jmp_adv buf buf' lab h
  | leave =>
    simp only [EmitOp.run, emit_leave, check_space_iff] at h
    split_ifs at h with hc
    cases h
    exact (Adv.rfl0 buf).thenU8 _ (by omega)
  | ret =>
    simp only [EmitOp.run, emit_ret, check_space_iff] at h
    split_ifs at h with hc
    cases h
    exact (Adv.rfl0 buf).thenU8 _ (by omega)
  | pop_r reg =>
    simp only [EmitOp.run, emit_pop_r, check_space_iff] at h
    split_ifs at h with hc
    cases h
    exact (Adv.rfl0 buf).thenU8 _ (by omega)
  | push_r reg =>
    simp only [EmitOp.run, emit_push_r, check_space_iff] at h
    split_ifs at h with hc
    cases h
    exact (Adv.rfl0 buf).thenU8 _ (by omega)
  | mov_r8_rm8 reg srcreg =>
    simp only [EmitOp.run, emit_mov_r8_rm8, check_space_iff] at h
    split_ifs at h with hc
    cases h
    exact ((Adv.rfl0 buf).thenU8 _ (by omega)).thenU8 _ (by omega)
  | mov_rm8_r8 reg srcreg =>
    simp only [EmitOp.run, emit_mov_rm8_r8, check_space_iff] at h
    split_ifs at h with hc
    cases h
    exact ((Adv.rfl0 buf).thenU8 _ (by omega)).thenU8 _ (by omega)
  | mov_r_immptr reg imm => exact emit_mov_r_immptr_adv x64 buf buf' reg imm h
  | mov_rm_rint reg srcreg => exact emit_mov_rm_rint_adv x64 buf buf' reg srcreg h

theorem emit_push_label_eff (buf buf' : Asm) (lab : Nat)
    (h : emit_push_label buf lab = some buf') :
    ∃ l, buf.heap[lab]? = some l ∧ l.resolved = false ∧
      buf'.heap = buf.heap.set lab
        { resolved := true, ptr := buf.buffer + buf.offset, sources := [] } ∧
      buf'.offset = buf.offset ∧ buf'.buffer = buf.buffer ∧
      buf'.buffer_size = buf.buffer_size ∧ buf'.finalized = buf.finalized ∧
      buf'.labels = lab :: buf.labels ∧ buf'.flags = buf.flags.set lab true ∧
      buf'.mem = patchSources buf.mem (buf.buffer + buf.offset) l.sources := by
  unfold emit_push_label at h
  cases hl : buf.heap[lab]? with
  | none => rw [hl] at h; cases h
  | some l =>
    rw [hl] at h
    simp only at h
    by_cases hr : l.resolved = true
    · rw [if_pos hr] at h; cases h
    · rw [if_neg hr] at h
      cases h
      refine ⟨l, rfl, by simpa using hr, rfl, rfl, rfl, rfl, rfl, rfl, ?_, rfl⟩
      simp [Asm.flags, setLabel, List.map_set]

theorem EmitOp.size_le_space (x64 : Bool) (op : EmitOp) : op.size x64 ≤ op.space x64 := by
  cases op <;> simp only [EmitOp.size, le_refl]
  simp only [EmitOp.space]
  cases x64 <;> split_ifs <;> simp

/-- C25: every emit operation whose assertions pass on a buffer (finalized or
not) appends at most as many bytes as its `check_space` assertions ask for;
the offset does not decrease and stays within `buffer_size`, which is left as
it is; and a byte below the old offset keeps its value, unless the operation
is `emit_push_label` and the byte belongs to a displacement slot that is
pending on the label being bound. -/
theorem emit_within_asserted_space (x64 : Bool) (op : EmitOp) (buf buf' : Asm)
    (hw : buf.offset ≤ buf.buffer_size) (h : op.run x64 buf = some buf') :
    buf'.offset ≤ buf.offset + op.space x64 ∧ buf.offset ≤ buf'.offset ∧
    buf'.offset ≤ buf'.buffer_size ∧ buf'.buffer_size = buf.buffer_size ∧
    ∀ a, a < buf.buffer + buf.offset →
      (∀ lab l, op = EmitOp.push_label lab → buf.heap[lab]? = some l →
        ∀ s ∈ l.sources, a < s ∨ s + 4 ≤ a) →
      buf'.mem a = buf.mem a := by
  by_cases hp : ∀ lab, op ≠ EmitOp.push_label lab
  · obtain ⟨a1, a2, a3, _, _, _, _, a8⟩ := EmitOp.adv x64 op buf buf' h hp
    have hs := EmitOp.size_le_space x64 op
    refine ⟨by omega, by omega, ?_, a3, fun a ha _ => a8 a ha⟩
    rw [a3, a1]
    by_cases h0 : 0 < op.size x64
    · exact le_of_lt (a2 h0)
    · omega
  · push_neg at hp
    obtain ⟨lab, rfl⟩ := hp
    obtain ⟨l, hl, _, _, ho, _, hs, _, _, _, hm⟩ := emit_push_label_eff buf buf' lab h
    refine ⟨by omega, by omega, by omega, hs, fun a _ hsl => ?_⟩
    rw [hm]
    exact patchSources_out _ _ _ _ (hsl lab l rfl hl)

/-- Witness for C25: `emit_mov_rm_rint(buf, ESP, EAX)` on a fresh buffer of the
64-bit architecture asserts space for four bytes and appends three. -/
theorem emit_within_asserted_space_witness :
    EmitOp.run true (new_assembler_buffer 0x1000) (EmitOp.mov_rm_rint ESP EAX) = some rintDemo ∧
    (EmitOp.mov_rm_rint ESP EAX).space true = 4 ∧
    rintDemo.offset = 3 ∧
    rintDemo.offset ≤ (new_assembler_buffer 0x1000).offset + 4 ∧
    (new_assembler_buffer 0x1000).offset ≤ rintDemo.offset ∧
    rintDemo.offset ≤ rintDemo.buffer_size :=
  ⟨rfl, rfl, rfl,
    (emit_within_asserted_space true (EmitOp.mov_rm_rint ESP EAX) (new_assembler_buffer 0x1000)
      rintDemo (by decide) rfl).1,
    (emit_within_asserted_space true (EmitOp.mov_rm_rint ESP EAX) (new_assembler_buffer 0x1000)
      rintDemo (by decide) rfl).2.1,
    (emit_within_asserted_space true (EmitOp.mov_rm_rint ESP EAX) (new_assembler_buffer 0x1000)
      rintDemo (by decide) rfl).2.2.1⟩

theorem emitted_head (buf buf' : Asm) (h : buf.offset < buf'.offset) :
    (emitted buf buf').head? = some (buf'.mem (buf.buffer + buf.offset)) := by
  unfold emitted codeBytes
  obtain ⟨k, hk⟩ : ∃ k, buf'.offset - buf.offset = k + 1 :=
    ⟨buf'.offset - buf.offset - 1, by omega⟩
  rw [hk, List.range_succ_eq_map]
  simp

theorem EmitOp.regs_of_run (x64 : Bool) (op : EmitOp) (buf buf' : Asm)
    (h : op.run x64 buf = some buf') : op.regsOK := by
  cases op <;>
    simp only [EmitOp.run, emit_add_rm8_imm8, emit_add_r_immz32, emit_and_r_immz32,
      emit_cmp_r_immz32, emit_sub_r_immz32, emit_alu_r_immz32, emit_cmp_rm8_imm8, emit_cmp_r_r,
      emit_mov_r_r, emit_xor_r_r, emit_op_r_r, emit_mov_r8_rm8, emit_mov_rm8_r8,
      emit_mov_r_immptr, emit_mov_rm_rint, emit_pop_r, emit_push_r] at h <;>
    simp only [EmitOp.regsOK] <;>
    first
    | trivial
    | (split_ifs at h <;> tauto)

theorem emit_alu_first (opA modrm : Nat) (x64 : Bool) (buf buf' : Asm) (reg imm : Nat)
    (h : emit_alu_r_immz32 opA modrm x64 buf reg imm = some buf') :
    buf'.mem (buf.buffer + buf.offset) =
      if x64 then 0x48 else if reg = EAX then opA % 256 else 0x81 := by
  simp only [emit_alu_r_immz32, check_space_iff] at h
  cases x64 <;> simp only [Bool.false_eq_true, if_false, if_true] at h <;>
    split_ifs at h with h1 h2 h3 h3 <;> cases h <;>
    simp only [emit_u8, emit_u32, emit_rexw, writeLE, Function.update_apply, h2, if_true,
      if_false, Bool.false_eq_true] <;>
    split_ifs <;> first | rfl | omega

theorem emit_op_r_r_first (opcode : Nat) (x64 : Bool) (buf buf' : Asm) (r1 r2 : Nat)
    (h : emit_op_r_r opcode x64 buf r1 r2 = some buf') :
    buf'.mem (buf.buffer + buf.offset) = if x64 then 0x48 else opcode % 256 := by
  simp only [emit_op_r_r, check_space_iff] at h
  cases x64 <;> simp only [Bool.false_eq_true, if_false, if_true] at h <;>
    split_ifs at h with h1 <;> cases h <;>
    simp only [emit_u8, emit_rexw, writeLE, Function.update_apply, if_true,
      if_false, Bool.false_eq_true] <;>
    split_ifs <;> first | rfl | omega

theorem emit_mov_r_immptr_first (x64 : Bool) (buf buf' : Asm) (reg imm : Nat)
    (h : emit_mov_r_immptr x64 buf reg imm = some buf') :
    buf'.mem (buf.buffer + buf.offset) = if x64 then 0x48 else (0xB8 + reg) % 256 := by
  simp only [emit_mov_r_immptr, check_space_iff] at h
  cases x64 <;> simp only [Bool.false_eq_true, if_false, if_true] at h <;>
    split_ifs at h with h1 <;> cases h <;>
    simp only [emit_u8, emit_ptr, emit_rexw, writeLE, Function.update_apply, if_true,
      if_false, Bool.false_eq_true, wordBytes] <;>
    split_ifs <;> first | rfl | omega

theorem emit_jcc_first (buf buf' : Asm) (lab : Nat) (cc : cc_t)
    (h : emit_jcc buf lab cc = some buf') : buf'.mem (buf.buffer + buf.offset) = 0x0F := by
  simp only [emit_jcc, check_space_iff] at h
  split_ifs at h with h1
  have := (adv_source _ _ lab h).2.2.2.2.2.2.2 (buf.buffer + buf.offset) (by simp; omega)
  rw [this]
  simp only [emit_u8, writeLE, Function.update_apply]
  split_ifs <;> first | rfl | omega

theorem EmitOp.size_pos (x64 : Bool) (op : EmitOp) (hp : ∀ lab, op ≠ EmitOp.push_label lab) :
    0 < op.size x64 := by
  cases op <;> cases x64 <;> simp [EmitOp.size, EmitOp.space, wordBytes] <;>
    first | (split_ifs <;> omega) | exact absurd rfl (hp _)

/-- The first byte that an emit operation appends. -/
theorem EmitOp.first (x64 : Bool) (op : EmitOp) (buf buf' : Asm)
    (h : op.run x64 buf = some buf') (hp : ∀ lab, op ≠ EmitOp.push_label lab) :
    (emitted buf buf').head? = some (op.firstByte x64 % 256) := by
  have hadv := EmitOp.adv x64 op buf buf' h hp
  have hpos : 0 < op.size x64 := EmitOp.size_pos x64 op hp
  rw [emitted_head buf buf' (by rw [hadv.1]; omega)]
  congr 1
  cases op with
  | push_label lab => exact absurd rfl (hp lab)
  | add_rm8_imm8 reg imm =>
    simp only [EmitOp.run, emit_add_rm8_imm8, check_space_iff] at h
    split_ifs at h with hc
    cases h
    simp only [emit_u8, writeLE, Function.update_apply]
    split_ifs <;> first | rfl | omega
  | cmp_rm8_imm8 reg imm =>
    simp only [EmitOp.run, emit_cmp_rm8_imm8, check_space_iff] at h
    split_ifs at h with hc
    cases h
    simp only [emit_u8, writeLE, Function.update_apply]
    split_ifs <;> first | rfl | omega
  | add_r_immz32 reg imm =>
    rw [emit_alu_first _ _ x64 buf buf' reg imm h]
    cases x64 <;> simp only [EmitOp.firstByte] <;> split_ifs <;> rfl
  | and_r_immz32 reg imm =>
    rw [emit_alu_first _ _ x64 buf buf' reg imm h]
    cases x64 <;> simp only [EmitOp.firstByte] <;> split_ifs <;> rfl
  | cmp_r_immz32 reg imm =>
    rw [emit_alu_first _ _ x64 buf buf' reg imm h]
    cases x64 <;> simp only [EmitOp.firstByte] <;> split_ifs <;> rfl
  | sub_r_immz32 reg imm =>
    rw [emit_alu_first _ _ x64 buf buf' reg imm h]
    cases x64 <;> simp only [EmitOp.firstByte] <;> split_ifs <;> rfl
  | call imm =>
    simp only [EmitOp.run, emit_call] at h
    cases h1 : emit_mov_r_immptr x64 buf EAX imm with
    | none => rw [h1] at h; cases h
    | some b =>
      rw [h1] at h
      simp only [check_space_iff] at h
      split_ifs at h with h2
      cases h
      have hb := emit_mov_r_immptr_adv x64 buf b EAX imm h1
      have hf := emit_mov_r_immptr_first x64 buf b EAX imm h1
      have hlt : buf.buffer + buf.offset < b.buffer + b.offset := by
        rw [hb.1, hb.2.2.2.1]
        cases x64 <;> simp [wordBytes]
      have e := (((Adv.rfl0 b).thenU8 0xFF (by omega)).thenU8 0xD0 (by omega)).2.2.2.2.2.2.2 _ hlt
      rw [e, hf]
      cases x64 <;> simp [EmitOp.firstByte, EAX]
  | cmp_r_r reg srcreg =>
    rw [show buf'.mem (buf.buffer + buf.offset) = _ from emit_op_r_r_first _ x64 buf buf' _ _ h]
    cases x64 <;> rfl
  | mov_r_r reg srcreg =>
    rw [show buf'.mem (buf.buffer + buf.offset) = _ from emit_op_r_r_first _ x64 buf buf' _ _ h]
    cases x64 <;> rfl
  | xor_r_r reg srcreg =>
    rw [show buf'.mem (buf.buffer + buf.offset) = _ from emit_op_r_r_first _ x64 buf buf' _ _ h]
    cases x64 <;> rfl
  | je lab => exact emit_jcc_first buf buf' lab _ h
  | jle lab => exact emit_jcc_first buf buf' lab _ h
  | jne lab => exact emit_jcc_first buf buf' lab _ h
  | jmp lab =>
    simp only [EmitOp.run, emit_jmp, check_space_iff] at h
    split_ifs at h with h1
    have := (adv_source _ _ lab h).2.2.2.2.2.2.2 (buf.buffer + buf.offset) (by simp)
    rw [this]
    simp only [emit_u8, writeLE, Function.update_apply]
    split_ifs <;> rfl
  | leave =>
    simp only [EmitOp.run, emit_leave, check_space_iff] at h
    split_ifs at h with hc
    cases h
    simp only [emit_u8, writeLE, Function.update_apply]
    split_ifs <;> rfl
  | ret =>
    simp only [EmitOp.run, emit_ret, check_space_iff] at h
    split_ifs at h with hc
    cases h
    simp only [emit_u8, writeLE, Function.update_apply]
    split_ifs <;> rfl
  | pop_r reg =>
    simp only [EmitOp.run, emit_pop_r, check_space_iff] at h
    split_ifs at h with hc
    cases h
    simp only [emit_u8, writeLE, Function.update_apply]
    split_ifs <;> rfl
  | push_r reg =>
    simp only [EmitOp.run, emit_push_r, check_space_iff] at h
    split_ifs at h with hc
    cases h
    simp only [emit_u8, writeLE, Function.update_apply]
    split_ifs <;> rfl
  | mov_r8_rm8 reg srcreg =>
    simp only [EmitOp.run, emit_mov_r8_rm8, check_space_iff] at h
    split_ifs at h with hc
    cases h
    simp only [emit_u8, writeLE, Function.update_apply]
    split_ifs <;> first | rfl | omega
  | mov_rm8_r8 reg srcreg =>
    simp only [EmitOp.run, emit_mov_rm8_r8, check_space_iff] at h
    split_ifs at h with hc
    cases h
    simp only [emit_u8, writeLE, Function.update_apply]
    split_ifs <;> first | rfl | omega
  | mov_r_immptr reg imm =>
    rw [emit_mov_r_immptr_first x64 buf buf' reg imm h]
    cases x64 <;> rfl
  | mov_rm_rint reg srcreg =>
    simp only [EmitOp.run, emit_mov_rm_rint, check_space_iff] at h
    cases x64 <;> simp only [Bool.false_eq_true, if_false, if_true] at h <;>
      split_ifs at h with h1 h2 h3 h3 <;> cases h <;>
      simp only [emit_u8, writeLE, Function.update_apply] <;>
      split_ifs <;> first | rfl | omega

/-- C28: for every emit operation whose assertions pass (so its register
arguments are below eight): on the 64-bit architecture each pointer-width
emitter (add, sub, and, cmp of a register with a 32-bit immediate; cmp, mov,
xor of two registers; mov of a pointer-sized immediate) appends `0x48` as its
first byte; on both architectures the first byte of an eight-bit emitter or of
`je`, `jle`, `jne` is its opcode byte `0x80`, `0x8A`, `0x88` or `0x0F`, not a
prefix; and on the 32-bit architecture no emit operation appends `0x48` as its
first byte. -/
theorem rexw_by_operand_width (x64 : Bool) (op : EmitOp) (buf buf' : Asm)
    (h : op.run x64 buf = some buf') :
    (x64 = true → op.pointerWidth = true → (emitted buf buf').head? = some 0x48) ∧
    (op.narrow = true → ∃ b, (emitted buf buf').head? = some b ∧
      (b = 0x80 ∨ b = 0x8A ∨ b = 0x88 ∨ b = 0x0F)) ∧
    (x64 = false → (emitted buf buf').head? ≠ some 0x48) := by
  by_cases hp : ∀ lab, op ≠ EmitOp.push_label lab
  · have hf := EmitOp.first x64 op buf buf' h hp
    have hr := EmitOp.regs_of_run x64 op buf buf' h
    rw [hf]
    refine ⟨?_, ?_, ?_⟩
    · intro hx hw
      subst hx
      cases op <;> simp [EmitOp.pointerWidth] at hw <;> simp [EmitOp.firstByte]
    · intro hn
      cases op <;> simp [EmitOp.narrow] at hn <;> simp [EmitOp.firstByte]
    · intro hx
      subst hx
      cases op <;> simp only [EmitOp.firstByte, EmitOp.regsOK] at hr ⊢ <;>
        simp only [Bool.false_eq_true, if_false, Option.some.injEq, ne_eq] <;>
        first
        | (split_ifs <;> decide)
        | omega
  · push_neg at hp
    obtain ⟨lab, rfl⟩ := hp
    obtain ⟨l, _, _, _, ho, _⟩ := emit_push_label_eff buf buf' lab h
    have he : emitted buf buf' = [] := by
      unfold emitted codeBytes
      rw [ho, Nat.sub_self]
      rfl
    rw [he]
    exact ⟨fun _ hw => by simp [EmitOp.pointerWidth] at hw,
      fun hn => by simp [EmitOp.narrow] at hn, fun _ => by simp⟩

/-- Witness for C28: `emit_xor_r_r(buf, EAX, EAX)` on a fresh buffer appends
`48 31 C0` on the 64-bit architecture. -/
theorem rexw_by_operand_width_witness :
    EmitOp.run true (new_assembler_buffer 0x1000) (EmitOp.xor_r_r EAX EAX) = some xorDemo ∧
    (emitted (new_assembler_buffer 0x1000) xorDemo).head? = some 0x48 ∧
    emitted (new_assembler_buffer 0x1000) xorDemo = [0x48, 0x31, 0xC0] :=
  ⟨rfl, (rexw_by_operand_width true (EmitOp.xor_r_r EAX EAX) (new_assembler_buffer 0x1000)
    xorDemo rfl).1 rfl rfl, by decide⟩

/-! ## The bytes of single instructions -/

theorem emitted_self (buf : Asm) : emitted buf buf = [] := by
  unfold emitted codeBytes
  rw [Nat.sub_self]
  rfl

theorem emitted_u8 {a b : Asm} {n : Nat} (h : Adv a b n) (v : Nat) :
    emitted a (emit_u8 b v) = emitted a b ++ [v % 256] := by
  obtain ⟨h1, _, _, h4, _⟩ := h
  unfold emitted codeBytes
  have e1 : (emit_u8 b v).offset - a.offset = n + 1 := by
    rw [emit_u8_offset, h1]; omega
  have e2 : b.offset - a.offset = n := by rw [h1]; omega
  rw [e1, e2, List.range_succ, List.map_append]
  congr 1
  · apply List.map_congr_left
    intro k hk
    have hk' := List.mem_range.1 hk
    exact writeLE_out 1 _ _ _ _ (Or.inl (by rw [h4, h1]; omega))
  · simp only [List.map_cons, List.map_nil, emit_u8, writeLE]
    rw [h4, h1, show a.buffer + a.offset + n = a.buffer + (a.offset + n) by omega,
      Function.update_same]

theorem modrm_reg_reg (r s : Nat) (hr : r < 8) (hs : s < 8) :
    (0xC0 ||| (r <<< 3) ||| s) = 192 + 8 * r + s := by
  interval_cases r <;> interval_cases s <;> rfl

theorem modrm_mem (r s : Nat) (hr : r < 8) (hs : s < 8) :
    ((r <<< 3) ||| s) = 8 * r + s := by
  interval_cases r <;> interval_cases s <;> rfl

theorem emit_op_r_r_bytes (opcode : Nat) (x64 : Bool) (buf buf' : Asm) (r1 r2 : Nat)
    (h : emit_op_r_r opcode x64 buf r1 r2 = some buf') :
    r1 < 8 ∧ r2 < 8 ∧
    emitted buf buf' =
      (if x64 then [0x48] else []) ++ [opcode % 256, 192 + 8 * r1 + r2] := by
  simp only [emit_op_r_r, check_space_iff] at h
  cases x64 <;> simp only [Bool.false_eq_true, if_false, if_true] at h <;>
    split_ifs at h with h1 <;> cases h <;> refine ⟨h1.1, h1.2.1, ?_⟩
  · have a1 := (Adv.rfl0 buf).thenU8 opcode (by omega)
    rw [emit_rexw, if_neg (by simp), emitted_u8 a1, emitted_u8 (Adv.rfl0 buf), emitted_self,
      modrm_reg_reg r1 r2 h1.1 h1.2.1]
    have : (192 + 8 * r1 + r2) % 256 = 192 + 8 * r1 + r2 := Nat.mod_eq_of_lt (by omega)
    simp [this]
  · have a1 := (Adv.rfl0 buf).thenU8 0x48 (by omega)
    have a2 := a1.thenU8 opcode (by omega)
    rw [emit_rexw, if_pos rfl, emitted_u8 a2, emitted_u8 a1, emitted_u8 (Adv.rfl0 buf),
      emitted_self, modrm_reg_reg r1 r2 h1.1 h1.2.1]
    have : (192 + 8 * r1 + r2) % 256 = 192 + 8 * r1 + r2 := Nat.mod_eq_of_lt (by omega)
    simp [this]

theorem decodeModRM_reg_reg (opcode r s : Nat) (hr : r < 8) (hs : s < 8) :
    decodeModRM opcode (192 + 8 * r + s) =
      if opcode = 0x8B then some ⟨opcode, r, s⟩
      else if opcode = 0x39 ∨ opcode = 0x31 then some ⟨opcode, s, r⟩ else none := by
  unfold decodeModRM
  have e1 : (192 + 8 * r + s) / 64 = 3 := by omega
  have e2 : (192 + 8 * r + s) / 8 % 8 = r := by omega
  have e3 : (192 + 8 * r + s) % 8 = s := by omega
  rw [if_pos e1, e2, e3]

/-- C30: the bytes that `emit_mov_r_r(reg, srcreg)` and
`emit_cmp_r_r(reg, srcreg)` append decode, under the ModR/M rules for `0x8B`
and `0x39`, to the instruction with first operand `reg` and second operand
`srcreg`; the bytes that `emit_xor_r_r(reg, srcreg)` appends decode, under the
rule for `0x31`, to the instruction with first (destination) operand `srcreg`
and second (source) operand `reg`: the operands are exchanged.  So
`emit_xor_r_r(EAX, ECX)` appends `48 31 C1`, which is `xor rcx, rax`. -/
theorem xor_operands_exchanged (x64 : Bool) (buf buf' : Asm) (reg srcreg : Nat) :
    (emit_mov_r_r x64 buf reg srcreg = some buf' →
      decodeRegInstr (emitted buf buf') = some ⟨0x8B, reg, srcreg⟩) ∧
    (emit_cmp_r_r x64 buf reg srcreg = some buf' →
      decodeRegInstr (emitted buf buf') = some ⟨0x39, reg, srcreg⟩) ∧
    (emit_xor_r_r x64 buf reg srcreg = some buf' →
      decodeRegInstr (emitted buf buf') = some ⟨0x31, srcreg, reg⟩) ∧
    (emit_xor_r_r true (new_assembler_buffer 0x1000) EAX ECX).map
        (fun b => (b.bytes, decodeRegInstr b.bytes)) =
      some ([0x48, 0x31, 0xC1], some ⟨0x31, ECX, EAX⟩) ∧
    (emit_cmp_r_r true (new_assembler_buffer 0x1000) EAX ECX).map
        (fun b => (b.bytes, decodeRegInstr b.bytes)) =
      some ([0x48, 0x39, 0xC8], some ⟨0x39, EAX, ECX⟩) := by
  refine ⟨?_, ?_, ?_, by decide, by decide⟩
  · intro h
    obtain ⟨h1, h2, hb⟩ := emit_op_r_r_bytes _ x64 buf buf' _ _ h
    rw [hb]
    cases x64 <;> simp [decodeRegInstr, decodeModRM_reg_reg _ _ _ h1 h2]
  · intro h
    obtain ⟨h1, h2, hb⟩ := emit_op_r_r_bytes _ x64 buf buf' _ _ h
    rw [hb]
    cases x64 <;> simp [decodeRegInstr, decodeModRM_reg_reg _ _ _ h1 h2]
  · intro h
    obtain ⟨h1, h2, hb⟩ := emit_op_r_r_bytes _ x64 buf buf' _ _ h
    rw [hb]
    cases x64 <;> simp [decodeRegInstr, decodeModRM_reg_reg _ _ _ h1 h2]

/-- C29: of the five emitters that encode a memory operand addressed through
a register, only `emit_mov_rm_rint` appends the SIB byte `0x24` after the
ModR/M byte when that register is `ESP`, and it appends none for another
register.  `emit_add_rm8_imm8`, `emit_cmp_rm8_imm8`, `emit_mov_r8_rm8` and
`emit_mov_rm8_r8` append for `ESP` the opcode, the ModR/M byte (whose `r/m`
field `100` announces a SIB byte) and, for the first two, the immediate, and
nothing else: no SIB byte. -/
theorem sib_byte_only_in_mov_rm_rint (x64 : Bool) (buf buf' : Asm) (reg srcreg imm : Nat) :
    (emit_add_rm8_imm8 buf ESP imm = some buf' →
      emitted buf buf' = [0x80, 0x04, imm % 256]) ∧
    (emit_cmp_rm8_imm8 buf ESP imm = some buf' →
      emitted buf buf' = [0x80, 0x3C, imm % 256]) ∧
    (emit_mov_r8_rm8 buf reg ESP = some buf' → emitted buf buf' = [0x8A, 8 * reg + 4]) ∧
    (emit_mov_rm8_r8 buf ESP srcreg = some buf' →
      emitted buf buf' = [0x88, 8 * srcreg + 4]) ∧
    (emit_mov_rm_rint x64 buf ESP srcreg = some buf' →
      emitted buf buf' = [0x89, 8 * srcreg + 4, 0x24]) ∧
    (reg ≠ ESP → emit_mov_rm_rint x64 buf reg srcreg = some buf' →
      emitted buf buf' = [0x89, 8 * srcreg + reg]) ∧
    (emit_add_rm8_imm8 (new_assembler_buffer 0x1000) ESP 1).map Asm.bytes =
      some [0x80, 0x04, 0x01] ∧
    (emit_add_rm8_imm8 (new_assembler_buffer 0x1000) EBX 1).map Asm.bytes =
      some [0x80, 0x03, 0x01] ∧
    (emit_mov_rm_rint false (new_assembler_buffer 0x1000) ESP EAX).map Asm.bytes =
      some [0x89, 0x04, 0x24] := by
  refine ⟨?_, ?_, ?_, ?_, ?_, ?_, by decide, by decide, by decide⟩
  · intro h
    simp only [emit_add_rm8_imm8, check_space_iff] at h
    split_ifs at h with hc
    cases h
    have a1 := (Adv.rfl0 buf).thenU8 0x80 (by omega)
    have a2 := a1.thenU8 ESP (by omega)
    rw [emitted_u8 a2, emitted_u8 a1, emitted_u8 (Adv.rfl0 buf), emitted_self]
    rfl
  · intro h
    simp only [emit_cmp_rm8_imm8, check_space_iff] at h
    split_ifs at h with hc
    cases h
    have a1 := (Adv.rfl0 buf).thenU8 0x80 (by omega)
    have a2 := a1.thenU8 (0x38 ||| ESP) (by omega)
    rw [emitted_u8 a2, emitted_u8 a1, emitted_u8 (Adv.rfl0 buf), emitted_self]
    rfl
  · intro h
    simp only [emit_mov_r8_rm8, check_space_iff] at h
    split_ifs at h with hc
    cases h
    have a1 := (Adv.rfl0 buf).thenU8 0x8A (by omega)
    rw [emitted_u8 a1, emitted_u8 (Adv.rfl0 buf), emitted_self, modrm_mem reg ESP hc.1 hc.2.1]
    have : (8 * reg + ESP) % 256 = 8 * reg + 4 := by
      have := hc.1
      simp only [ESP]
      omega
    simp [this]
  · intro h
    simp only [emit_mov_rm8_r8, check_space_iff] at h
    split_ifs at h with hc
    cases h
    have a1 := (Adv.rfl0 buf).thenU8 0x88 (by omega)
    rw [emitted_u8 a1, emitted_u8 (Adv.rfl0 buf), emitted_self,
      modrm_mem srcreg ESP hc.2.1 hc.1]
    have : (8 * srcreg + ESP) % 256 = 8 * srcreg + 4 := by
      have := hc.2.1
      simp only [ESP]
      omega
    simp [this]
  · intro h
    simp only [emit_mov_rm_rint, check_space_iff, if_true] at h
    have hs : buf.offset + 3 < buf.buffer_size := by
      cases x64 <;> simp only [Bool.false_eq_true, if_false, if_true] at h <;>
        split_ifs at h <;> omega
    split_ifs at h with hc h3
    all_goals
      cases h
      have a1 := (Adv.rfl0 buf).thenU8 0x89 (by omega)
      have a2 := a1.thenU8 ((srcreg <<< 3) ||| ESP) (by omega)
      rw [emitted_u8 a2, emitted_u8 a1, emitted_u8 (Adv.rfl0 buf), emitted_self,
        modrm_mem srcreg ESP hc.2 hc.1]
      have : (8 * srcreg + ESP) % 256 = 8 * srcreg + 4 := by
        have := hc.2
        simp only [ESP]
        omega
      simp [this]
  · intro hne h
    simp only [emit_mov_rm_rint, check_space_iff, if_neg hne] at h
    have hs : buf.offset + 2 < buf.buffer_size := by
      cases x64 <;> simp only [Bool.false_eq_true, if_false, if_true] at h <;>
        split_ifs at h <;> omega
    split_ifs at h with hc h3
    all_goals
      cases h
      have a1 := (Adv.rfl0 buf).thenU8 0x89 (by omega)
      rw [emitted_u8 a1, emitted_u8 (Adv.rfl0 buf), emitted_self,
        modrm_mem srcreg reg hc.2 hc.1]
      have : (8 * srcreg + reg) % 256 = 8 * srcreg + reg := by
        have := hc.2
        have := hc.1
        omega
      simp [this]

/-! ## Finalization -/

/-- C23: the first call of `finalize_assembler_buffer` on a buffer returns a
non-null pointer only if `mprotect` has made the region read+execute, and
`NULL` when `mprotect` refuses; but the call sets `finalized` before it knows
the answer, so after a refused change a second call (which does not call
`mprotect`, whatever it would answer) returns the non-null buffer address
while the region is still read+write. -/
theorem finalize_non_null_after_refusal (addr : Nat) (m : Int) :
    (∀ r : Region, r.buf.finalized = false →
      ((finalize_assembler_buffer r m).2 ≠ 0 →
        (finalize_assembler_buffer r m).1.prot = Prot.rx) ∧
      (m = -1 → (finalize_assembler_buffer r m).2 = 0)) ∧
    (finalize_assembler_buffer (Region.fresh (new_assembler_buffer (addr + 1))) (-1)).2 = 0 ∧
    (finalize_assembler_buffer (Region.fresh (new_assembler_buffer (addr + 1))) (-1)).1.prot =
      Prot.rw ∧
    (finalize_assembler_buffer
      (finalize_assembler_buffer (Region.fresh (new_assembler_buffer (addr + 1))) (-1)).1 m).2 =
      addr + 1 ∧
    (finalize_assembler_buffer
      (finalize_assembler_buffer (Region.fresh (new_assembler_buffer (addr + 1))) (-1)).1
        m).1.prot = Prot.rw := by
  refine ⟨?_, rfl, rfl, rfl, rfl⟩
  intro r hr
  unfold finalize_assembler_buffer
  rw [if_pos hr]
  constructor
  · intro h
    split_ifs at h ⊢ with h1
    · exact absurd rfl h
    · rfl
  · intro h
    rw [if_pos h]

theorem emit_source_setFinalized (buf : Asm) (f : Bool) (lab : Nat) :
    emit_source (buf.setFinalized f) lab =
      (emit_source buf lab).map (fun b => b.setFinalized f) := by
  unfold emit_source
  show (match buf.heap[lab]? with | none => _ | some l => _) = _
  cases buf.heap[lab]? with
  | none => rfl
  | some l =>
    simp only [check_space, Asm.setFinalized]
    split_ifs <;> rfl

theorem emit_push_label_setFinalized (buf : Asm) (f : Bool) (lab : Nat) :
    emit_push_label (buf.setFinalized f) lab =
      (emit_push_label buf lab).map (fun b => b.setFinalized f) := by
  unfold emit_push_label
  show (match buf.heap[lab]? with | none => _ | some l => _) = _
  cases buf.heap[lab]? with
  | none => rfl
  | some l =>
    simp only [Asm.setFinalized]
    split_ifs <;> rfl

theorem emit_mov_r_immptr_setFinalized (x64 : Bool) (buf : Asm) (f : Bool) (reg imm : Nat) :
    emit_mov_r_immptr x64 (buf.setFinalized f) reg imm =
      (emit_mov_r_immptr x64 buf reg imm).map (fun b => b.setFinalized f) := by
  simp only [emit_mov_r_immptr, check_space, Asm.setFinalized, emit_u8, emit_ptr, emit_rexw]
  split_ifs <;> rfl

theorem emit_call_setFinalized (x64 : Bool) (buf : Asm) (f : Bool) (imm : Nat) :
    emit_call x64 (buf.setFinalized f) imm =
      (emit_call x64 buf imm).map (fun b => b.setFinalized f) := by
  unfold emit_call
  rw [emit_mov_r_immptr_setFinalized]
  cases emit_mov_r_immptr x64 buf EAX imm with
  | none => rfl
  | some b =>
    simp only [Option.map_some', check_space, Asm.setFinalized, emit_u8]
    split_ifs <;> rfl

theorem emit_jcc_setFinalized (buf : Asm) (f : Bool) (lab : Nat) (cc : cc_t) :
    emit_jcc (buf.setFinalized f) lab cc =
      (emit_jcc buf lab cc).map (fun b => b.setFinalized f) := by
  simp only [emit_jcc, check_space, Asm.setFinalized, emit_u8]
  split_ifs
  · exact emit_source_setFinalized (emit_u8 (emit_u8 buf 0x0F) cc.opcode) f lab
  · rfl

/-- No emit operation reads or writes the `finalized` flag: applied to a
buffer with the flag set to `f` it does what it does to the buffer itself. -/
theorem run_setFinalized (x64 : Bool) (op : EmitOp) (buf : Asm) (f : Bool) :
    op.run x64 (buf.setFinalized f) = (op.run x64 buf).map (fun b => b.setFinalized f) := by
  cases op with
  | call imm => exact emit_call_setFinalized x64 buf f imm
  | push_label lab => exact emit_push_label_setFinalized buf f lab
  | mov_r_immptr reg imm => exact emit_mov_r_immptr_setFinalized x64 buf f reg imm
  | je lab => exact emit_jcc_setFinalized buf f lab _
  | jle lab => exact emit_jcc_setFinalized buf f lab _
  | jne lab => exact emit_jcc_setFinalized buf f lab _
  | jmp lab =>
    simp only [EmitOp.run, emit_jmp, check_space, Asm.setFinalized, emit_u8]
    split_ifs
    · exact emit_source_setFinalized (emit_u8 buf 0xE9) f lab
    · rfl
  | _ =>
    simp only [EmitOp.run, emit_add_rm8_imm8, emit_add_r_immz32, emit_and_r_immz32,
      emit_cmp_r_immz32, emit_sub_r_immz32, emit_alu_r_immz32, emit_cmp_rm8_imm8,
      emit_cmp_r_r, emit_mov_r_r, emit_xor_r_r, emit_op_r_r, emit_mov_r8_rm8,
      emit_mov_rm8_r8, emit_mov_rm_rint, emit_pop_r, emit_push_r,
      emit_leave, emit_ret, check_space, Asm.setFinalized, emit_u8, emit_u32, emit_rexw]
    split_ifs <;> rfl

/-- `finalize_assembler_buffer` sets the flag and leaves the rest of the
buffer as it is. -/
theorem finalize_buf (r : Region) (m : Int) :
    (finalize_assembler_buffer r m).1.buf = r.buf.setFinalized true := by
  unfold finalize_assembler_buffer
  split_ifs with h1 h2
  · rfl
  · rfl
  · cases r with
    | mk b p =>
      cases b
      simp only [Asm.setFinalized] at h1 ⊢
      simp only [Bool.not_eq_false] at h1
      subst h1
      rfl

/-! ## A failing `mmap` of the tape -/

theorem setupTape_mmap_error (env : Env) (program : List Char) (timelimit : Option Nat)
    (gcfp pcfp : Nat) (sc : ScanState) (L : Layout) (o : Outcome)
    (h : setupTape env program timelimit gcfp pcfp sc L = Setup.done (some o))
    (ho : o.status = interpret_mmap_error) : env.mmap_tape = 0 := by
  unfold setupTape at h
  split_ifs at h with h1
  · exact h1
  · cases h; cases ho
  · cases h; cases ho
  · cases h; cases ho
  · cases h; cases ho
  · have := setupCode_status _ _ _ _ _ _ _ _ h
    rw [ho] at this
    cases this

theorem setup_mmap_error (env : Env) (program : List Char) (max_data_size : Nat)
    (timelimit : Option Nat) (gcfp pcfp : Nat) (o : Outcome)
    (h : setup env program max_data_size timelimit gcfp pcfp = Setup.done (some o))
    (ho : o.status = interpret_mmap_error) : env.mmap_tape = 0 := by
  unfold setup at h
  by_cases h1 : env.page_size_ ≤ 0
  · rw [if_pos h1] at h; cases h; cases ho
  · rw [if_neg h1] at h
    cases hb : balanceScan program with
    | none => rw [hb] at h; cases h; cases ho
    | some sc =>
      rw [hb] at h
      simp only at h
      by_cases h2 : env.malloc_instructions = false
      · rw [if_pos h2] at h; cases h; cases ho
      · rw [if_neg h2] at h
        cases hl : tapeLayout env.x64 (toSize env.x64 env.page_size_) max_data_size
            (condense program) with
        | none => rw [hl] at h; cases h; cases ho
        | some L =>
          rw [hl] at h
          exact setupTape_mmap_error _ _ _ _ _ _ _ _ h ho

/-- C21: `interpret` tests the result of `mmap` for the tape against `NULL`,
not against `MAP_FAILED`.  It returns the mmap error only when `mmap` returns
`NULL`; `MAP_FAILED`, the value with which `mmap` reports a failure, is not
`NULL`, so a refused mapping is not recognised: the call goes on with the
address `MAP_FAILED`, and with `mprotect` refusing that address (it is not
page-aligned) `interpret` returns the guard error (1) instead of the mmap
error (4). -/
theorem map_failed_not_recognised (env : Env) (program : List Char) (max_data_size : Nat)
    (timelimit : Option Nat) (gcfp pcfp : Nat) (input : List Nat) (fuel : Nat) :
    (env.mmap_tape = 0 ∨
      (interpret env program max_data_size timelimit gcfp pcfp input fuel).map Outcome.status ≠
        some interpret_mmap_error) ∧
    MAP_FAILED env.x64 ≠ 0 ∧
    envMapFailed.mmap_tape = MAP_FAILED envMapFailed.x64 ∧
    Balanced ['+'] ∧
    interpret envMapFailed ['+'] 30000 none 0 0 [] 0 =
      some ⟨interpret_guard_error, []⟩ := by
  refine ⟨?_, ?_, rfl, (balanceScan_isSome_iff _).1 ⟨⟨0, 0, 0⟩, by decide⟩, by decide⟩
  · by_cases h0 : env.mmap_tape = 0
    · exact Or.inl h0
    · right
      intro h
      unfold interpret at h
      cases hs : setup env program max_data_size timelimit gcfp pcfp with
      | done r =>
        rw [hs] at h
        cases r with
        | none => cases h
        | some o =>
          simp only [Option.map_some', Option.some.injEq] at h
          exact h0 (setup_mmap_error _ _ _ _ _ _ o hs h)
      | run e instructions =>
        rw [hs] at h
        simp only at h
        cases hr : runPhase env e instructions timelimit input fuel with
        | none => rw [hr] at h; cases h
        | some o =>
          rw [hr] at h
          simp only [Option.map_some', Option.some.injEq] at h
          have := runPhase_status _ _ _ _ _ _ _ hr
          rw [h] at this
          rcases this with h1 | h1 | h1 | h1 | h1 | h1 <;> cases h1
  · cases env.x64 <;> decide

/-! ## Resources on the failure returns of `interpret` -/

theorem eventsHandlers_done (env : Env) (timelimit : Option Nat) (e : JitEnv)
    (r : List instruction_t) (o : Outcome)
    (h : setupHandlers env timelimit e r = Setup.done (some o)) :
    eventsHandlers env timelimit =
      [Event.release Resource.instructions, Event.release Resource.buffer] := by
  unfold setupHandlers at h
  unfold eventsHandlers
  split_ifs at h ⊢ <;> first | rfl | cases h

theorem eventsCode_done (env : Env) (program : List Char) (timelimit : Option Nat)
    (gcfp pcfp : Nat) (sc : ScanState) (L : Layout) (o : Outcome)
    (h : setupCode env program timelimit gcfp pcfp sc L = Setup.done (some o)) :
    eventsCode env program timelimit gcfp pcfp sc L =
      [Event.release Resource.stack, Event.acquire Resource.buffer,
       Event.release Resource.instructions, Event.release Resource.branches,
       Event.release Resource.instructions, Event.release Resource.buffer] := by
  unfold setupCode at h
  unfold eventsCode
  cases hr : resolve sc.max_stack_size (condense program) with
  | none => rw [hr] at h; cases h
  | some instructions =>
    cases hb : env.buffer with
    | none => rw [hr, hb] at h; cases h
    | some addr =>
      rw [hr, hb] at h
      simp only at h ⊢
      cases hg : generate (genEnvOf env L gcfp pcfp) addr sc.branch_count instructions with
      | none => rw [hg] at h; cases h
      | some fin =>
        rw [hg] at h
        simp only at h ⊢
        rw [eventsHandlers_done env timelimit _ _ o h]

theorem eventsTape_handler (env : Env) (program : List Char) (timelimit : Option Nat)
    (gcfp pcfp : Nat) (sc : ScanState) (L : Layout) (o : Outcome)
    (h : setupTape env program timelimit gcfp pcfp sc L = Setup.done (some o))
    (ho : o.status = interpret_handler) :
    eventsTape env program timelimit gcfp pcfp sc L =
      [Event.acquire Resource.tape, Event.acquire Resource.stack,
       Event.acquire Resource.branches,
       Event.release Resource.stack, Event.acquire Resource.buffer,
       Event.release Resource.instructions, Event.release Resource.branches,
       Event.release Resource.instructions, Event.release Resource.buffer] := by
  unfold setupTape at h
  unfold eventsTape
  split_ifs at h ⊢
  · cases h; cases ho
  · cases h; cases ho
  · cases h; cases ho
  · cases h; cases ho
  · cases h; cases ho
  · rw [eventsCode_done _ _ _ _ _ _ _ o h]

/-- Whenever `interpret` returns the handler status, it has released the
instruction array twice and has not released the tape. -/
theorem events_handler (env : Env) (program : List Char) (max_data_size : Nat)
    (timelimit : Option Nat) (gcfp pcfp : Nat) (o : Outcome)
    (h : setup env program max_data_size timelimit gcfp pcfp = Setup.done (some o))
    (ho : o.status = interpret_handler) :
    interpretEvents env program max_data_size timelimit gcfp pcfp =
      [Event.acquire Resource.instructions,
       Event.acquire Resource.tape, Event.acquire Resource.stack,
       Event.acquire Resource.branches,
       Event.release Resource.stack, Event.acquire Resource.buffer,
       Event.release Resource.instructions, Event.release Resource.branches,
       Event.release Resource.instructions, Event.release Resource.buffer] := by
  unfold setup at h
  unfold interpretEvents
  by_cases h1 : env.page_size_ ≤ 0
  · rw [if_pos h1] at h; cases h; cases ho
  · rw [if_neg h1] at h ⊢
    cases hb : balanceScan program with
    | none => rw [hb] at h; cases h; cases ho
    | some sc =>
      rw [hb] at h
      simp only at h ⊢
      by_cases h2 : env.malloc_instructions = false
      · rw [if_pos h2] at h; cases h; cases ho
      · rw [if_neg h2] at h ⊢
        cases hl : tapeLayout env.x64 (toSize env.x64 env.page_size_) max_data_size
            (condense program) with
        | none => rw [hl] at h; cases h; cases ho
        | some L =>
          rw [hl] at h
          simp only at h ⊢
          rw [eventsTape_handler _ _ _ _ _ _ _ o h ho]

/-- C24: the failure returns of `interpret` do not release every acquired
resource exactly once.  Every return of the handler status comes after
`free(instructions)` has been called twice (once after the assembly, once more
before the return) and without `munmap` of the tape; and the returns after a
failing `mprotect` of a guard free the instruction array but leave the tape
mapped.  Shown for every call that returns the handler status, and on the
program `+` with `sigaction` refusing the handler and with `mprotect` refusing
the reverse guard. -/
theorem failure_returns_leak_and_free_twice (env : Env) (program : List Char)
    (max_data_size : Nat) (timelimit : Option Nat) (gcfp pcfp : Nat) (o : Outcome) :
    (setup env program max_data_size timelimit gcfp pcfp = Setup.done (some o) →
      o.status = interpret_handler →
      (interpretEvents env program max_data_size timelimit gcfp pcfp).count
          (Event.release Resource.instructions) = 2 ∧
      (interpretEvents env program max_data_size timelimit gcfp pcfp).count
          (Event.release Resource.tape) = 0 ∧
      Event.acquire Resource.tape ∈
        interpretEvents env program max_data_size timelimit gcfp pcfp) ∧
    interpret envSigactionRefused ['+'] 30000 none 0 0 [] 0 = some ⟨interpret_handler, []⟩ ∧
    ¬ ReleasedOnce (interpretEvents envSigactionRefused ['+'] 30000 none 0 0) ∧
    interpret envGuardRefused ['+'] 30000 none 0 0 [] 0 =
      some ⟨interpret_guard_error, []⟩ ∧
    interpretEvents envGuardRefused ['+'] 30000 none 0 0 =
      [Event.acquire Resource.instructions, Event.acquire Resource.tape,
       Event.release Resource.instructions] ∧
    ¬ ReleasedOnce (interpretEvents envGuardRefused ['+'] 30000 none 0 0) := by
  have e1 : interpret envSigactionRefused ['+'] 30000 none 0 0 [] 0 =
      some ⟨interpret_handler, []⟩ := by decide!
  have e2 : interpretEvents envGuardRefused ['+'] 30000 none 0 0 =
      [Event.acquire Resource.instructions, Event.acquire Resource.tape,
       Event.release Resource.instructions] := by decide
  refine ⟨?_, e1, ?_, by decide, e2, ?_⟩
  · intro h ho
    rw [events_handler env program max_data_size timelimit gcfp pcfp o h ho]
    decide
  · have hs : setup envSigactionRefused ['+'] 30000 none 0 0 =
        Setup.done (some ⟨interpret_handler, []⟩) := by decide!
    rw [events_handler _ _ _ _ _ _ _ hs rfl]
    intro hr
    have := hr Resource.instructions (by decide)
    revert this
    decide
  · rw [e2]
    intro hr
    have := hr Resource.tape (by decide)
    revert this
    decide

/-! ## Success of the emit operations -/

theorem push_label_isSome (buf : Asm) (lab : Nat) (h : buf.flags[lab]? = some false) :
    (emit_push_label buf lab).isSome = true := by
  unfold emit_push_label
  unfold Asm.flags at h
  rw [List.getElem?_map] at h
  cases hl : buf.heap[lab]? with
  | none => rw [hl] at h; cases h
  | some l =>
    rw [hl] at h
    simp only [Option.map_some', Option.some.injEq] at h
    simp [h]

theorem flags_length (buf : Asm) : buf.flags.length = buf.heap.length := by
  simp [Asm.flags]

/-- An emit operation whose register and label arguments are as its
assertions want them and which finds the space it asserts succeeds. -/
theorem EmitOp.ok (x64 : Bool) (op : EmitOp) (buf : Asm) (hr : op.regsOK)
    (hl : op.labelOK buf.flags) (hs : buf.offset + op.space x64 < buf.buffer_size) :
    (op.run x64 buf).isSome = true := by
  cases op with
  | push_label lab => exact push_label_isSome buf lab hl
  | call imm =>
    simp only [EmitOp.space] at hs
    simp only [EmitOp.run, emit_call]
    have h1 : (emit_mov_r_immptr x64 buf EAX imm).isSome = true := by
      simp only [emit_mov_r_immptr, check_space_iff]
      rw [if_pos ⟨by decide, by omega⟩]
      rfl
    obtain ⟨b, hb⟩ := Option.isSome_iff_exists.1 h1
    have a := emit_mov_r_immptr_adv x64 buf b EAX imm hb
    rw [hb]
    simp only [check_space_iff]
    rw [if_pos (by rw [a.1, a.2.2.1]; omega)]
    rfl
  | je lab =>
    simp only [EmitOp.space] at hs
    simp only [EmitOp.run, emit_je, emit_jcc, check_space_iff]
    rw [if_pos (by omega)]
    exact source_isSome _ lab (by rw [← flags_length]; exact hl) (by simp; omega)
  | jle lab =>
    simp only [EmitOp.space] at hs
    simp only [EmitOp.run, emit_jle, emit_jcc, check_space_iff]
    rw [if_pos (by omega)]
    exact source_isSome _ lab (by rw [← flags_length]; exact hl) (by simp; omega)
  | jne lab =>
    simp only [EmitOp.space] at hs
    simp only [EmitOp.run, emit_jne, emit_jcc, check_space_iff]
    rw [if_pos (by omega)]
    exact source_isSome _ lab (by rw [← flags_length]; exact hl) (by simp; omega)
  | jmp lab =>
    simp only [EmitOp.space] at hs
    simp only [EmitOp.run, emit_jmp, check_space_iff]
    rw [if_pos (by omega)]
    exact source_isSome _ lab (by rw [← flags_length]; exact hl) (by simp; omega)
  | _ =>
    simp only [EmitOp.space, EmitOp.regsOK] at hs hr
    simp only [EmitOp.run, emit_add_rm8_imm8, emit_add_r_immz32, emit_and_r_immz32,
      emit_cmp_r_immz32, emit_sub_r_immz32, emit_alu_r_immz32, emit_cmp_rm8_imm8,
      emit_cmp_r_r, emit_mov_r_r, emit_xor_r_r, emit_op_r_r, emit_mov_r8_rm8,
      emit_mov_rm8_r8, emit_mov_r_immptr, emit_mov_rm_rint, emit_pop_r, emit_push_r,
      emit_leave, emit_ret, check_space_iff]
    split_ifs at hs ⊢ <;> first | rfl | omega

/-! ## Sequences of emit operations -/

theorem EmitOp.label_of_run (x64 : Bool) (op : EmitOp) (buf buf' : Asm)
    (h : op.run x64 buf = some buf') : op.labelOK buf.flags := by
  have src : ∀ (b b' : Asm) (lab : Nat), emit_source b lab = some b' →
      lab < b.flags.length := by
    intro b b' lab hs
    obtain ⟨l, hl, _⟩ := emit_source_spec b b' lab hs
    rw [flags_length]
    exact getElem?_lt hl
  cases op with
  | push_label lab =>
    obtain ⟨l, hl, hr, _⟩ := emit_push_label_eff buf buf' lab h
    simp only [EmitOp.labelOK, Asm.flags, List.getElem?_map, hl, Option.map_some', hr]
  | je lab =>
    simp only [EmitOp.run, emit_je, emit_jcc] at h
    split_ifs at h
    have := src _ _ _ h
    exact this
  | jle lab =>
    simp only [EmitOp.run, emit_jle, emit_jcc] at h
    split_ifs at h
    have := src _ _ _ h
    exact this
  | jne lab =>
    simp only [EmitOp.run, emit_jne, emit_jcc] at h
    split_ifs at h
    have := src _ _ _ h
    exact this
  | jmp lab =>
    simp only [EmitOp.run, emit_jmp] at h
    split_ifs at h
    have := src _ _ _ h
    exact this
  | _ => trivial

theorem EmitOp.flags_of_run (x64 : Bool) (op : EmitOp) (buf buf' : Asm)
    (h : op.run x64 buf = some buf') :
    buf'.flags = flagsStep buf.flags op ∧ buf'.offset = buf.offset + op.size x64 ∧
    (0 < op.size x64 → buf.offset + op.size x64 < buf.buffer_size) ∧
    buf'.buffer_size = buf.buffer_size := by
  by_cases hp : ∀ lab, op ≠ EmitOp.push_label lab
  · obtain ⟨a1, a2, a3, _, _, a6, _⟩ := EmitOp.adv x64 op buf buf' h hp
    refine ⟨?_, a1, a2, a3⟩
    rw [a6]
    cases op <;> first | rfl | exact absurd rfl (hp _)
  · push_neg at hp
    obtain ⟨lab, rfl⟩ := hp
    obtain ⟨l, _, _, _, ho, _, hs, _, _, hf, _⟩ := emit_push_label_eff buf buf' lab h
    exact ⟨hf, by simp [EmitOp.size, EmitOp.space, ho], fun h0 => by
      simp [EmitOp.size, EmitOp.space] at h0, hs⟩

theorem opsSize_cons (x64 : Bool) (op : EmitOp) (ops : List EmitOp) :
    opsSize x64 (op :: ops) = op.size x64 + opsSize x64 ops := by
  simp [opsSize]

/-- What a sequence of emit operations that passes its assertions has done,
and what it has found. -/
theorem runOps_eff (x64 : Bool) (ops : List EmitOp) :
    ∀ (b b' : Asm), runOps x64 ops b = some b' →
      b'.offset = b.offset + opsSize x64 ops ∧
      (0 < opsSize x64 ops → b.offset + opsSize x64 ops < b.buffer_size) ∧
      b'.buffer_size = b.buffer_size ∧ b'.flags = ops.foldl flagsStep b.flags ∧
      labelsReady ops b.flags := by
  induction ops with
  | nil =>
    intro b b' h
    cases h
    exact ⟨rfl, fun h => absurd h (lt_irrefl 0), rfl, rfl, trivial⟩
  | cons op rest ih =>
    intro b b' h
    simp only [runOps] at h
    cases h1 : op.run x64 b with
    | none => rw [h1] at h; cases h
    | some b1 =>
      rw [h1] at h
      simp only [Option.some_bind] at h
      obtain ⟨f1, o1, s1, z1⟩ := EmitOp.flags_of_run x64 op b b1 h1
      obtain ⟨o2, s2, z2, f2, l2⟩ := ih b1 b' h
      rw [opsSize_cons]
      refine ⟨by omega, ?_, by rw [z2, z1], by rw [f2, f1]; rfl,
        ⟨EmitOp.label_of_run x64 op b b1 h1, by rw [← f1]; exact l2⟩⟩
      intro hpos
      by_cases h2 : 0 < opsSize x64 rest
      · have := s2 h2
        omega
      · have := s1 (by omega)
        omega

/-- A sequence of emit operations passes its assertions when the registers
are below eight, the labels are ready and the bytes fit. -/
theorem runOps_ok (x64 : Bool) (ops : List EmitOp) :
    ∀ (b : Asm), (∀ op ∈ ops, op.regsOK) → (∀ op ∈ ops, op.space x64 = op.size x64) →
      labelsReady ops b.flags →
      (0 < opsSize x64 ops → b.offset + opsSize x64 ops < b.buffer_size) →
      (runOps x64 ops b).isSome = true := by
  induction ops with
  | nil => intro b _ _ _ _; rfl
  | cons op rest ih =>
    intro b hr hz hl hs
    rw [opsSize_cons] at hs
    have h1 : (op.run x64 b).isSome = true := by
      by_cases hp : ∀ lab, op ≠ EmitOp.push_label lab
      · have := EmitOp.size_pos x64 op hp
        refine EmitOp.ok x64 op b (hr op (List.mem_cons_self _ _)) hl.1 ?_
        rw [hz op (List.mem_cons_self _ _)]
        have := hs (by omega)
        omega
      · push_neg at hp
        obtain ⟨lab, rfl⟩ := hp
        exact push_label_isSome b lab hl.1
    obtain ⟨b1, hb1⟩ := Option.isSome_iff_exists.1 h1
    obtain ⟨f1, o1, s1, z1⟩ := EmitOp.flags_of_run x64 op b b1 hb1
    simp only [runOps, hb1, Option.some_bind]
    refine ih b1 (fun o ho => hr o (List.mem_cons_of_mem _ ho))
      (fun o ho => hz o (List.mem_cons_of_mem _ ho)) (by rw [f1]; exact hl.2) ?_
    intro hpos
    have := hs (by omega)
    rw [o1, z1]
    omega
theorem addLabels_one (b : Asm) : addLabels 1 b = (new_label b).1 := rfl

theorem addLabels_two (b : Asm) : addLabels 2 b = (new_label (new_label b).1).1 := rfl

theorem runOps_nil (x64 : Bool) (b : Asm) : runOps x64 [] b = some b := rfl

theorem runOps_cons (x64 : Bool) (op : EmitOp) (ops : List EmitOp) (b : Asm) :
    runOps x64 (op :: ops) b = (op.run x64 b).bind (runOps x64 ops) := rfl

theorem runOps_append (x64 : Bool) (ops1 ops2 : List EmitOp) (b : Asm) :
    runOps x64 (ops1 ++ ops2) b = (runOps x64 ops1 b).bind (runOps x64 ops2) := by
  induction ops1 generalizing b with
  | nil => rfl
  | cons op rest ih =>
    simp only [List.cons_append, runOps_cons]
    cases op.run x64 b with
    | none => rfl
    | some b1 => exact ih b1

theorem bind_some_fun {α : Type} (x : Option α) : (x.bind fun a => some a) = x := by
  cases x <;> rfl

theorem genStep_plan (env : GenEnv) (branches : List (Nat × Nat)) (st : Asm × Nat)
    (i : instruction_t) :
    genStep env branches st i =
      match stepPlan env branches st.1.heap.length st.2 i with
      | none => none
      | some (nl, ops, k) => (runOps env.x64 ops (addLabels nl st.1)).map (fun b => (b, k)) := by
  unfold genStep stepPlan
  cases i.op with
  | op_invalid => rfl
  | op_right =>
    simp only [genRight]
    split_ifs
    · rfl
    · simp [runOps, EmitOp.run, addLabels]
  | op_modify =>
    simp only [genModify]
    split_ifs
    · rfl
    · simp [runOps, EmitOp.run, addLabels]
  | op_put =>
    simp only [genPut, putOps, genPutArg, runOps, addLabels, bind_some_fun]
    cases env.x64 <;> rfl
  | op_get =>
    simp only [genGet, genGetSeq, getOps, runOps, addLabels_one, bind_some_fun]
    rfl
  | op_left =>
    simp only [genLeft]
    split_ifs with h0
    · rfl
    · have e2 : (new_label (new_label st.1).1).2 = st.1.heap.length + 1 := by
        simp [new_label]
      simp only [genLeftSeq, genLeftCmp, leftOps, addLabels_two]
      cases hx : env.x64
      · simp only [if_true, List.singleton_append, runOps, bind_some_fun, e2]
        rfl
      · simp only [Bool.true_eq_false, if_false, List.cons_append, List.nil_append, runOps,
          bind_some_fun, e2, Option.bind_eq_bind, Option.bind_assoc]
        rfl
  | op_if =>
    simp only [genIf]
    cases branches[st.2]? with
    | none => rfl
    | some br =>
      simp only [Option.map_some', runOps, bind_some_fun]
      rfl
  | op_endif =>
    simp only [genEndif]
    cases branches[i.branch]? with
    | none => rfl
    | some br =>
      simp only [Option.map_some', runOps, bind_some_fun]
      rfl

/-! ## The invariant of the assembly loop -/

theorem closers_append_one (pre : List instruction_t) (x : instruction_t) :
    closers (pre ++ [x]) = closers pre ++ (if x.op = op_endif then [x.branch] else []) := by
  unfold closers
  rw [List.filter_append, List.map_append]
  congr 1
  by_cases h : x.op = op_endif <;> simp [List.filter, h]

theorem ifCount_append_one (pre : List instruction_t) (x : instruction_t) :
    ifCount (pre ++ [x]) = ifCount pre + (if x.op = op_if then 1 else 0) := by
  rw [ifCount_append, ifCount_cons, ifCount_nil, Nat.add_zero]

theorem entryLabels_append_one (pre : List instruction_t) (x : instruction_t) :
    entryLabels (pre ++ [x]) =
      entryLabels pre + ((if x.op = op_left then 2 else 0) + (if x.op = op_get then 1 else 0)) := by
  unfold entryLabels
  rw [List.countP_append, List.countP_append]
  by_cases h1 : x.op = op_left <;> by_cases h2 : x.op = op_get <;>
    simp [List.countP_cons, h1, h2] <;> omega

theorem LInv_same (B : Nat) (pre : List instruction_t) (x : instruction_t) (b b' : Asm) (k : Nat)
    (h1 : x.op ≠ op_left) (h2 : x.op ≠ op_get) (h3 : x.op ≠ op_if) (h4 : x.op ≠ op_endif)
    (hf : b'.flags = b.flags) (h : LInv B pre (b, k)) : LInv B (pre ++ [x]) (b', k) := by
  obtain ⟨a1, a2, a3, a4, a5⟩ := h
  simp only [LInv, hf, closers_append_one, ifCount_append_one, entryLabels_append_one, if_neg h1,
    if_neg h2, if_neg h3, if_neg h4, List.append_nil, Nat.add_zero] at a1 a2 a3 a4 a5 ⊢
  exact ⟨a1, a2, a3, a4, a5⟩

theorem LInv_new (B : Nat) (pre : List instruction_t) (x : instruction_t) (b b' : Asm) (k n : Nat)
    (hn : n = (if x.op = op_left then 2 else 0) + (if x.op = op_get then 1 else 0))
    (h3 : x.op ≠ op_if) (h4 : x.op ≠ op_endif)
    (hf : b'.flags = b.flags ++ List.replicate n true) (h : LInv B pre (b, k)) :
    LInv B (pre ++ [x]) (b', k) := by
  obtain ⟨a1, a2, a3, a4, a5⟩ := h
  simp only at a1 a2 a3 a4 a5
  simp only [LInv, hf, closers_append_one, ifCount_append_one, entryLabels_append_one,
    if_neg h3, if_neg h4, List.append_nil, Nat.add_zero, ← hn, List.length_append,
    List.length_replicate]
  refine ⟨a1, by omega, ?_, ?_, ?_⟩
  · intro j hj
    rw [List.getElem?_append_left (by omega)]
    exact a3 j hj
  · intro j hj
    rw [List.getElem?_append_left (by omega)]
    exact a4 j hj
  · intro lab h1 h2
    by_cases hl : lab < b.flags.length
    · rw [List.getElem?_append_left hl]
      exact a5 lab h1 hl
    · rw [List.getElem?_append_right (by omega), List.getElem?_replicate]
      rw [if_pos (by omega)]

theorem LInv_if (B : Nat) (pre : List instruction_t) (x : instruction_t) (b b' : Asm) (k : Nat)
    (hx : x.op = op_if) (hk : k < B)
    (hf : b'.flags = b.flags.set (2 * k) true) (h : LInv B pre (b, k)) :
    LInv B (pre ++ [x]) (b', k + 1) := by
  obtain ⟨a1, a2, a3, a4, a5⟩ := h
  simp only at a1 a2 a3 a4 a5
  have h1 : x.op ≠ op_left := by rw [hx]; decide
  have h2 : x.op ≠ op_get := by rw [hx]; decide
  have h4 : x.op ≠ op_endif := by rw [hx]; decide
  simp only [LInv, hf, closers_append_one, ifCount_append_one, entryLabels_append_one,
    if_neg h1, if_neg h2, if_neg h4, if_pos hx, List.append_nil, Nat.add_zero,
    List.length_set]
  refine ⟨by omega, a2, ?_, ?_, ?_⟩
  · intro j hj
    by_cases hjk : j = k
    · subst hjk
      rw [List.getElem?_set_self (by omega)]
      simp only [true_iff]
      omega
    · rw [List.getElem?_set_ne (by omega), a3 j hj]
      omega
  · intro j hj
    rw [List.getElem?_set_ne (by omega)]
    exact a4 j hj
  · intro lab h1 h2
    rw [List.getElem?_set_ne (by omega)]
    exact a5 lab h1 h2

theorem LInv_endif (B : Nat) (pre : List instruction_t) (x : instruction_t) (b b' : Asm)
    (k : Nat) (hx : x.op = op_endif) (hj : x.branch < B)
    (hf : b'.flags = b.flags.set (2 * x.branch + 1) true) (h : LInv B pre (b, k)) :
    LInv B (pre ++ [x]) (b', k) := by
  obtain ⟨a1, a2, a3, a4, a5⟩ := h
  simp only at a1 a2 a3 a4 a5
  have h1 : x.op ≠ op_left := by rw [hx]; decide
  have h2 : x.op ≠ op_get := by rw [hx]; decide
  have h3 : x.op ≠ op_if := by rw [hx]; decide
  simp only [LInv, hf, closers_append_one, ifCount_append_one, entryLabels_append_one,
    if_neg h1, if_neg h2, if_neg h3, if_pos hx, List.append_nil, Nat.add_zero,
    List.length_set]
  refine ⟨a1, a2, ?_, ?_, ?_⟩
  · intro j hj'
    rw [List.getElem?_set_ne (by omega)]
    exact a3 j hj'
  · intro j hj'
    by_cases hjk : j = x.branch
    · subst hjk
      rw [List.getElem?_set_self (by omega)]
      simp
    · rw [List.getElem?_set_ne (by omega), a4 j hj']
      simp [hjk]
  · intro lab h1 h2
    rw [List.getElem?_set_ne (by omega)]
    exact a5 lab h1 h2

theorem new_label_flags (b : Asm) : (new_label b).1.flags = b.flags ++ [false] := by
  simp [new_label, Asm.flags]

theorem addLabels_spec (n : Nat) : ∀ b : Asm,
    (addLabels n b).flags = b.flags ++ List.replicate n false ∧
    (addLabels n b).offset = b.offset ∧ (addLabels n b).buffer_size = b.buffer_size ∧
    (addLabels n b).buffer = b.buffer := by
  induction n with
  | zero => intro b; simp [addLabels]
  | succ n ih =>
    intro b
    obtain ⟨h1, h2, h3, h4⟩ := ih (new_label b).1
    simp only [addLabels]
    refine ⟨?_, h2, h3, h4⟩
    rw [h1, new_label_flags, List.append_assoc]
    rfl

theorem loopLabels_get (B k : Nat) :
    (loopLabels B)[k]? = if k < B then some (2 * k, 2 * k + 1) else none := by
  unfold loopLabels
  rw [List.getElem?_map]
  by_cases h : k < B
  · rw [if_pos h, List.getElem?_range h]
    rfl
  · rw [if_neg h, List.getElem?_eq_none (by simpa using h)]
    rfl

theorem set_at_length {α : Type} (l : List α) (a b : α) (rest : List α) :
    (l ++ a :: rest).set l.length b = l ++ b :: rest := by
  induction l with
  | nil => rfl
  | cons x l ih => simp [ih]

theorem set_at_length_succ {α : Type} (l : List α) (a b c : α) (rest : List α) :
    (l ++ a :: b :: rest).set (l.length + 1) c = l ++ a :: c :: rest := by
  induction l with
  | nil => rfl
  | cons x l ih => simp [ih]

@[simp] theorem getElem?_at_length {α : Type} (l : List α) (a : α) (rest : List α) :
    (l ++ a :: rest)[l.length]? = some a := by
  rw [List.getElem?_append_right (le_refl _)]
  simp

@[simp] theorem getElem?_at_length_succ {α : Type} (l : List α) (a b : α) (rest : List α) :
    (l ++ a :: b :: rest)[l.length + 1]? = some b := by
  rw [List.getElem?_append_right (by omega)]
  simp

theorem getElem_at_length {α : Type} (l : List α) (a : α) (rest : List α)
    (h : l.length < (l ++ a :: rest).length) : (l ++ a :: rest)[l.length] = a := by
  have := getElem?_at_length l a rest
  rw [List.getElem?_eq_getElem h] at this
  exact Option.some.inj this

theorem getElem_at_length_succ {α : Type} (l : List α) (a b : α) (rest : List α)
    (h : l.length + 1 < (l ++ a :: b :: rest).length) :
    (l ++ a :: b :: rest)[l.length + 1] = b := by
  have := getElem?_at_length_succ l a b rest
  rw [List.getElem?_eq_getElem h] at this
  exact Option.some.inj this

/-- The plan of a step: what it needs of the labels and what it leaves. -/
theorem stepPlan_spec (env : GenEnv) (B : Nat) (fl : List Bool) (k : Nat) (x : instruction_t)
    (hv : x.op = op_left → x.val ≠ 0) (hi : x.op ≠ op_invalid) :
    (x.op = op_if → k < B) → (x.op = op_endif → x.branch < B) →
    ∃ nl ops k', stepPlan env (loopLabels B) fl.length k x = some (nl, ops, k') ∧
      opsSize env.x64 ops = stepSize env.x64 x ∧ (∀ op ∈ ops, op.regsOK) ∧
      (∀ op ∈ ops, op.space env.x64 = op.size env.x64) ∧
      nl = (if x.op = op_left then 2 else 0) + (if x.op = op_get then 1 else 0) ∧
      k' = k + (if x.op = op_if then 1 else 0) ∧
      ops.foldl flagsStep (fl ++ List.replicate nl false) =
        (if x.op = op_if then fl.set (2 * k) true
         else if x.op = op_endif then fl.set (2 * x.branch + 1) true
         else fl ++ List.replicate nl true) ∧
      (labelsReady ops (fl ++ List.replicate nl false) ↔
        ((x.op = op_if → 2 * k + 1 < fl.length ∧ fl[2 * k]? = some false) ∧
         (x.op = op_endif → 2 * x.branch < fl.length ∧ fl[2 * x.branch + 1]? = some false))) := by
  intro hif hend
  obtain ⟨x64, tape_start, gcfp, pcfp⟩ := env
  unfold stepPlan
  cases hx : x.op with
  | op_invalid => exact absurd hx hi
  | op_right =>
    by_cases h0 : x.val = 0
    · refine ⟨_, _, _, rfl, ?_, ?_, ?_, by simp, by simp, ?_, ?_⟩
      · simp [stepSize, hx, h0, opsSize]
      · simp [h0]
      · simp [h0]
      · simp [h0]
      · simp [h0, labelsReady]
    · refine ⟨_, _, _, rfl, ?_, ?_, ?_, by simp, by simp, ?_, ?_⟩
      · cases x64 <;> simp [stepSize, hx, h0, opsSize, EmitOp.size, EmitOp.space, ptrreg, EBX, EAX]
      · simp [h0, EmitOp.regsOK, ptrreg, EBX]
      · simp [h0, EmitOp.size]
      · simp [h0, flagsStep]
      · simp [h0, labelsReady, EmitOp.labelOK]
  | op_modify =>
    by_cases h0 : (x.val % 256).toNat = 0
    · refine ⟨_, _, _, rfl, ?_, ?_, ?_, by simp, by simp, ?_, ?_⟩
      · simp [stepSize, hx, h0, opsSize]
      · simp [h0]
      · simp [h0]
      · simp [h0]
      · simp [h0, labelsReady]
    · refine ⟨_, _, _, rfl, ?_, ?_, ?_, by simp, by simp, ?_, ?_⟩
      · simp [stepSize, hx, h0, opsSize, EmitOp.size, EmitOp.space]
      · simp [h0, EmitOp.regsOK, ptrreg, EBX]
      · simp [h0, EmitOp.size]
      · simp [h0, flagsStep]
      · simp [h0, labelsReady, EmitOp.labelOK]
  | op_put =>
    refine ⟨_, _, _, rfl, ?_, ?_, ?_, by simp, by simp, ?_, ?_⟩
    · cases x64 <;>
        simp [stepSize, hx, opsSize, putOps, EmitOp.size, EmitOp.space, ESP, wordBytes]
    · cases x64 <;> simp [putOps, EmitOp.regsOK, ptrreg, EBX, EAX, EDI, ESP]
    · cases x64 <;> simp [putOps, EmitOp.size, EmitOp.space, ESP]
    · cases x64 <;> simp [putOps, flagsStep]
    · cases x64 <;> simp [putOps, labelsReady, EmitOp.labelOK, flagsStep]
  | op_get =>
    refine ⟨_, _, _, rfl, ?_, ?_, ?_, by simp, by simp, ?_, ?_⟩
    · cases x64 <;>
        simp [stepSize, hx, opsSize, getOps, EmitOp.size, EmitOp.space, EAX, wordBytes]
    · simp [getOps, EmitOp.regsOK, ptrreg, EBX, EAX]
    · simp [getOps, EmitOp.size]
    · simp [getOps, flagsStep, set_at_length]
    · simp [getOps, labelsReady, EmitOp.labelOK, flagsStep]
  | op_left =>
    have h0 : x.val ≠ 0 := hv hx
    refine ⟨2, leftOps ⟨x64, tape_start, gcfp, pcfp⟩ x.val fl.length (fl.length + 1), k,
      by simp only [if_neg h0], ?_, ?_, ?_, by simp, by simp, ?_, ?_⟩
    · cases x64 <;>
        simp [stepSize, hx, h0, opsSize, leftOps, EmitOp.size, EmitOp.space, EAX, wordBytes,
          ptrreg, EBX]
    · cases x64 <;> simp [h0, leftOps, EmitOp.regsOK, ptrreg, EBX, EDI]
    · cases x64 <;> simp [h0, leftOps, EmitOp.size]
    · cases x64 <;> simp [h0, leftOps, flagsStep, set_at_length, set_at_length_succ]
    · cases x64 <;>
        simp [h0, leftOps, labelsReady, EmitOp.labelOK, flagsStep, set_at_length] <;>
        exact ⟨getElem_at_length _ _ _ _, getElem_at_length_succ _ _ _ _ _⟩
  | op_if =>
    have hk := hif hx
    simp only [loopLabels_get, if_pos hk, Option.map_some']
    refine ⟨_, _, _, rfl, ?_, ?_, ?_, by simp, by simp, ?_, ?_⟩
    · simp [stepSize, hx, opsSize, EmitOp.size, EmitOp.space]
    · simp [EmitOp.regsOK, ptrreg, EBX]
    · simp [EmitOp.size]
    · simp [flagsStep]
    · simp [labelsReady, EmitOp.labelOK, flagsStep]
  | op_endif =>
    have hk := hend hx
    simp only [loopLabels_get, if_pos hk, Option.map_some']
    refine ⟨_, _, _, rfl, ?_, ?_, ?_, by simp, by simp, ?_, ?_⟩
    · simp [stepSize, hx, opsSize, EmitOp.size, EmitOp.space]
    · simp [EmitOp.regsOK, ptrreg, EBX]
    · simp [EmitOp.size]
    · simp [flagsStep]
    · simp [labelsReady, EmitOp.labelOK, flagsStep]

theorem stepPlan_some (env : GenEnv) (B L k : Nat) (x : instruction_t)
    (p : Nat × List EmitOp × Nat) (h : stepPlan env (loopLabels B) L k x = some p) :
    x.op ≠ op_invalid ∧ (x.op = op_if → k < B) ∧ (x.op = op_endif → x.branch < B) := by
  unfold stepPlan at h
  cases hx : x.op with
  | op_invalid => rw [hx] at h; cases h
  | op_if =>
    rw [hx] at h
    simp only [loopLabels_get] at h
    refine ⟨by decide, fun _ => ?_, (by intro h'; cases h')⟩
    by_contra hk
    rw [if_neg hk] at h
    cases h
  | op_endif =>
    rw [hx] at h
    simp only [loopLabels_get] at h
    refine ⟨by decide, (by intro h'; cases h'), fun _ => ?_⟩
    by_contra hk
    rw [if_neg hk] at h
    cases h
  | _ => exact ⟨by decide, (by intro h'; cases h'), (by intro h'; cases h')⟩

theorem bool_getElem?_false (l : List Bool) (i : Nat) (hi : i < l.length)
    (h : l[i]? ≠ some true) : l[i]? = some false := by
  rw [List.getElem?_eq_getElem hi] at h ⊢
  cases hb : l[i] with
  | false => rfl
  | true => rw [hb] at h; exact absurd rfl h

/-- What a successful iteration of the assembly loop has done. -/
theorem genStep_eff (env : GenEnv) (B : Nat) (pre : List instruction_t) (st st' : Asm × Nat)
    (x : instruction_t) (hv : x.op = op_left → x.val ≠ 0) (hI : LInv B pre st)
    (h : genStep env (loopLabels B) st x = some st') :
    LInv B (pre ++ [x]) st' ∧ st'.1.offset = st.1.offset + stepSize env.x64 x ∧
    (0 < stepSize env.x64 x → st.1.offset + stepSize env.x64 x < st.1.buffer_size) ∧
    st'.1.buffer_size = st.1.buffer_size ∧ x.op ≠ op_invalid ∧
    (x.op = op_if → ifCount pre < B) ∧
    (x.op = op_endif → x.branch < B ∧ x.branch ∉ closers pre) := by
  rw [genStep_plan, ← flags_length] at h
  cases hp : stepPlan env (loopLabels B) st.1.flags.length st.2 x with
  | none => rw [hp] at h; cases h
  | some p =>
    obtain ⟨hi, hif, hend⟩ := stepPlan_some env B _ _ x p hp
    obtain ⟨nl, ops, k', hp', hsz, _, _, hnl, hk', hfl, hrd⟩ :=
      stepPlan_spec env B st.1.flags st.2 x hv hi hif hend
    rw [hp'] at h
    simp only [Option.map_eq_some'] at h
    obtain ⟨b', hb', rfl⟩ := h
    obtain ⟨e1, e2, e3, e4⟩ := addLabels_spec nl st.1
    obtain ⟨o1, o2, o3, o4, o5⟩ := runOps_eff env.x64 ops _ b' hb'
    rw [e1] at o4 o5
    rw [e2, hsz] at o1
    rw [e2, e3, hsz] at o2
    rw [e3] at o3
    rw [hfl] at o4
    obtain ⟨a1, a2, a3, a4, a5⟩ := hI
    have hst : st = (st.1, st.2) := rfl
    refine ⟨?_, o1, o2, o3, hi, fun hx => by rw [← a1]; exact hif hx, ?_⟩
    · by_cases h1 : x.op = op_if
      · rw [if_pos h1] at o4
        rw [hk', if_pos h1]
        exact LInv_if B pre x st.1 b' st.2 h1 (hif h1) o4 ⟨a1, a2, a3, a4, a5⟩
      · rw [if_neg h1] at o4
        rw [hk', if_neg h1, Nat.add_zero]
        by_cases h2 : x.op = op_endif
        · rw [if_pos h2] at o4
          exact LInv_endif B pre x st.1 b' st.2 h2 (hend h2) o4 ⟨a1, a2, a3, a4, a5⟩
        · rw [if_neg h2] at o4
          exact LInv_new B pre x st.1 b' st.2 nl hnl h1 h2 o4 ⟨a1, a2, a3, a4, a5⟩
    · intro hx
      refine ⟨hend hx, ?_⟩
      have hf := (hrd.1 o5).2 hx
      intro hmem
      have ht := (a4 x.branch (hend hx)).2 hmem
      rw [hf.2] at ht
      cases ht

/-- An iteration of the assembly loop passes every assertion when its bytes
fit. -/
theorem genStep_ok (env : GenEnv) (B : Nat) (pre : List instruction_t) (st : Asm × Nat)
    (x : instruction_t) (hv : x.op = op_left → x.val ≠ 0) (hi : x.op ≠ op_invalid)
    (hif : x.op = op_if → ifCount pre < B)
    (hend : x.op = op_endif → x.branch < B ∧ x.branch ∉ closers pre)
    (hI : LInv B pre st)
    (hs : 0 < stepSize env.x64 x → st.1.offset + stepSize env.x64 x < st.1.buffer_size) :
    (genStep env (loopLabels B) st x).isSome = true := by
  obtain ⟨a1, a2, a3, a4, a5⟩ := hI
  rw [genStep_plan, ← flags_length]
  obtain ⟨nl, ops, k', hp', hsz, hr, hz, hnl, hk', hfl, hrd⟩ :=
    stepPlan_spec env B st.1.flags st.2 x hv hi (fun hx => by rw [a1]; exact hif hx)
      (fun hx => (hend hx).1)
  rw [hp']
  simp only [Option.isSome_map']
  obtain ⟨e1, e2, e3, e4⟩ := addLabels_spec nl st.1
  refine runOps_ok env.x64 ops _ hr hz ?_ ?_
  · rw [e1]
    refine hrd.2 ⟨fun hx => ?_, fun hx => ?_⟩
    · have hk := hif hx
      rw [← a1] at hk
      refine ⟨by omega, bool_getElem?_false _ _ (by omega) ?_⟩
      intro ht
      have := (a3 st.2 hk).1 ht
      omega
    · obtain ⟨hj, hn⟩ := hend hx
      refine ⟨by omega, bool_getElem?_false _ _ (by omega) ?_⟩
      intro ht
      exact hn ((a4 x.branch hj).1 ht)
  · rw [e2, e3, hsz]
    exact hs

/-! ## The whole assembly -/

theorem newBranches_spec (n : Nat) : ∀ b : Asm,
    (newBranches n b).1.flags = b.flags ++ List.replicate (2 * n) false ∧
    (newBranches n b).1.offset = b.offset ∧
    (newBranches n b).1.buffer_size = b.buffer_size ∧
    (newBranches n b).2 =
      (List.range n).map (fun j => (b.flags.length + 2 * j, b.flags.length + 2 * j + 1)) := by
  induction n with
  | zero => intro b; simp [newBranches]
  | succ n ih =>
    intro b
    obtain ⟨h1, h2, h3, h4⟩ := ih (new_label (new_label b).1).1
    simp only [newBranches]
    refine ⟨?_, h2, h3, ?_⟩
    · rw [h1, new_label_flags, new_label_flags, List.append_assoc, List.append_assoc]
      congr 1
    · rw [h4, List.range_succ_eq_map, List.map_cons, List.map_map]
      have e1 : (new_label b).2 = b.flags.length := by simp [new_label, flags_length]
      have e2 : (new_label (new_label b).1).2 = b.flags.length + 1 := by
        simp [new_label, flags_length]
      rw [e1, e2]
      congr 1
      apply List.map_congr_left
      intro j _
      simp only [Function.comp, new_label_flags, List.length_append, List.length_singleton]
      congr 1 <;> omega

theorem genPrologue_ops (env : GenEnv) (b : Asm) :
    genPrologue env b = runOps env.x64 (prologueOps env) b := by
  simp only [genPrologue, prologueOps, genAdjustSub]
  split_ifs with h
  · simp only [List.cons_append, List.nil_append, runOps, bind_some_fun]
    rfl
  · simp only [List.cons_append, List.nil_append, List.append_nil, runOps, bind_some_fun]
    rfl

theorem genEpilogue_ops (env : GenEnv) (b : Asm) :
    genEpilogue env b = runOps env.x64 (epilogueOps env) b := by
  simp only [genEpilogue, epilogueOps, genAdjustAdd]
  split_ifs with h
  · simp only [List.cons_append, List.nil_append, runOps, bind_some_fun]
    rfl
  · simp only [List.cons_append, List.nil_append, runOps, bind_some_fun]
    rfl

theorem prologueOps_spec (env : GenEnv) :
    opsSize env.x64 (prologueOps env) = (if env.x64 then 23 else 22) ∧
    (∀ op ∈ prologueOps env, op.regsOK) ∧
    (∀ op ∈ prologueOps env, op.space env.x64 = op.size env.x64) ∧
    (∀ fl, labelsReady (prologueOps env) fl) ∧
    (∀ fl, (prologueOps env).foldl flagsStep fl = fl) := by
  obtain ⟨x64, tape_start, gcfp, pcfp⟩ := env
  cases x64 <;>
    simp [prologueOps, opsSize, EmitOp.size, EmitOp.space, EmitOp.regsOK, labelsReady,
      EmitOp.labelOK, flagsStep, stack_adjust, wordBytes, ESP, EAX, EBP, EBX, EDI, ptrreg]

theorem epilogueOps_spec (env : GenEnv) :
    opsSize env.x64 (epilogueOps env) = (if env.x64 then 7 else 12) ∧
    (∀ op ∈ epilogueOps env, op.regsOK) ∧
    (∀ op ∈ epilogueOps env, op.space env.x64 = op.size env.x64) ∧
    (∀ fl, labelsReady (epilogueOps env) fl) ∧
    (∀ fl, (epilogueOps env).foldl flagsStep fl = fl) := by
  obtain ⟨x64, tape_start, gcfp, pcfp⟩ := env
  cases x64 <;>
    simp [epilogueOps, opsSize, EmitOp.size, EmitOp.space, EmitOp.regsOK, labelsReady,
      EmitOp.labelOK, flagsStep, stack_adjust, wordBytes, ESP, EAX, EBP, EBX, EDI, ptrreg]

/-- The assembly starts: the labels of the loops are created and the preamble
is assembled into the fresh buffer. -/
theorem genStart_spec (env : GenEnv) (addr B : Nat) :
    ∃ b0, genStart env addr B = some (b0, loopLabels B) ∧ LInv B [] (b0, 0) ∧
      b0.offset = (if env.x64 then 23 else 22) ∧ b0.buffer_size = 2 ^ 20 := by
  obtain ⟨n1, n2, n3, n4⟩ := newBranches_spec B (new_assembler_buffer addr)
  obtain ⟨p1, p2, p3, p4, p5⟩ := prologueOps_spec env
  have hf0 : (new_assembler_buffer addr).flags = [] := rfl
  have ho0 : (new_assembler_buffer addr).offset = 0 := rfl
  have hs0 : (new_assembler_buffer addr).buffer_size = 2 ^ 20 := rfl
  rw [hf0] at n1 n4
  rw [List.nil_append] at n1
  rw [ho0] at n2
  rw [hs0] at n3
  have hbr : (newBranches B (new_assembler_buffer addr)).2 = loopLabels B := by
    rw [n4]
    unfold loopLabels
    apply List.map_congr_left
    intro j _
    simp
  have hok : (runOps env.x64 (prologueOps env) (newBranches B (new_assembler_buffer addr)).1).isSome
      = true := by
    refine runOps_ok env.x64 _ _ p2 p3 (p4 _) ?_
    intro _
    rw [n2, n3, p1]
    split_ifs <;> decide
  obtain ⟨b0, hb0⟩ := Option.isSome_iff_exists.1 hok
  obtain ⟨o1, _, o3, o4, _⟩ := runOps_eff env.x64 _ _ b0 hb0
  rw [p5, n1] at o4
  rw [n2, p1] at o1
  rw [n3] at o3
  refine ⟨b0, ?_, ?_, by rw [o1, Nat.zero_add], o3⟩
  · unfold genStart
    simp only [genPrologue_ops, hb0, Option.map_some', hbr]
  · refine ⟨rfl, ?_, ?_, ?_, ?_⟩
    · simp [o4, entryLabels]
    · intro j hj
      simp only [o4, ifCount_nil, Nat.not_lt_zero, iff_false]
      rw [List.getElem?_replicate]
      split_ifs <;> simp
    · intro j hj
      simp only [o4, closers, List.filter_nil, List.map_nil, List.not_mem_nil, iff_false]
      rw [List.getElem?_replicate]
      split_ifs <;> simp
    · intro lab h1 h2
      simp [o4] at h2
      omega

/-- The entries of the code are as the assembly loop needs them, seen from
the entry `x` after the entries `pre`. -/
theorem GoodCode.at_entry (B : Nat) (pre post : List instruction_t) (x : instruction_t)
    (h : GoodCode B (pre ++ x :: post)) :
    x.op ≠ op_invalid ∧ (x.op = op_left → x.val ≠ 0) ∧ (x.op = op_if → ifCount pre < B) ∧
    (x.op = op_endif → x.branch < B ∧ x.branch ∉ closers pre) := by
  obtain ⟨g1, g2, g3, g4, g5⟩ := h
  have hx : x ∈ pre ++ x :: post := by simp
  refine ⟨g1 x hx, g2 x hx, ?_, ?_⟩
  · intro hi
    rw [ifCount_append, ifCount_cons, if_pos hi] at g3
    omega
  · intro he
    have hc : closers (pre ++ x :: post) = closers pre ++ x.branch :: closers post := by
      unfold closers
      rw [List.filter_append, List.map_append, List.filter_cons, if_pos (by simpa using he)]
      rfl
    rw [hc] at g4 g5
    refine ⟨(g5 x.branch).1 (by simp), ?_⟩
    intro hm
    have := List.nodup_append.1 g4
    exact this.2.2 hm (List.mem_cons_self _ _)

theorem sizes_append (x64 : Bool) (l1 l2 : List instruction_t) :
    ((l1 ++ l2).map (stepSize x64)).sum =
      (l1.map (stepSize x64)).sum + (l2.map (stepSize x64)).sum := by
  simp

/-- What a successful run of the assembly loop has done. -/
theorem genLoop_eff (env : GenEnv) (B : Nat) (xs : List instruction_t) :
    ∀ (pre : List instruction_t) (st st' : Asm × Nat),
      (∀ x ∈ xs, x.op = op_left → x.val ≠ 0) → LInv B pre st →
      genLoop env (loopLabels B) xs st = some st' →
      LInv B (pre ++ xs) st' ∧
      st'.1.offset = st.1.offset + (xs.map (stepSize env.x64)).sum ∧
      (0 < (xs.map (stepSize env.x64)).sum →
        st.1.offset + (xs.map (stepSize env.x64)).sum < st.1.buffer_size) ∧
      st'.1.buffer_size = st.1.buffer_size := by
  induction xs with
  | nil =>
    intro pre st st' _ hI h
    cases h
    exact ⟨by rw [List.append_nil]; exact hI, by simp, by simp, rfl⟩
  | cons x rest ih =>
    intro pre st st' hv hI h
    simp only [genLoop] at h
    cases h1 : genStep env (loopLabels B) st x with
    | none => rw [h1] at h; cases h
    | some st1 =>
      rw [h1] at h
      simp only at h
      obtain ⟨i1, o1, s1, z1, _⟩ :=
        genStep_eff env B pre st st1 x (hv x (List.mem_cons_self _ _)) hI h1
      obtain ⟨i2, o2, s2, z2⟩ :=
        ih (pre ++ [x]) st1 st' (fun y hy => hv y (List.mem_cons_of_mem _ hy)) i1 h
      rw [List.append_assoc] at i2
      simp only [List.map_cons, List.sum_cons]
      refine ⟨i2, by omega, ?_, by rw [z2, z1]⟩
      intro hpos
      by_cases h2 : 0 < (rest.map (stepSize env.x64)).sum
      · have := s2 h2
        omega
      · have := s1 (by omega)
        omega

/-- The assembly loop passes every assertion when the bytes of its entries
fit. -/
theorem genLoop_ok (env : GenEnv) (B : Nat) (xs : List instruction_t) :
    ∀ (pre : List instruction_t) (st : Asm × Nat),
      GoodCode B (pre ++ xs) → LInv B pre st →
      (0 < (xs.map (stepSize env.x64)).sum →
        st.1.offset + (xs.map (stepSize env.x64)).sum < st.1.buffer_size) →
      (genLoop env (loopLabels B) xs st).isSome = true := by
  induction xs with
  | nil => intro pre st _ _ _; rfl
  | cons x rest ih =>
    intro pre st hg hI hs
    obtain ⟨g1, g2, g3, g4⟩ := GoodCode.at_entry B pre rest x hg
    simp only [List.map_cons, List.sum_cons] at hs
    have h1 : (genStep env (loopLabels B) st x).isSome = true :=
      genStep_ok env B pre st x g2 g1 g3 g4 hI (fun hp => by have := hs (by omega); omega)
    obtain ⟨st1, hst1⟩ := Option.isSome_iff_exists.1 h1
    obtain ⟨i1, o1, s1, z1, _⟩ := genStep_eff env B pre st st1 x g2 hI hst1
    simp only [genLoop, hst1]
    refine ih (pre ++ [x]) st1 (by rw [List.append_assoc]; exact hg) i1 ?_
    intro hp
    have := hs (by omega)
    rw [o1, z1]
    omega

/-! ## The entries of a balanced program -/

theorem Tree.count_open (T : Tree Char) (h : T.WF charBr) : T.flatten.count '[' = T.loops := by
  induction T with
  | nil => rfl
  | act a k ih =>
    have ha : a ≠ '[' := by
      intro e
      have := h.1
      rw [e] at this
      simp [charBr] at this
    simp only [Tree.flatten, Tree.loops]
    rw [List.count_cons_of_ne (Ne.symm ha), ih h.2]
  | loop o b c k ihb ihk =>
    have ho : o = '[' := (charBr_opn o).1 h.1
    have hc : c = ']' := (charBr_cls c).1 h.2.1
    subst ho
    subst hc
    simp only [Tree.flatten, Tree.loops, List.count_cons_self, List.count_append]
    rw [List.count_cons_of_ne (by decide), ihb h.2.2.1, ihk h.2.2.2]
    omega

theorem Tree.loops_acts {α : Type} (as : List α) (t : Tree α) :
    (Tree.acts as t).loops = t.loops := by
  induction as with
  | nil => rfl
  | cons a as ih => rw [Tree.acts_cons]; exact ih

theorem Coal.loops {t : Tree Char} {u : Tree instruction_t} (h : Coal t u) :
    t.loops = u.loops := by
  induction h with
  | nil cs h => exact Tree.loops_acts _ _
  | act cs a t u h _ ih => rw [Tree.loops_acts]; exact ih
  | loop cs o c o' c' b k b' k' h ho hc ho' hc' _ _ ihb ihk =>
    rw [Tree.loops_acts]
    simp only [Tree.loops, ihb, ihk]

theorem closers_cons (x : instruction_t) (l : List instruction_t) :
    closers (x :: l) = (if x.op = op_endif then [x.branch] else []) ++ closers l := by
  unfold closers
  by_cases h : x.op = op_endif <;> simp [List.filter_cons, h]

theorem closers_append (l1 l2 : List instruction_t) :
    closers (l1 ++ l2) = closers l1 ++ closers l2 := by
  unfold closers
  rw [List.filter_append, List.map_append]

/-- The `endif` entries of the resolved code carry the ordinals of the loops,
each once. -/
theorem closers_annot (U : Tree instruction_t) (hU : U.WF instrBr) :
    ∀ n, (closers (U.annot n).flatten).Perm (List.range' n U.loops) := by
  induction U with
  | nil => intro n; exact List.Perm.refl _
  | act a k ih =>
    intro n
    have ha : a.op ≠ op_endif := by
      intro e
      have := hU.1
      rw [(instrBr_cls a).2 e] at this
      cases this
    simp only [Tree.annot, Tree.flatten, Tree.loops, closers_cons, if_neg ha, List.nil_append]
    exact ih hU.2 n
  | loop o b c k ihb ihk =>
    intro n
    have ho : o.op ≠ op_endif := by
      have := (instrBr_opn o).1 hU.1
      rw [this]
      decide
    have hc : c.op = op_endif := (instrBr_cls c).1 hU.2.1
    simp only [Tree.annot, Tree.flatten, Tree.loops, closers_cons, closers_append, if_neg ho,
      List.nil_append, hc, if_true, List.singleton_append]
    have e : List.range' n (1 + b.loops + k.loops) =
        n :: (List.range' (n + 1) b.loops ++ List.range' (n + 1 + b.loops) k.loops) := by
      rw [show 1 + b.loops + k.loops = (k.loops + b.loops) + 1 by omega, List.range'_succ,
        List.range'_append_1]
    rw [e]
    refine List.Perm.trans List.perm_middle (List.Perm.cons _ ?_)
    exact List.Perm.append (ihb hU.2.2.1 (n + 1)) (ihk hU.2.2.2 (n + 1 + b.loops))

theorem consRun_valid (o : op_t) (d : Int) (ys : List instruction_t)
    (ho : o ≠ op_invalid) (hd : 0 < d)
    (h : ∀ i ∈ ys, i.op ≠ op_invalid ∧ (i.op = op_left → 0 < i.val)) :
    ∀ i ∈ consRun o d ys, i.op ≠ op_invalid ∧ (i.op = op_left → 0 < i.val) := by
  intro i hi
  cases ys with
  | nil =>
    simp only [consRun, List.mem_singleton] at hi
    subst hi
    exact ⟨ho, fun _ => hd⟩
  | cons y r =>
    simp only [consRun] at hi
    split_ifs at hi with hy
    · rcases List.mem_cons.1 hi with e | e
      · subst e
        refine ⟨ho, fun hl => ?_⟩
        have := (h y (List.mem_cons_self _ _)).2 (by rw [hy]; exact hl)
        show 0 < d + y.val
        omega
      · exact h i (List.mem_cons_of_mem _ e)
    · rcases List.mem_cons.1 hi with e | e
      · subst e
        exact ⟨ho, fun _ => hd⟩
      · exact h i e

theorem condSpec_valid (p : List Char) :
    ∀ i ∈ condSpec p, i.op ≠ op_invalid ∧ (i.op = op_left → 0 < i.val) := by
  induction p with
  | nil => intro i hi; cases hi
  | cons c cs ih =>
    intro i hi
    simp only [condSpec, addChar] at hi
    split_ifs at hi
    · rcases consRun_ops _ _ _ _ hi with e | e
      · exact ⟨by rw [e]; decide, fun hl => by rw [e] at hl; cases hl⟩
      · exact ih i e
    · rcases consRun_ops _ _ _ _ hi with e | e
      · exact ⟨by rw [e]; decide, fun hl => by rw [e] at hl; cases hl⟩
      · exact ih i e
    · rcases consRun_ops _ _ _ _ hi with e | e
      · exact ⟨by rw [e]; decide, fun hl => by rw [e] at hl; cases hl⟩
      · exact ih i e
    · exact consRun_valid op_left 1 _ (by decide) (by decide) ih i hi
    · rcases List.mem_cons.1 hi with e | e
      · subst e; exact ⟨by decide, fun hl => by cases hl⟩
      · exact ih i e
    · rcases List.mem_cons.1 hi with e | e
      · subst e; exact ⟨by decide, fun hl => by cases hl⟩
      · exact ih i e
    · rcases List.mem_cons.1 hi with e | e
      · subst e; exact ⟨by decide, fun hl => by cases hl⟩
      · exact ih i e
    · rcases List.mem_cons.1 hi with e | e
      · subst e; exact ⟨by decide, fun hl => by cases hl⟩
      · exact ih i e
    · exact ih i hi

/-- The resolved entries of a balanced program are as the assembly loop needs
them. -/
theorem compile_good (p : List Char) (hb : Balanced p) :
    ∃ s r, balanceScan p = some s ∧ compile p = some r ∧ GoodCode s.branch_count r ∧
      r.map (fun e => (e.op, e.val)) = (condense p).map (fun e => (e.op, e.val)) := by
  obtain ⟨s, T, U, hs, hp, hq, hcoal, _, hc⟩ := compile_spec p hb
  have hU := hcoal.wf.2
  have hB : s.branch_count = U.loops := by
    have h1 := hs
    unfold balanceScan at h1
    cases hl : scanLoop p ⟨0, 0, 0⟩ with
    | none => rw [hl] at h1; cases h1
    | some s1 =>
      rw [hl] at h1
      simp only at h1
      split_ifs at h1
      cases h1
      have := (scanLoop_some p _ _ hl).2.2
      simp only [Nat.zero_add] at this
      rw [this, ← hcoal.loops, ← Tree.count_open T hcoal.wf.1, ← hp]
  have hmap : (U.annot 0).flatten.map (fun e => (e.op, e.val)) =
      (condense p).map (fun e => (e.op, e.val)) := by
    rw [Tree.map_annot, hq]
  have hval : ∀ x ∈ (U.annot 0).flatten, x.op ≠ op_invalid ∧ (x.op = op_left → x.val ≠ 0) := by
    intro x hx
    have : (x.op, x.val) ∈ (condense p).map (fun e => (e.op, e.val)) := by
      rw [← hmap]; exact List.mem_map_of_mem _ hx
    obtain ⟨y, hy, hyx⟩ := List.mem_map.1 this
    rw [condense_eq_condSpec] at hy
    have hv := condSpec_valid p y hy
    have e1 : y.op = x.op := congrArg Prod.fst hyx
    have e2 : y.val = x.val := congrArg Prod.snd hyx
    rw [e1, e2] at hv
    exact ⟨hv.1, fun hl => by have := hv.2 hl; omega⟩
  have hperm := closers_annot U hU 0
  refine ⟨s, (U.annot 0).flatten, hs, hc, ⟨fun x hx => (hval x hx).1, fun x hx => (hval x hx).2,
    ?_, ?_, ?_⟩, hmap⟩
  · rw [Tree.ifCount_annot U 0 hU, hB]
  · exact (List.Perm.nodup_iff hperm).2 (List.nodup_range' _ _)
  · intro j
    rw [hperm.mem_iff, hB]
    simp [List.mem_range']

/-! ## Ownership of the labels -/

theorem Prim.owned {buf buf' : Asm} (h : Prim buf buf') (ho : Owned buf) : Owned buf' := by
  obtain ⟨nd, hm⟩ := ho
  cases h with
  | u8 _ v h => exact ⟨nd, hm⟩
  | u32 _ v h => exact ⟨nd, hm⟩
  | ptr x64 _ v h => exact ⟨nd, hm⟩
  | source _ lab _ h =>
    have a := adv_source buf buf' lab h
    obtain ⟨_, _, _, _, _, a6, a7, _⟩ := a
    unfold Owned
    rw [a6, a7]
    exact ⟨nd, hm⟩
  | push _ lab _ h =>
    obtain ⟨l, hl, hr, _, _, _, _, _, e8, e9, _⟩ := emit_push_label_eff buf buf' lab h
    have hfl : buf.flags[lab]? = some false := by
      simp only [Asm.flags, List.getElem?_map, hl, Option.map_some', hr]
    have hlt : lab < buf.flags.length := by
      rw [flags_length]; exact getElem?_lt hl
    unfold Owned
    rw [e8, e9]
    refine ⟨List.nodup_cons.2 ⟨?_, nd⟩, ?_⟩
    · intro hmem
      have := (hm lab).1 hmem
      rw [hfl] at this
      cases this
    · intro lab2
      by_cases e : lab2 = lab
      · subst e
        rw [List.getElem?_set_self hlt]
        simp
      · rw [List.getElem?_set_ne (Ne.symm e), List.mem_cons, ← hm lab2]
        simp [e]
  | label _ =>
    unfold Owned
    rw [new_label_flags]
    refine ⟨nd, ?_⟩
    intro lab
    show lab ∈ buf.labels ↔ _
    rw [hm lab]
    by_cases hl : lab < buf.flags.length
    · rw [List.getElem?_append_left hl]
    · rw [List.getElem?_eq_none (by omega)]
      by_cases e : lab = buf.flags.length
      · subst e
        simp
      · rw [List.getElem?_eq_none (by simp; omega)]

theorem Reach.owned_of_reach {buf buf' : Asm} (h : Reach buf buf') (ho : Owned buf) : Owned buf' := by
  induction h with
  | refl => exact ho
  | tail _ hp ih => exact hp.owned ih

theorem Owned_new (addr : Nat) : Owned (new_assembler_buffer addr) := by
  refine ⟨List.nodup_nil, ?_⟩
  intro lab
  simp [new_assembler_buffer, Asm.flags]

theorem generate_reach (env : GenEnv) (addr B : Nat) (r : List instruction_t) (fin : Asm)
    (h : generate env addr B r = some fin) : Reach (new_assembler_buffer addr) fin := by
  unfold generate at h
  cases hs : genStart env addr B with
  | none => rw [hs] at h; cases h
  | some p =>
    obtain ⟨b0, branches⟩ := p
    rw [hs] at h
    simp only at h
    cases hl : genLoop env branches r (b0, 0) with
    | none => rw [hl] at h; cases h
    | some stF =>
      rw [hl] at h
      simp only at h
      unfold genStart at hs
      simp only [Option.map_eq_some'] at hs
      obtain ⟨b, hb, hbe⟩ := hs
      have := (Prod.mk.inj hbe).1
      subst this
      exact (((newBranches_reach B _).trans (genPrologue_reach env _ _ hb)).trans
        (genLoop_reach env branches _ _ _ hl)).trans (genEpilogue_reach env _ _ h)

/-- The loop of `delete_assembler_buffer` passes its assertions on labels
that are bound, have no pending slot and are listed once. -/
theorem deleteLabels_ok (heap : List label_t) (labs : List Nat) :
    ∀ freed : List Nat, labs.Nodup → (∀ lab ∈ labs, lab ∉ freed) →
      (∀ lab ∈ labs, ∃ l, heap[lab]? = some l ∧ l.resolved = true ∧ l.sources = []) →
      deleteLabels heap labs freed = some (labs.reverse ++ freed) := by
  induction labs with
  | nil => intro freed _ _ _; rfl
  | cons lab rest ih =>
    intro freed hn hf hl
    obtain ⟨l, h1, h2, h3⟩ := hl lab (List.mem_cons_self _ _)
    have hn' := List.nodup_cons.1 hn
    simp only [deleteLabels, h1, if_neg (hf lab (List.mem_cons_self _ _)), h3, if_true,
      delete_label, h2, true_or]
    rw [ih (lab :: freed) hn'.2 ?_ (fun x hx => hl x (List.mem_cons_of_mem _ hx))]
    · simp
    · intro x hx hm
      rcases List.mem_cons.1 hm with e | e
      · subst e; exact hn'.1 hx
      · exact hf x (List.mem_cons_of_mem _ hx) e

/-! ## Size of the code and success of the assembly -/

theorem generate_unfold (env : GenEnv) (addr B : Nat) (r : List instruction_t) :
    ∃ b0, genStart env addr B = some (b0, loopLabels B) ∧ LInv B [] (b0, 0) ∧
      b0.offset = (if env.x64 then 23 else 22) ∧ b0.buffer_size = 2 ^ 20 ∧
      generate env addr B r =
        (genLoop env (loopLabels B) r (b0, 0)).bind
          (fun st => runOps env.x64 (epilogueOps env) st.1) := by
  obtain ⟨b0, h1, h2, h3, h4⟩ := genStart_spec env addr B
  refine ⟨b0, h1, h2, h3, h4, ?_⟩
  unfold generate
  rw [h1]
  simp only
  cases genLoop env (loopLabels B) r (b0, 0) with
  | none => rfl
  | some st => simp only [Option.some_bind, genEpilogue_ops]

/-- The assembly of well-formed code passes every assertion exactly when the
code is smaller than the buffer. -/
theorem generate_isSome_iff (env : GenEnv) (addr B : Nat) (r : List instruction_t)
    (hg : GoodCode B r) :
    (generate env addr B r).isSome = true ↔ codeSize env.x64 r < 2 ^ 20 := by
  obtain ⟨b0, _, hI, ho, hz, hgen⟩ := generate_unfold env addr B r
  obtain ⟨p1, p2, p3, p4, p5⟩ := epilogueOps_spec env
  have hepos : 0 < opsSize env.x64 (epilogueOps env) := by
    rw [p1]; split_ifs <;> omega
  rw [hgen]
  unfold codeSize
  constructor
  · intro h
    obtain ⟨fin, hfin⟩ := Option.isSome_iff_exists.1 h
    cases hl : genLoop env (loopLabels B) r (b0, 0) with
    | none => rw [hl] at hfin; cases hfin
    | some st =>
      rw [hl] at hfin
      simp only [Option.some_bind] at hfin
      obtain ⟨_, o1, _, z1⟩ := genLoop_eff env B r [] (b0, 0) st hg.2.1 hI hl
      obtain ⟨_, e2, _⟩ := runOps_eff env.x64 _ st.1 fin hfin
      have := e2 hepos
      rw [o1, z1, p1] at this
      simp only at this
      rw [ho, hz] at this
      exact this
  · intro h
    have hl : (genLoop env (loopLabels B) r (b0, 0)).isSome = true := by
      refine genLoop_ok env B r [] (b0, 0) hg hI ?_
      intro _
      simp only
      rw [ho, hz]
      split_ifs at h ⊢ <;> omega
    obtain ⟨st, hst⟩ := Option.isSome_iff_exists.1 hl
    obtain ⟨_, o1, _, z1⟩ := genLoop_eff env B r [] (b0, 0) st hg.2.1 hI hst
    rw [hst]
    simp only [Option.some_bind]
    refine runOps_ok env.x64 _ st.1 p2 p3 (p4 _) ?_
    intro _
    rw [o1, z1, p1]
    simp only
    rw [ho, hz]
    exact h

/-- The buffer after the assembly of well-formed code: its offset is the code
size, and every label that has been created is bound. -/
theorem generate_end (env : GenEnv) (addr B : Nat) (r : List instruction_t) (fin : Asm)
    (hg : GoodCode B r) (h : generate env addr B r = some fin) :
    fin.offset = codeSize env.x64 r ∧ fin.flags.length = 2 * B + entryLabels r ∧
    ∀ lab, lab < fin.flags.length → fin.flags[lab]? = some true := by
  obtain ⟨b0, _, hI, ho, hz, hgen⟩ := generate_unfold env addr B r
  obtain ⟨p1, p2, p3, p4, p5⟩ := epilogueOps_spec env
  rw [hgen] at h
  cases hl : genLoop env (loopLabels B) r (b0, 0) with
  | none => rw [hl] at h; cases h
  | some st =>
    rw [hl] at h
    simp only [Option.some_bind] at h
    obtain ⟨i1, o1, _, z1⟩ := genLoop_eff env B r [] (b0, 0) st hg.2.1 hI hl
    obtain ⟨e1, _, _, e4, _⟩ := runOps_eff env.x64 _ st.1 fin h
    rw [p5] at e4
    rw [List.nil_append] at i1
    obtain ⟨a1, a2, a3, a4, a5⟩ := i1
    obtain ⟨_, _, g3, _, g5⟩ := hg
    refine ⟨?_, by rw [e4]; exact a2, ?_⟩
    · rw [e1, o1, p1]
      simp only
      rw [ho]
      unfold codeSize
      rfl
    · rw [e4]
      intro lab hlab
      by_cases hb : 2 * B ≤ lab
      · exact a5 lab hb hlab
      · rcases Nat.even_or_odd' lab with ⟨j, e | e⟩
        · subst e
          exact (a3 j (by omega)).2 (by rw [g3]; omega)
        · subst e
          exact (a4 j (by omega)).2 ((g5 j).2 (by omega))

/-! ## Programs that do not fit into the code buffer -/

theorem stepSize_pair (x64 : Bool) (i : instruction_t) :
    stepSize x64 i = stepSize x64 ⟨i.op, i.val, 0⟩ := rfl

theorem codeSize_congr (x64 : Bool) (r l : List instruction_t)
    (h : r.map (fun e => (e.op, e.val)) = l.map (fun e => (e.op, e.val))) :
    codeSize x64 r = codeSize x64 l := by
  unfold codeSize
  have e : ∀ xs : List instruction_t, xs.map (stepSize x64) =
      (xs.map (fun e => (e.op, e.val))).map (fun q => stepSize x64 ⟨q.1, q.2, 0⟩) := by
    intro xs
    rw [List.map_map]
    apply List.map_congr_left
    intro i _
    exact stepSize_pair x64 i
  rw [e r, e l, h]

theorem condSpec_replicate_put (n : Nat) :
    condSpec (List.replicate n '.') = List.replicate n ⟨op_put, 0, 0⟩ := by
  induction n with
  | zero => rfl
  | succ n ih =>
    rw [List.replicate_succ, List.replicate_succ]
    show addChar '.' (condSpec (List.replicate n '.')) = _
    rw [ih]
    simp [addChar]

theorem codeSize_replicate_put (x64 : Bool) (n : Nat) :
    codeSize x64 (List.replicate n ⟨op_put, 0, 0⟩) =
      (if x64 then 23 else 22) + n * (if x64 then 20 else 14) + (if x64 then 7 else 12) := by
  unfold codeSize
  rw [List.map_replicate, List.sum_replicate]
  rfl

theorem balanceScan_putProgram : balanceScan putProgram = some ⟨0, 0, 0⟩ := by
  unfold balanceScan
  rw [scanLoop_no_brackets putProgram (fun c hc => by
    rw [(List.mem_replicate.1 hc).2]; decide)]
  rfl

theorem codeSize_putProgram (x64 : Bool) :
    codeSize x64 (condense putProgram) = if x64 then 1600030 else 1120034 := by
  rw [condense_eq_condSpec]
  unfold putProgram
  rw [condSpec_replicate_put, codeSize_replicate_put]
  cases x64 <;> rfl

/-- When the operating system grants everything and the tape layout is
accepted, `interpret` fails an assertion on every balanced program whose code
is not smaller than the code buffer. -/
theorem interpret_none_of_oversize (env : Env) (p : List Char) (max_data_size : Nat)
    (timelimit : Option Nat) (gcfp pcfp : Nat) (input : List Nat) (fuel : Nat) (L : Layout)
    (hs : env.Succeeds) (hb : Balanced p)
    (hL : tapeLayout env.x64 (toSize env.x64 env.page_size_) max_data_size (condense p) =
      some L)
    (hz : 2 ^ 20 ≤ codeSize env.x64 (condense p)) :
    interpret env p max_data_size timelimit gcfp pcfp input fuel = none := by
  obtain ⟨s, r, hsc, hc, hg, hmap⟩ := compile_good p hb
  have hr : resolve s.max_stack_size (condense p) = some r := by
    unfold compile at hc
    rw [hsc] at hc
    exact hc
  obtain ⟨addr, hbuf⟩ := Option.isSome_iff_exists.1 hs.buffer
  have hnone : generate (genEnvOf env L gcfp pcfp) addr s.branch_count r = none := by
    cases hgen : generate (genEnvOf env L gcfp pcfp) addr s.branch_count r with
    | none => rfl
    | some fin =>
      have := (generate_isSome_iff (genEnvOf env L gcfp pcfp) addr s.branch_count r hg).1
        (by rw [hgen]; rfl)
      rw [codeSize_congr _ r (condense p) hmap] at this
      have e : (genEnvOf env L gcfp pcfp).x64 = env.x64 := rfl
      rw [e] at this
      omega
  unfold interpret setup
  rw [if_neg (not_le.2 hs.page_size_pos), hsc]
  simp only
  rw [if_neg (by rw [hs.malloc_instructions]; decide), hL]
  simp only
  unfold setupTape
  rw [if_neg hs.mmap_tape, if_neg (by rw [hs.mprotect_reverse]; decide),
    if_neg (by rw [hs.mprotect_forward]; decide),
    if_neg (by rw [hs.malloc_stack]; decide), if_neg (by rw [hs.malloc_branches]; decide)]
  unfold setupCode
  rw [hr, hbuf]
  simp only
  rw [hnone]

/-- C22: the code of a bracket-balanced program is not always smaller than the
code buffer.  For every balanced program the assembly passes all its
assertions exactly when the code (preamble, sequences of the entries, coda) is
smaller than `2 ^ 20` bytes; the balanced program of 80000 `.` needs 1600030
bytes on the 64-bit architecture and 1120034 on the 32-bit one, so a
`check_space` assertion fails during its assembly and `interpret` does not
return a status. -/
theorem code_buffer_too_small (env : GenEnv) (addr : Nat) (p : List Char)
    (max_data_size : Nat) (timelimit : Option Nat) (gcfp pcfp : Nat) (input : List Nat)
    (fuel : Nat) :
    (Balanced p → ∃ s r, balanceScan p = some s ∧ compile p = some r ∧
      ((generate env addr s.branch_count r).isSome = true ↔ codeSize env.x64 r < 2 ^ 20)) ∧
    Balanced putProgram ∧
    (∃ s r, balanceScan putProgram = some s ∧ compile putProgram = some r ∧
      codeSize env.x64 r = (if env.x64 then 1600030 else 1120034) ∧
      generate env addr s.branch_count r = none) ∧
    interpret env64 putProgram max_data_size timelimit gcfp pcfp input fuel = none ∧
    interpret env32 putProgram max_data_size timelimit gcfp pcfp input fuel = none := by
  have hbal : Balanced putProgram :=
    (balanceScan_isSome_iff _).1 ⟨_, balanceScan_putProgram⟩
  have hmoves : ∀ o, (o = op_right ∨ o = op_left) → largestMove o (condense putProgram) = 0 := by
    intro o ho
    apply largestMove_eq_zero
    intro i hi
    rw [condense_eq_condSpec] at hi
    unfold putProgram at hi
    rw [condSpec_replicate_put] at hi
    rw [(List.mem_replicate.1 hi).2]
    rcases ho with e | e <;> rw [e] <;> decide
  refine ⟨?_, hbal, ?_, ?_, ?_⟩
  · intro hb
    obtain ⟨s, r, hsc, hc, hg, _⟩ := compile_good p hb
    exact ⟨s, r, hsc, hc, generate_isSome_iff env addr s.branch_count r hg⟩
  · obtain ⟨s, r, hsc, hc, hg, hmap⟩ := compile_good putProgram hbal
    have hsz : codeSize env.x64 r = (if env.x64 then 1600030 else 1120034) := by
      rw [codeSize_congr _ r _ hmap, codeSize_putProgram]
    refine ⟨s, r, hsc, hc, hsz, ?_⟩
    cases hgen : generate env addr s.branch_count r with
    | none => rfl
    | some fin =>
      have := (generate_isSome_iff env addr s.branch_count r hg).1 (by rw [hgen]; rfl)
      rw [hsz] at this
      split_ifs at this <;> omega
  · refine interpret_none_of_oversize env64 putProgram max_data_size timelimit gcfp pcfp input
      fuel _ env64_succeeds hbal
      (tapeLayout_eq true 4096 max_data_size _ (by decide)
        (by rw [hmoves _ (Or.inl rfl)]; decide) (by rw [hmoves _ (Or.inr rfl)]; decide)) ?_
    rw [codeSize_putProgram]
    decide
  · refine interpret_none_of_oversize env32 putProgram max_data_size timelimit gcfp pcfp input
      fuel _ env32_succeeds hbal
      (tapeLayout_eq false 4096 max_data_size _ (by decide)
        (by rw [hmoves _ (Or.inl rfl)]; decide) (by rw [hmoves _ (Or.inr rfl)]; decide)) ?_
    rw [codeSize_putProgram]
    decide

/-! ## Every label is bound exactly once -/

theorem genPrefix_LInv (env : GenEnv) (addr B : Nat) (r : List instruction_t) (n : Nat)
    (st : Asm × Nat) (hg : GoodCode B r) (h : genPrefix env addr B r n = some st) :
    LInv B (r.take n) st ∧ genLoop env (loopLabels B) (r.take n) (genStartBuf env addr B, 0) =
      some st := by
  obtain ⟨b0, h1, hI, _, _⟩ := genStart_spec env addr B
  unfold genPrefix at h
  rw [h1] at h
  simp only at h
  have hb : genStartBuf env addr B = b0 := by
    unfold genStartBuf
    rw [h1]
  rw [hb]
  refine ⟨?_, h⟩
  have := (genLoop_eff env B (r.take n) [] (b0, 0) st
    (fun x hx => hg.2.1 x (List.mem_of_mem_take hx)) hI h).1
  rw [List.nil_append] at this
  exact this

/-- C27: for every bracket-balanced program, the labels of the assembly are
bound exactly once each.  With `s` the scan result and `r` the resolved
entries: the assembly loop reaches its first entry; wherever it stands, the
sequence of the next entry is assembled without a failed assertion if only its
bytes fit into the buffer, so no assertion of `emit_push_label` (nor any other
assertion on a label or a register) fails; the assembly is completed when the
code is smaller than the buffer; and in every completed assembly there are two
labels for each loop, two for each `left` entry and one for each `get` entry,
every label is owned by the buffer exactly once, is resolved and has no
pending slot, and `delete_assembler_buffer` passes its assertions and those of
`delete_label`, releasing each label once. -/
theorem labels_bound_once (env : GenEnv) (addr : Nat) (p : List Char) (hb : Balanced p) :
    ∃ s r, balanceScan p = some s ∧ compile p = some r ∧
      (genPrefix env addr s.branch_count r 0).isSome = true ∧
      (∀ n st x, genPrefix env addr s.branch_count r n = some st → r[n]? = some x →
        (0 < stepSize env.x64 x → st.1.offset + stepSize env.x64 x < st.1.buffer_size) →
        (genPrefix env addr s.branch_count r (n + 1)).isSome = true) ∧
      (codeSize env.x64 r < 2 ^ 20 → (generate env addr s.branch_count r).isSome = true) ∧
      (∀ fin, generate env addr s.branch_count r = some fin →
        fin.heap.length = 2 * s.branch_count + entryLabels r ∧
        (∀ lab, lab < fin.heap.length → fin.labels.count lab = 1) ∧
        (∀ (lab : Nat) (l : label_t), fin.heap[lab]? = some l →
          l.resolved = true ∧ l.sources = []) ∧
        delete_assembler_buffer fin = some fin.labels.reverse) := by
  obtain ⟨s, r, hsc, hc, hg, _⟩ := compile_good p hb
  refine ⟨s, r, hsc, hc, ?_, ?_, (generate_isSome_iff env addr s.branch_count r hg).2, ?_⟩
  · obtain ⟨b0, h1, _⟩ := genStart_spec env addr s.branch_count
    unfold genPrefix
    rw [h1]
    rfl
  · intro n st x hst hx hroom
    obtain ⟨hI, hl⟩ := genPrefix_LInv env addr s.branch_count r n st hg hst
    have hsplit := split_at_getElem? r n x hx
    have hg' := hg
    rw [hsplit] at hg'
    obtain ⟨g1, g2, g3, g4⟩ := GoodCode.at_entry _ _ _ _ hg'
    have hok := genStep_ok env s.branch_count (r.take n) st x g2 g1 g3 g4 hI hroom
    obtain ⟨st1, hst1⟩ := Option.isSome_iff_exists.1 hok
    obtain ⟨b0, h1, _⟩ := genStart_spec env addr s.branch_count
    have hb0 : genStartBuf env addr s.branch_count = b0 := by
      unfold genStartBuf
      rw [h1]
    rw [hb0] at hl
    unfold genPrefix
    rw [h1]
    simp only
    rw [take_succ_of_getElem? r n x hx, genLoop_append, hl]
    simp only [Option.some_bind, genLoop, hst1]
    rfl
  · intro fin hfin
    obtain ⟨_, e2, e3⟩ := generate_end env addr s.branch_count r fin hg hfin
    have hreach := generate_reach env addr s.branch_count r fin hfin
    obtain ⟨nd, hm⟩ := hreach.owned_of_reach (Owned_new addr)
    have hw := hreach.wfa_of_reach (WFA_new addr)
    rw [flags_length] at e2 e3
    have hres : ∀ (lab : Nat) (l : label_t), fin.heap[lab]? = some l →
        l.resolved = true ∧ l.sources = [] := by
      intro lab l hl
      have h1 := e3 lab (getElem?_lt hl)
      simp only [Asm.flags, List.getElem?_map, hl, Option.map_some', Option.some.injEq] at h1
      exact ⟨h1, (hw.2.2.1 lab l hl h1).1⟩
    refine ⟨e2, ?_, hres, ?_⟩
    · intro lab hlab
      exact List.count_eq_one_of_mem nd ((hm lab).2 (e3 lab hlab))
    · unfold delete_assembler_buffer
      rw [deleteLabels_ok fin.heap fin.labels [] nd (fun _ _ h => by cases h) ?_,
        List.append_nil]
      intro lab hlab
      have h1 := (hm lab).1 hlab
      have hlt : lab < fin.heap.length := by
        rw [← flags_length]
        exact getElem?_lt h1
      refine ⟨fin.heap[lab], List.getElem?_eq_getElem hlt, ?_⟩
      exact hres lab _ (List.getElem?_eq_getElem hlt)

/-- Witness for C27: the program `,[<.,]` assembled for the 64-bit
architecture at `0x7e0000000000`: six labels (two for the loop, two for the
`left` entry, one for each `get` entry), each bound and owned once, and
deleted without a failed assertion. -/
theorem labels_bound_once_witness :
    (∃ s r, balanceScan echoProgram = some s ∧ compile echoProgram = some r ∧
      (genPrefix ⟨true, 0x7f0000000000, 1, 2⟩ 0x7e0000000000 s.branch_count r 0).isSome = true ∧
      (∀ n st x, genPrefix ⟨true, 0x7f0000000000, 1, 2⟩ 0x7e0000000000 s.branch_count r n =
          some st → r[n]? = some x →
        (0 < stepSize true x → st.1.offset + stepSize true x < st.1.buffer_size) →
        (genPrefix ⟨true, 0x7f0000000000, 1, 2⟩ 0x7e0000000000 s.branch_count r
          (n + 1)).isSome = true) ∧
      (codeSize true r < 2 ^ 20 →
        (generate ⟨true, 0x7f0000000000, 1, 2⟩ 0x7e0000000000 s.branch_count r).isSome =
          true) ∧
      (∀ fin, generate ⟨true, 0x7f0000000000, 1, 2⟩ 0x7e0000000000 s.branch_count r =
          some fin →
        fin.heap.length = 2 * s.branch_count + entryLabels r ∧
        (∀ lab, lab < fin.heap.length → fin.labels.count lab = 1) ∧
        (∀ (lab : Nat) (l : label_t), fin.heap[lab]? = some l →
          l.resolved = true ∧ l.sources = []) ∧
        delete_assembler_buffer fin = some fin.labels.reverse)) ∧
    compile echoProgram = some echoCode ∧
    (generate ⟨true, 0x7f0000000000, 1, 2⟩ 0x7e0000000000 1 echoCode).map
        (fun fin => (fin.labels, fin.flags, fin.offset, delete_assembler_buffer fin)) =
      some ([1, 5, 4, 3, 0, 2], [true, true, true, true, true, true], 167,
        some [2, 0, 3, 4, 5, 1]) :=
  ⟨labels_bound_once ⟨true, 0x7f0000000000, 1, 2⟩ 0x7e0000000000 echoProgram
    ((balanceScan_isSome_iff _).1 ⟨⟨1, 0, 1⟩, by decide⟩), by decide, by decide!⟩

/-! ## The condensed list: values of the moves, neighbours -/

theorem consRun_moves (o : op_t) (d : Int) (ys : List instruction_t)
    (hd : (o = op_left ∨ o = op_right) → 1 ≤ d)
    (h : ∀ i ∈ ys, (i.op = op_left ∨ i.op = op_right) → 1 ≤ i.val) :
    ∀ i ∈ consRun o d ys, (i.op = op_left ∨ i.op = op_right) → 1 ≤ i.val := by
  cases ys with
  | nil =>
    intro i hi hm
    simp only [consRun, List.mem_singleton] at hi
    subst hi
    exact hd hm
  | cons y r =>
    intro i hi hm
    by_cases e : y.op = o
    · simp only [consRun, if_pos e, List.mem_cons] at hi
      rcases hi with hi | hi
      · subst hi
        have h1 := hd hm
        have h2 := h y (List.mem_cons_self _ _) (by rw [e]; exact hm)
        show 1 ≤ d + y.val
        omega
      · exact h i (List.mem_cons_of_mem _ hi) hm
    · simp only [consRun, if_neg e, List.mem_cons] at hi
      rcases hi with hi | hi | hi
      · subst hi; exact hd hm
      · subst hi; exact h _ (List.mem_cons_self _ _) hm
      · exact h i (List.mem_cons_of_mem _ hi) hm

theorem condSpec_moves (p : List Char) :
    ∀ i ∈ condSpec p, (i.op = op_left ∨ i.op = op_right) → 1 ≤ i.val := by
  induction p with
  | nil => intro i hi; cases hi
  | cons c cs ih =>
    show ∀ i ∈ addChar c (condSpec cs), _
    unfold addChar
    split_ifs
    · exact consRun_moves _ _ _ (by rintro (h | h) <;> cases h) ih
    · exact consRun_moves _ _ _ (by rintro (h | h) <;> cases h) ih
    · exact consRun_moves _ _ _ (fun _ => le_refl _) ih
    · exact consRun_moves _ _ _ (fun _ => le_refl _) ih
    all_goals first
      | exact ih
      | (intro i hi hm
         rcases List.mem_cons.1 hi with hi | hi
         · subst hi; rcases hm with hm | hm <;> cases hm
         · exact ih i hi hm)

theorem consRun_chain (o : op_t) (d : Int) (ys : List instruction_t)
    (h : List.Chain' (fun a b => ¬ SameRun a b) ys) :
    List.Chain' (fun a b => ¬ SameRun a b) (consRun o d ys) := by
  cases ys with
  | nil => simp [consRun]
  | cons y r =>
    by_cases e : y.op = o
    · simp only [consRun, if_pos e]
      cases r with
      | nil => simp
      | cons z r =>
        rw [List.chain'_cons] at h ⊢
        refine ⟨?_, h.2⟩
        intro hs
        exact h.1 ⟨by rw [e]; exact hs.1, by rw [e]; exact hs.2⟩
    · simp only [consRun, if_neg e]
      rw [List.chain'_cons]
      exact ⟨fun hs => e hs.1.symm, h⟩

theorem single_chain (o : op_t) (ys : List instruction_t) (ho : isRunOp o = false)
    (h : List.Chain' (fun a b => ¬ SameRun a b) ys) :
    List.Chain' (fun a b => ¬ SameRun a b) (⟨o, 0, 0⟩ :: ys) := by
  cases ys with
  | nil => simp
  | cons y r =>
    rw [List.chain'_cons]
    refine ⟨?_, h⟩
    intro hs
    have := hs.2
    rw [show (⟨o, 0, 0⟩ : instruction_t).op = o from rfl, ho] at this
    cases this

theorem condSpec_chain (p : List Char) :
    List.Chain' (fun a b => ¬ SameRun a b) (condSpec p) := by
  induction p with
  | nil => simp [condSpec]
  | cons c cs ih =>
    show List.Chain' _ (addChar c (condSpec cs))
    unfold addChar
    split_ifs
    · exact consRun_chain _ _ _ ih
    · exact consRun_chain _ _ _ ih
    · exact consRun_chain _ _ _ ih
    · exact consRun_chain _ _ _ ih
    · exact single_chain _ _ (by decide) ih
    · exact single_chain _ _ (by decide) ih
    · exact single_chain _ _ (by decide) ih
    · exact single_chain _ _ (by decide) ih
    · exact ih

theorem chain_of_map_eq (r l : List instruction_t)
    (h : r.map (fun i => (i.op, i.val)) = l.map (fun i => (i.op, i.val)))
    (hl : List.Chain' (fun a b => ¬ SameRun a b) l) :
    List.Chain' (fun a b => ¬ SameRun a b) r := by
  have h1 : List.Chain' (fun a b : op_t × Int => ¬ (a.1 = b.1 ∧ isRunOp a.1 = true))
      (l.map (fun i => (i.op, i.val))) := by
    rw [List.chain'_map]
    exact hl
  rw [← h, List.chain'_map] at h1
  exact h1

theorem moves_of_map_eq (r l : List instruction_t)
    (h : r.map (fun i => (i.op, i.val)) = l.map (fun i => (i.op, i.val)))
    (hl : ∀ i ∈ l, (i.op = op_left ∨ i.op = op_right) → 1 ≤ i.val) :
    ∀ i ∈ r, (i.op = op_left ∨ i.op = op_right) → 1 ≤ i.val := by
  intro i hi hm
  have : (i.op, i.val) ∈ l.map (fun i => (i.op, i.val)) := by
    rw [← h]
    exact List.mem_map_of_mem _ hi
  obtain ⟨j, hj, e⟩ := List.mem_map.1 this
  simp only [Prod.mk.injEq] at e
  have := hl j hj (by rw [e.1]; exact hm)
  rw [← e.2]
  exact this

theorem compile_ops (p : List Char) (r : List instruction_t) (h : compile p = some r) :
    r.map (fun i => (i.op, i.val)) = (condense p).map (fun i => (i.op, i.val)) := by
  unfold compile at h
  cases hs : balanceScan p with
  | none => rw [hs] at h; cases h
  | some s =>
    rw [hs] at h
    exact resolveLoop_ops _ _ _ _ _ h

/-- C37: in the condensed list of every program each `op_left` and each
`op_right` entry has a value of at least 1, and no two neighbouring entries
are both `op_modify`, both `op_left` or both `op_right`; the same holds after
the resolver pass, so for the entries that the assembly loop visits the tests
`val == 0` of `op_right` and `op_left` are false: `genRight` is the call of
`emit_add_r_immz32` and `genLeft` creates its two labels and assembles the
clamp sequence.  (The value of an entry is the length of a run of the program
text, an object of at most `PTRDIFF_MAX` bytes, so `val++` does not overflow
and `val` is held as an integer.) -/
theorem moves_never_zero (p : List Char) :
    (∀ x ∈ condense p, (x.op = op_left ∨ x.op = op_right) → 1 ≤ x.val) ∧
    List.Chain' (fun a b => ¬ SameRun a b) (condense p) ∧
    ∀ r, compile p = some r →
      (∀ x ∈ r, (x.op = op_left ∨ x.op = op_right) → 1 ≤ x.val) ∧
      List.Chain' (fun a b => ¬ SameRun a b) r ∧
      ∀ x ∈ r, ∀ (env : GenEnv) (buf : Asm),
        (x.op = op_right →
          genRight env buf x.val = emit_add_r_immz32 env.x64 buf ptrreg (low32 x.val)) ∧
        (x.op = op_left →
          genLeft env buf x.val =
            genLeftSeq env (new_label (new_label buf).1).1 x.val (new_label buf).2
              (new_label (new_label buf).1).2) := by
  have h1 : ∀ x ∈ condense p, (x.op = op_left ∨ x.op = op_right) → 1 ≤ x.val := by
    rw [condense_eq_condSpec]
    exact condSpec_moves p
  have h2 : List.Chain' (fun a b => ¬ SameRun a b) (condense p) := by
    rw [condense_eq_condSpec]
    exact condSpec_chain p
  refine ⟨h1, h2, ?_⟩
  intro r hr
  have hm := moves_of_map_eq r _ (compile_ops p r hr) h1
  refine ⟨hm, chain_of_map_eq r _ (compile_ops p r hr) h2, ?_⟩
  intro x hx env buf
  constructor
  · intro ho
    have := hm x hx (Or.inr ho)
    unfold genRight
    rw [if_neg (by omega)]
  · intro ho
    have := hm x hx (Or.inl ho)
    unfold genLeft
    rw [if_neg (by omega)]
/-! ## The counting pass and the condensing pass -/

theorem condenseRun_count (w : List instruction_t) (o : op_t) (d : Int) (ho : o ≠ op_invalid)
    (h3 : last_op w = op_invalid → w = []) :
    (condenseRun w o d).length =
      (if last_op w ≠ o ∨ last_op w = op_invalid then w.length + 1 else w.length) ∧
    last_op (condenseRun w o d) = o := by
  cases w with
  | nil => simp [condenseRun, last_op, overwrite, bumpLast]
  | cons i r =>
    have hi : i.op ≠ op_invalid := by
      intro e
      have := h3 e
      cases this
    by_cases e : i.op = o
    · simp [condenseRun, last_op, bumpLast, hi, e, ho]
    · simp [condenseRun, last_op, bumpLast, hi, e]

theorem condenseSingle_count (w : List instruction_t) (o : op_t)
    (h3 : last_op w = op_invalid → w = []) :
    (condenseSingle w o).length = w.length + 1 ∧ last_op (condenseSingle w o) = o := by
  cases w with
  | nil => simp [condenseSingle, last_op, overwrite]
  | cons i r =>
    have hi : i.op ≠ op_invalid := by
      intro e
      have := h3 e
      cases this
    simp [condenseSingle, last_op, hi]

theorem condense_count_step (w : List instruction_t) (st : op_t × Nat) (c : Char)
    (h1 : w.length = st.2) (h2 : last_op w = st.1) (h3 : last_op w = op_invalid → w = []) :
    (condenseStep w c).length = (countStep st c).2 ∧
    last_op (condenseStep w c) = (countStep st c).1 ∧
    (last_op (condenseStep w c) = op_invalid → condenseStep w c = []) ∧
    (isOperator c = true → condenseStep w c ≠ []) ∧ st.2 ≤ (countStep st c).2 := by
  have run : ∀ (o : op_t) (d : Int), o ≠ op_invalid → isRunOp o = true →
      (countStep st c = if st.1 ≠ o ∨ st.1 = op_invalid then (o, st.2 + 1) else st) →
      (condenseRun w o d).length = (countStep st c).2 ∧
      last_op (condenseRun w o d) = (countStep st c).1 ∧
      (last_op (condenseRun w o d) = op_invalid → condenseRun w o d = []) ∧
      (isOperator c = true → condenseRun w o d ≠ []) ∧ st.2 ≤ (countStep st c).2 := by
    intro o d ho _ hc
    obtain ⟨a, b⟩ := condenseRun_count w o d ho h3
    rw [hc, a, b, h2, h1]
    have hne : condenseRun w o d ≠ [] := by
      intro e
      rw [e] at b
      exact ho b.symm
    refine ⟨?_, ?_, fun e => absurd e ho, fun _ => hne, ?_⟩
    · split_ifs <;> rfl
    · split_ifs with h
      · rfl
      · push_neg at h
        exact h.1.symm
    · split_ifs <;> simp
  have single : ∀ (o : op_t), o ≠ op_invalid → countStep st c = (o, st.2 + 1) →
      (condenseSingle w o).length = (countStep st c).2 ∧
      last_op (condenseSingle w o) = (countStep st c).1 ∧
      (last_op (condenseSingle w o) = op_invalid → condenseSingle w o = []) ∧
      (isOperator c = true → condenseSingle w o ≠ []) ∧ st.2 ≤ (countStep st c).2 := by
    intro o ho hc
    obtain ⟨a, b⟩ := condenseSingle_count w o h3
    rw [hc, a, b, h1]
    have hne : condenseSingle w o ≠ [] := by
      intro e
      rw [e] at b
      exact ho b.symm
    exact ⟨rfl, rfl, fun e => absurd e ho, fun _ => hne, by simp⟩
  unfold condenseStep
  split_ifs with c1 c2 c3 c4 c5 c6 c7 c8
  · exact run _ _ (by decide) rfl (by subst c1; rfl)
  · exact run _ _ (by decide) rfl (by subst c2; rfl)
  · exact run _ _ (by decide) rfl (by subst c3; rfl)
  · exact run _ _ (by decide) rfl (by subst c4; rfl)
  · exact single _ (by decide) (by subst c5; rfl)
  · exact single _ (by decide) (by subst c6; rfl)
  · exact single _ (by decide) (by subst c7; rfl)
  · exact single _ (by decide) (by subst c8; rfl)
  · have hno : isOperator c = false := by
      simp [isOperator, c1, c2, c3, c4, c5, c6, c7, c8]
    have hc : countStep st c = st := by
      simp [countStep, next_op, c1, c2, c3, c4, c5, c6, c7, c8]
    rw [hc]
    exact ⟨h1, h2, h3, fun h => (by rw [hno] at h; cases h), le_refl _⟩

theorem countStep_mono (cs : List Char) :
    ∀ st : op_t × Nat, st.2 ≤ (cs.foldl countStep st).2 := by
  induction cs with
  | nil => intro st; exact le_refl _
  | cons c cs ih =>
    intro st
    rw [List.foldl_cons]
    refine le_trans ?_ (ih _)
    unfold countStep
    split <;> (try split_ifs) <;> simp

theorem condenseLoopChecked_eq (n : Nat) (cs : List Char) :
    ∀ (w : List instruction_t) (st : op_t × Nat),
      w.length = st.2 → last_op w = st.1 → (last_op w = op_invalid → w = []) →
      (cs.foldl countStep st).2 ≤ n →
      condenseLoopChecked n cs w = some (cs.foldl condenseStep w) ∧
      (cs.foldl condenseStep w).length = (cs.foldl countStep st).2 := by
  induction cs with
  | nil => intro w st h1 _ _ _; exact ⟨rfl, h1⟩
  | cons c cs ih =>
    intro w st h1 h2 h3 hn
    obtain ⟨a, b, d, e, _⟩ := condense_count_step w st c h1 h2 h3
    rw [List.foldl_cons] at hn
    have hstep : condenseStepChecked n w c = some (condenseStep w c) := by
      unfold condenseStepChecked
      by_cases hop : isOperator c = true
      · rw [if_pos hop]
        have hne := e hop
        have hlen : 0 < (condenseStep w c).length := List.length_pos.2 hne
        have hle := countStep_mono cs (countStep st c)
        rw [if_pos (by unfold opIndex; omega)]
      · rw [if_neg hop]
        have hno : isOperator c = false := by simpa using hop
        have : condenseStep w c = w := by
          unfold condenseStep
          simp only [isOperator, Bool.or_eq_false_iff, decide_eq_false_iff_not] at hno
          simp [hno]
        rw [this]
    simp only [condenseLoopChecked, hstep, Option.some_bind, List.foldl_cons]
    exact ih _ _ a b d hn

/-- C36: for every program the condensing pass, run with the check of its
index against the `op_count` of the counting pass, passes every check (each
store goes to an index below `op_count`, so no `assert(op < op_count)` fails)
and the final assertion `op_count == 0 || op == op_count - 1`; it writes
exactly `op_count` entries, and after every prefix of the program the number
of entries written is at most `op_count`. -/
theorem condense_within_op_count (p : List Char) :
    condenseChecked p = some (condense p) ∧ (condense p).length = op_count p ∧
    (∀ k, ((p.take k).foldl condenseStep []).length ≤ op_count p) ∧
    (op_count p = 0 ∨ opIndex (p.foldl condenseStep []) = op_count p - 1) := by
  obtain ⟨a, b⟩ := condenseLoopChecked_eq (op_count p) p [] (op_invalid, 0) rfl rfl
    (fun _ => rfl) (le_refl _)
  have hfin : op_count p = 0 ∨ opIndex (p.foldl condenseStep []) = op_count p - 1 := by
    right
    unfold opIndex
    rw [b]
    rfl
  refine ⟨?_, ?_, ?_, hfin⟩
  · unfold condenseChecked
    rw [a, Option.some_bind, if_pos hfin]
    rfl
  · unfold condense
    rw [List.length_reverse, b]
    rfl
  · intro k
    obtain ⟨_, d⟩ := condenseLoopChecked_eq _ (p.take k) [] (op_invalid, 0) rfl rfl
      (fun _ => rfl) (le_refl _)
    rw [d]
    have := countStep_mono (p.drop k) ((p.take k).foldl countStep (op_invalid, 0))
    rw [← List.foldl_append, List.take_append_drop] at this
    exact this
/-! ## The scratch stack of the resolver -/

theorem resolveRun_fst (m : Nat) (l : List instruction_t) :
    ∀ (stack : List Nat) (bc : Nat),
      (resolveRun m l stack bc).map (fun r => r.1) = resolveLoop m l stack bc := by
  induction l with
  | nil => intro stack bc; rfl
  | cons i rest ih =>
    intro stack bc
    simp only [resolveRun, resolveLoop]
    split_ifs with h1 h2 h3
    · rw [← ih, Option.map_map, Option.map_map]; rfl
    · rfl
    · cases stack with
      | nil => rfl
      | cons top below =>
        simp only
        rw [← ih, Option.map_map, Option.map_map]; rfl
    · rw [← ih, Option.map_map, Option.map_map]; rfl

theorem resolveRun_if (m : Nat) (i : instruction_t) (rest : List instruction_t)
    (stack : List Nat) (bc : Nat) (h : i.op = op_if) (hm : stack.length + 1 ≤ m) :
    resolveRun m (i :: rest) stack bc =
      (resolveRun m rest (bc :: stack) (bc + 1)).map (fun r => (i :: r.1, r.2)) := by
  simp only [resolveRun, h, if_true, hm]

theorem resolveRun_endif (m : Nat) (i : instruction_t) (rest : List instruction_t)
    (top : Nat) (stack : List Nat) (bc : Nat) (h : i.op = op_endif) :
    resolveRun m (i :: rest) (top :: stack) bc =
      (resolveRun m rest stack bc).map (fun r => ({ i with branch := top } :: r.1, r.2)) := by
  have h1 : i.op ≠ op_if := by rw [h]; decide
  simp only [resolveRun, h1, if_false]
  simp [h]

theorem resolveRun_other (m : Nat) (i : instruction_t) (rest : List instruction_t)
    (stack : List Nat) (bc : Nat) (h1 : i.op ≠ op_if) (h2 : i.op ≠ op_endif) :
    resolveRun m (i :: rest) stack bc =
      (resolveRun m rest stack bc).map (fun r => (i :: r.1, r.2)) := by
  simp only [resolveRun, h1, h2, if_false]

/-- Loop invariant of the resolver with its stack: a well-nested stretch
passes the assertions when the stack has room for its depth, and leaves the
stack as it found it. -/
theorem resolveRun_flatten (m : Nat) (U : Tree instruction_t) :
    U.WF instrBr → ∀ (rest : List instruction_t) (stack : List Nat) (bc : Nat),
      stack.length + U.depth ≤ m →
      resolveRun m (U.flatten ++ rest) stack bc =
        (resolveRun m rest stack (bc + U.loops)).map
          (fun r => ((U.annot bc).flatten ++ r.1, r.2)) := by
  induction U with
  | nil =>
    intro _ rest stack bc _
    simp [Tree.flatten, Tree.loops, Tree.annot]
  | act a k ih =>
    intro h rest stack bc hd
    have h1 : a.op ≠ op_if := by
      intro e; have := (instrBr_opn a).2 e; rw [h.1] at this; cases this
    have h2 : a.op ≠ op_endif := by
      intro e; have := (instrBr_cls a).2 e; rw [h.1] at this; cases this
    rw [Tree.flatten, List.cons_append, resolveRun_other m a _ stack bc h1 h2,
      ih h.2 rest stack bc hd]
    simp only [Tree.loops, Tree.annot, Tree.flatten]
    cases resolveRun m rest stack (bc + k.loops) <;> simp
  | loop o b c k ihb ihk =>
    intro h rest stack bc hd
    obtain ⟨ho, hc, hb, hk⟩ := h
    have ho' := (instrBr_opn o).1 ho
    have hc' := (instrBr_cls c).1 hc
    simp only [Tree.depth] at hd
    have hd1 : stack.length + 1 ≤ m := by omega
    rw [Tree.flatten, List.cons_append, resolveRun_if m o _ stack bc ho' hd1,
      List.append_assoc, ihb hb _ (bc :: stack) (bc + 1) (by simp; omega), List.cons_append,
      resolveRun_endif m c _ bc stack _ hc', ihk hk rest stack (bc + 1 + b.loops) (by omega)]
    have e : bc + 1 + b.loops + k.loops = bc + (1 + b.loops + k.loops) := by omega
    rw [e]
    simp only [Tree.loops, Tree.annot, Tree.flatten]
    cases resolveRun m rest stack (bc + (1 + b.loops + k.loops)) <;> simp

/-- A run of the resolver that passes its assertions has passed them after
every number of iterations, with a stack inside the allocated array. -/
theorem resolveRun_take (m : Nat) (l : List instruction_t) :
    ∀ (stack : List Nat) (bc : Nat) (res : List instruction_t × List Nat × Nat),
      resolveRun m l stack bc = some res → stack.length ≤ m →
      ∀ k, ∃ res', resolveRun m (l.take k) stack bc = some res' ∧ res'.2.1.length ≤ m := by
  induction l with
  | nil =>
    intro stack bc res _ hs k
    exact ⟨([], stack, bc), by simp [resolveRun], hs⟩
  | cons i rest ih =>
    intro stack bc res h hs k
    cases k with
    | zero => exact ⟨([], stack, bc), by simp [resolveRun], hs⟩
    | succ k =>
      rw [List.take_succ_cons]
      by_cases h1 : i.op = op_if
      · by_cases hm : stack.length + 1 ≤ m
        · rw [resolveRun_if m i _ stack bc h1 hm] at h
          rw [resolveRun_if m i _ stack bc h1 hm]
          obtain ⟨r1, hr1, _⟩ := Option.map_eq_some'.1 h
          obtain ⟨res', a, b⟩ := ih (bc :: stack) (bc + 1) r1 hr1 (by simpa using hm) k
          exact ⟨(i :: res'.1, res'.2), by rw [a]; rfl, b⟩
        · simp only [resolveRun, h1, if_true, hm, if_false] at h
          cases h
      · by_cases h2 : i.op = op_endif
        · cases stack with
          | nil =>
            simp only [resolveRun, h1, h2, if_false, if_true] at h
            cases h
          | cons top below =>
            rw [resolveRun_endif m i _ top below bc h2] at h
            rw [resolveRun_endif m i _ top below bc h2]
            obtain ⟨r1, hr1, _⟩ := Option.map_eq_some'.1 h
            obtain ⟨res', a, b⟩ := ih below bc r1 hr1
              (by simp only [List.length_cons] at hs; omega) k
            exact ⟨(_ :: res'.1, res'.2), by rw [a]; rfl, b⟩
        · rw [resolveRun_other m i _ stack bc h1 h2] at h
          rw [resolveRun_other m i _ stack bc h1 h2]
          obtain ⟨r1, hr1, _⟩ := Option.map_eq_some'.1 h
          obtain ⟨res', a, b⟩ := ih stack bc r1 hr1 hs k
          exact ⟨(i :: res'.1, res'.2), by rw [a]; rfl, b⟩

/-- C35: for every bracket-balanced program the resolver loop, run on the
condensed list with the `max_stack_size` of the balance scan, passes both its
assertions at every entry (it never pops from an empty stack and never pushes
beyond `max_stack_size`), holds at most `max_stack_size` entries after every
number of iterations, and ends with an empty stack and with `branch_count`
equal to the loop count of the scan; its entries are those of `compile`. -/
theorem resolver_stack_safe (p : List Char) (hb : Balanced p) :
    ∃ s r, balanceScan p = some s ∧ compile p = some r ∧
      resolveRun s.max_stack_size (condense p) [] 0 = some (r, [], s.branch_count) ∧
      ∀ k, ∃ res, resolveRun s.max_stack_size ((condense p).take k) [] 0 = some res ∧
        res.2.1.length ≤ s.max_stack_size := by
  obtain ⟨s, T, U, hs, hp, hc, hcoal, hd, hcomp⟩ := compile_spec p hb
  have hU := hcoal.wf.2
  have hrun : resolveRun s.max_stack_size (condense p) [] 0 =
      some ((U.annot 0).flatten, [], U.loops) := by
    have := resolveRun_flatten s.max_stack_size U hU [] [] 0 (by simpa using hd)
    rw [List.append_nil] at this
    rw [hc, this]
    simp [resolveRun]
  have hloops : U.loops = s.branch_count := by
    rw [← Coal.loops hcoal, ← Tree.count_open T hcoal.wf.1, ← hp]
    have h1 := hs
    unfold balanceScan at h1
    cases h2 : scanLoop p ⟨0, 0, 0⟩ with
    | none => rw [h2] at h1; cases h1
    | some s1 =>
      rw [h2] at h1
      simp only at h1
      split_ifs at h1
      cases h1
      have := (scanLoop_some p _ _ h2).2.2
      simpa using this.symm
  rw [hloops] at hrun
  exact ⟨s, _, hs, hcomp, hrun, resolveRun_take _ _ _ _ _ hrun (Nat.zero_le _)⟩

theorem resolver_stack_safe_witness :
    Balanced ['[', '[', ']', ']'] ∧
    (∃ s r, balanceScan ['[', '[', ']', ']'] = some s ∧ compile ['[', '[', ']', ']'] = some r ∧
      resolveRun s.max_stack_size (condense ['[', '[', ']', ']']) [] 0 =
        some (r, [], s.branch_count) ∧
      ∀ k, ∃ res, resolveRun s.max_stack_size ((condense ['[', '[', ']', ']']).take k) [] 0 =
          some res ∧ res.2.1.length ≤ s.max_stack_size) ∧
    balanceScan ['[', '[', ']', ']'] = some ⟨2, 0, 2⟩ ∧
    resolveRun 2 (condense ['[', '[', ']', ']']) [] 0 =
      some ([⟨op_if, 0, 0⟩, ⟨op_if, 0, 0⟩, ⟨op_endif, 0, 1⟩, ⟨op_endif, 0, 0⟩], [], 2) ∧
    resolveRun 2 ((condense ['[', '[', ']', ']']).take 2) [] 0 =
      some ([⟨op_if, 0, 0⟩, ⟨op_if, 0, 0⟩], [1, 0], 2) ∧
    resolveRun 1 (condense ['[', '[', ']', ']']) [] 0 = none :=
  ⟨(balanceScan_isSome_iff _).1 ⟨⟨2, 0, 2⟩, by decide⟩,
   resolver_stack_safe ['[', '[', ']', ']']
     ((balanceScan_isSome_iff _).1 ⟨⟨2, 0, 2⟩, by decide⟩),
   by decide, by decide, by decide, by decide⟩

/-! ## The indices into the branches array -/

theorem ifCount_congr (r l : List instruction_t)
    (h : r.map (fun i => (i.op, i.val)) = l.map (fun i => (i.op, i.val))) :
    ifCount r = ifCount l := by
  induction r generalizing l with
  | nil =>
    cases l with
    | nil => rfl
    | cons b l => cases h
  | cons a r ih =>
    cases l with
    | nil => cases h
    | cons b l =>
      simp only [List.map_cons, List.cons.injEq, Prod.mk.injEq] at h
      rw [ifCount_cons, ifCount_cons, ih l h.2, h.1.1]

/-- C40: for every bracket-balanced program the condensed list (before and
after the resolver pass) has as many `if` entries as the balance scan counted
`[`, which is the length of the branches array; the running index with which
the assembly loop reaches each `if` entry (the number of `if` entries before
it) and the `branch` field of each `endif` entry are below that length. -/
theorem branch_indices_in_range (p : List Char) (hb : Balanced p) :
    ∃ s r, balanceScan p = some s ∧ compile p = some r ∧
      s.branch_count = p.count '[' ∧
      ifCount (condense p) = s.branch_count ∧ ifCount r = s.branch_count ∧
      (∀ b, (newBranches s.branch_count b).2.length = s.branch_count) ∧
      (∀ env addr n st, genPrefix env addr s.branch_count r n = some st →
        st.2 = ifCount (r.take n)) ∧
      (∀ (n : Nat) (x : instruction_t), r[n]? = some x → x.op = op_if → ifCount (r.take n) < s.branch_count) ∧
      (∀ (n : Nat) (x : instruction_t), r[n]? = some x → x.op = op_endif → x.branch < s.branch_count) := by
  obtain ⟨s, r, hs, hr, hg, hm⟩ := compile_good p hb
  have hcount : s.branch_count = p.count '[' := by
    have h1 := hs
    unfold balanceScan at h1
    cases h2 : scanLoop p ⟨0, 0, 0⟩ with
    | none => rw [h2] at h1; cases h1
    | some s1 =>
      rw [h2] at h1
      simp only at h1
      split_ifs at h1
      cases h1
      have := (scanLoop_some p _ _ h2).2.2
      simpa using this
  refine ⟨s, r, hs, hr, hcount, ?_, hg.2.2.1, ?_, ?_, ?_, ?_⟩
  · rw [← ifCount_congr r _ hm]
    exact hg.2.2.1
  · intro b
    rw [(newBranches_spec s.branch_count b).2.2.2]
    simp
  · intro env addr n st h
    exact (genPrefix_LInv env addr s.branch_count r n st hg h).1.1
  · intro n x hx ho
    have e := split_at_getElem? r n x hx
    have h1 := hg.2.2.1
    rw [e, ifCount_append, ifCount_cons, if_pos ho] at h1
    omega
  · intro n x hx ho
    apply (hg.2.2.2.2 x.branch).1
    unfold closers
    rw [List.mem_map]
    refine ⟨x, ?_, rfl⟩
    rw [List.mem_filter]
    refine ⟨?_, by simpa using ho⟩
    rw [split_at_getElem? r n x hx]
    simp

theorem branch_indices_in_range_witness :
    Balanced echoProgram ∧
    (∃ s r, balanceScan echoProgram = some s ∧ compile echoProgram = some r ∧
      s.branch_count = echoProgram.count '[' ∧
      ifCount (condense echoProgram) = s.branch_count ∧ ifCount r = s.branch_count ∧
      (∀ b, (newBranches s.branch_count b).2.length = s.branch_count) ∧
      (∀ env addr n st, genPrefix env addr s.branch_count r n = some st →
        st.2 = ifCount (r.take n)) ∧
      (∀ (n : Nat) (x : instruction_t), r[n]? = some x → x.op = op_if → ifCount (r.take n) < s.branch_count) ∧
      (∀ (n : Nat) (x : instruction_t), r[n]? = some x → x.op = op_endif → x.branch < s.branch_count)) ∧
    balanceScan echoProgram = some ⟨1, 0, 1⟩ ∧ compile echoProgram = some echoCode ∧
    ifCount echoCode = 1 :=
  ⟨(balanceScan_isSome_iff _).1 ⟨⟨1, 0, 1⟩, by decide⟩,
   branch_indices_in_range echoProgram ((balanceScan_isSome_iff _).1 ⟨⟨1, 0, 1⟩, by decide⟩),
   by decide, by decide, by decide⟩
/-! ## The boundaries of the user region -/

theorem toSize_eq_of_emod (x64 : Bool) (a b : Int)
    (h : a % 2 ^ wordBits x64 = b % 2 ^ wordBits x64) : toSize x64 a = toSize x64 b := by
  unfold toSize
  rw [h]

theorem toSize_cast (x64 : Bool) (v : Int) :
    ((toSize x64 v : Nat) : Int) = v % 2 ^ wordBits x64 := by
  unfold toSize
  have : (0 : Int) ≤ v % 2 ^ wordBits x64 := Int.emod_nonneg _ (by positivity)
  omega

theorem layout_allocated (x64 : Bool) (page_size max_data_size : Nat)
    (instructions : List instruction_t) (L : Layout)
    (h : tapeLayout x64 page_size max_data_size instructions = some L) :
    L.allocated = toSize x64 ((L.rnd : Int) +
      toSize x64 (((L.pages_forward : Int) + L.pages_reverse) * L.page_size)) := by
  unfold tapeLayout at h
  simp only at h
  split_ifs at h
  cases h
  rfl

theorem user_end_agree (x64 : Bool) (tape rnd pf pr ps : Nat) :
    toSize x64 ((tape : Int) +
        (toSize x64 ((rnd : Int) + toSize x64 (((pf : Int) + pr) * ps)) : Nat) -
        toSize x64 ((pf : Int) * ps)) =
      toSize x64 ((tape : Int) + toSize x64 ((pr : Int) * ps) + rnd) := by
  apply toSize_eq_of_emod
  rw [toSize_cast, toSize_cast, toSize_cast, toSize_cast]
  have e : ((pf : Int) + pr) * ps = (pf : Int) * ps + (pr : Int) * ps := by ring
  rw [e]
  generalize (pf : Int) * ps = B
  generalize (pr : Int) * ps = C
  generalize (2 : Int) ^ wordBits x64 = M
  rw [Int.sub_emod, Int.add_emod (tape : Int), Int.emod_emod, Int.add_emod (rnd : Int),
    Int.emod_emod, ← Int.add_emod (rnd : Int), ← Int.add_emod (tape : Int), Int.emod_emod,
    ← Int.sub_emod, Int.add_emod ((tape : Int) + C % M), Int.add_emod (tape : Int) (C % M),
    Int.emod_emod, ← Int.add_emod (tape : Int) C, ← Int.add_emod]
  congr 1
  ring

/-- C39: whenever `interpret` has computed a tape layout, the boundaries that
`handler` computes from the file-scope variables agree with what `interpret`
did: `user_start = tape + pages_reverse * page_size` is the `tape_start`
loaded into the pointer register, and
`user_end = tape + allocated - pages_forward * page_size` is
`tape + pages_reverse * page_size + rnd`, the address passed to the `mprotect`
of the forward guard.  All values are machine words, so the equalities hold
under wrap-around as well.  `handler` classifies a fault by these two
boundaries. -/
theorem handler_bounds_agree (env : Env) (program : List Char) (max_data_size : Nat)
    (gcfp pcfp : Nat) (input : List Nat) (fault : Nat) (L : Layout)
    (hL : tapeLayout env.x64 (toSize env.x64 env.page_size_) max_data_size
      (condense program) = some L) :
    handler_user_start env.x64 (jitEnvOf env L gcfp pcfp).g =
      (genEnvOf env L gcfp pcfp).tape_start ∧
    (jitInit (jitEnvOf env L gcfp pcfp) input).d.ptr =
      handler_user_start env.x64 (jitEnvOf env L gcfp pcfp).g ∧
    handler_user_end env.x64 (jitEnvOf env L gcfp pcfp).g =
      (jitEnvOf env L gcfp pcfp).user_end ∧
    handler env.x64 (jitEnvOf env L gcfp pcfp).g fault =
      (if fault < env.mmap_tape then HandlerAction.reraise
       else if toSize env.x64 ((env.mmap_tape : Int) + L.allocated) ≤ fault then
         HandlerAction.reraise
       else if env.mmap_tape ≤ fault ∧
           fault < handler_user_start env.x64 (jitEnvOf env L gcfp pcfp).g then
         HandlerAction.jump interpret_tape_underflow
       else if handler_user_end env.x64 (jitEnvOf env L gcfp pcfp).g ≤ fault ∧
           fault < toSize env.x64 ((env.mmap_tape : Int) + L.allocated) then
         HandlerAction.jump interpret_tape_exceeded
       else HandlerAction.jump interpret_no_memory) := by
  refine ⟨rfl, ?_, ?_, rfl⟩
  · exact toSize_natCast env.x64 (handler_user_start env.x64 (jitEnvOf env L gcfp pcfp).g)
      (toSize_lt _ _)
  · show toSize env.x64 ((env.mmap_tape : Int) + L.allocated -
        toSize env.x64 ((L.pages_forward : Int) * L.page_size)) =
      toSize env.x64 ((env.mmap_tape : Int) +
        toSize env.x64 ((L.pages_reverse : Int) * L.page_size) + L.rnd)
    rw [layout_allocated _ _ _ _ L hL]
    exact user_end_agree _ _ _ _ _ _

theorem handler_bounds_agree_witness :
    tapeLayout env64.x64 (toSize env64.x64 env64.page_size_) (2 ^ 64 - 1)
        (condense ['<', '>', '.']) = some ⟨4096, 1, 1, 0, 8192⟩ ∧
    (handler_user_start env64.x64 (jitEnvOf env64 ⟨4096, 1, 1, 0, 8192⟩ 1 2).g =
      (genEnvOf env64 ⟨4096, 1, 1, 0, 8192⟩ 1 2).tape_start ∧
    (jitInit (jitEnvOf env64 ⟨4096, 1, 1, 0, 8192⟩ 1 2) []).d.ptr =
      handler_user_start env64.x64 (jitEnvOf env64 ⟨4096, 1, 1, 0, 8192⟩ 1 2).g ∧
    handler_user_end env64.x64 (jitEnvOf env64 ⟨4096, 1, 1, 0, 8192⟩ 1 2).g =
      (jitEnvOf env64 ⟨4096, 1, 1, 0, 8192⟩ 1 2).user_end ∧
    handler env64.x64 (jitEnvOf env64 ⟨4096, 1, 1, 0, 8192⟩ 1 2).g 0x7f0000001000 =
      (if 0x7f0000001000 < env64.mmap_tape then HandlerAction.reraise
       else if toSize env64.x64 ((env64.mmap_tape : Int) +
           (⟨4096, 1, 1, 0, 8192⟩ : Layout).allocated) ≤ 0x7f0000001000 then
         HandlerAction.reraise
       else if env64.mmap_tape ≤ 0x7f0000001000 ∧
           0x7f0000001000 <
             handler_user_start env64.x64 (jitEnvOf env64 ⟨4096, 1, 1, 0, 8192⟩ 1 2).g then
         HandlerAction.jump interpret_tape_underflow
       else if handler_user_end env64.x64 (jitEnvOf env64 ⟨4096, 1, 1, 0, 8192⟩ 1 2).g ≤
             0x7f0000001000 ∧
           0x7f0000001000 < toSize env64.x64 ((env64.mmap_tape : Int) +
             (⟨4096, 1, 1, 0, 8192⟩ : Layout).allocated) then
         HandlerAction.jump interpret_tape_exceeded
       else HandlerAction.jump interpret_no_memory)) ∧
    handler_user_start true ⟨0x7f0000000000, 8192, 4096, 1, 1⟩ = 0x7f0000001000 ∧
    handler_user_end true ⟨0x7f0000000000, 8192, 4096, 1, 1⟩ = 0x7f0000001000 ∧
    handler true ⟨0x7f0000000000, 8192, 4096, 1, 1⟩ 0x7f0000001000 =
      HandlerAction.jump interpret_tape_exceeded :=
  ⟨by decide,
   handler_bounds_agree env64 ['<', '>', '.'] (2 ^ 64 - 1) 1 2 [] 0x7f0000001000
     ⟨4096, 1, 1, 0, 8192⟩ (by decide),
   by decide, by decide, by decide⟩
/-! ## The bytes of the code buffer -/

theorem writeLE_bytes (n : Nat) :
    ∀ (mem : Nat → Nat) (addr v k : Nat), k < n →
      writeLE mem addr n v (addr + k) = v / 256 ^ k % 256 := by
  induction n with
  | zero => intro mem addr v k hk; omega
  | succ n ih =>
    intro mem addr v k hk
    simp only [writeLE]
    cases k with
    | zero =>
      have e := writeLE_out n (Function.update mem addr (v % 256)) (addr + 1) (v / 256) addr
        (Or.inl (by omega))
      simp [e]
    | succ k =>
      have := ih (Function.update mem addr (v % 256)) (addr + 1) (v / 256) k (by omega)
      rw [show addr + (k + 1) = addr + 1 + k by omega, this, Nat.div_div_eq_div_mul,
        pow_succ, Nat.mul_comm]

theorem bytes_length (b : Asm) : b.bytes.length = b.offset := by
  simp [Asm.bytes]

theorem bytes_le (b : Asm) (m v : Nat) :
    Asm.bytes { b with mem := writeLE b.mem (b.buffer + b.offset) m v,
                       offset := b.offset + m } = b.bytes ++ leBytes m v := by
  unfold Asm.bytes leBytes
  simp only
  rw [List.range_add, List.map_append, List.map_map]
  congr 1
  · apply List.map_congr_left
    intro k hk
    have hk' := List.mem_range.1 hk
    exact writeLE_out m _ _ _ _ (Or.inl (by omega))
  · apply List.map_congr_left
    intro k hk
    have hk' := List.mem_range.1 hk
    simp only [Function.comp]
    rw [← Nat.add_assoc]
    exact writeLE_bytes m _ _ _ k hk'

@[simp] theorem bytes_u8 (b : Asm) (v : Nat) : (emit_u8 b v).bytes = b.bytes ++ [v % 256] := by
  exact (bytes_le b 1 v).trans (by simp [leBytes, List.range_succ])

@[simp] theorem bytes_u32 (b : Asm) (v : Nat) : (emit_u32 b v).bytes = b.bytes ++ leBytes 4 v :=
  bytes_le b 4 v

@[simp] theorem bytes_ptr (x64 : Bool) (b : Asm) (v : Nat) :
    (emit_ptr x64 b v).bytes = b.bytes ++ leBytes (wordBytes x64) v :=
  bytes_le b (wordBytes x64) v

@[simp] theorem bytes_rexw (x64 : Bool) (b : Asm) :
    (emit_rexw x64 b).bytes = b.bytes ++ rexwCode x64 := by
  cases x64 <;> simp [emit_rexw, rexwCode]

@[simp] theorem emit_u32_heap (b : Asm) (v : Nat) : (emit_u32 b v).heap = b.heap := rfl

@[simp] theorem emit_ptr_heap (x64 : Bool) (b : Asm) (v : Nat) :
    (emit_ptr x64 b v).heap = b.heap := rfl

@[simp] theorem emit_rexw_heap (x64 : Bool) (b : Asm) : (emit_rexw x64 b).heap = b.heap := by
  cases x64 <;> rfl

@[simp] theorem emit_u32_buffer (b : Asm) (v : Nat) : (emit_u32 b v).buffer = b.buffer := rfl

@[simp] theorem emit_ptr_buffer (x64 : Bool) (b : Asm) (v : Nat) :
    (emit_ptr x64 b v).buffer = b.buffer := rfl

@[simp] theorem emit_rexw_buffer (x64 : Bool) (b : Asm) :
    (emit_rexw x64 b).buffer = b.buffer := by
  cases x64 <;> rfl

theorem emit_alu_code (opA modrm : Nat) (x64 : Bool) (buf buf' : Asm) (reg imm : Nat)
    (h : emit_alu_r_immz32 opA modrm x64 buf reg imm = some buf') :
    buf'.bytes = buf.bytes ++ aluCode opA modrm x64 reg imm ∧ buf'.heap = buf.heap ∧
      buf'.buffer = buf.buffer := by
  unfold emit_alu_r_immz32 at h
  unfold aluCode
  split_ifs at h with h1 h2 <;> cases h <;> simp [h2]

theorem emit_op_r_r_code (opcode : Nat) (x64 : Bool) (buf buf' : Asm) (r1 r2 : Nat)
    (h : emit_op_r_r opcode x64 buf r1 r2 = some buf') :
    buf'.bytes = buf.bytes ++ (rexwCode x64 ++ [opcode % 256, (0xC0 ||| (r1 <<< 3) ||| r2) % 256]) ∧
      buf'.heap = buf.heap ∧ buf'.buffer = buf.buffer := by
  unfold emit_op_r_r at h
  split_ifs at h <;> cases h <;> simp

theorem emit_mov_r_immptr_code (x64 : Bool) (buf buf' : Asm) (reg imm : Nat)
    (h : emit_mov_r_immptr x64 buf reg imm = some buf') :
    buf'.bytes = buf.bytes ++ (rexwCode x64 ++ [(0xB8 + reg) % 256] ++
        leBytes (wordBytes x64) imm) ∧
      buf'.heap = buf.heap ∧ buf'.buffer = buf.buffer := by
  unfold emit_mov_r_immptr at h
  split_ifs at h <;> cases h <;> simp

theorem EmitOp.code_spec (x64 : Bool) (op : EmitOp) (buf buf' : Asm) (bs : List Nat)
    (hc : op.code x64 = some bs) (h : op.run x64 buf = some buf') :
    buf'.bytes = buf.bytes ++ bs ∧ buf'.heap = buf.heap ∧ buf'.buffer = buf.buffer := by
  cases op with
  | add_rm8_imm8 reg imm =>
    cases hc
    simp only [EmitOp.run, emit_add_rm8_imm8] at h
    split_ifs at h
    cases h
    simp
  | add_r_immz32 reg imm => cases hc; exact emit_alu_code _ _ _ _ _ _ _ h
  | and_r_immz32 reg imm => cases hc; exact emit_alu_code _ _ _ _ _ _ _ h
  | cmp_r_immz32 reg imm => cases hc; exact emit_alu_code _ _ _ _ _ _ _ h
  | sub_r_immz32 reg imm => cases hc; exact emit_alu_code _ _ _ _ _ _ _ h
  | call imm =>
    cases hc
    simp only [EmitOp.run, emit_call] at h
    cases h1 : emit_mov_r_immptr x64 buf EAX imm with
    | none => rw [h1] at h; cases h
    | some b =>
      rw [h1] at h
      simp only at h
      obtain ⟨a1, a2, a3⟩ := emit_mov_r_immptr_code _ _ _ _ _ h1
      split_ifs at h
      cases h
      simp [a1, a2, a3]
  | cmp_rm8_imm8 reg imm =>
    cases hc
    simp only [EmitOp.run, emit_cmp_rm8_imm8] at h
    split_ifs at h
    cases h
    simp
  | cmp_r_r reg srcreg => cases hc; exact emit_op_r_r_code _ _ _ _ _ _ h
  | mov_r_r reg srcreg => cases hc; exact emit_op_r_r_code _ _ _ _ _ _ h
  | xor_r_r reg srcreg => cases hc; exact emit_op_r_r_code _ _ _ _ _ _ h
  | je lab => cases hc
  | jle lab => cases hc
  | jmp lab => cases hc
  | jne lab => cases hc
  | push_label lab => cases hc
  | leave =>
    cases hc
    simp only [EmitOp.run, emit_leave] at h
    split_ifs at h
    cases h
    simp
  | ret =>
    cases hc
    simp only [EmitOp.run, emit_ret] at h
    split_ifs at h
    cases h
    simp
  | mov_r8_rm8 reg srcreg =>
    cases hc
    simp only [EmitOp.run, emit_mov_r8_rm8] at h
    split_ifs at h
    cases h
    simp
  | mov_rm8_r8 reg srcreg =>
    cases hc
    simp only [EmitOp.run, emit_mov_rm8_r8] at h
    split_ifs at h
    cases h
    simp
  | mov_r_immptr reg imm => cases hc; exact emit_mov_r_immptr_code _ _ _ _ _ h
  | mov_rm_rint reg srcreg =>
    cases hc
    simp only [EmitOp.run, emit_mov_rm_rint] at h
    split_ifs at h with h1 h2 <;> cases h <;> simp [h2]
  | pop_r reg =>
    cases hc
    simp only [EmitOp.run, emit_pop_r] at h
    split_ifs at h
    cases h
    simp
  | push_r reg =>
    cases hc
    simp only [EmitOp.run, emit_push_r] at h
    split_ifs at h
    cases h
    simp

theorem runOps_code (x64 : Bool) (ops : List EmitOp) :
    ∀ (buf buf' : Asm), (∀ op ∈ ops, (op.code x64).isSome = true) →
      runOps x64 ops buf = some buf' →
      buf'.bytes = buf.bytes ++ opsCode x64 ops ∧ buf'.heap = buf.heap ∧
        buf'.buffer = buf.buffer := by
  induction ops with
  | nil =>
    intro buf buf' _ h
    cases h
    simp [opsCode]
  | cons op rest ih =>
    intro buf buf' hp h
    simp only [runOps] at h
    cases h1 : op.run x64 buf with
    | none => rw [h1] at h; cases h
    | some b =>
      rw [h1, Option.some_bind] at h
      obtain ⟨bs, hbs⟩ := Option.isSome_iff_exists.1 (hp op (List.mem_cons_self _ _))
      obtain ⟨a1, a2, a3⟩ := EmitOp.code_spec x64 op buf b bs hbs h1
      obtain ⟨c1, c2, c3⟩ := ih b buf' (fun o ho => hp o (List.mem_cons_of_mem _ ho)) h
      refine ⟨?_, by rw [c2, a2], by rw [c3, a3]⟩
      rw [c1, a1, opsCode, hbs, Option.getD_some, List.append_assoc]
/-! ## The preamble and the coda in the finished code -/

theorem newBranches_no_pending (n : Nat) :
    ∀ b : Asm, (∀ lab s, ¬ Pending b lab s) → ∀ lab s, ¬ Pending (newBranches n b).1 lab s := by
  induction n with
  | zero => intro b h; exact h
  | succ n ih =>
    intro b h
    simp only [newBranches]
    apply ih
    have step : ∀ c : Asm, (∀ lab s, ¬ Pending c lab s) →
        ∀ lab s, ¬ Pending (new_label c).1 lab s := by
      intro c hc lab s hp
      obtain ⟨l, hl, hs⟩ := hp
      simp only [new_label] at hl
      rw [List.getElem?_append] at hl
      split_ifs at hl with hlt
      · exact hc lab s ⟨l, hl, hs⟩
      · by_cases e : lab - c.heap.length = 0
        · rw [e] at hl
          simp only [List.getElem?_cons_zero, Option.some.injEq] at hl
          rw [← hl] at hs
          cases hs
        · obtain ⟨k, hk⟩ := Nat.exists_eq_succ_of_ne_zero e
          rw [hk] at hl
          simp at hl
    exact step _ (step _ h)

/-- The bytes of a buffer without pending slots stay in front of everything
that is appended later. -/
theorem bytes_of_reach (b fin : Asm) (hr : Reach b fin) (hn : ∀ lab s, ¬ Pending b lab s) :
    ∃ rest, fin.bytes = b.bytes ++ rest := by
  obtain ⟨hb, _, hle⟩ := hr.base
  refine ⟨(List.range (fin.offset - b.offset)).map
    (fun k => fin.mem (fin.buffer + (b.offset + k))), ?_⟩
  unfold Asm.bytes
  have e : fin.offset = b.offset + (fin.offset - b.offset) := by omega
  conv_lhs => rw [e, List.range_add, List.map_append, List.map_map]
  congr 1
  apply List.map_congr_left
  intro k hk
  have hk' := List.mem_range.1 hk
  rw [hb]
  exact (hr.settled_of_reach (b.buffer + k)
    ⟨by omega, fun lab s hp => absurd hp (hn lab s)⟩).2

theorem generate_split (env : GenEnv) (addr B : Nat) (r : List instruction_t) (fin : Asm)
    (h : generate env addr B r = some fin) :
    ∃ (b1 : Asm) (stF : Asm × Nat),
      genPrologue env (newBranches B (new_assembler_buffer addr)).1 = some b1 ∧
      genLoop env (newBranches B (new_assembler_buffer addr)).2 r (b1, 0) = some stF ∧
      genEpilogue env stF.1 = some fin := by
  unfold generate genStart at h
  simp only at h
  cases h1 : genPrologue env (newBranches B (new_assembler_buffer addr)).1 with
  | none => rw [h1] at h; cases h
  | some b1 =>
    rw [h1] at h
    simp only [Option.map_some'] at h
    cases h2 : genLoop env (newBranches B (new_assembler_buffer addr)).2 r (b1, 0) with
    | none => rw [h2] at h; cases h
    | some stF =>
      rw [h2] at h
      exact ⟨b1, stF, rfl, h2, h⟩

theorem prologueOps_code (env : GenEnv) :
    (∀ op ∈ prologueOps env, (op.code env.x64).isSome = true) ∧
    opsCode env.x64 (prologueOps env) = encodeAll env.x64 (prologueInsns env.x64 env.tape_start) := by
  obtain ⟨x64, ts, g, p⟩ := env
  cases x64
  · exact ⟨by simp [prologueOps, stack_adjust, wordBytes, EmitOp.code], rfl⟩
  · exact ⟨by simp [prologueOps, stack_adjust, wordBytes, EmitOp.code], rfl⟩

theorem epilogueOps_code (env : GenEnv) :
    (∀ op ∈ epilogueOps env, (op.code env.x64).isSome = true) ∧
    opsCode env.x64 (epilogueOps env) = encodeAll env.x64 (epilogueInsns env.x64) := by
  obtain ⟨x64, ts, g, p⟩ := env
  cases x64
  · exact ⟨by simp [epilogueOps, stack_adjust, wordBytes, EmitOp.code], rfl⟩
  · exact ⟨by simp [epilogueOps, stack_adjust, wordBytes, EmitOp.code], rfl⟩

/-- The finished code is the preamble, the sequences of the entries and the
coda. -/
theorem generate_shape (env : GenEnv) (addr B : Nat) (r : List instruction_t) (fin : Asm)
    (h : generate env addr B r = some fin) :
    fin.buffer = addr ∧
    ∃ body, fin.bytes = encodeAll env.x64 (prologueInsns env.x64 env.tape_start) ++ body ++
      encodeAll env.x64 (epilogueInsns env.x64) := by
  obtain ⟨b1, stF, h1, h2, h3⟩ := generate_split env addr B r fin h
  rw [genPrologue_ops] at h1
  rw [genEpilogue_ops] at h3
  obtain ⟨p1, p2, p3⟩ := runOps_code _ _ _ _ (prologueOps_code env).1 h1
  obtain ⟨e1, _, e3⟩ := runOps_code _ _ _ _ (epilogueOps_code env).1 h3
  have hnp0 : ∀ lab s, ¬ Pending (newBranches B (new_assembler_buffer addr)).1 lab s :=
    newBranches_no_pending B _ (by
      rintro lab s ⟨l, hl, _⟩
      simp [new_assembler_buffer] at hl)
  have hnp1 : ∀ lab s, ¬ Pending b1 lab s := by
    rintro lab s ⟨l, hl, hs⟩
    rw [p2] at hl
    exact hnp0 lab s ⟨l, hl, hs⟩
  have hb0 : (newBranches B (new_assembler_buffer addr)).1.bytes = [] := by
    unfold Asm.bytes
    rw [(newBranches_spec B (new_assembler_buffer addr)).2.1]
    rfl
  obtain ⟨body, hbody⟩ := bytes_of_reach b1 stF.1
    (genLoop_reach env _ r (b1, 0) stF h2) hnp1
  have hbuf : stF.1.buffer = addr := by
    rw [(genLoop_reach env _ r (b1, 0) stF h2).base.1, p3,
      (newBranches_reach B (new_assembler_buffer addr)).base.1]
    rfl
  refine ⟨by rw [e3, hbuf], body, ?_⟩
  rw [e1, hbody, p1, hb0, List.nil_append, (prologueOps_code env).2, (epilogueOps_code env).2]
theorem eq_some_getD {α : Type} (o : Option α) (d : α) (h : o.isSome = true) :
    o = some (o.getD d) := by
  cases o with
  | none => cases h
  | some a => rfl

theorem encodeAll_append (x64 : Bool) (l1 l2 : List Insn) :
    encodeAll x64 (l1 ++ l2) = encodeAll x64 l1 ++ encodeAll x64 l2 := by
  induction l1 with
  | nil => rfl
  | cons i l ih => simp [encodeAll, ih]

theorem stepPlan_keeps_stack (env : GenEnv) (branches : List (Nat × Nat)) (L k : Nat)
    (i : instruction_t) (nl : Nat) (ops : List EmitOp) (k' : Nat)
    (h : stepPlan env branches L k i = some (nl, ops, k')) :
    ∀ op ∈ ops, op.movesStack = false := by
  obtain ⟨x64, ts, g, p⟩ := env
  unfold stepPlan at h
  cases ho : i.op <;> rw [ho] at h <;> simp only at h
  · -- op_modify
    cases h
    intro op hop
    split_ifs at hop
    · cases hop
    · simp only [List.mem_singleton] at hop
      subst hop
      rfl
  · -- op_right
    cases h
    intro op hop
    split_ifs at hop
    · cases hop
    · simp only [List.mem_singleton] at hop
      subst hop
      rfl
  · -- op_left
    split_ifs at h <;> cases h
    · intro op hop; cases hop
    · intro op hop
      cases x64
      · simp [leftOps] at hop
        rcases hop with e | e | e | e | e | e | e <;> subst e <;> rfl
      · simp [leftOps] at hop
        rcases hop with e | e | e | e | e | e | e | e <;> subst e <;> rfl
  · -- op_get
    cases h
    intro op hop
    simp [getOps] at hop
    rcases hop with e | e | e | e | e | e <;> subst e <;> rfl
  · -- op_put
    cases h
    intro op hop
    cases x64 <;> simp [putOps] at hop <;> rcases hop with e | e | e | e <;> subst e <;> rfl
  · -- op_if
    obtain ⟨br, _, e⟩ := Option.map_eq_some'.1 h
    cases e
    intro op hop
    simp at hop
    rcases hop with e | e | e <;> subst e <;> rfl
  · -- op_endif
    obtain ⟨br, _, e⟩ := Option.map_eq_some'.1 h
    cases e
    intro op hop
    simp at hop
    rcases hop with e | e | e <;> subst e <;> rfl
  · cases h

/-- C31: the code that `interpret` assembles for a program begins with the
encodings of `push ebp`, `mov ebp, esp`, `and esp, 0xFFFFFFF0`, `push ebx`
(the pointer register `P`), `push edi` (the second scratch register), on the
32-bit architecture only `sub esp, 8` (`16 - 2 * word_size`, which is zero on
the 64-bit one), and `mov ebx, tape_start`, in this order, each at the operand
width of the architecture; `tape_start` is `tape + pages_reverse * page_size`
in `interpret`. -/
theorem prologue_sequence (env : GenEnv) (addr B : Nat) (r : List instruction_t) (fin : Asm)
    (h : generate env addr B r = some fin) :
    fin.buffer = addr ∧
    (∃ rest, fin.bytes = encodeAll env.x64 (prologueInsns env.x64 env.tape_start) ++ rest) ∧
    prologueInsns env.x64 env.tape_start =
      [Insn.push EBP, Insn.mov EBP ESP, Insn.and_imm ESP 0xFFFFFFF0, Insn.push EBX,
        Insn.push EDI] ++
      (if env.x64 then [] else [Insn.sub_imm ESP 8]) ++ [Insn.mov_imm EBX env.tape_start] ∧
    stack_adjust env.x64 = 16 - 2 * wordBytes env.x64 ∧
    stack_adjust env.x64 = (if env.x64 then 0 else 8) ∧
    encodeAll true (prologueInsns true env.tape_start) =
      [0x55, 0x48, 0x8B, 0xEC, 0x48, 0x81, 0xE4, 0xF0, 0xFF, 0xFF, 0xFF, 0x53, 0x57, 0x48,
        0xBB] ++ leBytes 8 env.tape_start ∧
    encodeAll false (prologueInsns false env.tape_start) =
      [0x55, 0x8B, 0xEC, 0x81, 0xE4, 0xF0, 0xFF, 0xFF, 0xFF, 0x53, 0x57, 0x81, 0xEC, 0x08, 0,
        0, 0, 0xBB] ++ leBytes 4 env.tape_start ∧
    ∀ (e : Env) (L : Layout) (gcfp pcfp : Nat),
      (genEnvOf e L gcfp pcfp).tape_start =
        toSize e.x64 ((e.mmap_tape : Int) +
          toSize e.x64 ((L.pages_reverse : Int) * L.page_size)) := by
  obtain ⟨hb, body, hbytes⟩ := generate_shape env addr B r fin h
  refine ⟨hb, ⟨body ++ encodeAll env.x64 (epilogueInsns env.x64), by
    rw [hbytes, List.append_assoc]⟩, ?_, rfl, ?_, rfl, rfl, fun _ _ _ _ => rfl⟩
  · cases env.x64 <;> rfl
  · cases env.x64 <;> rfl

theorem prologue_sequence_witness :
    (generate ⟨true, 0x7f0000000000, 1, 2⟩ 0x7e0000000000 1 echoCode).isSome = true ∧
    (echoFin.buffer = 0x7e0000000000 ∧
    (∃ rest, echoFin.bytes =
      encodeAll true (prologueInsns true 0x7f0000000000) ++ rest) ∧
    prologueInsns true 0x7f0000000000 =
      [Insn.push EBP, Insn.mov EBP ESP, Insn.and_imm ESP 0xFFFFFFF0, Insn.push EBX,
        Insn.push EDI] ++
      (if true then [] else [Insn.sub_imm ESP 8]) ++ [Insn.mov_imm EBX 0x7f0000000000] ∧
    stack_adjust true = 16 - 2 * wordBytes true ∧
    stack_adjust true = (if true then 0 else 8) ∧
    encodeAll true (prologueInsns true 0x7f0000000000) =
      [0x55, 0x48, 0x8B, 0xEC, 0x48, 0x81, 0xE4, 0xF0, 0xFF, 0xFF, 0xFF, 0x53, 0x57, 0x48,
        0xBB] ++ leBytes 8 0x7f0000000000 ∧
    encodeAll false (prologueInsns false 0x7f0000000000) =
      [0x55, 0x8B, 0xEC, 0x81, 0xE4, 0xF0, 0xFF, 0xFF, 0xFF, 0x53, 0x57, 0x81, 0xEC, 0x08, 0,
        0, 0, 0xBB] ++ leBytes 4 0x7f0000000000 ∧
    ∀ (e : Env) (L : Layout) (gcfp pcfp : Nat),
      (genEnvOf e L gcfp pcfp).tape_start =
        toSize e.x64 ((e.mmap_tape : Int) +
          toSize e.x64 ((L.pages_reverse : Int) * L.page_size))) ∧
    echoFin.bytes.take 23 =
      [0x55, 0x48, 0x8B, 0xEC, 0x48, 0x81, 0xE4, 0xF0, 0xFF, 0xFF, 0xFF, 0x53, 0x57, 0x48,
        0xBB, 0, 0, 0, 0, 0, 0x7F, 0, 0] :=
  ⟨by decide!,
   prologue_sequence ⟨true, 0x7f0000000000, 1, 2⟩ 0x7e0000000000 1 echoCode echoFin
     (eq_some_getD _ _ (by decide!)),
   by decide!⟩
/-- C32: on both architectures the two pushes after the alignment of the stack
pointer and the padding `16 - 2 * word_size` lower the stack pointer by 16
bytes, so a stack pointer that is a multiple of 16 after the `and` is one
after them, and no sequence assembled for an entry changes it; the finished
code ends with the coda, which is the instructions after the alignment undone
in reverse order (`add esp, 8` on the 32-bit architecture only, `pop edi`,
`pop ebx`), `xor eax, eax`, `leave` and `ret`, the last two bytes being `C9`
and `C3`. -/
theorem epilogue_undoes_prologue (env : GenEnv) (addr B : Nat) (r : List instruction_t)
    (fin : Asm) (h : generate env addr B r = some fin) :
    2 * wordBytes env.x64 + stack_adjust env.x64 = 16 ∧
    ((savedInsns env.x64).map (Insn.lowers env.x64)).sum = 16 ∧
    (∀ sp : Nat, sp % 16 = 0 →
      (sp - ((savedInsns env.x64).map (Insn.lowers env.x64)).sum) % 16 = 0) ∧
    (∀ (branches : List (Nat × Nat)) (L k : Nat) (i : instruction_t) (nl : Nat)
      (ops : List EmitOp) (k' : Nat),
      stepPlan env branches L k i = some (nl, ops, k') → ∀ op ∈ ops, op.movesStack = false) ∧
    (∃ front back, fin.bytes = front ++ encodeAll env.x64 (savedInsns env.x64) ++ back) ∧
    (∃ front, fin.bytes = front ++ encodeAll env.x64 (epilogueInsns env.x64)) ∧
    (∃ front, fin.bytes = front ++ [0xC9, 0xC3]) ∧
    epilogueInsns env.x64 =
      (savedInsns env.x64).reverse.map Insn.undo ++ [Insn.xor EAX EAX, Insn.leave, Insn.ret] ∧
    savedInsns env.x64 =
      [Insn.push EBX, Insn.push EDI] ++ (if env.x64 then [] else [Insn.sub_imm ESP 8]) ∧
    epilogueInsns env.x64 =
      (if env.x64 then [] else [Insn.add_imm ESP 8]) ++
        [Insn.pop EDI, Insn.pop EBX, Insn.xor EAX EAX, Insn.leave, Insn.ret] ∧
    encodeAll true (epilogueInsns true) = [0x5F, 0x5B, 0x48, 0x31, 0xC0, 0xC9, 0xC3] ∧
    encodeAll false (epilogueInsns false) =
      [0x81, 0xC4, 0x08, 0, 0, 0, 0x5F, 0x5B, 0x31, 0xC0, 0xC9, 0xC3] := by
  obtain ⟨hb, body, hbytes⟩ := generate_shape env addr B r fin h
  have hsum : ((savedInsns env.x64).map (Insn.lowers env.x64)).sum = 16 := by
    cases env.x64 <;> rfl
  refine ⟨by cases env.x64 <;> rfl, hsum, ?_, ?_, ?_, ⟨_, hbytes⟩, ?_, rfl, ?_, ?_,
    by decide, by decide⟩
  · intro sp hsp
    rw [hsum]
    omega
  · intro branches L k i nl ops k' hp
    exact stepPlan_keeps_stack env branches L k i nl ops k' hp
  · refine ⟨encodeAll env.x64 [Insn.push EBP, Insn.mov EBP ESP, Insn.and_imm ESP 0xFFFFFFF0],
      encodeAll env.x64 [Insn.mov_imm EBX env.tape_start] ++ body ++
        encodeAll env.x64 (epilogueInsns env.x64), ?_⟩
    rw [hbytes]
    unfold prologueInsns
    rw [encodeAll_append, encodeAll_append]
    simp only [List.append_assoc]
  · refine ⟨encodeAll env.x64 (prologueInsns env.x64 env.tape_start) ++ body ++
      encodeAll env.x64 ((savedInsns env.x64).reverse.map Insn.undo ++ [Insn.xor EAX EAX]), ?_⟩
    rw [hbytes]
    have e : encodeAll env.x64 (epilogueInsns env.x64) =
        encodeAll env.x64 ((savedInsns env.x64).reverse.map Insn.undo ++ [Insn.xor EAX EAX]) ++
          [0xC9, 0xC3] := by
      cases env.x64 <;> rfl
    rw [e]
    simp only [List.append_assoc]
  · cases env.x64 <;> rfl
  · cases env.x64 <;> rfl

theorem epilogue_undoes_prologue_witness :
    (generate ⟨true, 0x7f0000000000, 1, 2⟩ 0x7e0000000000 1 echoCode).isSome = true ∧
    (2 * wordBytes true + stack_adjust true = 16 ∧
    ((savedInsns true).map (Insn.lowers true)).sum = 16 ∧
    (∀ sp : Nat, sp % 16 = 0 →
      (sp - ((savedInsns true).map (Insn.lowers true)).sum) % 16 = 0) ∧
    (∀ (branches : List (Nat × Nat)) (L k : Nat) (i : instruction_t) (nl : Nat)
      (ops : List EmitOp) (k' : Nat),
      stepPlan ⟨true, 0x7f0000000000, 1, 2⟩ branches L k i = some (nl, ops, k') →
        ∀ op ∈ ops, op.movesStack = false) ∧
    (∃ front back, echoFin.bytes = front ++ encodeAll true (savedInsns true) ++ back) ∧
    (∃ front, echoFin.bytes = front ++ encodeAll true (epilogueInsns true)) ∧
    (∃ front, echoFin.bytes = front ++ [0xC9, 0xC3]) ∧
    epilogueInsns true =
      (savedInsns true).reverse.map Insn.undo ++ [Insn.xor EAX EAX, Insn.leave, Insn.ret] ∧
    savedInsns true =
      [Insn.push EBX, Insn.push EDI] ++ (if true then [] else [Insn.sub_imm ESP 8]) ∧
    epilogueInsns true =
      (if true then [] else [Insn.add_imm ESP 8]) ++
        [Insn.pop EDI, Insn.pop EBX, Insn.xor EAX EAX, Insn.leave, Insn.ret] ∧
    encodeAll true (epilogueInsns true) = [0x5F, 0x5B, 0x48, 0x31, 0xC0, 0xC9, 0xC3] ∧
    encodeAll false (epilogueInsns false) =
      [0x81, 0xC4, 0x08, 0, 0, 0, 0x5F, 0x5B, 0x31, 0xC0, 0xC9, 0xC3]) ∧
    echoFin.offset = 167 ∧
    echoFin.bytes.drop 160 = [0x5F, 0x5B, 0x48, 0x31, 0xC0, 0xC9, 0xC3] :=
  ⟨by decide!,
   epilogue_undoes_prologue ⟨true, 0x7f0000000000, 1, 2⟩ 0x7e0000000000 1 echoCode echoFin
     (eq_some_getD _ _ (by decide!)),
   by decide!, by decide!⟩
/-! ## The sequence for `op_modify` -/

/-- C34: for an `op_modify` entry with the value `v`, any integer, the
assembly loop appends nothing when `v` is a multiple of 256, and otherwise
(when the space assertion passes) exactly three bytes: the opcode `0x80`, the
ModR/M byte `3` (the index of the pointer register `EBX`) and the immediate
`v mod 256` taken in `1 .. 255`; when the assertion fails nothing is
assembled.  So `modify(-1)` appends `80 03 FF`. -/
theorem modify_code (buf : Asm) (val : Int) :
    (256 ∣ val → genModify buf val = some buf) ∧
    (¬ 256 ∣ val → buf.offset + 3 < buf.buffer_size →
      ∃ buf', genModify buf val = some buf' ∧
        buf'.bytes = buf.bytes ++ [0x80, 0x03, (val % 256).toNat] ∧
        emitted buf buf' = [0x80, 0x03, (val % 256).toNat] ∧
        buf'.offset = buf.offset + 3 ∧ 0 < (val % 256).toNat ∧ (val % 256).toNat < 256 ∧
        (256 : Int) ∣ val - ((val % 256).toNat : Int)) ∧
    (¬ 256 ∣ val → ¬ buf.offset + 3 < buf.buffer_size → genModify buf val = none) ∧
    ptrreg = 3 ∧
    (∀ (env : GenEnv) (branches : List (Nat × Nat)) (st : Asm × Nat) (i : instruction_t),
      i.op = op_modify →
        genStep env branches st i = (genModify st.1 i.val).map (fun b => (b, st.2))) ∧
    (genModify (new_assembler_buffer 0x1000) (-1)).map Asm.bytes = some [0x80, 0x03, 0xFF] ∧
    (genModify (new_assembler_buffer 0x1000) 257).map Asm.bytes = some [0x80, 0x03, 0x01] ∧
    (genModify (new_assembler_buffer 0x1000) (-256)).map Asm.bytes = some [] := by
  refine ⟨?_, ?_, ?_, rfl, ?_, by decide, by decide, by decide⟩
  · intro hd
    unfold genModify
    rw [if_pos (by omega)]
  · intro hd hs
    have hne : ¬ (val % 256).toNat = 0 := by omega
    have hrun : genModify buf val =
        some (emit_u8 (emit_u8 (emit_u8 buf 0x80) ptrreg) (val % 256).toNat) := by
      unfold genModify emit_add_rm8_imm8
      rw [if_neg hne, if_pos ⟨by decide, (check_space_iff buf 3).2 hs⟩]
    have hlt : (val % 256).toNat < 256 := by omega
    have hb : (emit_u8 (emit_u8 (emit_u8 buf 0x80) ptrreg) (val % 256).toNat).bytes =
        buf.bytes ++ [0x80, 0x03, (val % 256).toNat] := by
      simp only [bytes_u8, List.append_assoc, List.singleton_append]
      rw [Nat.mod_eq_of_lt hlt]
      rfl
    refine ⟨_, hrun, hb, ?_, rfl, by omega, hlt, by omega⟩
    have a1 := (Adv.rfl0 buf).thenU8 0x80 (by omega)
    have a2 := a1.thenU8 ptrreg (by omega)
    rw [emitted_u8 a2, emitted_u8 a1, emitted_u8 (Adv.rfl0 buf), emitted_self,
      Nat.mod_eq_of_lt hlt]
    rfl
  · intro hd hs
    have hne : ¬ (val % 256).toNat = 0 := by omega
    unfold genModify emit_add_rm8_imm8
    rw [if_neg hne, if_neg]
    rintro ⟨_, hc⟩
    exact hs ((check_space_iff buf 3).1 hc)
  · intro env branches st i hi
    unfold genStep
    rw [hi]
/-! ## Long moves -/

theorem condSpec_replicate_left (n : Nat) (rest : List Char) :
    condSpec (List.replicate (n + 1) '<' ++ rest) =
      consRun op_left ((n : Int) + 1) (condSpec rest) := by
  induction n with
  | zero =>
    show addChar '<' (condSpec rest) = _
    simp [addChar]
  | succ n ih =>
    rw [List.replicate_succ, List.cons_append]
    show addChar '<' (condSpec (List.replicate (n + 1) '<' ++ rest)) = _
    rw [ih]
    have : addChar '<' (consRun op_left ((n : Int) + 1) (condSpec rest)) =
        consRun op_left 1 (consRun op_left ((n : Int) + 1) (condSpec rest)) := by
      simp [addChar]
    rw [this, consRun_consRun]
    congr 1
    push_cast
    ring

theorem balanceScan_run_program (c : Char) (n : Nat) (hc : c ≠ '[' ∧ c ≠ ']') :
    balanceScan (List.replicate n c ++ ['+']) = some ⟨0, 0, 0⟩ := by
  unfold balanceScan
  rw [scanLoop_no_brackets _ (fun x hx => by
    simp only [List.mem_append, List.mem_replicate, List.mem_singleton] at hx
    rcases hx with h | h
    · rw [h.2]; exact hc
    · rw [h]; decide)]
  rfl

theorem condense_farRightProgram : condense farRightProgram = farRightCode := by
  rw [condense_eq_condSpec]
  unfold farRightProgram
  rw [condSpec_replicate_right 2147483647]
  decide

theorem condense_pageLeftProgram : condense pageLeftProgram = pageLeftCode := by
  rw [condense_eq_condSpec]
  unfold pageLeftProgram
  rw [condSpec_replicate_left 4095]
  decide

theorem setup_farRightProgram :
    setup env64 farRightProgram (2 ^ 32) none 1 2 =
      Setup.run (jitEnvOf env64 ⟨4096, 524288, 0, 4294967296, 6442450944⟩ 1 2)
        farRightCode :=
  setup_run env64 farRightProgram (2 ^ 32) none 1 2 ⟨0, 0, 0⟩
    ⟨4096, 524288, 0, 4294967296, 6442450944⟩ farRightCode 0x7e0000000000 env64_succeeds
    (balanceScan_run_program '>' _ (by decide))
    (by rw [condense_farRightProgram]; decide)
    (by rw [condense_farRightProgram]; decide) rfl (by decide!)

theorem env32Straddle_succeeds : env32Straddle.Succeeds := by
  constructor <;> decide

theorem setup_pageLeftProgram :
    setup env32Straddle pageLeftProgram 30000 none 1 2 =
      Setup.run (jitEnvOf env32Straddle ⟨4096, 0, 1, 32768, 36864⟩ 1 2) pageLeftCode :=
  setup_run env32Straddle pageLeftProgram 30000 none 1 2 ⟨0, 0, 0⟩
    ⟨4096, 0, 1, 32768, 36864⟩ pageLeftCode 0x30000000 env32Straddle_succeeds
    (balanceScan_run_program '<' _ (by decide))
    (by rw [condense_pageLeftProgram]; decide)
    (by rw [condense_pageLeftProgram]; decide) rfl (by decide!)

theorem immOperand_small (x64 : Bool) (n : Nat) (h : n < 2 ^ 31) :
    immOperand x64 (low32 (n : Int)) = n := by
  rw [low32_natCast n (by omega)]
  unfold immOperand signedOf
  cases x64
  · simp only [Bool.false_eq_true, if_false]
    rw [Nat.mod_eq_of_lt (by omega)]
  · simp only [if_true]
    rw [Nat.mod_eq_of_lt (by omega), if_pos (by simpa using h)]

theorem runRight_in_range (env : GenEnv) (n P : Nat) (hn : n < 2 ^ 31)
    (hP : P + n < 2 ^ wordBits env.x64) : runRight env (n : Int) P = P + n := by
  unfold runRight
  split_ifs with h0
  · have : n = 0 := by exact_mod_cast h0
    omega
  · unfold exec_add_r_imm32
    rw [immOperand_small env.x64 n hn]
    have : ((P : Int) + (n : Int)) = ((P + n : Nat) : Int) := by push_cast; rfl
    rw [this]
    exact toSize_natCast _ _ hP

theorem runPhase_farRightCode :
    runPhase env64 (jitEnvOf env64 ⟨4096, 524288, 0, 4294967296, 6442450944⟩ 1 2) farRightCode
      none [] 100 = none := by
  decide!

theorem runPhase_pageLeftCode :
    runPhase env32Straddle (jitEnvOf env32Straddle ⟨4096, 0, 1, 32768, 36864⟩ 1 2) pageLeftCode
      none [] 100 = some ⟨interpret_tape_underflow, []⟩ := by
  decide!

/-- C33: every `op_right` entry of a condensed list has a value of at least 1,
and a value below `2 ^ 31` is added to the pointer unchanged on both
architectures (any value below `2 ^ 32` on the 32-bit one).  But a value of
`2 ^ 31` or more does not fit on the 64-bit architecture: the program of
`2 ^ 31` characters `>` followed by `+` condenses to `right(2 ^ 31)`, the
generator passes the low 32 bits `0x80000000` to `emit_add_r_immz32`, which
appends `48 81 C3 00 00 00 80`, and the processor sign-extends the field, so
the instruction adds `-2 ^ 31`: the pointer goes `2 ^ 31` bytes below the tape
instead of `2 ^ 31` cells into it, and the `+` touches memory that is not the
tape. -/
theorem right_move_sign_extended (p : List Char) (x64 : Bool) (n : Nat) :
    (∀ x ∈ condense p, x.op = op_right → 1 ≤ x.val) ∧
    (n < 2 ^ 31 → immOperand x64 (low32 (n : Int)) = n) ∧
    (n < 2 ^ 32 → immOperand false (low32 (n : Int)) = n) ∧
    Balanced farRightProgram ∧
    condense farRightProgram = [⟨op_right, 2 ^ 31, 0⟩, ⟨op_modify, 1, 0⟩] ∧
    low32 (2 ^ 31) = 0x80000000 ∧
    immOperand true (low32 (2 ^ 31)) = -2 ^ 31 ∧
    (genRight ⟨true, 0x7f0000000000, 1, 2⟩ (new_assembler_buffer 0x7e0000000000)
        (2 ^ 31)).map Asm.bytes = some [0x48, 0x81, 0xC3, 0x00, 0x00, 0x00, 0x80] ∧
    runRight ⟨true, 0x7f0000000000, 1, 2⟩ (2 ^ 31) 0x7f0000000000 =
      0x7f0000000000 - 2 ^ 31 ∧
    setup env64 farRightProgram (2 ^ 32) none 1 2 =
      Setup.run (jitEnvOf env64 ⟨4096, 524288, 0, 4294967296, 6442450944⟩ 1 2)
        farRightCode ∧
    (jitEnvOf env64 ⟨4096, 524288, 0, 4294967296, 6442450944⟩ 1 2).access
      (0x7f0000000000 + 2 ^ 31) = Access.ok ∧
    (jitRun (jitEnvOf env64 ⟨4096, 524288, 0, 4294967296, 6442450944⟩ 1 2) farRightCode 3
        (jitInit (jitEnvOf env64 ⟨4096, 524288, 0, 4294967296, 6442450944⟩ 1 2) [])).bind
        JitResult.strayAddr = some (0x7f0000000000 - 2 ^ 31) ∧
    interpret env64 farRightProgram (2 ^ 32) none 1 2 [] 100 = none := by
  refine ⟨?_, immOperand_small x64 n, ?_,
    (balanceScan_isSome_iff _).1 ⟨_, balanceScan_run_program '>' _ (by decide)⟩,
    condense_farRightProgram, by decide, by decide, by decide, by decide,
    setup_farRightProgram, by decide, by decide!,
    (interpret_of_setup_run env64 farRightProgram (2 ^ 32) none 1 2 [] 100 _ _
      setup_farRightProgram).trans runPhase_farRightCode⟩
  · intro x hx ho
    rw [condense_eq_condSpec] at hx
    exact condSpec_moves p x hx (Or.inr ho)
  · intro h
    rw [low32_natCast n h]
    unfold immOperand
    simp only [Bool.false_eq_true, if_false]
    rw [Nat.mod_eq_of_lt h]

/-- C38: where all addresses involved lie in the lower half of the address
space, a move to the right by less than `2 ^ 31` raises the pointer and the
sequence for `op_left` leaves it at or above `tape_start`.  But `jle` compares
signed: on the 32-bit architecture with the tape mapped at `0x7FFFE000` the
program of 4096 `<` followed by `+` (it has no `>` at all) gets one reverse
guard page, `tape_start = 0x7FFFF000` and `min_value = 0x80000000`, which
reads as negative; the jump to the clamp is not taken, `sub` moves the pointer
to `0x7FFFE000`, below `tape_start` and inside the reverse guard, the `+`
faults there, `handler` classifies the fault as an underflow and `interpret`
returns tape-underflow (9). -/
theorem left_clamp_underflows (env : GenEnv) (n P : Nat) :
    (1 ≤ n → n < 2 ^ 31 → env.tape_start ≤ P → P < 2 ^ (wordBits env.x64 - 1) →
      env.tape_start + n < 2 ^ (wordBits env.x64 - 1) →
      env.tape_start ≤ runLeft env (n : Int) P) ∧
    (n < 2 ^ 31 → P + n < 2 ^ wordBits env.x64 → P ≤ runRight env (n : Int) P) ∧
    Balanced pageLeftProgram ∧ (∀ c ∈ pageLeftProgram, c ≠ '>') ∧
    setup env32Straddle pageLeftProgram 30000 none 1 2 =
      Setup.run (jitEnvOf env32Straddle ⟨4096, 0, 1, 32768, 36864⟩ 1 2) pageLeftCode ∧
    (genEnvOf env32Straddle ⟨4096, 0, 1, 32768, 36864⟩ 1 2).tape_start = 0x7FFFF000 ∧
    min_value (genEnvOf env32Straddle ⟨4096, 0, 1, 32768, 36864⟩ 1 2) 4096 = 0x80000000 ∧
    jle_taken false 0x7FFFF000 0x80000000 = false ∧
    runLeft (genEnvOf env32Straddle ⟨4096, 0, 1, 32768, 36864⟩ 1 2) 4096 0x7FFFF000 =
      0x7FFFE000 ∧
    (jitEnvOf env32Straddle ⟨4096, 0, 1, 32768, 36864⟩ 1 2).inGuard 0x7FFFE000 = true ∧
    handler false ⟨0x7FFFE000, 36864, 4096, 0, 1⟩ 0x7FFFE000 =
      HandlerAction.jump interpret_tape_underflow ∧
    interpret env32Straddle pageLeftProgram 30000 none 1 2 [] 100 =
      some ⟨interpret_tape_underflow, []⟩ ∧
    interpret_tape_underflow.code = 9 := by
  refine ⟨?_, ?_, (balanceScan_isSome_iff _).1 ⟨_, balanceScan_run_program '<' _ (by decide)⟩,
    ?_, setup_pageLeftProgram, by decide, by decide, by decide, by decide, by decide,
    by decide,
    (interpret_of_setup_run env32Straddle pageLeftProgram 30000 none 1 2 [] 100 _ _
      setup_pageLeftProgram).trans runPhase_pageLeftCode, rfl⟩
  · intro h1 h2 h3 h4 h5
    rw [runLeft_in_range env n P h1 h2 h3 h4 h5]
    split_ifs <;> omega
  · intro h1 h2
    rw [runRight_in_range env n P h1 h2]
    omega
  · intro c hc
    unfold pageLeftProgram at hc
    simp only [List.mem_append, List.mem_replicate, List.mem_singleton] at hc
    rcases hc with h | h
    · rw [h.2]; decide
    · rw [h]; decide

/-! ## The emit operations on a finalized region -/

theorem emit_source_label (buf b : Asm) (lab : Nat) (h : emit_source buf lab = some b) :
    (buf.heap[lab]?).isSome = true := by
  unfold emit_source at h
  cases hl : buf.heap[lab]? with
  | none => rw [hl] at h; cases h
  | some l => rfl

theorem emit_jcc_entry (buf b : Asm) (lab : Nat) (cc : cc_t) (h : emit_jcc buf lab cc = some b) :
    ((buf.heap[lab]?).isSome && check_space buf (2 + 4)) = true := by
  unfold emit_jcc at h
  split_ifs at h with hc
  have := emit_source_label _ _ _ h
  rw [Bool.and_eq_true]
  exact ⟨this, hc⟩

/-- An emit operation that appends on a writable region has passed the
assertions it makes before its first store. -/
theorem entryAsserts_of_run (x64 : Bool) (op : EmitOp) (buf b : Asm)
    (h : op.run x64 buf = some b) : op.entryAsserts x64 buf = true := by
  cases op with
  | je lab => exact emit_jcc_entry buf b lab _ h
  | jle lab => exact emit_jcc_entry buf b lab _ h
  | jne lab => exact emit_jcc_entry buf b lab _ h
  | jmp lab =>
    simp only [EmitOp.run, emit_jmp] at h
    split_ifs at h with hc
    exact hc
  | call imm =>
    simp only [EmitOp.run, emit_call] at h
    cases h1 : emit_mov_r_immptr x64 buf EAX imm with
    | none => rw [h1] at h; cases h
    | some b1 =>
      unfold emit_mov_r_immptr at h1
      simp only [EmitOp.entryAsserts]
      cases x64 <;> simp only [Bool.false_eq_true, if_false, if_true] at h1 ⊢ <;>
        split_ifs at h1 with hc <;> exact hc.2
  | push_label lab => rfl
  | add_rm8_imm8 reg imm =>
    simp only [EmitOp.run, emit_add_rm8_imm8] at h
    split_ifs at h with hc
    simp [EmitOp.entryAsserts, hc.1, hc.2]
  | cmp_rm8_imm8 reg imm =>
    simp only [EmitOp.run, emit_cmp_rm8_imm8] at h
    split_ifs at h with hc
    simp [EmitOp.entryAsserts, hc.1, hc.2]
  | add_r_immz32 reg imm =>
    simp only [EmitOp.run, emit_add_r_immz32, emit_alu_r_immz32] at h
    simp only [EmitOp.entryAsserts]
    cases x64 <;> split_ifs at h <;> simp_all
  | and_r_immz32 reg imm =>
    simp only [EmitOp.run, emit_and_r_immz32, emit_alu_r_immz32] at h
    simp only [EmitOp.entryAsserts]
    cases x64 <;> split_ifs at h <;> simp_all
  | cmp_r_immz32 reg imm =>
    simp only [EmitOp.run, emit_cmp_r_immz32, emit_alu_r_immz32] at h
    simp only [EmitOp.entryAsserts]
    cases x64 <;> split_ifs at h <;> simp_all
  | sub_r_immz32 reg imm =>
    simp only [EmitOp.run, emit_sub_r_immz32, emit_alu_r_immz32] at h
    simp only [EmitOp.entryAsserts]
    cases x64 <;> split_ifs at h <;> simp_all
  | cmp_r_r reg srcreg =>
    simp only [EmitOp.run, emit_cmp_r_r, emit_op_r_r] at h
    simp only [EmitOp.entryAsserts]
    cases x64 <;> split_ifs at h <;> simp_all
  | mov_r_r reg srcreg =>
    simp only [EmitOp.run, emit_mov_r_r, emit_op_r_r] at h
    simp only [EmitOp.entryAsserts]
    cases x64 <;> split_ifs at h <;> simp_all
  | xor_r_r reg srcreg =>
    simp only [EmitOp.run, emit_xor_r_r, emit_op_r_r] at h
    simp only [EmitOp.entryAsserts]
    cases x64 <;> split_ifs at h <;> simp_all
  | leave =>
    simp only [EmitOp.run, emit_leave] at h
    split_ifs at h with hc
    exact hc
  | ret =>
    simp only [EmitOp.run, emit_ret] at h
    split_ifs at h with hc
    exact hc
  | mov_r8_rm8 reg srcreg =>
    simp only [EmitOp.run, emit_mov_r8_rm8] at h
    split_ifs at h with hc
    simp [EmitOp.entryAsserts, hc.1, hc.2.1, hc.2.2]
  | mov_rm8_r8 reg srcreg =>
    simp only [EmitOp.run, emit_mov_rm8_r8] at h
    split_ifs at h with hc
    simp [EmitOp.entryAsserts, hc.1, hc.2.1, hc.2.2]
  | mov_r_immptr reg imm =>
    simp only [EmitOp.run, emit_mov_r_immptr] at h
    simp only [EmitOp.entryAsserts]
    cases x64 <;> split_ifs at h <;> simp_all
  | mov_rm_rint reg srcreg =>
    simp only [EmitOp.run, emit_mov_rm_rint] at h
    simp only [EmitOp.entryAsserts]
    cases x64 <;> split_ifs at h <;> simp_all
  | pop_r reg =>
    simp only [EmitOp.run, emit_pop_r] at h
    split_ifs at h with hc
    simp [EmitOp.entryAsserts, hc.1, hc.2]
  | push_r reg =>
    simp only [EmitOp.run, emit_push_r] at h
    split_ifs at h with hc
    simp [EmitOp.entryAsserts, hc.1, hc.2]

theorem entryAsserts_setFinalized (x64 : Bool) (op : EmitOp) (buf : Asm) (f : Bool) :
    op.entryAsserts x64 (buf.setFinalized f) = op.entryAsserts x64 buf := by
  cases op <;> rfl

theorem patchProtected_state (r : Region) (lab dest : Nat) :
    ∀ (srcs : List Nat) (mem : Nat → Nat) (r' : Region),
      (patchProtected r lab dest srcs mem).state = some r' →
      r'.buf.offset = r.buf.offset ∧
      (∀ a, r.buf.buffer ≤ a → a < r.buf.buffer + r.buf.buffer_size → r'.buf.mem a = mem a) ∧
      ((∀ s ∈ srcs, r.buf.slotInRegion s = true) → r'.buf.mem = mem) ∧
      r'.buf.buffer = r.buf.buffer ∧ r'.buf.buffer_size = r.buf.buffer_size ∧
      r'.buf.finalized = r.buf.finalized ∧ r'.prot = r.prot := by
  intro srcs
  induction srcs with
  | nil =>
    intro mem r' h
    simp only [patchProtected, EmitResult.state, Option.some.injEq] at h
    subst h
    exact ⟨rfl, fun _ _ _ => rfl, fun _ => rfl, rfl, rfl, rfl, rfl⟩
  | cons src rest ih =>
    intro mem r' h
    simp only [patchProtected] at h
    split_ifs at h with hs
    · simp only [EmitResult.state, Option.some.injEq] at h
      subst h
      exact ⟨rfl, fun _ _ _ => rfl, fun _ => rfl, rfl, rfl, rfl, rfl⟩
    · obtain ⟨a1, a2, _, a4, a5, a6, a7⟩ := ih _ r' h
      refine ⟨a1, ?_, ?_, a4, a5, a6, a7⟩
      · intro a ha hb
        rw [a2 a ha hb]
        apply writeLE_out
        simp only [Asm.slotInRegion, Bool.and_eq_true, decide_eq_true_eq, not_and, not_lt] at hs
        by_cases hc : src < r.buf.buffer + r.buf.buffer_size
        · have := hs hc
          omega
        · omega
      · intro hall
        exact absurd (hall src (List.mem_cons_self _ _)) hs

theorem patchProtected_setFinalized (buf : Asm) (prot : Prot) (lab dest : Nat) (f : Bool) :
    ∀ (srcs : List Nat) (mem : Nat → Nat),
      patchProtected ⟨buf.setFinalized f, prot⟩ lab dest srcs mem =
        (patchProtected ⟨buf, prot⟩ lab dest srcs mem).mapBuf (fun b => b.setFinalized f) := by
  intro srcs
  induction srcs with
  | nil => intro mem; rfl
  | cons src rest ih =>
    intro mem
    simp only [patchProtected]
    have e : (buf.setFinalized f).slotInRegion src = buf.slotInRegion src := rfl
    rw [e]
    split_ifs
    · rfl
    · exact ih _

/-- With no pending slot in the region `emit_push_label` does on a region that
is read+execute what it does on a writable one. -/
theorem patchProtected_outside (r : Region) (lab dest : Nat) :
    ∀ (srcs : List Nat) (mem : Nat → Nat), (∀ s ∈ srcs, r.buf.slotInRegion s = false) →
      patchProtected r lab dest srcs mem =
        EmitResult.returned
          ⟨{ setLabel r.buf lab { resolved := true, ptr := dest, sources := [] } with
               mem := patchSources mem dest srcs, labels := lab :: r.buf.labels }, r.prot⟩ := by
  intro srcs
  induction srcs with
  | nil => intro mem _; rfl
  | cons src rest ih =>
    intro mem h
    simp only [patchProtected, patchSources]
    rw [if_neg (by rw [h src (List.mem_cons_self _ _)]; simp)]
    exact ih _ (fun s hs => h s (List.mem_cons_of_mem _ hs))

/-- On a region that is read+execute a call of an emit operation leaves the
offset and the contents of the region as they are, however it ends. -/
theorem emit_rx_state (x64 : Bool) (r : Region) (op : EmitOp) (hp : r.prot = Prot.rx)
    (r' : Region) (h : (Region.emit x64 r op).state = some r') :
    r'.buf.offset = r.buf.offset ∧
      (∀ a, r.buf.buffer ≤ a → a < r.buf.buffer + r.buf.buffer_size →
        r'.buf.mem a = r.buf.mem a) ∧
      r'.buf.buffer = r.buf.buffer ∧ r'.buf.buffer_size = r.buf.buffer_size ∧
      r'.buf.finalized = r.buf.finalized ∧ r'.prot = Prot.rx := by
  obtain ⟨buf, prot⟩ := r
  simp only at hp
  subst hp
  cases op with
  | push_label lab =>
    simp only [Region.emit, pushLabelProtected] at h
    cases hl : buf.heap[lab]? with
    | none => rw [hl] at h; cases h
    | some l =>
      rw [hl] at h
      simp only at h
      split_ifs at h with hr
      · cases h
      · obtain ⟨a1, a2, _, a4, a5, a6, a7⟩ := patchProtected_state _ _ _ _ _ _ h
        exact ⟨a1, a2, a4, a5, a6, a7⟩
  | _ =>
    simp only [Region.emit] at h
    split_ifs at h
    · simp only [EmitResult.state, Option.some.injEq] at h
      subst h
      exact ⟨rfl, fun _ _ _ => rfl, rfl, rfl, rfl, rfl⟩
    · cases h

/-- On a region that is read+execute a call of an emit operation other than
`emit_push_label`, or of `emit_push_label` for a label whose pending slots all
lie in the region, leaves the memory as it is. -/
theorem emit_rx_mem (x64 : Bool) (r : Region) (op : EmitOp) (hp : r.prot = Prot.rx)
    (hs : ∀ lab l, op = EmitOp.push_label lab → r.buf.heap[lab]? = some l →
      ∀ s ∈ l.sources, r.buf.slotInRegion s = true)
    (r' : Region) (h : (Region.emit x64 r op).state = some r') : r'.buf.mem = r.buf.mem := by
  obtain ⟨buf, prot⟩ := r
  simp only at hp hs
  subst hp
  cases op with
  | push_label lab =>
    simp only [Region.emit, pushLabelProtected] at h
    cases hl : buf.heap[lab]? with
    | none => rw [hl] at h; cases h
    | some l =>
      rw [hl] at h
      simp only at h
      split_ifs at h with hr
      · cases h
      · exact (patchProtected_state _ _ _ _ _ _ h).2.2.1 (hs lab l rfl hl)
  | _ =>
    simp only [Region.emit] at h
    split_ifs at h
    · simp only [EmitResult.state, Option.some.injEq] at h
      subst h
      rfl
    · cases h

theorem emit_rx_not_returned (x64 : Bool) (r : Region) (op : EmitOp) (hp : r.prot = Prot.rx)
    (hop : ∀ lab, op ≠ EmitOp.push_label lab) : (Region.emit x64 r op).isReturned = false := by
  obtain ⟨buf, prot⟩ := r
  simp only at hp
  subst hp
  cases op with
  | push_label lab => exact absurd rfl (hop lab)
  | _ =>
    simp only [Region.emit]
    split_ifs <;> rfl

theorem emit_rx_faults (x64 : Bool) (r : Region) (op : EmitOp) (b : Asm) (hp : r.prot = Prot.rx)
    (hop : ∀ lab, op ≠ EmitOp.push_label lab) (h : op.run x64 r.buf = some b) :
    Region.emit x64 r op = EmitResult.faulted r := by
  have he := entryAsserts_of_run x64 op r.buf b h
  obtain ⟨buf, prot⟩ := r
  simp only at hp he
  subst hp
  cases op with
  | push_label lab => exact absurd rfl (hop lab)
  | _ =>
    simp only [Region.emit]
    rw [if_pos he]

theorem emit_region_setFinalized (x64 : Bool) (r : Region) (op : EmitOp) (f : Bool) :
    Region.emit x64 ⟨r.buf.setFinalized f, r.prot⟩ op =
      (Region.emit x64 r op).mapBuf (fun b => b.setFinalized f) := by
  obtain ⟨buf, prot⟩ := r
  cases prot with
  | rw =>
    simp only [Region.emit]
    rw [run_setFinalized]
    cases op.run x64 buf <;> rfl
  | rx =>
    cases op with
    | push_label lab =>
      simp only [Region.emit, pushLabelProtected]
      have e : (buf.setFinalized f).heap = buf.heap := rfl
      rw [e]
      cases hl : buf.heap[lab]? with
      | none => rfl
      | some l =>
        simp only
        split_ifs
        · rfl
        · exact patchProtected_setFinalized buf Prot.rx lab _ f _ _
    | _ =>
      simp only [Region.emit]
      rw [entryAsserts_setFinalized]
      split_ifs <;> rfl

/-- C26 (amended): on a code buffer for which `finalize_assembler_buffer` has
made the region read+execute (its first call, `mprotect` not refusing), no
subsequent emit operation changes the offset or the contents of the region:
every operation but `emit_push_label` ends at an assertion or at its first
store, which faults before `offset` is advanced, and `emit_push_label` stores
nothing into the region; its first patch of a slot in the region faults.  The
operations never consult the `finalized` flag: what decides is the permission
of the region, and on a region that is still writable an operation appends as
`EmitOp.run` says.  A call with `mprotect` refusing sets the flag and leaves
the permission as it was.  On a finalized fresh buffer `emit_ret` faults with
offset 0 and the byte at `0x1000` still `0`; on a finalized buffer holding a
`jmp` with a pending slot `emit_push_label` faults with offset 5 and the slot
still `0`. -/
theorem finalized_region_frozen (x64 : Bool) (op : EmitOp) (r : Region) (m : Int) (f : Bool) :
    (r.buf.finalized = false → m ≠ -1 →
      (finalize_assembler_buffer r m).1.prot = Prot.rx ∧
      (finalize_assembler_buffer r m).2 = r.buf.buffer ∧
      (finalize_assembler_buffer r m).1.buf = r.buf.setFinalized true ∧
      ∀ r', (Region.emit x64 (finalize_assembler_buffer r m).1 op).state = some r' →
        r'.buf.offset = r.buf.offset ∧
        (∀ a, r.buf.buffer ≤ a → a < r.buf.buffer + r.buf.buffer_size →
          r'.buf.mem a = r.buf.mem a) ∧
        ((∀ lab l, op = EmitOp.push_label lab → r.buf.heap[lab]? = some l →
            ∀ s ∈ l.sources, r.buf.slotInRegion s = true) → r'.buf.mem = r.buf.mem)) ∧
    (r.prot = Prot.rx → ∀ r', (Region.emit x64 r op).state = some r' →
      r'.buf.offset = r.buf.offset ∧
      (∀ a, r.buf.buffer ≤ a → a < r.buf.buffer + r.buf.buffer_size →
        r'.buf.mem a = r.buf.mem a) ∧
      ((∀ lab l, op = EmitOp.push_label lab → r.buf.heap[lab]? = some l →
          ∀ s ∈ l.sources, r.buf.slotInRegion s = true) → r'.buf.mem = r.buf.mem) ∧
      r'.prot = Prot.rx) ∧
    (r.prot = Prot.rx → (∀ lab, op ≠ EmitOp.push_label lab) →
      (Region.emit x64 r op).isReturned = false ∧
      ∀ b, op.run x64 r.buf = some b → Region.emit x64 r op = EmitResult.faulted r) ∧
    Region.emit x64 ⟨r.buf.setFinalized f, r.prot⟩ op =
      (Region.emit x64 r op).mapBuf (fun b => b.setFinalized f) ∧
    (r.prot = Prot.rw →
      (Region.emit x64 r op).state = (op.run x64 r.buf).map (fun b => ⟨b, Prot.rw⟩)) ∧
    (r.buf.finalized = false →
      (finalize_assembler_buffer r (-1)).1.prot = r.prot ∧
      (finalize_assembler_buffer r (-1)).2 = 0 ∧
      (finalize_assembler_buffer r (-1)).1.buf.finalized = true) ∧
    finalizedDemo.prot = Prot.rx ∧ finalizedDemo.buf.finalized = true ∧
    (Region.emit true finalizedDemo EmitOp.ret).isFaulted = true ∧
    (Region.emit true finalizedDemo EmitOp.ret).state.map
        (fun s => (s.buf.finalized, s.prot, s.buf.offset, s.buf.mem 0x1000)) =
      some (true, Prot.rx, 0, 0) ∧
    pendingDemo.prot = Prot.rx ∧ pendingDemo.buf.finalized = true ∧
    pendingDemo.buf.offset = 5 ∧
    pendingDemo.buf.heap.map (fun l => (l.resolved, l.sources)) = [(false, [0x1001])] ∧
    (Region.emit true pendingDemo (EmitOp.push_label 0)).isFaulted = true ∧
    (Region.emit true pendingDemo (EmitOp.push_label 0)).state.map
        (fun s => (s.buf.offset, s.prot, s.buf.mem 0x1000, readLE s.buf.mem 0x1001 4)) =
      some (5, Prot.rx, 0xE9, 0) := by
  refine ⟨?_, ?_, ?_, emit_region_setFinalized x64 r op f, ?_, ?_, by decide, by decide,
    by decide, by decide, by decide, by decide, by decide, by decide, by decide, by decide⟩
  · intro hf hm
    have hprot : (finalize_assembler_buffer r m).1.prot = Prot.rx := by
      unfold finalize_assembler_buffer
      rw [if_pos hf, if_neg hm]
    have hptr : (finalize_assembler_buffer r m).2 = r.buf.buffer := by
      unfold finalize_assembler_buffer
      rw [if_pos hf, if_neg hm]
    refine ⟨hprot, hptr, finalize_buf r m, ?_⟩
    intro r' h
    obtain ⟨a, b, _⟩ := emit_rx_state x64 _ op hprot r' h
    have c := emit_rx_mem x64 _ op hprot
    rw [finalize_buf] at a b c
    exact ⟨a, b, fun hs => c hs r' h⟩
  · intro hp r' h
    obtain ⟨a, b, _, _, _, e⟩ := emit_rx_state x64 r op hp r' h
    exact ⟨a, b, fun hs => emit_rx_mem x64 r op hp hs r' h, e⟩
  · intro hp hop
    exact ⟨emit_rx_not_returned x64 r op hp hop, fun b h => emit_rx_faults x64 r op b hp hop h⟩
  · intro hp
    obtain ⟨buf, prot⟩ := r
    simp only at hp
    subst hp
    simp only [Region.emit]
    cases op.run x64 buf <;> rfl
  · intro hf
    unfold finalize_assembler_buffer
    rw [if_pos hf, if_pos rfl]
    exact ⟨rfl, rfl, rfl⟩

/-- Counterexample to C26 as stated: on a fresh buffer at `0x1000`,
`finalize_assembler_buffer` with `mprotect` refusing the change sets
`finalized` and leaves the region read+write; `emit_ret` after it returns,
having moved the offset from 0 to 1 and changed the byte at `0x1000` from `0`
to `0xC3`. -/
theorem emit_after_finalize_appends :
    (finalize_assembler_buffer (Region.fresh (new_assembler_buffer 0x1000)) (-1)).2 = 0 ∧
    refusedDemo.buf.finalized = true ∧ refusedDemo.prot = Prot.rw ∧
    refusedDemo.buf.offset = 0 ∧ refusedDemo.buf.mem 0x1000 = 0 ∧
    (emit_ret refusedDemo.buf).map (fun b => (b.finalized, b.offset, b.mem 0x1000)) =
      some (true, 1, 0xC3) ∧
    (Region.emit true refusedDemo EmitOp.ret).isReturned = true ∧
    (Region.emit true refusedDemo EmitOp.ret).state.map
        (fun s => (s.buf.finalized, s.prot, s.buf.offset, s.buf.mem 0x1000)) =
      some (true, Prot.rw, 1, 0xC3) := by
  decide

end BF
